import Mathlib

/-!
# jsxmin: the libfbjs syntax tree, the tree walker and the reduction pass

A shallow embedding of `externals/libfbjs` (`node.hpp`, `node.cpp`, `walker.hpp`)
and of `support/jsxmin` (`reduce.cpp`, `jsxmin_renaming.cpp`).

Conventions of the embedding.

* A `std::string` is a `String`, one `Char` per `char`.
* The `double` of a numeric literal is a `Rat` (the values a literal of the
  source text denotes are finite).
* A node is its dynamic type with the payload (`NodeKind`), its line number and
  the list of its child pointers; a null child pointer is `none`.
* The C++ mutates the tree in place; the model returns the new tree. Where the
  C++ dereferences a child slot that does not exist or holds a null pointer
  (undefined behaviour, on trees the parser never builds) the model leaves the
  node as it is.
-/

namespace fbjs

/-! ## node.hpp: operator enumerations -/

/-- The enum `node_operator_t` of node.hpp. -/
inductive node_operator_t where
  | COMMA | RSHIFT3 | RSHIFT | LSHIFT | BIT_OR | BIT_XOR | BIT_AND
  | PLUS | MINUS | DIV | MULT | MOD
  | OR | AND
  | EQUAL | NOT_EQUAL | STRICT_EQUAL | STRICT_NOT_EQUAL
  | LESS_THAN_EQUAL | GREATER_THAN_EQUAL | LESS_THAN | GREATER_THAN
  | IN | INSTANCEOF
  deriving DecidableEq, Repr

/-- The enum `node_assignment_t` of node.hpp. -/
inductive node_assignment_t where
  | ASSIGN
  | MULT_ASSIGN | DIV_ASSIGN | MOD_ASSIGN | PLUS_ASSIGN | MINUS_ASSIGN
  | LSHIFT_ASSIGN | RSHIFT_ASSIGN | RSHIFT3_ASSIGN
  | BIT_AND_ASSIGN | BIT_XOR_ASSIGN | BIT_OR_ASSIGN
  deriving DecidableEq, Repr

/-- The enum `node_unary_t` of node.hpp. -/
inductive node_unary_t where
  | DELETE | VOID | TYPEOF
  | INCR_UNARY | DECR_UNARY | PLUS_UNARY | MINUS_UNARY
  | BIT_NOT_UNARY
  | NOT_UNARY
  deriving DecidableEq, Repr

/-- The enum `node_postfix_t` of node.hpp. -/
inductive node_postfix_t where
  | INCR_POSTFIX | DECR_POSTFIX
  deriving DecidableEq, Repr

/-- The enum `node_statement_with_expression_t` of node.hpp. -/
inductive node_statement_with_expression_t where
  | RETURN | CONTINUE | BREAK | THROW
  deriving DecidableEq, Repr

/-! ## node.hpp: the class family -/

set_option maxHeartbeats 4000000 in
/-- The dynamic type of a node together with the data members the class adds
to `Node` (one constructor per concrete class of node.hpp). -/
inductive NodeKind where
  | Node
  | Program
  | StatementList
  | NumericLiteral (value : Rat)
  | StringLiteral (value : String) (quoted : Bool)
  | RegexLiteral (value : String) (flags : String)
  | BooleanLiteral (value : Bool)
  | NullLiteral
  | This
  | EmptyExpression
  | Operator (op : node_operator_t)
  | ConditionalExpression
  | Parenthetical
  | Assignment (op : node_assignment_t)
  | Unary (op : node_unary_t)
  | Postfix (op : node_postfix_t)
  | Identifier (name : String)
  | FunctionCall
  | FunctionConstructor
  | ObjectLiteral
  | ArrayLiteral
  | StaticMemberExpression
  | DynamicMemberExpression
  | StatementWithExpression (statement : node_statement_with_expression_t)
  | VarDeclaration (iterator : Bool)
  | Typehint
  | FunctionDeclaration
  | FunctionExpression
  | ArgList
  | If
  | With
  | Try
  | Label
  | CaseClause
  | Switch
  | DefaultClause
  | ObjectLiteralProperty
  | ForLoop
  | ForIn
  | ForEachIn
  | While
  | DoWhile
  | XMLDefaultNamespace
  | XMLName (ns : String) (name : String)
  | XMLElement
  | XMLComment (comment : String)
  | XMLPI (data : String)
  | XMLContentList
  | XMLTextData (data : String) (whitespace : Bool)
  | XMLEmbeddedExpression
  | XMLAttributeList
  | XMLAttribute
  | WildcardIdentifier
  | StaticAttributeIdentifier
  | DynamicAttributeIdentifier
  | StaticQualifiedIdentifier
  | DynamicQualifiedIdentifier
  | FilteringPredicate
  | DescendantExpression
  deriving Repr

/-- The data of a `NodeKind` laid out flat: the position of the class in the
list above and the values of its data members (a fixed value where the class
has no such member). Two kinds are equal when their flat data are. -/
structure NodeKindData where
  tag : Nat
  number : Rat
  text : String
  text2 : String
  flag : Bool
  op : node_operator_t
  assignOp : node_assignment_t
  unaryOp : node_unary_t
  postfixOp : node_postfix_t
  statement : node_statement_with_expression_t
  deriving DecidableEq

/-- The flat data of a kind. -/
def NodeKind.data : NodeKind → NodeKindData
  | .Node => ⟨0, 0, "", "", false, .COMMA, .ASSIGN, .DELETE, .INCR_POSTFIX, .RETURN⟩
  | .Program => ⟨1, 0, "", "", false, .COMMA, .ASSIGN, .DELETE, .INCR_POSTFIX, .RETURN⟩
  | .StatementList => ⟨2, 0, "", "", false, .COMMA, .ASSIGN, .DELETE, .INCR_POSTFIX, .RETURN⟩
  | .NumericLiteral value => ⟨3, value, "", "", false, .COMMA, .ASSIGN, .DELETE, .INCR_POSTFIX, .RETURN⟩
  | .StringLiteral value quoted => ⟨4, 0, value, "", quoted, .COMMA, .ASSIGN, .DELETE, .INCR_POSTFIX, .RETURN⟩
  | .RegexLiteral value flags => ⟨5, 0, value, flags, false, .COMMA, .ASSIGN, .DELETE, .INCR_POSTFIX, .RETURN⟩
  | .BooleanLiteral value => ⟨6, 0, "", "", value, .COMMA, .ASSIGN, .DELETE, .INCR_POSTFIX, .RETURN⟩
  | .NullLiteral => ⟨7, 0, "", "", false, .COMMA, .ASSIGN, .DELETE, .INCR_POSTFIX, .RETURN⟩
  | .This => ⟨8, 0, "", "", false, .COMMA, .ASSIGN, .DELETE, .INCR_POSTFIX, .RETURN⟩
  | .EmptyExpression => ⟨9, 0, "", "", false, .COMMA, .ASSIGN, .DELETE, .INCR_POSTFIX, .RETURN⟩
  | .Operator op => ⟨10, 0, "", "", false, op, .ASSIGN, .DELETE, .INCR_POSTFIX, .RETURN⟩
  | .ConditionalExpression => ⟨11, 0, "", "", false, .COMMA, .ASSIGN, .DELETE, .INCR_POSTFIX, .RETURN⟩
  | .Parenthetical => ⟨12, 0, "", "", false, .COMMA, .ASSIGN, .DELETE, .INCR_POSTFIX, .RETURN⟩
  | .Assignment op => ⟨13, 0, "", "", false, .COMMA, op, .DELETE, .INCR_POSTFIX, .RETURN⟩
  | .Unary op => ⟨14, 0, "", "", false, .COMMA, .ASSIGN, op, .INCR_POSTFIX, .RETURN⟩
  | .Postfix op => ⟨15, 0, "", "", false, .COMMA, .ASSIGN, .DELETE, op, .RETURN⟩
  | .Identifier name => ⟨16, 0, name, "", false, .COMMA, .ASSIGN, .DELETE, .INCR_POSTFIX, .RETURN⟩
  | .FunctionCall => ⟨17, 0, "", "", false, .COMMA, .ASSIGN, .DELETE, .INCR_POSTFIX, .RETURN⟩
  | .FunctionConstructor => ⟨18, 0, "", "", false, .COMMA, .ASSIGN, .DELETE, .INCR_POSTFIX, .RETURN⟩
  | .ObjectLiteral => ⟨19, 0, "", "", false, .COMMA, .ASSIGN, .DELETE, .INCR_POSTFIX, .RETURN⟩
  | .ArrayLiteral => ⟨20, 0, "", "", false, .COMMA, .ASSIGN, .DELETE, .INCR_POSTFIX, .RETURN⟩
  | .StaticMemberExpression => ⟨21, 0, "", "", false, .COMMA, .ASSIGN, .DELETE, .INCR_POSTFIX, .RETURN⟩
  | .DynamicMemberExpression => ⟨22, 0, "", "", false, .COMMA, .ASSIGN, .DELETE, .INCR_POSTFIX, .RETURN⟩
  | .StatementWithExpression statement => ⟨23, 0, "", "", false, .COMMA, .ASSIGN, .DELETE, .INCR_POSTFIX, statement⟩
  | .VarDeclaration iterator => ⟨24, 0, "", "", iterator, .COMMA, .ASSIGN, .DELETE, .INCR_POSTFIX, .RETURN⟩
  | .Typehint => ⟨25, 0, "", "", false, .COMMA, .ASSIGN, .DELETE, .INCR_POSTFIX, .RETURN⟩
  | .FunctionDeclaration => ⟨26, 0, "", "", false, .COMMA, .ASSIGN, .DELETE, .INCR_POSTFIX, .RETURN⟩
  | .FunctionExpression => ⟨27, 0, "", "", false, .COMMA, .ASSIGN, .DELETE, .INCR_POSTFIX, .RETURN⟩
  | .ArgList => ⟨28, 0, "", "", false, .COMMA, .ASSIGN, .DELETE, .INCR_POSTFIX, .RETURN⟩
  | .If => ⟨29, 0, "", "", false, .COMMA, .ASSIGN, .DELETE, .INCR_POSTFIX, .RETURN⟩
  | .With => ⟨30, 0, "", "", false, .COMMA, .ASSIGN, .DELETE, .INCR_POSTFIX, .RETURN⟩
  | .Try => ⟨31, 0, "", "", false, .COMMA, .ASSIGN, .DELETE, .INCR_POSTFIX, .RETURN⟩
  | .Label => ⟨32, 0, "", "", false, .COMMA, .ASSIGN, .DELETE, .INCR_POSTFIX, .RETURN⟩
  | .CaseClause => ⟨33, 0, "", "", false, .COMMA, .ASSIGN, .DELETE, .INCR_POSTFIX, .RETURN⟩
  | .Switch => ⟨34, 0, "", "", false, .COMMA, .ASSIGN, .DELETE, .INCR_POSTFIX, .RETURN⟩
  | .DefaultClause => ⟨35, 0, "", "", false, .COMMA, .ASSIGN, .DELETE, .INCR_POSTFIX, .RETURN⟩
  | .ObjectLiteralProperty => ⟨36, 0, "", "", false, .COMMA, .ASSIGN, .DELETE, .INCR_POSTFIX, .RETURN⟩
  | .ForLoop => ⟨37, 0, "", "", false, .COMMA, .ASSIGN, .DELETE, .INCR_POSTFIX, .RETURN⟩
  | .ForIn => ⟨38, 0, "", "", false, .COMMA, .ASSIGN, .DELETE, .INCR_POSTFIX, .RETURN⟩
  | .ForEachIn => ⟨39, 0, "", "", false, .COMMA, .ASSIGN, .DELETE, .INCR_POSTFIX, .RETURN⟩
  | .While => ⟨40, 0, "", "", false, .COMMA, .ASSIGN, .DELETE, .INCR_POSTFIX, .RETURN⟩
  | .DoWhile => ⟨41, 0, "", "", false, .COMMA, .ASSIGN, .DELETE, .INCR_POSTFIX, .RETURN⟩
  | .XMLDefaultNamespace => ⟨42, 0, "", "", false, .COMMA, .ASSIGN, .DELETE, .INCR_POSTFIX, .RETURN⟩
  | .XMLName ns name => ⟨43, 0, ns, name, false, .COMMA, .ASSIGN, .DELETE, .INCR_POSTFIX, .RETURN⟩
  | .XMLElement => ⟨44, 0, "", "", false, .COMMA, .ASSIGN, .DELETE, .INCR_POSTFIX, .RETURN⟩
  | .XMLComment comment => ⟨45, 0, comment, "", false, .COMMA, .ASSIGN, .DELETE, .INCR_POSTFIX, .RETURN⟩
  | .XMLPI data => ⟨46, 0, data, "", false, .COMMA, .ASSIGN, .DELETE, .INCR_POSTFIX, .RETURN⟩
  | .XMLContentList => ⟨47, 0, "", "", false, .COMMA, .ASSIGN, .DELETE, .INCR_POSTFIX, .RETURN⟩
  | .XMLTextData data whitespace => ⟨48, 0, data, "", whitespace, .COMMA, .ASSIGN, .DELETE, .INCR_POSTFIX, .RETURN⟩
  | .XMLEmbeddedExpression => ⟨49, 0, "", "", false, .COMMA, .ASSIGN, .DELETE, .INCR_POSTFIX, .RETURN⟩
  | .XMLAttributeList => ⟨50, 0, "", "", false, .COMMA, .ASSIGN, .DELETE, .INCR_POSTFIX, .RETURN⟩
  | .XMLAttribute => ⟨51, 0, "", "", false, .COMMA, .ASSIGN, .DELETE, .INCR_POSTFIX, .RETURN⟩
  | .WildcardIdentifier => ⟨52, 0, "", "", false, .COMMA, .ASSIGN, .DELETE, .INCR_POSTFIX, .RETURN⟩
  | .StaticAttributeIdentifier => ⟨53, 0, "", "", false, .COMMA, .ASSIGN, .DELETE, .INCR_POSTFIX, .RETURN⟩
  | .DynamicAttributeIdentifier => ⟨54, 0, "", "", false, .COMMA, .ASSIGN, .DELETE, .INCR_POSTFIX, .RETURN⟩
  | .StaticQualifiedIdentifier => ⟨55, 0, "", "", false, .COMMA, .ASSIGN, .DELETE, .INCR_POSTFIX, .RETURN⟩
  | .DynamicQualifiedIdentifier => ⟨56, 0, "", "", false, .COMMA, .ASSIGN, .DELETE, .INCR_POSTFIX, .RETURN⟩
  | .FilteringPredicate => ⟨57, 0, "", "", false, .COMMA, .ASSIGN, .DELETE, .INCR_POSTFIX, .RETURN⟩
  | .DescendantExpression => ⟨58, 0, "", "", false, .COMMA, .ASSIGN, .DELETE, .INCR_POSTFIX, .RETURN⟩

/-- The kind that has the flat data `c`. -/
def NodeKindData.kind (c : NodeKindData) : Option NodeKind :=
  match c.tag with
  | 0 => some .Node
  | 1 => some .Program
  | 2 => some .StatementList
  | 3 => some (.NumericLiteral c.number)
  | 4 => some (.StringLiteral c.text c.flag)
  | 5 => some (.RegexLiteral c.text c.text2)
  | 6 => some (.BooleanLiteral c.flag)
  | 7 => some .NullLiteral
  | 8 => some .This
  | 9 => some .EmptyExpression
  | 10 => some (.Operator c.op)
  | 11 => some .ConditionalExpression
  | 12 => some .Parenthetical
  | 13 => some (.Assignment c.assignOp)
  | 14 => some (.Unary c.unaryOp)
  | 15 => some (.Postfix c.postfixOp)
  | 16 => some (.Identifier c.text)
  | 17 => some .FunctionCall
  | 18 => some .FunctionConstructor
  | 19 => some .ObjectLiteral
  | 20 => some .ArrayLiteral
  | 21 => some .StaticMemberExpression
  | 22 => some .DynamicMemberExpression
  | 23 => some (.StatementWithExpression c.statement)
  | 24 => some (.VarDeclaration c.flag)
  | 25 => some .Typehint
  | 26 => some .FunctionDeclaration
  | 27 => some .FunctionExpression
  | 28 => some .ArgList
  | 29 => some .If
  | 30 => some .With
  | 31 => some .Try
  | 32 => some .Label
  | 33 => some .CaseClause
  | 34 => some .Switch
  | 35 => some .DefaultClause
  | 36 => some .ObjectLiteralProperty
  | 37 => some .ForLoop
  | 38 => some .ForIn
  | 39 => some .ForEachIn
  | 40 => some .While
  | 41 => some .DoWhile
  | 42 => some .XMLDefaultNamespace
  | 43 => some (.XMLName c.text c.text2)
  | 44 => some .XMLElement
  | 45 => some (.XMLComment c.text)
  | 46 => some (.XMLPI c.text)
  | 47 => some .XMLContentList
  | 48 => some (.XMLTextData c.text c.flag)
  | 49 => some .XMLEmbeddedExpression
  | 50 => some .XMLAttributeList
  | 51 => some .XMLAttribute
  | 52 => some .WildcardIdentifier
  | 53 => some .StaticAttributeIdentifier
  | 54 => some .DynamicAttributeIdentifier
  | 55 => some .StaticQualifiedIdentifier
  | 56 => some .DynamicQualifiedIdentifier
  | 57 => some .FilteringPredicate
  | 58 => some .DescendantExpression
  | _ => none

/-- Equality of kinds is decided on their flat data, from which the kind can
be read back. -/
instance : DecidableEq NodeKind := fun a b =>
  if h : a.data = b.data then
    isTrue (by
      have hback : ∀ k : NodeKind, k.data.kind = some k := by
        intro k
        cases k <;> rfl
      have h2 : a.data.kind = b.data.kind := by rw [h]
      rw [hback a, hback b] at h2
      exact Option.some.inj h2)
  else isFalse (fun hab => h (by rw [hab]))


/-- The class `Node`: dynamic type and payload, `_lineno`, `_childNodes`. -/
inductive Node where
  | mk (kind : NodeKind) (lineno : Nat) (childNodes : List (Option Node))

namespace Node

/-- The dynamic type (with payload) of the node. -/
def kind : Node → NodeKind
  | mk k _ _ => k

/-- `Node::lineno()`. -/
def lineno : Node → Nat
  | mk _ l _ => l

/-- `Node::childNodes()`. -/
def childNodes : Node → List (Option Node)
  | mk _ _ cs => cs

/-- `Node::setLineno(lineno)`. -/
def setLineno : Node → Nat → Node
  | mk k _ cs, l => mk k l cs

/-- The node after its child list has been rewritten in place. -/
def setChildNodes : Node → List (Option Node) → Node
  | mk k l _, cs => mk k l cs

/-- `Node::empty()`, also `childNodes().empty()`. -/
def empty (n : Node) : Bool := n.childNodes.isEmpty

mutual
/-- Decidable equality of trees, node by node. -/
def decEq : (a b : Node) → Decidable (a = b)
  | mk k l cs, mk k2 l2 cs2 =>
    if hk : k = k2 then
      if hl : l = l2 then
        match decEqList cs cs2 with
        | isTrue hc => isTrue (by rw [hk, hl, hc])
        | isFalse hc => isFalse (fun h => hc (by cases h; rfl))
      else isFalse (fun h => hl (by cases h; rfl))
    else isFalse (fun h => hk (by cases h; rfl))
/-- Decidable equality of child lists. -/
def decEqList : (a b : List (Option Node)) → Decidable (a = b)
  | [], [] => isTrue rfl
  | [], _ :: _ => isFalse (fun h => by cases h)
  | _ :: _, [] => isFalse (fun h => by cases h)
  | none :: r, none :: r2 =>
    match decEqList r r2 with
    | isTrue h => isTrue (by rw [h])
    | isFalse h => isFalse (fun e => h (by cases e; rfl))
  | none :: _, some _ :: _ => isFalse (fun h => by cases h)
  | some _ :: _, none :: _ => isFalse (fun h => by cases h)
  | some a :: r, some b :: r2 =>
    match decEq a b with
    | isTrue h =>
      match decEqList r r2 with
      | isTrue h2 => isTrue (by rw [h, h2])
      | isFalse h2 => isFalse (fun e => h2 (by cases e; rfl))
    | isFalse h => isFalse (fun e => h (by cases e; rfl))
end

instance : DecidableEq Node := decEq

end Node

/-- Whether the class derives from `NodeExpression` (node.hpp); these are also
the classes whose `NodeWalker::visit` falls back to `visit(NodeExpression&)`
(walker.hpp). -/
def NodeKind.isExpression : NodeKind → Bool
  | .NumericLiteral _ | .StringLiteral _ _ | .RegexLiteral _ _ | .BooleanLiteral _
  | .NullLiteral | .This | .EmptyExpression | .Operator _ | .ConditionalExpression
  | .Parenthetical | .Assignment _ | .Unary _ | .Postfix _ | .Identifier _
  | .FunctionCall | .FunctionConstructor | .ObjectLiteral | .ArrayLiteral
  | .StaticMemberExpression | .DynamicMemberExpression | .FunctionExpression
  | .XMLElement | .WildcardIdentifier | .StaticAttributeIdentifier
  | .DynamicAttributeIdentifier | .StaticQualifiedIdentifier
  | .DynamicQualifiedIdentifier | .FilteringPredicate | .DescendantExpression => true
  | _ => false

/-- The virtual `compare(bool val)`: `NodeNumericLiteral::compare`,
`NodeBooleanLiteral::compare`, `NodeParenthetical::compare` (delegating to the
first child) and `NodeExpression::compare` (false) for every other class. -/
def Node.compare : Node → Bool → Bool
  | .mk (.NumericLiteral value) _ _, val => if val then value != 0 else value == 0
  | .mk (.BooleanLiteral value) _ _, val => val == value
  | .mk .Parenthetical _ (some inner :: _), val => inner.compare val
  | _, _ => false

/-- `NodeStringLiteral::unquoted_value()`: `value.substr(1, value.size() - 2)`
when `quoted`. For `value.size() < 2` the C++ yields the empty string (size 1)
or throws `out_of_range` (size 0); the model yields the empty string. -/
def unquoted_value (value : String) (quoted : Bool) : String :=
  if !quoted then value
  else String.mk ((value.data.drop 1).take (value.data.length - 2))

end fbjs

/-! ## reduce.cpp: identifiers -/

/-- The table `keywords` of `is_reserved_keyword`. -/
def keywords : List String :=
  [ "break", "case", "catch", "continue", "default", "delete", "do", "else",
    "finally", "for", "function", "if", "in", "instanceof", "new", "return",
    "switch", "this", "throw", "try", "typeof", "var", "void", "while",
    "with",
    "abstract", "boolean", "byte", "char", "class", "const", "debugger",
    "double", "enum", "export", "extends", "final", "float", "goto",
    "implements", "import", "int", "interface", "long", "native",
    "package", "private", "protected", "public", "short", "static",
    "super", "synchronized", "throws", "transient", "volatile",
    "true", "false", "null" ]

/-- `is_reserved_keyword(id)`: membership in the set built from `keywords`. -/
def is_reserved_keyword (id : String) : Bool :=
  keywords.contains id

/-- `isalpha` in the "C" locale. -/
def isalpha (c : Char) : Bool :=
  ('a' ≤ c && c ≤ 'z') || ('A' ≤ c && c ≤ 'Z')

/-- `isdigit`. -/
def isdigit (c : Char) : Bool :=
  '0' ≤ c && c ≤ '9'

/-- The loop `for (i = 1; i < id.size(); i++)` of `is_identifier`, over the
characters from index 1 on: false at the first character that is not a
letter, a digit, `$` or `_`. -/
def is_identifier_loop : List Char → Bool
  | [] => true
  | c :: rest =>
    if !isalpha c && !isdigit c && c != '$' && c != '_' then false
    else is_identifier_loop rest

/-- `is_identifier(id)` of reduce.cpp. -/
def is_identifier (id : String) : Bool :=
  match id.data with
  | [] => false
  | first :: rest =>
    if is_reserved_keyword id then false
    else if !isalpha first && first != '$' && first != '_' then false
    else is_identifier_loop rest

/-! ## The identifier grammar of the specification -/

/-- ECMA-262 (3rd edition) 7.5.2 keywords, 7.5.3 future reserved words, and the
null and boolean literals: the reserved words named by the specification. -/
def reservedWords : List String :=
  [ "break", "else", "new", "var", "case", "finally", "return", "void",
    "catch", "for", "switch", "while", "continue", "function", "this", "with",
    "default", "if", "throw", "delete", "in", "try", "do", "instanceof", "typeof",
    "abstract", "enum", "int", "short", "boolean", "export", "interface", "static",
    "byte", "extends", "long", "super", "char", "final", "native", "synchronized",
    "class", "float", "package", "throws", "const", "goto", "private", "transient",
    "debugger", "implements", "protected", "volatile", "double", "import", "public",
    "null", "true", "false" ]

/-- A character of the class `[A-Za-z_$]`. -/
def IsIdentifierStart (c : Char) : Prop :=
  ('A' ≤ c ∧ c ≤ 'Z') ∨ ('a' ≤ c ∧ c ≤ 'z') ∨ c = '_' ∨ c = '$'

/-- A character of the class `[A-Za-z0-9_$]`. -/
def IsIdentifierPart (c : Char) : Prop :=
  IsIdentifierStart c ∨ ('0' ≤ c ∧ c ≤ '9')

namespace fbjs

/-! ## walker.hpp: the walker state -/

/-- The per-visit state of a `NodeWalker`: `_node` and `_remove`. The pointer
`_parent` is passed to the visit functions as an argument. `_skip_delete` is
left out: `ReductionWalker`, the only walker of the repository, calls
`remove()` and `replace()` with the default `skip_delete = false`, so the flag
is false throughout and every test `!_skip_delete` passes. -/
structure NodeWalker where
  _node : Option Node
  _remove : Bool
  deriving DecidableEq

namespace NodeWalker

/-- The walker `clone()` returns (`new ReductionWalker`: `_node(NULL)`,
`_remove(false)`) after `visitChild` has set `walker->_node = *ii`. -/
def cloneFor (child : Option Node) : NodeWalker :=
  { _node := child, _remove := false }

/-- `NodeWalker::remove()`. -/
def remove (self : NodeWalker) : NodeWalker :=
  { self with _remove := true }

/-- `NodeWalker::replace(new_node)`: when both `new_node` and `_node` are
non-null, `new_node->setLineno(_node->lineno())`; then `_node = new_node`,
`_remove = false`. -/
def replace (self : NodeWalker) (new_node : Option Node) : NodeWalker :=
  { _node :=
      match new_node, self._node with
      | some n, some old => some (n.setLineno old.lineno)
      | _, _ => new_node
    _remove := false }

end NodeWalker

/-- `NodeWalker::visitChildren()` with `visitChild` inlined, on the child list
of `_node`. For each child in order: `walker` is the clone that visited the
child (`visitChild c`, `none` when the traversal did not finish); then
`if (_remove) delete _node->removeChild(ii)`, where `_remove` is the flag of
the walker that runs `visitChildren`, `else if (*ii != walker->_node)
_node->replaceChild(walker->_node, ii)`. The result is the new child list. -/
def visitChildren (_remove : Bool) (visitChild : Option Node → Option NodeWalker) :
    List (Option Node) → Option (List (Option Node))
  | [] => some []
  | ii :: rest =>
    match visitChild ii with
    | none => none
    | some walker =>
      match visitChildren _remove visitChild rest with
      | none => none
      | some rest2 => if _remove then some rest2 else some (walker._node :: rest2)

/-! ## reduce.cpp: the reduction walker -/

/-- What a `ReductionWalker::visit` method does after its leading
`visitChildren()`; `node` below is `_node` with its children visited.

* `done n`: return; `n` is the node as the method left it in place.
* `remove n`: `remove()` and return.
* `replace m`: `replace(m)` and return.
* `replaceAndVisit m`: `replaceAndVisit(m)` and return.
* `visitChildren n`: the node was rebuilt in place as `n`, then
  `visitChildren()` once more and return. -/
inductive Action where
  | done (n : Node)
  | remove (n : Node)
  | replace (m : Option Node)
  | replaceAndVisit (m : Option Node)
  | visitChildren (n : Node)
  deriving DecidableEq

/-- A child pointer cast to `NodeExpression*` and asked `compare(val)`. False
when the slot does not exist, is null or is no expression (the C++ then
dereferences a null or mistyped pointer). -/
def compareSlot (slot : Option (Option Node)) (val : Bool) : Bool :=
  match slot with
  | some (some e) => e.kind.isExpression && e.compare val
  | _ => false

namespace ReductionWalker

/-- `ReductionWalker::visit(NodeExpression&)`; `parent` is the dynamic type of
`parent()->node()`. For the root walker, which has no parent (`none`), the C++
dereferences the null `parent()`; the model leaves the node as it is there.
The callers walk a `NodeProgram`, which is no expression, so that every
expression the walk comes to has a parent. -/
def visitNodeExpression (parent : Option NodeKind) (node : Node) : Action :=
  if parent = some .StatementList then
    if node.compare true || node.compare false then .remove node
    else .done node
  else .done node

/-- `ReductionWalker::visit(NodeOperator&)`: `left` is `childNodes().front()`,
`right` is `childNodes().back()`, the child taken over by the `rhs` rules is
`*++childNodes().begin()`. -/
def visitNodeOperator (op : node_operator_t) (node : Node) : Action :=
  let left := node.childNodes.head?
  let right := node.childNodes.getLast?
  let second := node.childNodes.get? 1
  match op with
  | .OR =>
    if compareSlot left true then
      match left with
      | some tmp => .replaceAndVisit tmp
      | none => .done node
    else if compareSlot left false then
      if compareSlot right true then
        match second with
        | some tmp => .replaceAndVisit tmp
        | none => .done node
      else if compareSlot right false then
        .replaceAndVisit (some (.mk (.BooleanLiteral false) 0 []))
      else .done node
    else .done node
  | .AND =>
    if compareSlot left false then
      .replaceAndVisit (some (.mk (.BooleanLiteral false) 0 []))
    else if compareSlot left true then
      if compareSlot right false then
        .replaceAndVisit (some (.mk (.BooleanLiteral false) 0 []))
      else
        match second with
        | some tmp => .replaceAndVisit tmp
        | none => .done node
    else .done node
  | .COMMA =>
    if compareSlot left false || compareSlot left true then
      match second with
      | some tmp => .replaceAndVisit tmp
      | none => .done node
    else .done node
  | _ => .done node

/-- `ReductionWalker::visit(NodeUnary&)`. -/
def visitNodeUnary (op : node_unary_t) (node : Node) : Action :=
  if op = .NOT_UNARY then
    let expr := node.childNodes.head?
    if compareSlot expr true then
      .replaceAndVisit (some (.mk (.BooleanLiteral false) 0 []))
    else if compareSlot expr false then
      .replaceAndVisit (some (.mk (.BooleanLiteral true) 0 []))
    else .done node
  else .done node

/-- `ReductionWalker::visit(NodeConditionalExpression&)`: `block` is the second
child when the condition compares true and the third when it compares false. -/
def visitNodeConditionalExpression (node : Node) : Action :=
  let expr := node.childNodes.head?
  if compareSlot expr true then
    match node.childNodes.get? 1 with
    | some tmp => .replaceAndVisit tmp
    | none => .done node
  else if compareSlot expr false then
    match node.childNodes.get? 2 with
    | some tmp => .replaceAndVisit tmp
    | none => .done node
  else .done node

/-- `ReductionWalker::visit(NodeFunctionCall&)`. -/
def visitNodeFunctionCall (node : Node) : Action :=
  match node.childNodes.head? with
  | some (some (.mk (.Identifier name) _ _)) =>
    if name = "bagofholding" then
      .replaceAndVisit (some (.mk (.BooleanLiteral false) 0 []))
    else .done node
  | _ => .done node

/-- The second block of `ReductionWalker::visit(NodeIf&)` ("remove empty
blocks"), entered when the condition compares neither true nor false. -/
def visitNodeIfEmptyBlocks (node : Node) : Action :=
  match node.childNodes with
  | some expression :: some ifBlock :: elseSlot :: rest =>
    -- if (elseBlock != NULL && elseBlock->childNodes().empty())
    let elseBlock : Option Node :=
      match elseSlot with
      | some e => if e.childNodes.isEmpty then none else some e
      | none => none
    if ifBlock.childNodes.isEmpty then
      match elseBlock with
      | none => .replace (some expression)
      | some e =>
        let lineno := expression.lineno
        let new_cond : Node :=
          .mk (.Unary .NOT_UNARY) lineno
            [some (.mk .Parenthetical lineno [some expression])]
        .visitChildren (node.setChildNodes (some new_cond :: some e :: none :: rest))
    else .done (node.setChildNodes (some expression :: some ifBlock :: elseBlock :: rest))
  | _ => .done node

/-- `ReductionWalker::visit(NodeIf&)`. -/
def visitNodeIf (node : Node) : Action :=
  let expression := node.childNodes.head?
  if compareSlot expression true then
    -- take the ifBlock
    match node.childNodes.get? 1 with
    | some ifBlock => .replace ifBlock
    | none => .done node
  else if compareSlot expression false then
    -- take the else branch
    match node.childNodes.get? 2 with
    | some none => .remove node
    | some (some elseBlock) => .replace (some elseBlock)
    | none => .done node
  else visitNodeIfEmptyBlocks node

/-- `ReductionWalker::visit(NodeObjectLiteralProperty&)`. -/
def visitNodeObjectLiteralProperty (node : Node) : Action :=
  match node.childNodes with
  | some (.mk (.StringLiteral value quoted) litLineno _) :: value_slot :: _ =>
    let maybe_id := unquoted_value value quoted
    if !is_identifier maybe_id then .done node
    else
      let id : Node := .mk (.Identifier maybe_id) litLineno []
      .replace (some (.mk .ObjectLiteralProperty node.lineno [some id, value_slot]))
  | _ => .done node

/-- `ReductionWalker::visit(NodeDynamicMemberExpression&)`: `subscription` is
`childNodes().back()`, the object is `*childNodes().begin()`. -/
def visitNodeDynamicMemberExpression (node : Node) : Action :=
  match node.childNodes.getLast?, node.childNodes.head? with
  | some (some (.mk (.StringLiteral value quoted) litLineno _)), some object =>
    let maybe_id := unquoted_value value quoted
    if !is_identifier maybe_id then .done node
    else
      let id : Node := .mk (.Identifier maybe_id) litLineno []
      .replace (some (.mk .StaticMemberExpression node.lineno [object, some id]))
  | _, _ => .done node

/-- The double dispatch `node.accept(walker)` of walker.cpp resolved against
the overrides of `ReductionWalker` (reduce.hpp) and the fallbacks of
walker.hpp, applied to `node` after the leading `visitChildren()`. Classes
outside `NodeExpression` without an override end in `visit(Node&)`, which only
visits the children. -/
def visit (parent : Option NodeKind) (node : Node) : Action :=
  match node.kind with
  | .Operator op => visitNodeOperator op node
  | .Unary op => visitNodeUnary op node
  | .ConditionalExpression => visitNodeConditionalExpression node
  | .FunctionCall => visitNodeFunctionCall node
  | .If => visitNodeIf node
  | .ObjectLiteralProperty => visitNodeObjectLiteralProperty node
  | .DynamicMemberExpression => visitNodeDynamicMemberExpression node
  | k => if k.isExpression then visitNodeExpression parent node else .done node

/-- `node->accept(*this)` for the walker `self` whose `_node` is the node to
visit, and `visit()` (no effect) when `_node` is null; `parent` is the dynamic
type of `parent()->node()`, `none` for the root walker. One unit of `fuel` is
spent per nested call; `none` means the fuel ran out. -/
def accept : Nat → Option NodeKind → NodeWalker → Option NodeWalker
  | 0, _, _ => none
  | fuel + 1, parent, self =>
    match self._node with
    | none => some self
    | some node =>
      match visitChildren self._remove
          (fun ii => accept fuel (some node.kind) (NodeWalker.cloneFor ii))
          node.childNodes with
      | none => none
      | some children =>
        let visited := node.setChildNodes children
        let self1 : NodeWalker := { self with _node := some visited }
        match visit parent visited with
        | .done n => some { self1 with _node := some n }
        | .remove n => some ({ self1 with _node := some n }).remove
        | .replace m => some (self1.replace m)
        | .replaceAndVisit m => accept fuel parent (self1.replace m)
        | .visitChildren n =>
          match visitChildren self1._remove
              (fun ii => accept fuel (some n.kind) (NodeWalker.cloneFor ii))
              n.childNodes with
          | none => none
          | some children2 => some { self1 with _node := some (n.setChildNodes children2) }

end ReductionWalker

/-- What `ReductionWalker.accept` does with `fuel` left once the children of
the node have been visited and the node has become `visited`: the second half
of `accept`, named for the proofs. -/
def finish (fuel : Nat) (parent : Option NodeKind) (self : NodeWalker) (visited : Node) :
    Option NodeWalker :=
  let self1 : NodeWalker := { self with _node := some visited }
  match ReductionWalker.visit parent visited with
  | .done n => some { self1 with _node := some n }
  | .remove n => some ({ self1 with _node := some n }).remove
  | .replace m => some (self1.replace m)
  | .replaceAndVisit m => ReductionWalker.accept fuel parent (self1.replace m)
  | .visitChildren n =>
    match visitChildren self1._remove
        (fun ii => ReductionWalker.accept fuel (some n.kind) (NodeWalker.cloneFor ii))
        n.childNodes with
    | none => none
    | some children2 => some { self1 with _node := some (n.setChildNodes children2) }

/-! ## The fuel of the traversal -/

/-- The surcharge of the nodes that a rule may replace by a node with more
children: two for an `if` whose third slot holds an else block (the rewriting
of an empty then-block adds a `!` and parentheses), one for a dynamic member
access (the static access gets an identifier of its own). -/
def bonus (k : NodeKind) (cs : List (Option Node)) : Nat :=
  match k, cs with
  | .If, _ :: _ :: some _ :: _ => 2
  | .DynamicMemberExpression, _ => 1
  | _, _ => 0

mutual
/-- The weight of a tree, which bounds the depth of the traversal: one per
node, plus the surcharge `bonus`. -/
def Node.weight : Node → Nat
  | .mk k _ cs => 1 + Node.weightList cs + bonus k cs
/-- The summed weight of a child list. -/
def Node.weightList : List (Option Node) → Nat
  | [] => 0
  | none :: rest => Node.weightList rest
  | some n :: rest => Node.weight n + Node.weightList rest
end

/-- The weight of a child slot: zero for a null pointer. -/
def slotWeight : Option Node → Nat
  | none => 0
  | some n => n.weight

/-- `NodeWalker::walk(root)` for a `ReductionWalker`: `replaceAndVisit(root)`
on a fresh walker, then `return _node`. The traversal gets the fuel
`slotWeight root + 1`; the outer `none` would mean that it ran out. -/
def walk (root : Option Node) : Option (Option Node) :=
  match ReductionWalker.accept (slotWeight root + 1) none
      (({ _node := none, _remove := false } : NodeWalker).replace root) with
  | none => none
  | some walker => some walker._node

/-- The bound an action keeps with respect to the visited node `v`: what stays
or comes back is not heavier than `v`, what is visited next is lighter. -/
def ActionOK (v : Node) : Action → Prop
  | .done n => n.weight ≤ v.weight
  | .remove n => n = v
  | .replace m => slotWeight m ≤ v.weight
  | .replaceAndVisit m => slotWeight m < v.weight
  | .visitChildren n => n.weight ≤ v.weight

/-! ## Normal forms of the reduction -/

/-- No rule of the walker changes the node itself: whatever the parent, the
visit method ends in `done` or `remove` with the node as it is. -/
def Quiet (n : Node) : Prop :=
  ∀ parent, ReductionWalker.visit parent n = .done n ∨
    ReductionWalker.visit parent n = .remove n

/-- A tree in normal form: no rule changes any of its nodes. -/
inductive NormalForm : Node → Prop where
  | mk (n : Node) (quiet : Quiet n)
      (children : ∀ c, some c ∈ n.childNodes → NormalForm c) : NormalForm n

end fbjs

namespace fbjs

/-! ## node.cpp: rendering with `opts = RENDER_NONE`

`Node::render(int opts)` fills `guts` with `pretty = opts & RENDER_PRETTY` and
`sanelineno = opts & RENDER_MAINTAIN_LINENO`. jsxmin prints
`root.render(RENDER_NONE)`, the compact rendering, and the model is the render
methods at `pretty = sanelineno = false`: the branches guarded by the two
flags are not taken and `indentation` has no effect, so that
`renderIndentedStatement` of every class comes down to its `renderStatement`.
A rope is a `String`. Where a method dereferences a child that does not exist
or is null, the model takes the empty rope for what the child would render. -/

/-- The ropes the virtual render methods return for one node:
`render(guts, indentation)`, `renderStatement(guts, indentation)` and
`renderBlock(must, guts, indentation)`. -/
structure Ropes where
  render : String
  renderStatement : String
  renderBlock : Bool → String

/-- A child pointer seen from the render method of its parent: null, or the
child with the ropes its own methods return. -/
abbrev RenderedChild := Option (Node × Ropes)

/-- `child->render(guts, indentation)` for the child pointer in `slot`. -/
def childRender (slot : Option RenderedChild) : String :=
  match slot with
  | some (some (_, r)) => r.render
  | _ => ""

/-- `child->renderBlock(must, guts, indentation)` for the child in `slot`. -/
def childRenderBlock (slot : Option RenderedChild) (must : Bool) : String :=
  match slot with
  | some (some (_, r)) => r.renderBlock must
  | _ => ""

/-- `child->childNodes().empty()` for the child in `slot`. -/
def childEmpty (slot : Option RenderedChild) : Bool :=
  match slot with
  | some (some (n, _)) => n.empty
  | _ => true

/-- Whether the child pointer in `slot` is null. -/
def childNull (slot : Option RenderedChild) : Bool :=
  match slot with
  | some none => true
  | _ => false

/-- `Node::renderImplodeChildren`: the renderings of the non-null children,
with `glue` after every child but the last. -/
def renderImplodeChildren (glue : String) : List RenderedChild → String
  | [] => ""
  | [c] => childRender (some c)
  | c :: rest => childRender (some c) ++ glue ++ renderImplodeChildren glue rest

/-- The first pass of `NodeStringLiteral::render` for a literal that is not
`quoted`: the length it reserves for one character. The `switch` is entered
for characters below 32 only. -/
def escapedLength (c : Char) : Nat :=
  if c.toNat < 32 then
    if c = '\'' || c = '\\' || c = '\x08' || c = '\x0c' || c = '\n' || c = '\r' || c = '\t'
    then 2 else 4
  else 1

/-- The two hexadecimal digits `sprintf("%02x")` writes for a value below 32. -/
def hex02 (n : Nat) : String :=
  String.mk [Nat.digitChar (n / 16), Nat.digitChar (n % 16)]

/-- The second pass of `NodeStringLiteral::render`: what is written for one
character. A backslash is written as a backslash and a single quote, as in the
source. -/
def escapedChar (c : Char) : String :=
  if c = '\'' then "\\'"
  else if c = '\\' then "\\'"
  else if c = '\x08' then "\\b"
  else if c = '\x0c' then "\\f"
  else if c = '\n' then "\\n"
  else if c = '\r' then "\\r"
  else if c = '\t' then "\\t"
  else if c.toNat < 32 then "\\x" ++ hex02 c.toNat
  else String.singleton c

/-- `NodeStringLiteral::render`, for text of character codes below 128 (where
the signedness of `char` plays no part). A `quoted` literal is written as it
is. Otherwise the first pass measures the text; when the measure equals the
size the text is written between double quotes as it is, else each character
is written by the second pass. -/
def NodeStringLiteral.render (value : String) (quoted : Bool) : String :=
  if quoted then value
  else
    let len := (value.data.map escapedLength).sum
    if len = value.data.length then "\"" ++ value ++ "\""
    else "\"" ++ String.join (value.data.map escapedChar) ++ "\""

/-- The operator text `NodeOperator::render` puts between the operands
(`padding` stays true when `pretty` is off). -/
def node_operator_t.text : node_operator_t → String
  | .COMMA => "," | .RSHIFT3 => ">>>" | .RSHIFT => ">>" | .LSHIFT => "<<"
  | .OR => "||" | .AND => "&&" | .BIT_XOR => "^" | .BIT_AND => "&" | .BIT_OR => "|"
  | .EQUAL => "==" | .NOT_EQUAL => "!=" | .STRICT_EQUAL => "===" | .STRICT_NOT_EQUAL => "!=="
  | .LESS_THAN_EQUAL => "<=" | .GREATER_THAN_EQUAL => ">=" | .LESS_THAN => "<"
  | .GREATER_THAN => ">" | .PLUS => "+" | .MINUS => "-" | .DIV => "/" | .MULT => "*"
  | .MOD => "%" | .IN => " in " | .INSTANCEOF => " instanceof "

/-- The operator text of `NodeAssignment::render`. -/
def node_assignment_t.text : node_assignment_t → String
  | .ASSIGN => "=" | .MULT_ASSIGN => "*=" | .DIV_ASSIGN => "/=" | .MOD_ASSIGN => "%="
  | .PLUS_ASSIGN => "+=" | .MINUS_ASSIGN => "-=" | .LSHIFT_ASSIGN => "<<="
  | .RSHIFT_ASSIGN => ">>=" | .RSHIFT3_ASSIGN => ">>>=" | .BIT_AND_ASSIGN => "&="
  | .BIT_XOR_ASSIGN => "^=" | .BIT_OR_ASSIGN => "|="

/-- The operator text of `NodeUnary::render` and its `need_space`. -/
def node_unary_t.text : node_unary_t → String × Bool
  | .DELETE => ("delete", true) | .VOID => ("void", true) | .TYPEOF => ("typeof", true)
  | .INCR_UNARY => ("++", false) | .DECR_UNARY => ("--", false)
  | .PLUS_UNARY => ("+", false) | .MINUS_UNARY => ("-", false)
  | .BIT_NOT_UNARY => ("~", false) | .NOT_UNARY => ("!", false)

/-- `NodeIf::render`. -/
def NodeIf.render (cs : List RenderedChild) : String :=
  let ifBlock := cs.get? 1
  let elseBlock := cs.get? 2
  let ret := "if(" ++ childRender cs.head? ++ ")"
  match elseBlock with
  | some (some (e, ropes)) =>
    -- needBraces holds: elseBlock != NULL
    let ret := ret ++ childRenderBlock ifBlock true ++ "else"
    if e.kind = .If then ret ++ " " ++ ropes.render
    else
      let block := ropes.renderBlock false
      if block.data.head? ≠ some '\x7b' ∧ block.data.head? ≠ some ' ' then ret ++ " " ++ block
      else ret ++ block
  | _ => ret ++ childRenderBlock ifBlock (childEmpty ifBlock)

/-- `NodeTry::render`. -/
def NodeTry.render (cs : List RenderedChild) : String :=
  let ret := "try" ++ childRenderBlock cs.head? true
  let ret :=
    match cs.get? 1 with
    | some (some (_, r)) => ret ++ "catch(" ++ r.render ++ ")" ++ childRenderBlock (cs.get? 2) true
    | _ => ret
  match cs.get? 3 with
  | some (some (_, r)) => ret ++ "finally" ++ r.renderBlock true
  | _ => ret

/-- `NodeXMLElement::render`. -/
def NodeXMLElement.render (cs : List RenderedChild) : String :=
  match cs.head? with
  | some (some (_, r)) =>
    let ret := "<" ++ r.render
    let ret := if !childEmpty (cs.get? 1) then ret ++ " " ++ childRender (cs.get? 1) else ret
    if !childEmpty (cs.get? 2) then
      ret ++ ">" ++ childRender (cs.get? 2) ++ "</" ++ childRender (cs.get? 3) ++ ">"
    else
      match cs.get? 3 with
      | some (some (_, r3)) => ret ++ "</" ++ r3.render ++ ">"
      | _ => ret ++ "/>"
  | _ => "<" ++ ">" ++ childRender (cs.get? 2) ++ "</>"

/-- The method `render(guts, indentation)` of the class `k`, on the rendered
children `cs`; `g_fmt` is the number formatting of `g_fmt.c` (dtoa), which
`NodeNumericLiteral::render` calls and which is no part of the sources. -/
def renderKind (g_fmt : Rat → String) (k : NodeKind) (cs : List RenderedChild) : String :=
  let front := childRender cs.head?
  let back := childRender cs.getLast?
  match k with
  | .Node | .Program => front
  | .StatementList =>
    String.join (cs.map fun c =>
      match c with
      | some (_, r) => r.renderStatement
      | none => "")
  | .NumericLiteral value => g_fmt value
  | .StringLiteral value quoted => NodeStringLiteral.render value quoted
  | .RegexLiteral value flags => "/" ++ value ++ "/" ++ flags
  | .BooleanLiteral value => if value then "true" else "false"
  | .NullLiteral => "null"
  | .This => "this"
  | .EmptyExpression => ""
  | .Operator op => front ++ op.text ++ back
  | .ConditionalExpression =>
    front ++ "?" ++ childRender (cs.get? 1) ++ ":" ++ childRender (cs.get? 2)
  | .Parenthetical => "(" ++ front ++ ")"
  | .Assignment op => front ++ op.text ++ back
  | .Unary op =>
    let isParenthetical : Bool :=
      match cs.head? with
      | some (some (n, _)) => n.kind = .Parenthetical
      | _ => false
    op.text.1 ++ (if op.text.2 && !isParenthetical then " " else "") ++ front
  | .Postfix op =>
    front ++ (match op with | .INCR_POSTFIX => "++" | .DECR_POSTFIX => "--")
  | .Identifier name => name
  | .FunctionCall => front ++ back
  | .FunctionConstructor => "new " ++ front ++ back
  | .ObjectLiteral => "\x7b" ++ renderImplodeChildren "," cs ++ "\x7d"
  | .ArrayLiteral => "[" ++ renderImplodeChildren "," cs ++ "]"
  | .StaticMemberExpression => front ++ "." ++ back
  | .DynamicMemberExpression => front ++ "[" ++ back ++ "]"
  | .StatementWithExpression statement =>
    let ret :=
      match statement with
      | .THROW => "throw" | .RETURN => "return" | .CONTINUE => "continue" | .BREAK => "break"
    match cs.getLast? with
    | some (some _) => ret ++ " " ++ front
    | _ => ret
  | .VarDeclaration _ => "var " ++ renderImplodeChildren "," cs
  | .Typehint => front ++ ":" ++ back
  | .FunctionDeclaration =>
    "function " ++ front ++ childRender (cs.get? 1) ++ childRenderBlock (cs.get? 2) true
  | .FunctionExpression =>
    let name :=
      match cs.head? with
      | some (some (_, r)) => " " ++ r.render
      | _ => ""
    "function" ++ name ++ childRender (cs.get? 1) ++ childRenderBlock (cs.get? 2) true
  | .ArgList => "(" ++ renderImplodeChildren "," cs ++ ")"
  | .If => NodeIf.render cs
  | .With => "with(" ++ front ++ ")" ++ childRenderBlock (cs.get? 1) false
  | .Try => NodeTry.render cs
  | .Label => front ++ ":" ++ back
  | .CaseClause => "case " ++ front ++ ":"
  | .Switch => "switch(" ++ front ++ ")" ++ childRenderBlock cs.getLast? true
  | .DefaultClause => "default:"
  | .ObjectLiteralProperty => front ++ ":" ++ back
  | .ForLoop =>
    "for(" ++ front ++ ";" ++ childRender (cs.get? 1) ++ ";" ++ childRender (cs.get? 2) ++ ")"
      ++ childRenderBlock (cs.get? 3) false
  | .ForIn =>
    "for(" ++ front ++ " in " ++ childRender (cs.get? 1) ++ ")"
      ++ childRenderBlock (cs.get? 2) false
  | .ForEachIn =>
    "for each(" ++ front ++ " in " ++ childRender (cs.get? 1) ++ ")"
      ++ childRenderBlock (cs.get? 2) false
  | .While => "while(" ++ front ++ ")" ++ childRenderBlock cs.getLast? false
  | .DoWhile => "do" ++ childRenderBlock cs.head? true ++ "while(" ++ back ++ ")"
  | .XMLDefaultNamespace => "default xml namespace = " ++ front
  | .XMLName ns name => if ns.isEmpty then name else ns ++ ":" ++ name
  | .XMLElement => NodeXMLElement.render cs
  | .XMLComment comment => "<!--" ++ comment ++ "-->"
  | .XMLPI data => "<?" ++ data ++ "?>"
  | .XMLContentList => renderImplodeChildren "" cs
  | .XMLTextData data _ => data
  | .XMLEmbeddedExpression => "\x7b" ++ front ++ "\x7d"
  | .XMLAttributeList => renderImplodeChildren " " cs
  | .XMLAttribute =>
    let isTextData : Bool :=
      match cs.getLast? with
      | some (some (.mk (.XMLTextData _ _) _ _, _)) => true
      | _ => false
    if isTextData then front ++ "=" ++ "\"" ++ back ++ "\"" else front ++ "=" ++ back
  | .WildcardIdentifier => "*"
  | .StaticAttributeIdentifier => "@" ++ front
  | .DynamicAttributeIdentifier => "@[" ++ front ++ "]"
  | .StaticQualifiedIdentifier => front ++ "::" ++ back
  | .DynamicQualifiedIdentifier => front ++ "::[" ++ back ++ "]"
  | .FilteringPredicate => front ++ ".(" ++ back ++ ")"
  | .DescendantExpression => front ++ ".." ++ back

/-- The method `renderStatement` of the class `k`, given what its `render`
returns: `NodeExpression`, `NodeStatement` and `NodeLabel` add a semicolon;
`NodeStatementList`, `NodeCaseClause` and `Node` return the rendering. -/
def renderStatementKind (k : NodeKind) (render : String) : String :=
  match k with
  | .StatementWithExpression _ | .VarDeclaration _ | .DoWhile | .XMLDefaultNamespace
  | .Label => render ++ ";"
  | _ => if k.isExpression then render ++ ";" else render

/-- The method `renderBlock(must, ...)` of the class `k`:
`NodeStatementList::renderBlock`, `NodeEmptyExpression::renderBlock` and
`Node::renderBlock` for the other classes. In the list, `front() == back()`
compares the first and the last child pointer: they are equal when the list
has one child or when both are null. -/
def renderBlockKind (k : NodeKind) (cs : List RenderedChild) (render renderStatement : String)
    (must : Bool) : String :=
  match k with
  | .StatementList =>
    if !must && cs.isEmpty then ";"
    else if !must && (cs.length = 1 || (childNull cs.head? && childNull cs.getLast?)) then
      childRenderBlock cs.head? must
    else "\x7b" ++ render ++ "\x7d"
  | .EmptyExpression => ";"
  | _ => if !must then renderStatement else "\x7b" ++ renderStatement ++ "\x7d"

/-- The three ropes of a node of class `k` with rendered children `cs`. -/
def ropesKind (g_fmt : Rat → String) (k : NodeKind) (cs : List RenderedChild) : Ropes :=
  let render := renderKind g_fmt k cs
  let renderStatement := renderStatementKind k render
  { render := render
    renderStatement := renderStatement
    renderBlock := renderBlockKind k cs render renderStatement }

mutual
/-- The ropes of a tree: the children are rendered first, then the methods of
the class of the node are applied. -/
def Node.ropes (g_fmt : Rat → String) : Node → Ropes
  | .mk k _ cs => ropesKind g_fmt k (Node.ropesList g_fmt cs)
/-- The rendered children of a child list. -/
def Node.ropesList (g_fmt : Rat → String) : List (Option Node) → List RenderedChild
  | [] => []
  | none :: rest => none :: Node.ropesList g_fmt rest
  | some n :: rest => some (n, Node.ropes g_fmt n) :: Node.ropesList g_fmt rest
end

/-- `Node::render(RENDER_NONE)`: the compact rendering of a tree. -/
def Node.render (g_fmt : Rat → String) (n : Node) : String :=
  (n.ropes g_fmt).render

mutual
/-- The values of the numeric literals of a tree: the arguments with which the
rendering of the tree calls `g_fmt`. -/
def Node.numericValues : Node → List Rat
  | .mk (.NumericLiteral value) _ cs => value :: Node.numericValuesList cs
  | .mk _ _ cs => Node.numericValuesList cs
/-- The values of the numeric literals of a child list. -/
def Node.numericValuesList : List (Option Node) → List Rat
  | [] => []
  | none :: rest => Node.numericValuesList rest
  | some n :: rest => Node.numericValues n ++ Node.numericValuesList rest
end

end fbjs

namespace fbjs

/-! ## node.cpp: `isValidlVal` -/

/-- The virtual `isValidlVal()`: true for the classes that override it with
`return true`, delegated to the first child by `NodeParenthetical`, false for
`NodeExpression`. For a parenthetical without a first child, or with one that
is no expression, the C++ calls through an invalid pointer; the model says
false. -/
def Node.isValidlVal : Node → Bool
  | .mk .Parenthetical _ (some inner :: _) => inner.kind.isExpression && inner.isValidlVal
  | .mk (.Identifier _) _ _ => true
  | .mk .StaticMemberExpression _ _ => true
  | .mk .DynamicMemberExpression _ _ => true
  | .mk .WildcardIdentifier _ _ => true
  | .mk .StaticAttributeIdentifier _ _ => true
  | .mk .DynamicAttributeIdentifier _ _ => true
  | .mk .StaticQualifiedIdentifier _ _ => true
  | .mk .DynamicQualifiedIdentifier _ _ => true
  | .mk .FilteringPredicate _ _ => true
  | _ => false

/-! ## Constant expressions and their value in JavaScript

The expressions the constant folding of `reduce.cpp` is about, and what
ECMAScript says they evaluate to. This is the side of the language, not of the
program: it is what the folding rules are compared with. -/

/-- A JavaScript value of a constant expression: a number or a boolean. -/
inductive JSValue where
  | number (value : Rat)
  | boolean (value : Bool)
  deriving DecidableEq, Repr

/-- `ToBoolean` of ECMAScript on numbers (finite) and booleans. -/
def JSValue.toBoolean : JSValue → Bool
  | .number value => value != 0
  | .boolean value => value

/-- The value of an expression built from numeric and boolean literals with
`||`, `&&`, `!`, `?:`, the comma operator and parentheses, by the evaluation
rules of ECMAScript: `a || b` is `a` when `a` is truthy and `b` otherwise,
`a && b` is `a` when `a` is falsy and `b` otherwise, `!a` is the negated
truthiness, `c ? a : b` picks by the truthiness of `c`, `a , b` is `b`.
`none` for every other tree. -/
def evalJS : Node → Option JSValue
  | .mk (.NumericLiteral value) _ [] => some (.number value)
  | .mk (.BooleanLiteral value) _ [] => some (.boolean value)
  | .mk .Parenthetical _ [some e] => evalJS e
  | .mk (.Unary .NOT_UNARY) _ [some e] =>
    match evalJS e with
    | some v => some (.boolean (!v.toBoolean))
    | none => none
  | .mk (.Operator .OR) _ [some a, some b] =>
    match evalJS a, evalJS b with
    | some va, some vb => some (if va.toBoolean then va else vb)
    | _, _ => none
  | .mk (.Operator .AND) _ [some a, some b] =>
    match evalJS a, evalJS b with
    | some va, some vb => some (if va.toBoolean then vb else va)
    | _, _ => none
  | .mk (.Operator .COMMA) _ [some a, some b] =>
    match evalJS a, evalJS b with
    | some _, some vb => some vb
    | _, _ => none
  | .mk .ConditionalExpression _ [some c, some a, some b] =>
    match evalJS c, evalJS a, evalJS b with
    | some vc, some va, some vb => some (if vc.toBoolean then va else vb)
    | _, _, _ => none
  | _ => none

/-- The expressions built only from numeric and boolean literals with `||`,
`&&`, `!`, `?:`, the comma operator and parentheses (any line numbers). -/
inductive ConstantExpression : Node → Prop where
  | numeric (value : Rat) (lineno : Nat) :
      ConstantExpression (.mk (.NumericLiteral value) lineno [])
  | boolean (value : Bool) (lineno : Nat) :
      ConstantExpression (.mk (.BooleanLiteral value) lineno [])
  | parenthetical (lineno : Nat) {e : Node} :
      ConstantExpression e → ConstantExpression (.mk .Parenthetical lineno [some e])
  | not (lineno : Nat) {e : Node} :
      ConstantExpression e → ConstantExpression (.mk (.Unary .NOT_UNARY) lineno [some e])
  | or (lineno : Nat) {a b : Node} :
      ConstantExpression a → ConstantExpression b →
      ConstantExpression (.mk (.Operator .OR) lineno [some a, some b])
  | and (lineno : Nat) {a b : Node} :
      ConstantExpression a → ConstantExpression b →
      ConstantExpression (.mk (.Operator .AND) lineno [some a, some b])
  | comma (lineno : Nat) {a b : Node} :
      ConstantExpression a → ConstantExpression b →
      ConstantExpression (.mk (.Operator .COMMA) lineno [some a, some b])
  | conditional (lineno : Nat) {c a b : Node} :
      ConstantExpression c → ConstantExpression a → ConstantExpression b →
      ConstantExpression (.mk .ConditionalExpression lineno [some c, some a, some b])

/-- Two values are the same up to the folding of a false constant: equal, or
the number zero on the left and the boolean `false` on the right. -/
def JSValue.sameOrZeroFalse (v w : JSValue) : Prop :=
  w = v ∨ (v = .number 0 ∧ w = .boolean false)

/-- A folded constant of value `v`: a numeric or boolean literal of that value,
possibly in parentheses. -/
inductive FoldedConstant : Node → JSValue → Prop where
  | numeric (value : Rat) (lineno : Nat) :
      FoldedConstant (.mk (.NumericLiteral value) lineno []) (.number value)
  | boolean (value : Bool) (lineno : Nat) :
      FoldedConstant (.mk (.BooleanLiteral value) lineno []) (.boolean value)
  | parenthetical (lineno : Nat) {e : Node} {v : JSValue} :
      FoldedConstant e v → FoldedConstant (.mk .Parenthetical lineno [some e]) v

end fbjs

namespace fbjs

/-! ## jsxmin_renaming.cpp: the name factory and the scopes -/

/-- The class `NameFactory`: `_current` and `_prefix`. -/
structure NameFactory where
  _current : String
  _prefix : String
  deriving DecidableEq, Repr

namespace NameFactory

/-- `NameFactory()` and `NameFactory(prefix)`: `_current("a")`. -/
def new (pre : String) : NameFactory :=
  { _current := "a", _prefix := pre }

/-- The loop of `NameFactory::next` over `_current`: the first character that
is below `z` is increased and the loop breaks; `none` when every character is
`z` (`found` stays false). -/
def bump : List Char → Option (List Char)
  | [] => none
  | c :: rest =>
    if c.toNat + 1 ≤ 'z'.toNat then some (Char.ofNat (c.toNat + 1) :: rest)
    else (bump rest).map (c :: ·)

/-- `NameFactory::next()`: the result is `_prefix + _current`, and `_current`
moves on (`push_back('a')` when the loop found nothing). -/
def next (self : NameFactory) : String × NameFactory :=
  (self._prefix ++ self._current,
   { self with
     _current :=
       match bump self._current.data with
       | some cs => String.mk cs
       | none => self._current.push 'a' })

/-- The name that the call number `n + 1` of `next()` returns. -/
def nth (self : NameFactory) : Nat → String
  | 0 => self.next.1
  | n + 1 => nth self.next.2 n

end NameFactory

/-- `rename_t`, a `std::map<string, string>`: the entries in the order of
their keys, which is the order in which the map is iterated. `set` is
`map[key] = value`. -/
def rename_t.set : List (String × String) → String → String → List (String × String)
  | [], key, value => [(key, value)]
  | (k, v) :: rest, key, value =>
    if key < k then (key, value) :: (k, v) :: rest
    else if key = k then (key, value) :: rest
    else (k, v) :: rename_t.set rest key value

/-- `map.find(key)`: the value stored under `key`. -/
def rename_t.find (m : List (String × String)) (key : String) : Option String :=
  (m.find? fun e => e.1 == key).map (·.2)

/-- The data members of the class `Scope` but for `_parent`: `_replacement`
and `_new_names` (a `std::set<string>`, of which only membership is used). -/
structure Scope where
  _replacement : List (String × String)
  _new_names : List String
  deriving DecidableEq, Repr

namespace Scope

/-- A scope as its constructor leaves it. -/
def empty : Scope := { _replacement := [], _new_names := [] }

/-- `Scope::declare(name)`: `_replacement[name] = name`. -/
def declare (self : Scope) (name : String) : Scope :=
  { self with _replacement := rename_t.set self._replacement name name }

/-- `Scope::rename_internal(var_name, new_name)`. -/
def rename_internal (self : Scope) (var_name new_name : String) : Scope :=
  { _replacement := rename_t.set self._replacement var_name new_name
    _new_names := new_name :: self._new_names }

/-- `Scope::reserve(name)`. -/
def reserve (self : Scope) (name : String) : Scope :=
  self.rename_internal name name

end Scope

/-- A scope with the scopes its `_parent` pointers lead to: the local scopes
from the innermost outwards, then the global scope, which ends every chain
(`_parent == NULL`) and is the `_global_scope` of the pass. With no local
scope the current scope is the global scope itself. -/
structure ScopeChain where
  locals : List Scope
  global : Scope
  deriving DecidableEq, Repr

namespace ScopeChain

/-- The scopes of the chain, the current one first. -/
def scopes (self : ScopeChain) : List Scope :=
  self.locals ++ [self.global]

/-- `scope->is_global()`. -/
def is_global (self : ScopeChain) : Bool :=
  self.locals.isEmpty

/-- `Scope::declared(name)`, along the `_parent` pointers. -/
def declared (self : ScopeChain) (name : String) : Bool :=
  self.scopes.any fun s => (rename_t.find s._replacement name).isSome

/-- `Scope::new_name(orig_name)`: the entry of the nearest scope that has one,
the name itself when no scope has. -/
def new_name (self : ScopeChain) (orig_name : String) : String :=
  match self.scopes.findSome? fun s => rename_t.find s._replacement orig_name with
  | some n => n
  | none => orig_name

/-- `Scope::in_use(name)`, along the `_parent` pointers. -/
def in_use (self : ScopeChain) (name : String) : Bool :=
  self.scopes.any fun s => s._new_names.contains name

/-- `scope->declare(name)` on the current scope. -/
def declare (self : ScopeChain) (name : String) : ScopeChain :=
  match self.locals with
  | [] => { self with global := self.global.declare name }
  | s :: rest => { self with locals := s.declare name :: rest }

/-- `this->_global_scope->reserve(name)`. -/
def reserveGlobal (self : ScopeChain) (name : String) : ScopeChain :=
  { self with global := self.global.reserve name }

/-- The chain of the `_parent` of the current scope. -/
def parent (self : ScopeChain) : ScopeChain :=
  { self with locals := self.locals.tail }

/-- The chain of `LocalScope child_scope(scope)`. -/
def push (self : ScopeChain) : ScopeChain :=
  { self with locals := Scope.empty :: self.locals }

end ScopeChain

/-- `new_name = factory.next(); while (in_use(new_name)) new_name =
factory.next();` with at most `fuel` turns of the loop; with no fuel left the
name just drawn is returned as it is. -/
def nextFree (in_use : String → Bool) : Nat → NameFactory → String × NameFactory
  | 0, factory => factory.next
  | fuel + 1, factory =>
    if in_use factory.next.1 then nextFree in_use fuel factory.next.2
    else factory.next

/-- `LocalScope::need_rename(name)`. -/
def LocalScope.need_rename (name : String) : Bool :=
  name != "event"

/-- The loop of `LocalScope::rename_vars` over the entries `(var_name,
new_name)` of `_replacement` still to come, for the scope `self` with the
parent chain `parent`. The `while` loop stops when it has drawn a name that is
not among the names in use in the parent chain, so it takes no more turns
than there are such names. -/
def LocalScope.rename_loop (parent : ScopeChain) :
    List (String × String) → NameFactory → Scope → Scope
  | [], _, self => self
  | (var_name, new_name) :: rest, factory, self =>
    if LocalScope.need_rename var_name then
      let drawn := nextFree parent.in_use (parent.scopes.map (·._new_names.length)).sum factory
      LocalScope.rename_loop parent rest drawn.2 (self.rename_internal var_name drawn.1)
    else
      LocalScope.rename_loop parent rest factory (self.rename_internal var_name new_name)

/-- `LocalScope::rename_vars()` on the current (local) scope of the chain. -/
def LocalScope.rename_vars (chain : ScopeChain) : ScopeChain :=
  match chain.locals with
  | [] => chain
  | self :: rest =>
    { chain with
      locals :=
        LocalScope.rename_loop chain.parent self._replacement (NameFactory.new "") self :: rest }

/-- `GlobalScope::need_rename(name)` with `_rename_private` as given. -/
def GlobalScope.need_rename (_rename_private : Bool) (name : String) : Bool :=
  _rename_private && decide (name.length > 1) &&
    name.data.head? == some '_' && name.data.get? 1 != some '_'

/-- `GlobalScope::rename_vars()` for the scope of `VariableRenaming`, built by
`new GlobalScope(false)`: `need_rename` is false for every name, so each entry
`(var_name, new_name)` only goes through `rename_internal`. -/
def GlobalScope.rename_vars (self : Scope) : Scope :=
  self._replacement.foldl (fun s e => s.rename_internal e.1 e.2) self

/-- The name of the node when it is a `NodeIdentifier`:
`dynamic_cast<NodeIdentifier*>(node)`, then `name()`. -/
def Node.identifierName : Node → Option String
  | .mk (.Identifier name) _ _ => some name
  | _ => none

/-! ## jsxmin_renaming.cpp: the variable renaming pass -/

namespace VariableRenaming

mutual
/-- `VariableRenaming::function_has_with_or_eval(node)`: whether a child of
`node`, at any depth, is a `with` statement or a call whose first child is the
identifier `eval`. -/
def function_has_with_or_eval : Node → Bool
  | .mk _ _ cs => function_has_with_or_eval_children cs
/-- The loop `for_nodes(node, ii)` of `function_has_with_or_eval`. -/
def function_has_with_or_eval_children : List (Option Node) → Bool
  | [] => false
  | none :: rest => function_has_with_or_eval_children rest
  | some child :: rest =>
    if child.kind = .With then true
    else if child.kind = .FunctionCall &&
        (match child.childNodes.head? with
         | some (some (.mk (.Identifier name) _ _)) => name == "eval"
         | _ => false) then true
    else if function_has_with_or_eval child then true
    else function_has_with_or_eval_children rest
end

/-- The loop of `build_scope` over the children of a `NodeVarDeclaration`: a
child that is an identifier is declared, of any other child the first child
(the left side of the initialising assignment). Where neither is an
identifier the C++ dereferences a null pointer; the model declares nothing. -/
def build_scope_var : List (Option Node) → ScopeChain → ScopeChain
  | [], scope => scope
  | none :: rest, scope => build_scope_var rest scope
  | some ii :: rest, scope =>
    match ii.identifierName with
    | some name => build_scope_var rest (scope.declare name)
    | none =>
      match ii.childNodes.head? with
      | some (some front) =>
        match front.identifierName with
        | some name => build_scope_var rest (scope.declare name)
        | none => build_scope_var rest scope
      | _ => build_scope_var rest scope

mutual
/-- `VariableRenaming::build_scope(node, scope)`; `scope` is the chain of the
scope to fill, its global scope being `_global_scope`. -/
def build_scope : Node → ScopeChain → ScopeChain
  | .mk k _ cs, scope =>
    match k with
    | .FunctionExpression => scope
    | .FunctionDeclaration =>
      match cs.head? with
      | some (some (.mk (.Identifier name) _ _)) => scope.declare name
      | _ => scope
    | .VarDeclaration _ => build_scope_var cs scope
    | .Try =>
      -- the second child is the catch variable
      match cs.get? 1 with
      | some (some (.mk (.Identifier name) _ _)) => scope.declare name
      | _ => scope
    | _ =>
      let scope :=
        if k = .ForIn || (match k with | .Assignment _ => true | _ => false) then
          match cs.head? with
          | some (some (.mk (.Identifier name) _ _)) =>
            if !scope.declared name && (!scope.is_global || k = .ForIn) then
              scope.reserveGlobal name
            else scope
          | _ => scope
        else scope
      build_scope_children cs scope
/-- The loop `for_nodes(node, ii) build_scope(*ii, scope)`. -/
def build_scope_children : List (Option Node) → ScopeChain → ScopeChain
  | [], scope => scope
  | none :: rest, scope => build_scope_children rest scope
  | some n :: rest, scope => build_scope_children rest (build_scope n scope)
end

/-- The loop over the argument list in `minify`: every argument, taken for a
`NodeIdentifier`, is declared in `child_scope`. (An argument of another class
is read through a `static_cast`; the model skips it.) -/
def declare_args : List (Option Node) → ScopeChain → ScopeChain
  | [], scope => scope
  | none :: rest, scope => declare_args rest scope
  | some arg :: rest, scope =>
    match arg.identifierName with
    | some name => declare_args rest (scope.declare name)
    | none => declare_args rest scope

/-- What `minify` does on entering a function without `with` and `eval`, whose
children are `cs`: `child_scope` is created under `scope`, the arguments (the
children of the second child) are declared, `build_scope` runs on the third
child and `child_scope.rename_vars()` fixes the new names. -/
def function_scope (cs : List (Option Node)) (scope : ScopeChain) : ScopeChain :=
  let child_scope := scope.push
  let child_scope :=
    match cs.get? 1 with
    | some (some args) => declare_args args.childNodes child_scope
    | _ => child_scope
  let child_scope :=
    match cs.get? 2 with
    | some (some body) => build_scope body child_scope
    | _ => child_scope
  LocalScope.rename_vars child_scope

mutual
/-- `VariableRenaming::minify(node, scope)`. The result is the renamed tree
and the chain after the call: the local scopes are those of `scope`, the
global scope may have got new reservations from the `build_scope` of the
functions inside. -/
def minify : Node → ScopeChain → Node × ScopeChain
  | .mk k lineno cs, scope =>
    match k with
    | .ObjectLiteralProperty =>
      let r := minify_back cs scope
      (.mk k lineno r.1, r.2)
    | .StaticMemberExpression =>
      match cs with
      | [] => (.mk k lineno cs, scope)
      | front :: rest =>
        let r := minify_slot front scope
        (.mk k lineno (r.1 :: rest), r.2)
    | .Identifier name =>
      if scope.declared name then (.mk (.Identifier (scope.new_name name)) lineno cs, scope)
      else (.mk k lineno cs, scope)
    | .FunctionDeclaration | .FunctionExpression =>
      if !function_has_with_or_eval_children cs then
        let child_scope := function_scope cs scope
        match cs with
        | [] => (.mk k lineno cs, scope)
        | name :: rest =>
          -- the function name is renamed in the parent scope
          let r := minify_slot name { child_scope with locals := scope.locals }
          let r2 := minify_children rest { child_scope with global := r.2.global }
          (.mk k lineno (r.1 :: r2.1), { scope with global := r2.2.global })
      else (.mk k lineno cs, scope)
    | _ =>
      let r := minify_children cs scope
      (.mk k lineno r.1, r.2)
/-- `minify(*ii, scope)` for a child pointer, which may be null. -/
def minify_slot : Option Node → ScopeChain → Option Node × ScopeChain
  | none, scope => (none, scope)
  | some n, scope =>
    let r := minify n scope
    (some r.1, r.2)
/-- The loop `for_nodes(node, ii) minify(*ii, scope)`. -/
def minify_children : List (Option Node) → ScopeChain → List (Option Node) × ScopeChain
  | [], scope => ([], scope)
  | ii :: rest, scope =>
    let r := minify_slot ii scope
    let r2 := minify_children rest r.2
    (r.1 :: r2.1, r2.2)
/-- `minify(node->childNodes().back(), scope)`: only the last child is
renamed. -/
def minify_back : List (Option Node) → ScopeChain → List (Option Node) × ScopeChain
  | [], scope => ([], scope)
  | [back], scope =>
    let r := minify_slot back scope
    ([r.1], r.2)
  | ii :: rest, scope =>
    let r := minify_back rest scope
    (ii :: r.1, r.2)
end

/-- `VariableRenaming::process(root)` on a fresh `VariableRenaming`, whose
`_global_scope` is a new `GlobalScope(false)`: the renamed tree. -/
def process (root : Node) : Node :=
  let global := build_scope root { locals := [], global := Scope.empty }
  let global := { global with global := GlobalScope.rename_vars global.global }
  (minify root global).1

end VariableRenaming

/-! ## Positions in a tree -/

/-- The subtree at a position: the position is the list of the child indices
to follow from the root. -/
def Node.subtreeAt : Node → List Nat → Option Node
  | n, [] => some n
  | .mk _ _ cs, i :: rest =>
    match cs.get? i with
    | some (some c) => c.subtreeAt rest
    | _ => none

/-- A `with` statement, or a call whose callee is the identifier `eval`. -/
def Node.isWithOrEval (d : Node) : Bool :=
  d.kind = .With ||
    (d.kind = .FunctionCall &&
      (match d.childNodes.head? with
       | some (some (.mk (.Identifier name) _ _)) => name == "eval"
       | _ => false))

/-- The node `c2` stands after a call of `minify` on the parent where `c`
stood before: it is `c` itself, or what `minify` made of `c` in some scope. -/
def MinifiedFrom (c c2 : Node) : Prop :=
  c2 = c ∨ ∃ scope, c2 = (VariableRenaming.minify c scope).1

/-- `MinifiedFrom` on child pointers: null stays null. -/
def SlotMinified : Option Node → Option Node → Prop
  | none, none => True
  | some c, some c2 => MinifiedFrom c c2
  | _, _ => False

/-- Whether the class is `NodeFunctionDeclaration` or
`NodeFunctionExpression`. -/
def NodeKind.isFunction : NodeKind → Bool
  | .FunctionDeclaration | .FunctionExpression => true
  | _ => false

mutual
/-- The part of a tree that lies outside all function bodies: of a function
only the name (the first child) is kept, the argument list and the body are
cut off. -/
def Node.outsideFunctions : Node → Node
  | .mk k l cs =>
    if k.isFunction then .mk k l (Node.outsideFunctionsName cs)
    else .mk k l (Node.outsideFunctionsList cs)
/-- The first child of a function, cut likewise. -/
def Node.outsideFunctionsName : List (Option Node) → List (Option Node)
  | [] => []
  | none :: _ => [none]
  | some n :: _ => [some (Node.outsideFunctions n)]
/-- The children of a node that is no function, cut likewise. -/
def Node.outsideFunctionsList : List (Option Node) → List (Option Node)
  | [] => []
  | none :: rest => none :: Node.outsideFunctionsList rest
  | some n :: rest => some (Node.outsideFunctions n) :: Node.outsideFunctionsList rest
end

mutual
/-- Whether the tree holds a function declaration or function expression. -/
def Node.hasFunction : Node → Bool
  | .mk k _ cs => k.isFunction || Node.hasFunctionList cs
/-- Whether one of the children holds a function. -/
def Node.hasFunctionList : List (Option Node) → Bool
  | [] => false
  | none :: rest => Node.hasFunctionList rest
  | some n :: rest => Node.hasFunction n || Node.hasFunctionList rest
end

/-- Every entry of the scope maps a name to itself. -/
def Scope.IsIdentity (s : Scope) : Prop :=
  ∀ e ∈ s._replacement, e.2 = e.1

/-- The global scope of the pass when `minify` starts on `root`: filled by
`build_scope(root, _global_scope)`, then `rename_vars()`. -/
def VariableRenaming.globalScope (root : Node) : Scope :=
  GlobalScope.rename_vars
    (VariableRenaming.build_scope root { locals := [], global := Scope.empty }).global

end fbjs

namespace fbjs

/-! ## Example programs

The trees of the programs the statements below are tried on, all on source
line 1. A string literal of the source text is a `NodeStringLiteral` that is
`quoted` and holds the text with its quotes; a call has the callee and the
argument list as children; a function has its name, its argument list and its
body; a program has one statement list. -/

namespace Example

/-- The identifier `name`. -/
def identifier (name : String) : Node := .mk (.Identifier name) 1 []

/-- The numeric literal of value `value`. -/
def numeric (value : Rat) : Node := .mk (.NumericLiteral value) 1 []

/-- The boolean literal `value`. -/
def boolean (value : Bool) : Node := .mk (.BooleanLiteral value) 1 []

/-- The string literal with the source text `text` (quotes included). -/
def string (text : String) : Node := .mk (.StringLiteral text true) 1 []

/-- The call `name()`. -/
def call (name : String) : Node :=
  .mk .FunctionCall 1 [some (identifier name), some (.mk .ArgList 1 [])]

/-- The block or statement list of `statements`. -/
def block (statements : List Node) : Node :=
  .mk .StatementList 1 (statements.map some)

/-- The program of `statements`. -/
def program (statements : List Node) : Node :=
  .mk .Program 1 [some (block statements)]

/-- The binary expression `left op right`. -/
def operator (op : node_operator_t) (left right : Node) : Node :=
  .mk (.Operator op) 1 [some left, some right]

/-- The assignment `left = right`. -/
def assign (left right : Node) : Node :=
  .mk (.Assignment .ASSIGN) 1 [some left, some right]

/-- The statement `var items;`. -/
def var (items : List Node) : Node :=
  .mk (.VarDeclaration false) 1 (items.map some)

/-- The statement `if (condition) thenBlock else elseBlock`. -/
def ifElse (condition thenBlock : Node) (elseBlock : Option Node) : Node :=
  .mk .If 1 [some condition, some thenBlock, elseBlock]

/-- The access `object[index]`. -/
def dynamicMember (object index : Node) : Node :=
  .mk .DynamicMemberExpression 1 [some object, some index]

/-- The access `object.name`. -/
def staticMember (object : Node) (name : String) : Node :=
  .mk .StaticMemberExpression 1 [some object, some (identifier name)]

/-- The property `key: value` of an object literal. -/
def property (key value : Node) : Node :=
  .mk .ObjectLiteralProperty 1 [some key, some value]

/-- The object literal of `properties`. -/
def objectLiteral (properties : List Node) : Node :=
  .mk .ObjectLiteral 1 (properties.map some)

/-- The declaration `function name(args) { body }`. -/
def function (name : String) (args : List String) (body : List Node) : Node :=
  .mk .FunctionDeclaration 1
    [some (identifier name), some (.mk .ArgList 1 (args.map fun a => some (identifier a))),
     some (block body)]

/-- The statement `return e;`. -/
def returns (e : Node) : Node :=
  .mk (.StatementWithExpression .RETURN) 1 [some e]

/-- `if (1) a(); else b();` -/
def ifOne : Node :=
  program [ifElse (numeric 1) (call "a") (some (call "b"))]

/-- `if (0) a(); else b();` -/
def ifZero : Node :=
  program [ifElse (numeric 0) (call "a") (some (call "b"))]

/-- `if(true){x();}else{y();}` -/
def ifTrue : Node :=
  program [ifElse (boolean true) (block [call "x"]) (some (block [call "y"]))]

/-- `1; if (0) a();` -/
def deadStatements : Node :=
  program [numeric 1, ifElse (numeric 0) (call "a") none]

/-- `if (c) {} else { x(); }` -/
def ifEmptyThen : Node :=
  program [ifElse (identifier "c") (block []) (some (block [call "x"]))]

/-- `if(!(c)){x();}` -/
def ifNegated : Node :=
  program [ifElse (.mk (.Unary .NOT_UNARY) 1 [some (.mk .Parenthetical 1 [some (identifier "c")])])
    (block [call "x"]) none]

/-- `a["foo"];` -/
def memberFoo : Node :=
  program [dynamicMember (identifier "a") (string "\"foo\"")]

/-- `a["for"];` -/
def memberFor : Node :=
  program [dynamicMember (identifier "a") (string "\"for\"")]

/-- `a["b"]["c d"];` -/
def memberChain : Node :=
  program [dynamicMember (dynamicMember (identifier "a") (string "\"b\"")) (string "\"c d\"")]

/-- `x = {"foo": 1, "1bad": 2};` -/
def objectBad : Node :=
  program [assign (identifier "x")
    (objectLiteral [property (string "\"foo\"") (numeric 1),
      property (string "\"1bad\"") (numeric 2)])]

/-- `var o={"foo":1,"bar baz":2};` -/
def objectBarBaz : Node :=
  program [var [assign (identifier "o")
    (objectLiteral [property (string "\"foo\"") (numeric 1),
      property (string "\"bar baz\"") (numeric 2)])]]

/-- `x = 0 && 1;` -/
def assignZeroAndOne : Node :=
  program [assign (identifier "x") (operator .AND (numeric 0) (numeric 1))]

/-- `(1 && x);` -/
def parenthesisedAnd : Node :=
  program [.mk .Parenthetical 1 [some (operator .AND (numeric 1) (identifier "x"))]]

/-- `x = !0;` -/
def assignNotZero : Node :=
  program [assign (identifier "x") (.mk (.Unary .NOT_UNARY) 1 [some (numeric 0)])]

/-- `var a = 10; function func(foo, bar) { var gee = a; }`, the example of the
file comment of jsxmin_renaming.cpp. -/
def fileComment : Node :=
  program [var [assign (identifier "a") (numeric 10)],
    function "func" ["foo", "bar"] [var [assign (identifier "gee") (identifier "a")]]]

/-- `var a=1; function f(x){var y=x+1; return y;}` -/
def globalAndFunction : Node :=
  program [var [assign (identifier "a") (numeric 1)],
    function "f" ["x"]
      [var [assign (identifier "y") (operator .PLUS (identifier "x") (numeric 1))],
       returns (identifier "y")]]

/-- `function f(c){function g(y){}}` -/
def nestedFunction : Node :=
  program [function "f" ["c"] [function "g" ["y"] []]]

/-- `function f(){with(o){x=1;}}` -/
def functionWith : Node :=
  program [function "f" []
    [.mk .With 1 [some (identifier "o"),
      some (block [assign (identifier "x") (numeric 1)])]]]

end Example

end fbjs

namespace fbjs

/-! ## Properties of names and scopes -/

/-- The strings `NameFactory::next` runs through from `"a"`: a run of `z`,
then one more character from `a` to `z`. -/
def NameFactory.Fresh (d : List Char) : Prop :=
  ∃ k c, d = List.replicate k 'z' ++ [c] ∧ 'a'.toNat ≤ c.toNat ∧ c.toNat ≤ 'z'.toNat

/-- The sum of the character codes, which every call of `NameFactory::next`
increases. -/
def NameFactory.measure (d : List Char) : Nat :=
  (d.map Char.toNat).sum

/-- A factory as `LocalScope::rename_vars` uses it: no prefix, and `_current`
is one of the strings above. -/
def NameFactory.Good (f : NameFactory) : Prop :=
  f._prefix = "" ∧ NameFactory.Fresh f._current.data

/-- The entries stand in the strict order of their keys, as in a
`std::map`. -/
def rename_t.Sorted (m : List (String × String)) : Prop :=
  m.Pairwise fun a b => a.1 < b.1

/-- No two entries of the scope with different names share a new name. -/
def Scope.Injective (s : Scope) : Prop :=
  ∀ e1 ∈ s._replacement, ∀ e2 ∈ s._replacement, e1.2 = e2.2 → e1.1 = e2.1

/-- Every new name of an entry of the scope is in `_new_names`: every entry
went through `rename_internal`. -/
def Scope.Closed (s : Scope) : Prop :=
  ∀ e ∈ s._replacement, e.2 ∈ s._new_names

/-- The state of a local scope in the loop of `LocalScope::rename_vars` when
the entries of the names `pending` are still to come: the entries stand in the
order of their keys, and every entry that is through went through
`rename_internal`, is `event` kept as it is or has got a name of the factory
that came before `bound` and has the property `Q`; no two entries that are
through share a new name. -/
def LocalScope.Renamed (Q : String → Prop) (bound : Nat) (pending : List String)
    (s : Scope) : Prop :=
  rename_t.Sorted s._replacement ∧
    (∀ e ∈ s._replacement, e.1 ∉ pending →
      e.2 ∈ s._new_names ∧
        ((e.1 = "event" ∧ e.2 = "event") ∨
          (e.1 ≠ "event" ∧ NameFactory.Fresh e.2.data ∧
            NameFactory.measure e.2.data < bound ∧ Q e.2))) ∧
    (∀ e1 ∈ s._replacement, ∀ e2 ∈ s._replacement, e1.1 ∉ pending → e2.1 ∉ pending →
      e1.2 = e2.2 → e1.1 = e2.1)

/-- The `child_scope` of `function_scope` as it stands before
`child_scope.rename_vars()`: the arguments and the names of the body are
declared. -/
def VariableRenaming.child_scope (cs : List (Option Node)) (scope : ScopeChain) : ScopeChain :=
  let child_scope := scope.push
  let child_scope :=
    match cs.get? 1 with
    | some (some args) => declare_args args.childNodes child_scope
    | _ => child_scope
  match cs.get? 2 with
  | some (some body) => build_scope body child_scope
  | _ => child_scope

end fbjs

namespace fbjs

/-- The name is reserved in the scope: the scope maps it to itself and has it
among its new names, so that `in_use` reports it. -/
def Scope.Reserved (s : Scope) (name : String) : Prop :=
  rename_t.find s._replacement name = some name ∧ name ∈ s._new_names

/-- The global scope when `VariableRenaming::process(root)` has finished. -/
def VariableRenaming.finalGlobal (root : Node) : Scope :=
  (VariableRenaming.minify root
    { locals := [], global := VariableRenaming.globalScope root }).2.global

/-! ## More example programs -/

namespace Example

/-- The call `name(arg)`. -/
def callWith (name : String) (arg : Node) : Node :=
  .mk .FunctionCall 1 [some (identifier name), some (.mk .ArgList 1 [some arg])]

/-- The statement `try { tryBlock } catch (name) { catchBlock }`, without
`finally`. -/
def tryCatch (tryBlock : List Node) (name : String) (catchBlock : List Node) : Node :=
  .mk .Try 1 [some (block tryBlock), some (identifier name), some (block catchBlock), none]

/-- `function f(){try{g();}catch(e){h(e);}}` -/
def functionTry : Node :=
  function "f" [] [tryCatch [call "g"] "e" [callWith "h" (identifier "e")]]

/-- `function f(p){try{var x=p;}catch(e){}}` -/
def functionTryVar : Node :=
  function "f" ["p"] [tryCatch [var [assign (identifier "x") (identifier "p")]] "e" []]

/-- `x=1;` -/
def assignTopLevel : Node :=
  program [assign (identifier "x") (numeric 1)]

/-- `function f(){x=1;}` -/
def functionAssign : Node :=
  function "f" [] [assign (identifier "x") (numeric 1)]

end Example

end fbjs

namespace fbjs

/-! ## jsxmin_renaming.cpp: the property renaming pass -/

/-- The class `GlobalScope`: the members of `Scope` (there is no `_parent`)
with `_rename_private` and `_name_factory`. -/
structure GlobalScope where
  toScope : Scope
  _rename_private : Bool
  _name_factory : NameFactory
  deriving DecidableEq, Repr

namespace GlobalScope

/-- `GlobalScope(rename_private)`: the factory gets the prefix `_`. -/
def new (rename_private : Bool) : GlobalScope :=
  { toScope := Scope.empty, _rename_private := rename_private,
    _name_factory := NameFactory.new "_" }

/-- `Scope::declared(name)` on a scope without parent. -/
def declared (self : GlobalScope) (name : String) : Bool :=
  (rename_t.find self.toScope._replacement name).isSome

/-- `Scope::new_name(orig_name)` on a scope without parent. -/
def new_name (self : GlobalScope) (orig_name : String) : String :=
  (rename_t.find self.toScope._replacement orig_name).getD orig_name

/-- `Scope::in_use(name)` on a scope without parent. -/
def in_use (self : GlobalScope) (name : String) : Bool :=
  self.toScope._new_names.contains name

/-- `GlobalScope::rename_var(var_name)`; the loop `while (this->in_use(new_name))`
takes no more turns than there are names in use. -/
def rename_var (self : GlobalScope) (var_name : String) : GlobalScope :=
  let drawn := nextFree self.in_use self.toScope._new_names.length self._name_factory
  { self with
    toScope := self.toScope.rename_internal var_name drawn.1
    _name_factory := drawn.2 }

end GlobalScope

/-- The scope `t` has every entry of the scope `s`, and the same
`_rename_private`: names have been added to `s`, none has been changed. -/
def GlobalScope.Extends (s t : GlobalScope) : Prop :=
  t._rename_private = s._rename_private ∧
    ∀ name v, rename_t.find s.toScope._replacement name = some v →
      rename_t.find t.toScope._replacement name = some v

/-- The state of the property scope in the course of the pass: private names
are renamed, the factory has the prefix `_` and stands at one of its names,
every new name of the scope is `_` followed by a name that the factory gave
earlier, and no two entries with different names share a new name. -/
def GlobalScope.Good (s : GlobalScope) : Prop :=
  s._rename_private = true ∧ s._name_factory._prefix = "_" ∧
    NameFactory.Fresh s._name_factory._current.data ∧
    (∀ e ∈ s.toScope._replacement, ∃ d, e.2.data = '_' :: d ∧ NameFactory.Fresh d ∧
      NameFactory.measure d < NameFactory.measure s._name_factory._current.data) ∧
    s.toScope.Injective

/-- `NodeIdentifier::rename(str)`; another node is left as it is. -/
def Node.rename (n : Node) (str : String) : Node :=
  match n.identifierName with
  | some _ => .mk (.Identifier str) n.lineno n.childNodes
  | none => n

namespace PropertyRenaming

/-- The steps of `minify` on the name of a property: with `n` the node cast
to `NodeIdentifier`, `if (n && need_rename(n->name()))` the name is declared
and renamed by `rename_var` unless it is declared already, and the result is
`new_name(name)`, the name that `n->rename` is to set; `none` when the node is
not renamed. -/
def property_name (scope : GlobalScope) (n : Option Node) : Option String × GlobalScope :=
  match n.bind Node.identifierName with
  | some name =>
    if GlobalScope.need_rename scope._rename_private name then
      let scope :=
        if !scope.declared name then
          GlobalScope.rename_var { scope with toScope := scope.toScope.declare name } name
        else scope
      (some (scope.new_name name), scope)
    else (none, scope)
  | none => (none, scope)

/-- `n->rename(name)` on a child pointer, when there is a name to set. -/
def rename_slot (name : Option String) (n : Option Node) : Option Node :=
  match name, n with
  | some str, some n => some (n.rename str)
  | _, n => n

/-- `rename_slot` on `childNodes().front()`. -/
def rename_front (name : Option String) : List (Option Node) → List (Option Node)
  | [] => []
  | front :: rest => rename_slot name front :: rest

/-- `rename_slot` on `childNodes().back()`. -/
def rename_back (name : Option String) : List (Option Node) → List (Option Node)
  | [] => []
  | [back] => [rename_slot name back]
  | ii :: rest => ii :: rename_back name rest

mutual
/-- `PropertyRenaming::minify(node)` with the state of `_property_scope`
passed along. On a `NodeObjectLiteralProperty` the C++ renames the first child
and then calls `minify` on the last child; the model calls `minify` on the
last child in the scope as it is after the renaming and then sets the new
name on the first child, which is the same because `minify` keeps the class
of a node and does not look at the name of an identifier that is no
property. With no children at all `front()` and `back()` are undefined; the
model leaves the node as it is. On a `NodeStaticMemberExpression` whose last
child is no identifier the `assert` fails; the model renames nothing. -/
def minify : Node → GlobalScope → Node × GlobalScope
  | .mk k lineno cs, scope =>
    match k with
    | .ObjectLiteralProperty =>
      let p := property_name scope cs.head?.join
      let r := minify_back cs p.2
      (.mk k lineno (rename_front p.1 r.1), r.2)
    | .StaticMemberExpression =>
      match cs with
      | [] => (.mk k lineno cs, scope)
      | front :: rest =>
        let r := minify_slot front scope
        let p := property_name r.2 (r.1 :: rest).getLast?.join
        (.mk k lineno (rename_back p.1 (r.1 :: rest)), p.2)
    | _ =>
      let r := minify_children cs scope
      (.mk k lineno r.1, r.2)
/-- `minify(*ii)` for a child pointer, which may be null. -/
def minify_slot : Option Node → GlobalScope → Option Node × GlobalScope
  | none, scope => (none, scope)
  | some n, scope =>
    let r := minify n scope
    (some r.1, r.2)
/-- The loop `for_nodes(node, ii) minify(*ii)`. -/
def minify_children : List (Option Node) → GlobalScope → List (Option Node) × GlobalScope
  | [], scope => ([], scope)
  | ii :: rest, scope =>
    let r := minify_slot ii scope
    let r2 := minify_children rest r.2
    (r.1 :: r2.1, r2.2)
/-- `minify(node->childNodes().back())`. -/
def minify_back : List (Option Node) → GlobalScope → List (Option Node) × GlobalScope
  | [], scope => ([], scope)
  | [back], scope =>
    let r := minify_slot back scope
    ([r.1], r.2)
  | ii :: rest, scope =>
    let r := minify_back rest scope
    (ii :: r.1, r.2)
end

/-- `PropertyRenaming::process(root)` on a fresh `PropertyRenaming`, whose
`_property_scope` is a new `GlobalScope(true)`: `walker.walk(root)`, then
`minify(root)`. The result is the renamed tree; `none` when the walk leaves no
root. -/
def process (root : Node) : Option Node :=
  match walk (some root) with
  | some (some reduced) => some (minify reduced (GlobalScope.new true)).1
  | _ => none

end PropertyRenaming

/-- The name `f` gives to the node, when the node is an identifier whose name
`need_rename` holds of. -/
def Node.mappedName (rename_private : Bool) (f : String → String) :
    Option Node → Option String
  | none => none
  | some n =>
    match n.identifierName with
    | some name => if GlobalScope.need_rename rename_private name then some (f name) else none
    | none => none

mutual
/-- The tree in which every name of a property that `need_rename` holds of is
replaced by `f` of the name: the first child of a `NodeObjectLiteralProperty`
and the last child of a `NodeStaticMemberExpression`, when it is an
identifier. As `PropertyRenaming::minify` does, this goes on into the last
child of a property, into the first child of a member expression and into
every child of another node. -/
def Node.mapProperties (rename_private : Bool) (f : String → String) : Node → Node
  | .mk k lineno cs =>
    match k with
    | .ObjectLiteralProperty =>
      .mk k lineno
        (PropertyRenaming.rename_front (Node.mappedName rename_private f cs.head?.join)
          (Node.mapPropertiesBack rename_private f cs))
    | .StaticMemberExpression =>
      match cs with
      | [] => .mk k lineno cs
      | front :: rest =>
        .mk k lineno
          (PropertyRenaming.rename_back
            (Node.mappedName rename_private f
              (Node.mapPropertiesSlot rename_private f front :: rest).getLast?.join)
            (Node.mapPropertiesSlot rename_private f front :: rest))
    | _ => .mk k lineno (Node.mapPropertiesList rename_private f cs)
/-- `mapProperties` on a child pointer. -/
def Node.mapPropertiesSlot (rename_private : Bool) (f : String → String) :
    Option Node → Option Node
  | none => none
  | some n => some (Node.mapProperties rename_private f n)
/-- `mapProperties` on every child. -/
def Node.mapPropertiesList (rename_private : Bool) (f : String → String) :
    List (Option Node) → List (Option Node)
  | [] => []
  | ii :: rest =>
    Node.mapPropertiesSlot rename_private f ii :: Node.mapPropertiesList rename_private f rest
/-- `mapProperties` on the last child. -/
def Node.mapPropertiesBack (rename_private : Bool) (f : String → String) :
    List (Option Node) → List (Option Node)
  | [] => []
  | [back] => [Node.mapPropertiesSlot rename_private f back]
  | ii :: rest => ii :: Node.mapPropertiesBack rename_private f rest
end

/-- The tree with the name of every private property blanked out: what is
left is the shape of the tree and every name that is no private property
name. -/
def Node.maskProperties (n : Node) : Node :=
  Node.mapProperties true (fun _ => "") n

namespace Example

/-- `o._foo={_bar:1,_foo:2,baz:o._bar};` -/
def privateProperties : Node :=
  program
    [assign (staticMember (identifier "o") "_foo")
      (objectLiteral
        [property (identifier "_bar") (numeric 1),
         property (identifier "_foo") (numeric 2),
         property (identifier "baz") (staticMember (identifier "o") "_bar")])]

end Example

end fbjs

namespace fbjs

/-! ## node.cpp: equality and cloning -/

/-- The result of the virtual `operator==` of the class `thisK` on a node of
the class `thatK`, given what the loop of `Node::operator==` over the children
returns (`none` where that loop is undefined). The literals and the
identifier compare their values and do not look at the children; a
`NodeStringLiteral` compares `value` only. `NodeOperator`, `NodeAssignment`,
`NodeUnary`, `NodePostfix` and `NodeStatementWithExpression` call
`Node::operator==` and then compare `op` (`statement`). Every other class has
`Node::operator==`, which compares the `typeid`s and then the children. -/
def Node.eqKinds (thisK thatK : NodeKind) (children : Option Bool) : Option Bool :=
  let base := if thisK.data.tag ≠ thatK.data.tag then some false else children
  match thisK with
  | .NumericLiteral value =>
    some (match thatK with | .NumericLiteral v2 => value == v2 | _ => false)
  | .StringLiteral value _ =>
    some (match thatK with | .StringLiteral v2 _ => value == v2 | _ => false)
  | .RegexLiteral value flags =>
    some (match thatK with | .RegexLiteral v2 f2 => value == v2 && flags == f2 | _ => false)
  | .BooleanLiteral value =>
    some (match thatK with | .BooleanLiteral v2 => value == v2 | _ => false)
  | .Identifier name =>
    some (match thatK with | .Identifier n2 => name == n2 | _ => false)
  | .Operator op =>
    base.map fun r => r && (match thatK with | .Operator o2 => op == o2 | _ => false)
  | .Assignment op =>
    base.map fun r => r && (match thatK with | .Assignment o2 => op == o2 | _ => false)
  | .Unary op =>
    base.map fun r => r && (match thatK with | .Unary o2 => op == o2 | _ => false)
  | .Postfix op =>
    base.map fun r => r && (match thatK with | .Postfix o2 => op == o2 | _ => false)
  | .StatementWithExpression statement =>
    base.map fun r =>
      r && (match thatK with | .StatementWithExpression s2 => statement == s2 | _ => false)
  | _ => base

mutual
/-- `operator==` with the two nodes in either order: `eqFlip false x y` is
`x == y` and `eqFlip true x y` is `y == x`. The loop of `Node::operator==`
tests `**jj != **ii`, where `jj` runs over the children of `that` and `ii`
over those of `this`: the child of `that` is the one whose `operator==` is
called, so that the two nodes change places from one level to the next. The
result is `none` where the C++ is undefined. -/
def Node.eqFlip (flip : Bool) : Node → Node → Option Bool
  | .mk kx _ xs, y =>
    if flip then Node.eqKinds y.kind kx (Node.eqLoop flip xs y.childNodes)
    else Node.eqKinds kx y.kind (Node.eqLoop flip xs y.childNodes)
/-- The loop of `Node::operator==`. With `flip = false` the first list holds
the children of `this` (`ii`) and the second those of `that` (`jj`); with
`flip = true` it is the other way round. The loop ends with `true` when the
children of `this` are used up. Before that it reads `**jj` and `**ii`, which
is undefined when `that` has no child left or one of the two children is
null. The test is `**jj != **ii`, the `operator==` of the child of `that`.
When the children are not equal the result is `false`; when `jj` has come to
the end the result is `false` if `this` has a child left, else `true`. -/
def Node.eqLoop (flip : Bool) : List (Option Node) → List (Option Node) → Option Bool
  | [], [] => some true
  | [], _ :: _ => if flip then none else some true
  | _ :: _, [] => if flip then some true else none
  | some x :: xs, some y :: ys =>
    match Node.eqFlip (!flip) x y with
    | none => none
    | some false => some false
    | some true =>
      if flip then (if xs.isEmpty then some ys.isEmpty else Node.eqLoop flip xs ys)
      else (if ys.isEmpty then some xs.isEmpty else Node.eqLoop flip xs ys)
  | _ :: _, _ :: _ => none
end

/-- `*this == that`. -/
def Node.eq (self that : Node) : Option Bool :=
  Node.eqFlip false self that

/-- The data of a kind that `operator==` compares: the flat data without the
`quoted` of a string literal, the `_iterator` of a var declaration and the
data of the XML classes, whose classes have no `operator==` of their own. -/
def NodeKind.compared (k : NodeKind) : NodeKindData :=
  match k with
  | .StringLiteral _ _ | .VarDeclaration _ => { k.data with flag := false }
  | .XMLName _ _ | .XMLComment _ | .XMLPI _ => { k.data with text := "", text2 := "" }
  | .XMLTextData _ _ => { k.data with text := "", flag := false }
  | _ => k.data

/-- The classes that have an `operator==` of their own. -/
def NodeKind.hasOwnEq : NodeKind → Bool
  | .NumericLiteral _ | .StringLiteral _ _ | .RegexLiteral _ _ | .BooleanLiteral _
  | .Identifier _ | .Operator _ | .Assignment _ | .Unary _ | .Postfix _
  | .StatementWithExpression _ => true
  | _ => false

/-- The classes whose `operator==` does not look at the children: the
literals with a value and the identifier. -/
def NodeKind.isLeafCompared : NodeKind → Bool
  | .NumericLiteral _ | .StringLiteral _ _ | .RegexLiteral _ _ | .BooleanLiteral _
  | .Identifier _ => true
  | _ => false

mutual
/-- The two trees have the same shape: at every position the same number of
children, none of them null. -/
def Node.sameShape : Node → Node → Bool
  | .mk _ _ xs, y => Node.sameShapeList xs y.childNodes
/-- `sameShape` on the lists of children. -/
def Node.sameShapeList : List (Option Node) → List (Option Node) → Bool
  | [], [] => true
  | some x :: xs, some y :: ys => Node.sameShape x y && Node.sameShapeList xs ys
  | _, _ => false
end

mutual
/-- The two nodes are the same variant, carry the same compared payload and
have pairwise similar children (the children of a literal with a value and of
an identifier are not looked at). The line numbers play no part. -/
def Node.similar : Node → Node → Bool
  | .mk kx _ xs, y =>
    decide (kx.compared = y.kind.compared) &&
      (kx.isLeafCompared || Node.similarList xs y.childNodes)
/-- `similar` on the lists of children: the same number of children, a null
child with a null child only. -/
def Node.similarList : List (Option Node) → List (Option Node) → Bool
  | [], [] => true
  | none :: xs, none :: ys => Node.similarList xs ys
  | some x :: xs, some y :: ys => Node.similar x y && Node.similarList xs ys
  | _, _ => false
end

mutual
/-- `Node::clone()`, through the `clone` of each class: a new node of the
class is made from the data members, with the default `lineno` of the
constructor (0; a `NodeProgram` has 1), and `Node::clone(node)` appends the
clones of the children. The literals with a value return the new node at once,
without children. `NodeVarDeclaration::clone` calls the constructor without
`_iterator`, which is then `false`. -/
def Node.clone : Node → Node
  | .mk k _ cs =>
    match k with
    | .NumericLiteral _ | .StringLiteral _ _ | .RegexLiteral _ _ | .BooleanLiteral _ =>
      .mk k 0 []
    | .Program => .mk k 1 (Node.cloneList cs)
    | .VarDeclaration _ => .mk (.VarDeclaration false) 0 (Node.cloneList cs)
    | _ => .mk k 0 (Node.cloneList cs)
/-- The loop of `Node::clone`: `(*i) == NULL ? NULL : (*i)->clone()`. -/
def Node.cloneList : List (Option Node) → List (Option Node)
  | [] => []
  | none :: rest => none :: Node.cloneList rest
  | some c :: rest => some (Node.clone c) :: Node.cloneList rest
end

mutual
/-- Every node of the tree has the `lineno` that the constructors give by
default: 0, and 1 for a `NodeProgram`. -/
def Node.linenoReset : Node → Bool
  | .mk k l cs =>
    (l == (match k with | .Program => 1 | _ => 0)) && Node.linenoResetList cs
/-- `linenoReset` on the children. -/
def Node.linenoResetList : List (Option Node) → Bool
  | [] => true
  | none :: rest => Node.linenoResetList rest
  | some c :: rest => Node.linenoReset c && Node.linenoResetList rest
end

/-! ## jsxmin_reduction.cpp: the pattern replacement -/

namespace CodeReduction

mutual
/-- `CodeReduction::replace(haystack, needle, rep)` on a haystack that is not
null. The result is `none` where `*haystack == *needle` is undefined. -/
def replace : Node → Node → Node → Option Node
  | .mk k lineno cs, needle, rep =>
    match Node.eq (.mk k lineno cs) needle with
    | none => none
    | some true => some rep.clone
    | some false =>
      match replace_children cs needle rep with
      | none => none
      | some cs2 => some (.mk k lineno cs2)
/-- The loop of `replace` over the children; a null child stays null. -/
def replace_children : List (Option Node) → Node → Node → Option (List (Option Node))
  | [], _, _ => some []
  | none :: rest, needle, rep =>
    match replace_children rest needle rep with
    | none => none
    | some rest2 => some (none :: rest2)
  | some c :: rest, needle, rep =>
    match replace c needle rep with
    | none => none
    | some c2 =>
      match replace_children rest needle rep with
      | none => none
      | some rest2 => some (some c2 :: rest2)
end

/-- The loop of `CodeReduction::process` over `_replacement`, a `std::map`
from the needle strings to the replacement strings, which is gone through in
the order of the needle strings: `patterns` holds, in that order, the
expressions `find_expression(&left)` and `find_expression(&right)` that the
two strings parse to. The root is a `NodeProgram` and a needle is an
expression, so the root itself is not equal to a needle; where it is, the C++
deletes the root that the caller holds, and the model has no result. -/
def replace_all : List (Node × Node) → Node → Option Node
  | [], root => some root
  | (needle, rep) :: rest, root =>
    match Node.eq root needle with
    | some false =>
      match replace root needle rep with
      | some root2 => replace_all rest root2
      | none => none
    | _ => none

end CodeReduction

mutual
/-- The tree in which every outermost subtree that `found` holds of is
replaced by `rep`; what stands inside `rep` is not looked at. -/
def Node.replaceOutermost (found : Node → Bool) (rep : Node) : Node → Node
  | .mk k lineno cs =>
    if found (.mk k lineno cs) then rep
    else .mk k lineno (Node.replaceOutermostList found rep cs)
/-- `replaceOutermost` on the children. -/
def Node.replaceOutermostList (found : Node → Bool) (rep : Node) :
    List (Option Node) → List (Option Node)
  | [] => []
  | none :: rest => none :: Node.replaceOutermostList found rep rest
  | some c :: rest =>
    some (Node.replaceOutermost found rep c) :: Node.replaceOutermostList found rep rest
end

mutual
/-- The test `== needle` is defined at the tree and, where it is false, at
every subtree: `replace` never comes to an undefined comparison. -/
def Node.eqDefinedOn (needle : Node) : Node → Bool
  | .mk k lineno cs =>
    match Node.eq (.mk k lineno cs) needle with
    | none => false
    | some true => true
    | some false => Node.eqDefinedOnList needle cs
/-- `eqDefinedOn` on the children. -/
def Node.eqDefinedOnList (needle : Node) : List (Option Node) → Bool
  | [] => true
  | none :: rest => Node.eqDefinedOnList needle rest
  | some c :: rest => Node.eqDefinedOn needle c && Node.eqDefinedOnList needle rest
end

mutual
/-- The test `== needle` is false at the tree and at every subtree of it. -/
def Node.noMatch (needle : Node) : Node → Bool
  | .mk k lineno cs =>
    (Node.eq (.mk k lineno cs) needle == some false) && Node.noMatchList needle cs
/-- `noMatch` on the children. -/
def Node.noMatchList (needle : Node) : List (Option Node) → Bool
  | [] => true
  | none :: rest => Node.noMatchList needle rest
  | some c :: rest => Node.noMatch needle c && Node.noMatchList needle rest
end

namespace Example

/-- `f(x)` -/
def callFx : Node := callWith "f" (identifier "x")

/-- The string literal `"a"` as the parser makes it. -/
def quotedA : Node := .mk (.StringLiteral "\"a\"" true) 1 []

/-- A string literal with the same text that is not `quoted`. -/
def unquotedA : Node := .mk (.StringLiteral "\"a\"" false) 1 []

/-- `if(x)y();`, with no `else`: the third child is null. -/
def ifNoElse : Node := ifElse (identifier "x") (call "y") none

/-- The declaration `var k` of `for(var k in o)`, whose `_iterator` is set. -/
def varIterator : Node := .mk (.VarDeclaration true) 1 [some (identifier "k")]

/-- The identifier `a` on line 5. -/
def identifierLine5 : Node := .mk (.Identifier "a") 5 []

/-- `a;` -/
def programA : Node := program [identifier "a"]

end Example

end fbjs

namespace fbjs

/-! ## jsxmin_reduction.cpp: the pattern string -/

namespace CodeReduction

end CodeReduction

end fbjs

namespace fbjs

/-! ## Expressions whose operands are delimited -/

/-- The text `NodePostfix::render` puts after the operand. -/
def node_postfix_t.text : node_postfix_t → String
  | .INCR_POSTFIX => "++" | .DECR_POSTFIX => "--"

mutual
/-- The tree with every `lineno` set to 0. -/
def Node.withoutLineno : Node → Node
  | .mk k _ cs => .mk k 0 (Node.withoutLinenoList cs)
/-- `withoutLineno` on the children. -/
def Node.withoutLinenoList : List (Option Node) → List (Option Node)
  | [] => []
  | none :: rest => none :: Node.withoutLinenoList rest
  | some c :: rest => some (Node.withoutLineno c) :: Node.withoutLinenoList rest
end

/-- An identifier or an expression in parentheses. -/
def Node.isOperand (n : Node) : Bool :=
  match n.kind with
  | .Identifier _ | .Parenthetical => true
  | _ => false

/-- An expression of identifiers (names that `is_identifier` accepts),
parentheses, binary operators, unary operators and postfix operators in which
every operand of an operator is an identifier or stands in parentheses. -/
inductive Node.Delimited : Node → Prop
  | identifier (name : String) (l : Nat) :
      is_identifier name = true → Node.Delimited (.mk (.Identifier name) l [])
  | parenthetical (l : Nat) (e : Node) :
      Node.Delimited e → Node.Delimited (.mk .Parenthetical l [some e])
  | operator (op : node_operator_t) (l : Nat) (a b : Node) :
      Node.Delimited a → a.isOperand = true → Node.Delimited b → b.isOperand = true →
      Node.Delimited (.mk (.Operator op) l [some a, some b])
  | unary (op : node_unary_t) (l : Nat) (a : Node) :
      Node.Delimited a → a.isOperand = true → Node.Delimited (.mk (.Unary op) l [some a])
  | suffix (op : node_postfix_t) (l : Nat) (a : Node) :
      Node.Delimited a → a.isOperand = true → Node.Delimited (.mk (.Postfix op) l [some a])

/-- The characters of the compact rendering. -/
def Node.chars (g_fmt : Rat → String) (n : Node) : List Char :=
  (Node.render g_fmt n).data

/-- A character of an identifier: a letter, a digit, `$` or `_`. -/
def isIdentifierChar (c : Char) : Bool :=
  isalpha c || isdigit c || c == '$' || c == '_'

/-- A character an operand starts with: `(` or a character of an
identifier. -/
def isOperandStart (c : Char) : Bool :=
  c == '(' || isIdentifierChar c

/-- The characters after the `)` that closes the `depth + 1` parentheses open
at the start of the characters; `none` when it is not there. -/
def matchParen : Nat → List Char → Option (List Char)
  | _, [] => none
  | depth, c :: rest =>
    if c = '(' then matchParen (depth + 1) rest
    else if c = ')' then
      match depth with
      | 0 => some rest
      | d + 1 => matchParen d rest
    else matchParen depth rest

/-- The characters after the operand at the start of the characters: after
the parenthesis that closes the first one, or after the identifier
characters. -/
def afterOperand : List Char → Option (List Char)
  | [] => none
  | c :: rest =>
    if c = '(' then matchParen 0 rest
    else if isIdentifierChar c then some (rest.dropWhile isIdentifierChar)
    else none

namespace Example

/-- The tree of `(a-b)-c` as the parser builds it for `a-b-c`: no node for
parentheses. -/
def minusLeft : Node :=
  .mk (.Operator .MINUS) 1
    [some (.mk (.Operator .MINUS) 1 [some (identifier "a"), some (identifier "b")]),
     some (identifier "c")]

/-- The tree with the operands grouped to the right, `a-(b-c)`, without a
node for the parentheses. -/
def minusRight : Node :=
  .mk (.Operator .MINUS) 1
    [some (identifier "a"),
     some (.mk (.Operator .MINUS) 1 [some (identifier "b"), some (identifier "c")])]

/-- The tree of `(a++)+b`, without a node for the parentheses. -/
def postfixPlus : Node :=
  .mk (.Operator .PLUS) 1
    [some (.mk (.Postfix .INCR_POSTFIX) 1 [some (identifier "a")]), some (identifier "b")]

/-- The tree of `a+(++b)`, without a node for the parentheses. -/
def plusPrefix : Node :=
  .mk (.Operator .PLUS) 1
    [some (identifier "a"), some (.mk (.Unary .INCR_UNARY) 1 [some (identifier "b")])]

/-- The tree of `(a)-(b)` on line 1 and the same tree on other lines. -/
def parenMinus (l : Nat) : Node :=
  .mk (.Operator .MINUS) l
    [some (.mk .Parenthetical l [some (.mk (.Identifier "a") l [])]),
     some (.mk .Parenthetical l [some (.mk (.Identifier "b") l [])])]

end Example

end fbjs

namespace fbjs

/-! ## node.cpp: rendering with the `guts`

`Node::render(int opts)` sets `guts.pretty`, `guts.sanelineno` and
`guts.lineno = 1` and calls `render(&guts, 0)`. A render method is modelled
as a function of the guts that returns its rope and the guts after the call:
`guts->lineno` is the only member the methods write. Statements of a method
run one after the other (`seq`). Where one expression of a method makes two
calls that write the guts, as operands of `+` between ropes, C++ does not say
which call is made first: the model takes the order as a parameter,
`rightFirst`, by class (`plus`); thirteen classes have such an expression,
among them `NodeFunctionCall`, `NodeStaticMemberExpression` and `NodeWhile`.
Where a method dereferences a child that does not exist or is null, the model
takes the empty rope and leaves the guts as they are. -/

/-- `struct render_guts_t` of node.hpp. -/
structure render_guts_t where
  lineno : Nat
  pretty : Bool
  sanelineno : Bool
  deriving DecidableEq, Repr

/-- A call of a render method: from the guts before the call to the rope
returned and the guts after the call. -/
abbrev Rendering := render_guts_t → String × render_guts_t

namespace Rendering

/-- A constant rope. -/
def text (s : String) : Rendering := fun guts => (s, guts)

/-- A rendering that reads `guts->pretty`. -/
def withPretty (f : Bool → Rendering) : Rendering := fun guts => f guts.pretty guts

/-- A rendering that reads `guts->sanelineno`. -/
def withSanelineno (f : Bool → Rendering) : Rendering := fun guts => f guts.sanelineno guts

/-- The ropes of the calls, made one after the other, appended. -/
def seq : List Rendering → Rendering
  | [] => text ""
  | r :: rest => fun guts =>
    match r guts with
    | (a, guts1) =>
      match seq rest guts1 with
      | (b, guts2) => (a ++ b, guts2)

/-- The rope `l + r` of one expression in which both operands call a render
method: the rope of `l` comes first, and the call of `r` is made first when
`rightFirst` is set, the call of `l` otherwise. -/
def plus (rightFirst : Bool) (l r : Rendering) : Rendering := fun guts =>
  if rightFirst then
    match r guts with
    | (b, guts1) =>
      match l guts1 with
      | (a, guts2) => (a ++ b, guts2)
  else
    match l guts with
    | (a, guts1) =>
      match r guts1 with
      | (b, guts2) => (a ++ b, guts2)

/-- The rope of the first call is looked at to make the second one. -/
def andThen (r : Rendering) (f : String → Rendering) : Rendering := fun guts =>
  match r guts with
  | (a, guts1) => f a guts1

end Rendering

namespace guts

open Rendering

/-- The render methods of one node: `render(guts, indentation)`,
`renderStatement(guts, indentation)`,
`renderIndentedStatement(guts, indentation)` and
`renderBlock(must, guts, indentation)`. -/
structure Methods where
  render : Int → Rendering
  renderStatement : Int → Rendering
  renderIndentedStatement : Int → Rendering
  renderBlock : Bool → Int → Rendering

/-- A child pointer seen from the render method of its parent: null, or the
child with its methods. -/
abbrev RenderedChild := Option (Node × Methods)

/-- `child->render(guts, indentation)` for the child pointer in `slot`. -/
def childRender (slot : Option RenderedChild) (indentation : Int) : Rendering :=
  match slot with
  | some (some (_, m)) => m.render indentation
  | _ => text ""

/-- `child->renderBlock(must, guts, indentation)` for the child in `slot`. -/
def childRenderBlock (slot : Option RenderedChild) (must : Bool) (indentation : Int) :
    Rendering :=
  match slot with
  | some (some (_, m)) => m.renderBlock must indentation
  | _ => text ""

/-- `child->childNodes().empty()` for the child in `slot`. -/
def childEmpty (slot : Option RenderedChild) : Bool :=
  match slot with
  | some (some (n, _)) => n.empty
  | _ => true

/-- Whether the child pointer in `slot` is null. -/
def childNull (slot : Option RenderedChild) : Bool :=
  match slot with
  | some none => true
  | _ => false

/-- The loop `for (int i = 0; i < indentation; ++i) ret += "  "`. -/
def indent (indentation : Int) : String :=
  String.join (List.replicate indentation.toNat "  ")

/-- `Node::renderLinenoCatchup(guts, rope)` for a node on line `lineno`: what
is appended to the rope, the value returned, and the guts afterwards. -/
def renderLinenoCatchup (lineno : Nat) (guts : render_guts_t) :
    (String × Bool) × render_guts_t :=
  if lineno = 0 || guts.lineno ≥ lineno then (("", false), guts)
  else
    ((String.mk (List.replicate (lineno - guts.lineno) '\n'), true),
      { guts with lineno := lineno })

/-- `child->renderLinenoCatchup(guts, ret)` as a rendering: what is appended
to `ret`. -/
def childLinenoCatchup (slot : Option RenderedChild) : Rendering :=
  match slot with
  | some (some (n, _)) => fun guts =>
    let c := renderLinenoCatchup n.lineno guts
    (c.1.1, c.2)
  | _ => text ""

/-- `Node::renderImplodeChildren(guts, indentation, glue)`. -/
def renderImplodeChildren (glue : String) (indentation : Int) : List RenderedChild → Rendering
  | [] => text ""
  | [c] => childRender (some c) indentation
  | c :: rest =>
    seq [childRender (some c) indentation, text glue,
      renderImplodeChildren glue indentation rest]

/-- The `switch` of `NodeOperator::render`. -/
def operatorText (op : node_operator_t) (padding : Bool) : String :=
  match op with
  | .COMMA => "," | .RSHIFT3 => ">>>" | .RSHIFT => ">>" | .LSHIFT => "<<"
  | .OR => "||" | .AND => "&&" | .BIT_XOR => "^" | .BIT_AND => "&" | .BIT_OR => "|"
  | .EQUAL => "==" | .NOT_EQUAL => "!=" | .STRICT_EQUAL => "===" | .STRICT_NOT_EQUAL => "!=="
  | .LESS_THAN_EQUAL => "<=" | .GREATER_THAN_EQUAL => ">=" | .LESS_THAN => "<"
  | .GREATER_THAN => ">" | .PLUS => "+" | .MINUS => "-" | .DIV => "/" | .MULT => "*"
  | .MOD => "%"
  | .IN => if padding then " in " else "in"
  | .INSTANCEOF => if padding then " instanceof " else "instanceof"

/-- `NodeOperator::render`. -/
def NodeOperator.render (op : node_operator_t) (cs : List RenderedChild) (indentation : Int) :
    Rendering :=
  seq [childRender cs.head? indentation,
    withPretty fun pretty =>
      if pretty then
        -- padding = false
        text ((if op ≠ .COMMA then " " else "") ++ operatorText op false ++ " ")
      else text (operatorText op true),
    childRender cs.getLast? indentation]

/-- `NodeUnary::render`. -/
def NodeUnary.render (op : node_unary_t) (cs : List RenderedChild) (indentation : Int) :
    Rendering :=
  let isParenthetical : Bool :=
    match cs.head? with
    | some (some (n, _)) => n.kind = .Parenthetical
    | _ => false
  seq [text (op.text.1 ++ (if op.text.2 && !isParenthetical then " " else "")),
    childRender cs.head? indentation]

/-- `NodeIf::render`. -/
def NodeIf.render (cs : List RenderedChild) (indentation : Int) : Rendering :=
  let ifBlock := cs.get? 1
  let elseBlock := cs.get? 2
  let hasElse : Bool :=
    match elseBlock with
    | some (some _) => true
    | _ => false
  withPretty fun pretty =>
    let needBraces := pretty || childEmpty ifBlock || hasElse
    seq [text (if pretty then "if (" else "if("), childRender cs.head? indentation, text ")",
      childRenderBlock ifBlock needBraces indentation,
      match elseBlock with
      | some (some (e, m)) =>
        seq [text (if pretty then " else" else "else"),
          if e.kind = .If then
            seq [withSanelineno fun sanelineno =>
                if sanelineno then childLinenoCatchup elseBlock else text "",
              text " ", m.render indentation]
          else
            andThen (m.renderBlock false indentation) fun block =>
              if block.data.head? ≠ some '\x7b' ∧ block.data.head? ≠ some ' '
              then text (" " ++ block) else text block]
      | _ => text ""]

/-- `NodeTry::render`. -/
def NodeTry.render (cs : List RenderedChild) (indentation : Int) : Rendering :=
  withPretty fun pretty =>
    seq [text "try", childRenderBlock cs.head? true indentation,
      match cs.get? 1 with
      | some (some (_, m)) =>
        seq [text (if pretty then " catch (" else "catch("), m.render indentation, text ")",
          childRenderBlock (cs.get? 2) true indentation]
      | _ => text "",
      match cs.get? 3 with
      | some (some (_, m)) =>
        seq [text (if pretty then " finally" else "finally"), m.renderBlock true indentation]
      | _ => text ""]

/-- `NodeXMLElement::render`. -/
def NodeXMLElement.render (cs : List RenderedChild) (indentation : Int) : Rendering :=
  match cs.head? with
  | some (some (_, m)) =>
    seq [text "<", m.render indentation,
      if !childEmpty (cs.get? 1) then seq [text " ", childRender (cs.get? 1) indentation]
      else text "",
      if !childEmpty (cs.get? 2) then
        seq [text ">", childRender (cs.get? 2) indentation, text "</",
          childRender (cs.get? 3) indentation, text ">"]
      else
        match cs.get? 3 with
        | some (some (_, m3)) => seq [text "</", m3.render indentation, text ">"]
        | _ => text "/>"]
  | _ => seq [text "<", text ">", childRender (cs.get? 2) indentation, text "</>"]

/-- The method `render(guts, indentation)` of the class `k`, on the children
`cs` with their methods; `g_fmt` is the number formatting of `g_fmt.c`, and
`rightFirst` the order of the two calls in the `+` expression of the class,
where it has one. -/
def renderKind (rightFirst : Bool) (g_fmt : Rat → String) (k : NodeKind)
    (cs : List RenderedChild) (indentation : Int) : Rendering :=
  let front := childRender cs.head? indentation
  let back := childRender cs.getLast? indentation
  let second := childRender (cs.get? 1) indentation
  let third := childRender (cs.get? 2) indentation
  match k with
  | .Node | .Program => front
  | .StatementList =>
    seq (cs.map fun c =>
      match c with
      | some (_, m) => m.renderIndentedStatement indentation
      | none => text "")
  | .NumericLiteral value => text (g_fmt value)
  | .StringLiteral value quoted => text (NodeStringLiteral.render value quoted)
  | .RegexLiteral value flags => text ("/" ++ value ++ "/" ++ flags)
  | .BooleanLiteral value => text (if value then "true" else "false")
  | .NullLiteral => text "null"
  | .This => text "this"
  | .EmptyExpression => text ""
  | .Operator op => NodeOperator.render op cs indentation
  | .ConditionalExpression =>
    withPretty fun pretty =>
      seq [front, text (if pretty then " ? " else "?"), second,
        text (if pretty then " : " else ":"), third]
  | .Parenthetical => seq [text "(", front, text ")"]
  | .Assignment op =>
    withPretty fun pretty =>
      seq [front, text (if pretty then " " else ""), text op.text,
        text (if pretty then " " else ""), back]
  | .Unary op => NodeUnary.render op cs indentation
  | .Postfix op => seq [front, text op.text]
  | .Identifier name => text name
  | .FunctionCall => plus rightFirst front back
  | .FunctionConstructor => plus rightFirst (seq [text "new ", front]) back
  | .ObjectLiteral =>
    withPretty fun pretty =>
      seq [text "\x7b", renderImplodeChildren (if pretty then ", " else ",") indentation cs,
        text "\x7d"]
  | .ArrayLiteral =>
    withPretty fun pretty =>
      seq [text "[", renderImplodeChildren (if pretty then ", " else ",") indentation cs,
        text "]"]
  | .StaticMemberExpression => plus rightFirst (seq [front, text "."]) back
  | .DynamicMemberExpression => seq [plus rightFirst (seq [front, text "["]) back, text "]"]
  | .StatementWithExpression statement =>
    seq [text (match statement with
        | .THROW => "throw" | .RETURN => "return" | .CONTINUE => "continue"
        | .BREAK => "break"),
      match cs.getLast? with
      | some (some _) => seq [text " ", front]
      | _ => text ""]
  | .VarDeclaration _ =>
    withPretty fun pretty =>
      seq [text "var ", renderImplodeChildren (if pretty then ", " else ",") indentation cs]
  | .Typehint => plus rightFirst (seq [front, text ":"]) back
  | .FunctionDeclaration =>
    seq [text "function ", front, second, childRenderBlock (cs.get? 2) true indentation]
  | .FunctionExpression =>
    seq [text "function",
      match cs.head? with
      | some (some (_, m)) => seq [text " ", m.render indentation]
      | _ => text "",
      second, childRenderBlock (cs.get? 2) true indentation]
  | .ArgList =>
    withPretty fun pretty =>
      seq [text "(", renderImplodeChildren (if pretty then ", " else ",") indentation cs,
        text ")"]
  | .If => NodeIf.render cs indentation
  | .With =>
    withPretty fun pretty =>
      seq [text (if pretty then "with (" else "with("), front, text ")",
        childRenderBlock (cs.get? 1) false indentation]
  | .Try => NodeTry.render cs indentation
  | .Label =>
    withPretty fun pretty =>
      plus rightFirst (seq [front, text (if pretty then ": " else ":")]) back
  | .CaseClause => seq [text "case ", front, text ":"]
  | .Switch =>
    plus rightFirst (seq [text "switch(", front, text ")"])
      (childRenderBlock cs.getLast? true (indentation + 1))
  | .DefaultClause => text "default:"
  | .ObjectLiteralProperty =>
    withPretty fun pretty =>
      plus rightFirst (seq [front, text (if pretty then ": " else ":")]) back
  | .ForLoop =>
    withPretty fun pretty =>
      seq [text (if pretty then "for (" else "for("), front,
        text (if pretty then "; " else ";"), second, text (if pretty then "; " else ";"),
        third, text ")", childRenderBlock (cs.get? 3) false indentation]
  | .ForIn =>
    withPretty fun pretty =>
      seq [text (if pretty then "for (" else "for("), front, text " in ", second, text ")",
        childRenderBlock (cs.get? 2) false indentation]
  | .ForEachIn =>
    withPretty fun pretty =>
      seq [text (if pretty then "for each (" else "for each("), front, text " in ", second,
        text ")", childRenderBlock (cs.get? 2) false indentation]
  | .While =>
    withPretty fun pretty =>
      plus rightFirst (seq [text (if pretty then "while (" else "while("), front, text ")"])
        (childRenderBlock cs.getLast? false indentation)
  | .DoWhile =>
    seq [text "do", childRenderBlock cs.head? true indentation,
      withSanelineno fun sanelineno =>
        if sanelineno then childLinenoCatchup cs.getLast? else text "",
      withPretty fun pretty => text (if pretty then " while (" else "while("),
      back, text ")"]
  | .XMLDefaultNamespace => seq [text "default xml namespace = ", front]
  | .XMLName ns name => text (if ns.isEmpty then name else ns ++ ":" ++ name)
  | .XMLElement => NodeXMLElement.render cs indentation
  | .XMLComment comment => text ("<!--" ++ comment ++ "-->")
  | .XMLPI data => text ("<?" ++ data ++ "?>")
  | .XMLContentList => renderImplodeChildren "" indentation cs
  | .XMLTextData data _ => text data
  | .XMLEmbeddedExpression => seq [text "\x7b", front, text "\x7d"]
  | .XMLAttributeList => renderImplodeChildren " " indentation cs
  | .XMLAttribute =>
    let isTextData : Bool :=
      match cs.getLast? with
      | some (some (.mk (.XMLTextData _ _) _ _, _)) => true
      | _ => false
    if isTextData then seq [front, text "=", text "\"", back, text "\""]
    else seq [front, text "=", back]
  | .WildcardIdentifier => text "*"
  | .StaticAttributeIdentifier => seq [text "@", front]
  | .DynamicAttributeIdentifier => seq [text "@[", front, text "]"]
  | .StaticQualifiedIdentifier => plus rightFirst (seq [front, text "::"]) back
  | .DynamicQualifiedIdentifier =>
    seq [plus rightFirst (seq [front, text "::["]) back, text "]"]
  | .FilteringPredicate => seq [plus rightFirst (seq [front, text ".("]) back, text ")"]
  | .DescendantExpression => plus rightFirst (seq [front, text ".."]) back

/-- The method `renderStatement` of the class `k`, given its `render`:
`NodeExpression`, `NodeStatement` and `NodeLabel` add a semicolon;
`NodeStatementList`, `NodeCaseClause` and `Node` return the rendering. -/
def renderStatementKind (k : NodeKind) (render : Int → Rendering) (indentation : Int) :
    Rendering :=
  match k with
  | .StatementWithExpression _ | .VarDeclaration _ | .DoWhile | .XMLDefaultNamespace
  | .Label => seq [render indentation, text ";"]
  | _ => if k.isExpression then seq [render indentation, text ";"] else render indentation

/-- `Node::renderIndentedStatement` for a node on line `lineno`. -/
def Node.renderIndentedStatement (lineno : Nat) (renderStatement : Int → Rendering)
    (indentation : Int) : Rendering := fun guts =>
  if guts.pretty || guts.sanelineno then
    let c : (String × Bool) × render_guts_t :=
      if guts.sanelineno then renderLinenoCatchup lineno guts
      else if guts.lineno = 2 then (("\n", true), guts)
      else (("", false), { guts with lineno := 2 })
    let ret := if c.2.pretty && c.1.2 then c.1.1 ++ indent indentation else c.1.1
    match renderStatement indentation c.2 with
    | (s, guts1) => (ret ++ s, guts1)
  else renderStatement indentation guts

/-- The method `renderIndentedStatement` of the class `k`:
`NodeStatementList` returns its `render`, `NodeCaseClause` (and with it
`NodeDefaultClause`) calls `Node::renderIndentedStatement` with
`indentation - 1`. -/
def renderIndentedStatementKind (k : NodeKind) (lineno : Nat)
    (render renderStatement : Int → Rendering) (indentation : Int) : Rendering :=
  match k with
  | .StatementList => render indentation
  | .CaseClause | .DefaultClause =>
    Node.renderIndentedStatement lineno renderStatement (indentation - 1)
  | _ => Node.renderIndentedStatement lineno renderStatement indentation

/-- The end of the two `renderBlock` with braces: after the statements, the
catch-up of the node itself (a newline without `sanelineno`), the indentation
and the closing brace. -/
def closeBlock (lineno : Nat) (indentation : Int) : Rendering := fun guts =>
  if guts.pretty || guts.sanelineno then
    let c : (String × Bool) × render_guts_t :=
      if guts.sanelineno then renderLinenoCatchup lineno guts
      else (("\n", true), guts)
    let ret := if c.2.pretty && c.1.2 then c.1.1 ++ indent indentation else c.1.1
    (ret ++ "\x7d", c.2)
  else ("\x7d", guts)

/-- `Node::renderBlock` for a node on line `lineno`. -/
def Node.renderBlock (lineno : Nat) (renderStatement renderIndentedStatement : Int → Rendering)
    (must : Bool) (indentation : Int) : Rendering := fun guts =>
  if !must && !guts.pretty then
    seq [withSanelineno fun sanelineno =>
        if sanelineno then fun guts =>
          let c := renderLinenoCatchup lineno guts
          (c.1.1, c.2)
        else text "",
      renderStatement indentation] guts
  else
    seq [text (if guts.pretty then " \x7b" else "\x7b"),
      renderIndentedStatement (indentation + 1), closeBlock lineno indentation] guts

/-- The method `renderBlock(must, ...)` of the class `k`:
`NodeStatementList::renderBlock`, `NodeEmptyExpression::renderBlock` and
`Node::renderBlock` for the other classes. In the list, `front() == back()`
compares the first and the last child pointer: they are equal when the list
has one child or when both are null. -/
def renderBlockKind (k : NodeKind) (lineno : Nat) (cs : List RenderedChild)
    (renderStatement renderIndentedStatement : Int → Rendering) (must : Bool)
    (indentation : Int) : Rendering :=
  match k with
  | .StatementList => fun guts =>
    if !must && cs.isEmpty then (";", guts)
    else if !must && !guts.pretty &&
        (cs.length = 1 || (childNull cs.head? && childNull cs.getLast?)) then
      seq [withSanelineno fun sanelineno =>
          if sanelineno then fun guts =>
            let c := renderLinenoCatchup lineno guts
            (c.1.1, c.2)
          else text "",
        childRenderBlock cs.head? must indentation] guts
    else
      seq [text (if guts.pretty then " \x7b" else "\x7b"),
        renderIndentedStatement (indentation + 1), closeBlock lineno indentation] guts
  | .EmptyExpression => text ";"
  | _ => Node.renderBlock lineno renderStatement renderIndentedStatement must indentation

/-- The methods of a node of class `k` on line `lineno` with the children
`cs`; `rightFirst k` is the order of the two calls in the `+` expression of
`render` of the class `k`. -/
def methodsKind (rightFirst : NodeKind → Bool) (g_fmt : Rat → String) (k : NodeKind)
    (lineno : Nat) (cs : List RenderedChild) : Methods :=
  let render := renderKind (rightFirst k) g_fmt k cs
  let renderStatement := renderStatementKind k render
  let renderIndentedStatement := renderIndentedStatementKind k lineno render renderStatement
  { render := render
    renderStatement := renderStatement
    renderIndentedStatement := renderIndentedStatement
    renderBlock := renderBlockKind k lineno cs renderStatement renderIndentedStatement }

end guts

mutual
/-- The methods of a tree: those of the children first, then the methods of
the class of the node on them. -/
def Node.methods (rightFirst : NodeKind → Bool) (g_fmt : Rat → String) : Node → guts.Methods
  | .mk k l cs =>
    guts.methodsKind rightFirst g_fmt k l (Node.methodsList rightFirst g_fmt cs)
/-- The children with their methods. -/
def Node.methodsList (rightFirst : NodeKind → Bool) (g_fmt : Rat → String) :
    List (Option Node) → List guts.RenderedChild
  | [] => []
  | none :: rest => none :: Node.methodsList rightFirst g_fmt rest
  | some n :: rest =>
    some (n, Node.methods rightFirst g_fmt n) :: Node.methodsList rightFirst g_fmt rest
end

/-- `Node::render(int opts)`: the rope of `render(&guts, 0)` from
`guts.lineno = 1`, with `pretty = opts & RENDER_PRETTY` and
`sanelineno = opts & RENDER_MAINTAIN_LINENO`; `rightFirst` is the order in
which the build makes the two calls of a `+` expression, by class. -/
def Node.renderWith (rightFirst : NodeKind → Bool) (g_fmt : Rat → String)
    (pretty sanelineno : Bool) (n : Node) : String :=
  ((n.methods rightFirst g_fmt).render 0
    { lineno := 1, pretty := pretty, sanelineno := sanelineno }).1

/-! ## The line counter of the guts and the lines of the rope -/

/-- The number of newlines in a rope. -/
def newlines (s : String) : Nat :=
  s.data.count '\n'

/-- With `sanelineno` set, the call leaves `pretty` and `sanelineno` as they
are and moves `guts->lineno` forward by the number of newlines in the rope it
returns. -/
def Rendering.Tracks (r : Rendering) : Prop :=
  ∀ guts : render_guts_t, guts.sanelineno = true →
    (r guts).2.pretty = guts.pretty ∧ (r guts).2.sanelineno = true ∧
      (r guts).2.lineno = guts.lineno + newlines (r guts).1

/-- Every method of the node tracks the lines. -/
def guts.Methods.Tracks (m : guts.Methods) : Prop :=
  ∀ indentation : Int,
    (m.render indentation).Tracks ∧ (m.renderStatement indentation).Tracks ∧
      (m.renderIndentedStatement indentation).Tracks ∧
      ∀ must : Bool, (m.renderBlock must indentation).Tracks

/-- Every child that is not null has methods that track the lines. -/
def guts.ChildrenTrack (cs : List guts.RenderedChild) : Prop :=
  ∀ n m, some (n, m) ∈ cs → guts.Methods.Tracks m

/-- What the `render` of the class writes from its own data members: the
number as `g_fmt` writes it, the string literal as `NodeStringLiteral::render`
writes it, the body and flags of a regex, the name of an identifier, and the
texts of the XML classes. -/
def NodeKind.payloadText (g_fmt : Rat → String) : NodeKind → String
  | .NumericLiteral value => g_fmt value
  | .StringLiteral value quoted => NodeStringLiteral.render value quoted
  | .RegexLiteral value flags => value ++ flags
  | .Identifier name => name
  | .XMLName ns name => ns ++ name
  | .XMLComment comment => comment
  | .XMLPI data => data
  | .XMLTextData data _ => data
  | _ => ""

mutual
/-- No node of the tree writes a newline from its own data members. -/
def Node.payloadOnOneLine (g_fmt : Rat → String) : Node → Bool
  | .mk k _ cs =>
    decide (newlines (k.payloadText g_fmt) = 0) && Node.payloadOnOneLineList g_fmt cs
/-- `payloadOnOneLine` on the children. -/
def Node.payloadOnOneLineList (g_fmt : Rat → String) : List (Option Node) → Bool
  | [] => true
  | none :: rest => Node.payloadOnOneLineList g_fmt rest
  | some c :: rest => Node.payloadOnOneLine g_fmt c && Node.payloadOnOneLineList g_fmt rest
end

/-- The `indentation` with which `renderIndentedStatement` of the class calls
`Node::renderIndentedStatement`. -/
def NodeKind.statementIndentation (k : NodeKind) (indentation : Int) : Int :=
  match k with
  | .CaseClause | .DefaultClause => indentation - 1
  | _ => indentation

namespace Example

/-- The program of the one statement `"a"+"b";` on line 5. -/
def stringSum : Node :=
  .mk .Program 1
    [some (.mk .StatementList 5
      [some (.mk (.Operator .PLUS) 5
        [some (.mk (.StringLiteral "a" false) 5 []),
         some (.mk (.StringLiteral "b" false) 5 [])])])]

/-- The program `do \x7b\x7d while (x); y;`: the statements `do` on line 1
and `y` on line 2, the condition `x` with the line number 5. -/
def doWhileThenY : Node :=
  .mk .Program 1
    [some (.mk .StatementList 1
      [some (.mk .DoWhile 1
        [some (.mk .StatementList 1 []), some (.mk (.Identifier "x") 5 [])]),
       some (.mk (.Identifier "y") 2 [])])]

/-- The program of the one statement
`p.then(function()\x7ba;\x7d).then(function()\x7bb;\x7d);` written on three
lines, the line breaks before `a` and before `b`: every node carries the line
of its first token, the statement `a` and its list line 2, the second `then`
and its argument list line 2, the statement `b` and its list line 3. -/
def thenChain : Node :=
  .mk .Program 1
    [some (.mk .StatementList 1
      [some (.mk .FunctionCall 1
        [some (.mk .StaticMemberExpression 1
          [some (.mk .FunctionCall 1
            [some (.mk .StaticMemberExpression 1
              [some (.mk (.Identifier "p") 1 []), some (.mk (.Identifier "then") 1 [])]),
             some (.mk .ArgList 1
              [some (.mk .FunctionExpression 1
                [none, some (.mk .ArgList 1 []),
                 some (.mk .StatementList 2 [some (.mk (.Identifier "a") 2 [])])])])]),
           some (.mk (.Identifier "then") 2 [])]),
         some (.mk .ArgList 2
          [some (.mk .FunctionExpression 2
            [none, some (.mk .ArgList 2 []),
             some (.mk .StatementList 3 [some (.mk (.Identifier "b") 3 [])])])])])])]

/-- The program `a; if (b) c; d;` with the statements on the lines 1, 3, 4
and 6. -/
def fourLines : Node :=
  .mk .Program 1
    [some (.mk .StatementList 1
      [some (.mk (.Identifier "a") 1 []),
       some (.mk .If 3
        [some (.mk (.Identifier "b") 3 []), some (.mk (.Identifier "c") 4 []), none]),
       some (.mk (.Identifier "d") 6 [])])]

end Example

end fbjs

namespace fbjs

/-! ## jsxmin_renaming.cpp: the calls the pass makes

`build_scope` and `minify` call themselves on the children of a node. The
relations below say which calls a call makes, with the scope chain each call
is handed: one constructor for every call site of the source. -/

namespace VariableRenaming

/-- Whether `build_scope` goes on to the children of a node of the class: it
returns at a function expression, at a function declaration (whose name it
declares), at a `var` declaration (whose names it declares) and at a `try`
statement (whose catch variable it declares). -/
def scansChildren : NodeKind → Bool
  | .FunctionExpression | .FunctionDeclaration | .VarDeclaration _ | .Try => false
  | _ => true

/-- What `build_scope` does at a node of class `k` with the children `cs`
before the loop over the children: at a `for...in` and at an assignment whose
first child is an identifier that the chain does not declare, the name is
reserved in the global scope, `if (!scope->is_global() || for_in)`. -/
def reserve_target (k : NodeKind) (cs : List (Option Node)) (scope : ScopeChain) :
    ScopeChain :=
  if k = .ForIn || (match k with | .Assignment _ => true | _ => false) then
    match cs.head? with
    | some (some (.mk (.Identifier name) _ _)) =>
      if !scope.declared name && (!scope.is_global || k = .ForIn) then
        scope.reserveGlobal name
      else scope
    | _ => scope
  else scope

/-- `BuildScopeCalls n scope t scope2`: the call `build_scope(n, scope)` is
the call `build_scope(t, scope2)`, or makes it at some depth. In the loop
`for_nodes(node, ii) build_scope(*ii, scope)` the child `c` is handed the
scope as the node itself and the children before `c` have left it. -/
inductive BuildScopeCalls : Node → ScopeChain → Node → ScopeChain → Prop
  | self (n : Node) (scope : ScopeChain) : BuildScopeCalls n scope n scope
  | child (k : NodeKind) (l : Nat) (pre post : List (Option Node)) (c : Node)
      (scope : ScopeChain) (t : Node) (scope2 : ScopeChain) :
      scansChildren k = true →
      BuildScopeCalls c
        (build_scope_children pre (reserve_target k (pre ++ some c :: post) scope)) t scope2 →
      BuildScopeCalls (.mk k l (pre ++ some c :: post)) scope t scope2

/-- The `child_scope` of `minify` when the arguments of the function are
declared and `build_scope` is about to run on the body. -/
def args_scope (cs : List (Option Node)) (scope : ScopeChain) : ScopeChain :=
  match cs.get? 1 with
  | some (some args) => declare_args args.childNodes scope.push
  | _ => scope.push

/-- Whether `minify` treats a node of the class in its last branch, the loop
`for_nodes(node, ii) minify(*ii, scope)` over all children. -/
def minifiesChildren : NodeKind → Bool
  | .ObjectLiteralProperty | .StaticMemberExpression | .Identifier _
  | .FunctionDeclaration | .FunctionExpression => false
  | _ => true

/-- `MinifyCalls n scope path t scope2`: the call `minify(n, scope)` is the
call `minify(t, scope2)`, or makes it at some depth; `t` is the subtree of
`n` at the position `path`. The constructors are the call sites of `minify`:
the loop over the children (`child`), the last child of an object literal
property (`back`), the first child of a static member expression (`front`),
and, in a function without `with` and `eval`, the name, renamed in the scope
of the call (`functionName`), and the other children, renamed in the scope of
the function (`functionChild`); the global scope is handed on from call to
call. -/
inductive MinifyCalls : Node → ScopeChain → List Nat → Node → ScopeChain → Prop
  | self (n : Node) (scope : ScopeChain) : MinifyCalls n scope [] n scope
  | child (k : NodeKind) (l : Nat) (pre post : List (Option Node)) (c : Node)
      (scope : ScopeChain) (path : List Nat) (t : Node) (scope2 : ScopeChain) :
      minifiesChildren k = true →
      MinifyCalls c (minify_children pre scope).2 path t scope2 →
      MinifyCalls (.mk k l (pre ++ some c :: post)) scope (pre.length :: path) t scope2
  | back (l : Nat) (pre : List (Option Node)) (c : Node) (scope : ScopeChain)
      (path : List Nat) (t : Node) (scope2 : ScopeChain) :
      MinifyCalls c scope path t scope2 →
      MinifyCalls (.mk .ObjectLiteralProperty l (pre ++ [some c])) scope
        (pre.length :: path) t scope2
  | front (l : Nat) (c : Node) (rest : List (Option Node)) (scope : ScopeChain)
      (path : List Nat) (t : Node) (scope2 : ScopeChain) :
      MinifyCalls c scope path t scope2 →
      MinifyCalls (.mk .StaticMemberExpression l (some c :: rest)) scope (0 :: path) t scope2
  | functionName (k : NodeKind) (l : Nat) (c : Node) (rest : List (Option Node))
      (scope : ScopeChain) (path : List Nat) (t : Node) (scope2 : ScopeChain) :
      k.isFunction = true →
      function_has_with_or_eval_children (some c :: rest) = false →
      MinifyCalls c
        { locals := scope.locals, global := (function_scope (some c :: rest) scope).global }
        path t scope2 →
      MinifyCalls (.mk k l (some c :: rest)) scope (0 :: path) t scope2
  | functionChild (k : NodeKind) (l : Nat) (name : Option Node)
      (pre post : List (Option Node)) (c : Node) (scope : ScopeChain) (path : List Nat)
      (t : Node) (scope2 : ScopeChain) :
      k.isFunction = true →
      function_has_with_or_eval_children (name :: (pre ++ some c :: post)) = false →
      MinifyCalls c
        (minify_children pre
          { locals := (function_scope (name :: (pre ++ some c :: post)) scope).locals,
            global := (minify_slot name
              { locals := scope.locals,
                global :=
                  (function_scope (name :: (pre ++ some c :: post)) scope).global }).2.global
          }).2
        path t scope2 →
      MinifyCalls (.mk k l (name :: (pre ++ some c :: post))) scope
        ((pre.length + 1) :: path) t scope2

/-- `Scans root t scope`: while `process(root)` runs, the call
`build_scope(t, scope)` is made: by `build_scope(root, _global_scope)` at the
start (`top`), or by the `build_scope` on the body of a function without
`with` and `eval` that `minify` comes to (`function`). -/
inductive Scans (root : Node) : Node → ScopeChain → Prop
  | top (t : Node) (scope : ScopeChain) :
      BuildScopeCalls root { locals := [], global := Scope.empty } t scope →
      Scans root t scope
  | function (path : List Nat) (k : NodeKind) (l : Nat) (cs : List (Option Node))
      (body : Node) (fscope : ScopeChain) (t : Node) (scope : ScopeChain) :
      MinifyCalls root { locals := [], global := globalScope root } path (.mk k l cs) fscope →
      k.isFunction = true →
      function_has_with_or_eval_children cs = false →
      cs.get? 2 = some (some body) →
      BuildScopeCalls body (args_scope cs fscope) t scope →
      Scans root t scope

end VariableRenaming

namespace Example

/-- `function f()\x7btry\x7bx=1;\x7dcatch(e)\x7b\x7d\x7d` -/
def functionTryAssign : Node :=
  program [function "f" [] [tryCatch [assign (identifier "x") (numeric 1)] "e" []]]

/-- `function f(p)\x7bfunction g()\x7ba=1;\x7d\x7d` -/
def nestedAssign : Node :=
  program [function "f" ["p"] [function "g" [] [assign (identifier "a") (numeric 1)]]]

end Example

end fbjs

namespace fbjs

/-! ## The length of the compact rendering -/

/-- The test of `NodeIf::render` on the rope of an else block,
`block[0] != '\x7b' && block[0] != ' '`, negated: the rope starts with a brace
or a space, and no space is put before it. -/
def startsBlock (s : String) : Bool :=
  s.data.head? == some '\x7b' || s.data.head? == some ' '

/-- The rope `a` is not longer than `b`, and where it is as long as `b` it
starts as `b` does for the test of `NodeIf::render`, whatever follows. -/
def NotLonger (a b : String) : Prop :=
  a.length ≤ b.length ∧
    (a.length = b.length → ∀ t : String, startsBlock (a ++ t) = startsBlock (b ++ t))

/-- `child->renderStatement(guts, indentation)` for a child pointer. -/
def childStatement (c : RenderedChild) : String :=
  match c with
  | some (_, r) => r.renderStatement
  | none => ""

/-- `typeid(*child) == typeid(NodeIf)` for a child pointer that is not null. -/
def childIsIf (c : RenderedChild) : Bool :=
  match c with
  | some (n, _) => n.kind = .If
  | none => false

/-- `dynamic_cast<NodeParenthetical*>(child) != NULL`. -/
def childIsParenthetical (c : RenderedChild) : Bool :=
  match c with
  | some (n, _) => n.kind = .Parenthetical
  | none => false

/-- `typeid(*child) == typeid(NodeXMLTextData)`. -/
def childIsTextData (c : RenderedChild) : Bool :=
  match c with
  | some (.mk (.XMLTextData _ _) _ _, _) => true
  | _ => false

/-- What `NodeIf::render` appends after `else` for the else block `c`: a
space and the rendering of an `else if`, else the block, after a space where
it starts with neither a brace nor a space. -/
def elseRope (c : RenderedChild) : String :=
  match c with
  | some (e, ropes) =>
    if e.kind = .If then " " ++ ropes.render
    else if startsBlock (ropes.renderBlock false) then ropes.renderBlock false
    else " " ++ ropes.renderBlock false
  | none => ""

/-- What the render methods of a parent read of a child, compared between
the child `a` that stands in a slot after a reduction step and the child `b`
that stood there before: null stays null, the three ropes are not longer, a
child without children keeps none, and where `NodeIf::render` and the other
methods that look at the class of a child change their branch, the ropes they
then take are not longer than those they took. -/
structure ChildLE (a b : RenderedChild) : Prop where
  null : a = none ↔ b = none
  render : NotLonger (childRender (some a)) (childRender (some b))
  statement : NotLonger (childStatement a) (childStatement b)
  block : ∀ must, NotLonger (childRenderBlock (some a) must) (childRenderBlock (some b) must)
  empty : childEmpty (some b) = true → childEmpty (some a) = true
  braces : childEmpty (some a) = true → childEmpty (some b) = false →
    (childRenderBlock (some a) true).length ≤ (childRenderBlock (some b) false).length
  ifNew : childIsIf a = true → childIsIf b = false →
    (childRender (some a)).length + 1 ≤ (childRenderBlock (some b) false).length
  ifOld : childIsIf a = false → childIsIf b = true →
    (childRenderBlock (some a) false).length ≤ (childRender (some b)).length
  paren : childIsParenthetical b = true → childIsParenthetical a = true
  text : childIsTextData a = true → childIsTextData b = false →
    (childRender (some a)).length + 2 ≤ (childRender (some b)).length

/-- `ChildLE` on the slots of two child lists: a slot that does not exist in
the one list does not exist in the other. -/
def SlotLE (a b : Option RenderedChild) : Prop :=
  match a, b with
  | none, none => True
  | some x, some y => ChildLE x y
  | _, _ => False

/-- A child pointer with the ropes of its tree. -/
def rendered (g_fmt : Rat → String) (c : Option Node) : RenderedChild :=
  c.map fun n => (n, n.ropes g_fmt)

/-- `ChildLE` between two child pointers, each with the ropes of its tree. -/
def NodeLE (g_fmt : Rat → String) (a b : Option Node) : Prop :=
  ChildLE (rendered g_fmt a) (rendered g_fmt b)

/-- The statement rope of a node is not longer than either of its block
ropes. It holds of every node but a statement list of several children whose
first and last child are null, which `NodeStatementList::renderBlock` renders
as its null first child. -/
def Fits (g_fmt : Rat → String) (n : Node) : Prop :=
  ∀ must, (n.ropes g_fmt).renderStatement.length ≤ ((n.ropes g_fmt).renderBlock must).length

mutual
/-- Every node of the tree is of a class and has a child list that `p`
accepts. -/
def Node.all (p : NodeKind → List (Option Node) → Bool) : Node → Bool
  | .mk k _ cs => p k cs && Node.allList p cs
/-- `Node.all` on the children of a child list that are not null. -/
def Node.allList (p : NodeKind → List (Option Node) → Bool) : List (Option Node) → Bool
  | [] => true
  | none :: rest => Node.allList p rest
  | some n :: rest => Node.all p n && Node.allList p rest
end

/-- A child pointer as the walker leaves it: what `walk` returns for it. -/
def reducedChild (c : Option Node) : Option Node :=
  (walk c).join

/-- On the children of a node as the walker left them: the rule of
`ReductionWalker` for the node puts no new `true` or `false` in its place. The
rules that do are those of `!e` for a constant `e`, of `a && b` for a false
`a` or a true `a` and a false `b`, and of `a || b` for a false `a` and a false
`b`. -/
def keepsOperator (k : NodeKind) (visited : List (Option Node)) : Bool :=
  match k with
  | .Unary .NOT_UNARY => !compareSlot visited.head? true && !compareSlot visited.head? false
  | .Operator .AND =>
    !compareSlot visited.head? false &&
      !(compareSlot visited.head? true && compareSlot visited.getLast? false)
  | .Operator .OR => !(compareSlot visited.head? false && compareSlot visited.getLast? false)
  | _ => true

/-- The node is not folded to a new literal `true` or `false`: `keepsOperator`
on its children as the walker leaves them. -/
def noLiteralFold (k : NodeKind) (cs : List (Option Node)) : Bool :=
  keepsOperator k (cs.map reducedChild)

/-- The children that the rules of `ReductionWalker` take over are present: a
comma operator, an `&&` and an `||` have two children, the second not null;
the two branches of a conditional expression and the then-block of an `if` are
not null; an object literal property has two children; a statement list has no
null child. -/
def operandsPresent (k : NodeKind) (cs : List (Option Node)) : Bool :=
  match k with
  | .Operator .COMMA => cs.length == 2 && cs.get? 1 != some none
  | .Operator .AND => cs.length == 2 && cs.get? 1 != some none
  | .Operator .OR => cs.length == 2 && cs.get? 1 != some none
  | .ConditionalExpression => cs.get? 1 != some none && cs.get? 2 != some none
  | .If => cs.get? 1 != some none
  | .ObjectLiteralProperty => cs.length == 2
  | .StatementList => cs.all Option.isSome
  | _ => true

/-- What an action of `ReductionWalker::visit` keeps with respect to the
visited node `v`, for the compact rendering: the node that stays or comes in
is not longer than `v` (as `NodeLE` has it) and `Fits`; a node that is put in
the place of `v` is not null, and the one that `replaceAndVisit` visits next
is in normal form. -/
def ActionLE (g_fmt : Rat → String) (v : Node) : Action → Prop
  | .done n => NodeLE g_fmt (some n) (some v) ∧ Fits g_fmt n
  | .remove n => NodeLE g_fmt (some n) (some v) ∧ Fits g_fmt n
  | .replace m => ∃ r, m = some r ∧ NodeLE g_fmt (some r) (some v) ∧ Fits g_fmt r
  | .replaceAndVisit m =>
    ∃ r, m = some r ∧ NormalForm r ∧ NodeLE g_fmt (some r) (some v) ∧ Fits g_fmt r
  | .visitChildren n => NodeLE g_fmt (some n) (some v) ∧ Fits g_fmt n

/-- The two conditions `noLiteralFold` and `operandsPresent` on one node. -/
def plainNode (k : NodeKind) (cs : List (Option Node)) : Bool :=
  noLiteralFold k cs && operandsPresent k cs

namespace Example

/-- `if((false,true))\x7bx=a["b"];\x7delse y();z=!w&&(true||v);` -/
def commaIf : Node :=
  program
    [ifElse (.mk .Parenthetical 1 [some (operator .COMMA (boolean false) (boolean true))])
      (block [assign (identifier "x") (dynamicMember (identifier "a") (string "\"b\""))])
      (some (block [call "y"])),
     assign (identifier "z")
       (operator .AND (.mk (.Unary .NOT_UNARY) 1 [some (identifier "w")])
         (.mk .Parenthetical 1 [some (operator .OR (boolean true) (identifier "v"))]))]

/-- A comma operator with three children: it renders as `0,d;`, its first and
its last child. -/
def commaOfThree : Node :=
  program
    [.mk (.Operator .COMMA) 1
      [some (numeric 0), some (identifier "abcdef"), some (identifier "d")]]

/-- An `if (1)` whose block is a statement list with a null first and a null
last child: it renders as `if(1)`. -/
def ifNullStatements : Node :=
  program
    [ifElse (numeric 1) (.mk .StatementList 1 [none, some (call "abcdefgh"), none]) none]

end Example

end fbjs

open fbjs

theorem keywords_subset : ∀ x ∈ keywords, x ∈ reservedWords := by decide

theorem reservedWords_subset : ∀ x ∈ reservedWords, x ∈ keywords := by decide

theorem is_reserved_keyword_iff (id : String) :
    is_reserved_keyword id = true ↔ id ∈ reservedWords := by
  unfold is_reserved_keyword
  have h : keywords.contains id = true ↔ id ∈ keywords := by simp
  rw [h]
  exact ⟨keywords_subset id, reservedWords_subset id⟩

theorem isalpha_iff (c : Char) :
    isalpha c = true ↔ ('a' ≤ c ∧ c ≤ 'z') ∨ ('A' ≤ c ∧ c ≤ 'Z') := by
  unfold isalpha
  simp only [Bool.or_eq_true, Bool.and_eq_true, decide_eq_true_eq]

theorem isdigit_iff (c : Char) : isdigit c = true ↔ ('0' ≤ c ∧ c ≤ '9') := by
  unfold isdigit
  simp only [Bool.and_eq_true, decide_eq_true_eq]

theorem bool_part_aux (a d : Bool) (c : Char) :
    (!a && !d && c != '$' && c != '_') = false ↔
      (a = true ∨ d = true ∨ c = '$' ∨ c = '_') := by
  cases a <;> cases d <;> simp <;> tauto

theorem bool_start_aux (a : Bool) (c : Char) :
    (!a && c != '$' && c != '_') = false ↔ (a = true ∨ c = '$' ∨ c = '_') := by
  cases a <;> simp <;> tauto

theorem identifierPart_iff (c : Char) :
    (!isalpha c && !isdigit c && c != '$' && c != '_') = false ↔ IsIdentifierPart c := by
  rw [bool_part_aux, isalpha_iff, isdigit_iff]
  unfold IsIdentifierPart IsIdentifierStart
  tauto

theorem identifierStart_iff (c : Char) :
    (!isalpha c && c != '$' && c != '_') = false ↔ IsIdentifierStart c := by
  rw [bool_start_aux, isalpha_iff]
  unfold IsIdentifierStart
  tauto

theorem bool_eq_true_of_ne_false {b : Bool} (h : ¬ b = false) : b = true := by
  cases b
  · exact absurd rfl h
  · rfl

theorem is_identifier_loop_iff (rest : List Char) :
    is_identifier_loop rest = true ↔ ∀ c ∈ rest, IsIdentifierPart c := by
  induction rest with
  | nil => simp [is_identifier_loop]
  | cons c cs ih =>
    have hp := identifierPart_iff c
    unfold is_identifier_loop
    by_cases h : (!isalpha c && !isdigit c && c != '$' && c != '_') = false
    · rw [h]
      simp only [Bool.false_eq_true, if_false, ih, List.mem_cons, forall_eq_or_imp]
      exact ⟨fun hh => ⟨hp.1 h, hh⟩, fun hh => hh.2⟩
    · have h2 : (!isalpha c && !isdigit c && c != '$' && c != '_') = true :=
        bool_eq_true_of_ne_false h
      rw [h2]
      simp only [if_true, Bool.false_eq_true, List.mem_cons, forall_eq_or_imp, false_iff]
      exact fun hh => h (hp.2 hh.1)

/-- C10: `is_identifier(s)` holds exactly when `s` is non-empty, is not a
reserved word (ECMAScript keyword, future reserved word, `true`, `false`,
`null`), starts with a character of `[A-Za-z_$]` and continues with characters
of `[A-Za-z0-9_$]` only. -/
theorem is_identifier_iff (s : String) :
    is_identifier s = true ↔
      s.data ≠ [] ∧ s ∉ reservedWords ∧
        ∀ first rest, s.data = first :: rest →
          IsIdentifierStart first ∧ ∀ c ∈ rest, IsIdentifierPart c := by
  have hk := is_reserved_keyword_iff s
  unfold is_identifier
  cases hd : s.data with
  | nil => simp
  | cons first rest =>
    have hs := identifierStart_iff first
    have hl := is_identifier_loop_iff rest
    by_cases hr : is_reserved_keyword s = true
    · have : s ∈ reservedWords := hk.1 hr
      simp [hr, this]
    · have hnot : s ∉ reservedWords := fun h => hr (hk.2 h)
      by_cases hc : (!isalpha first && first != '$' && first != '_') = false
      · simp only [hr, hc, Bool.false_eq_true, if_false, hl]
        simp [hnot, hs.1 hc]
      · have hc2 : (!isalpha first && first != '$' && first != '_') = true :=
          bool_eq_true_of_ne_false hc
        simp only [hr, hc2, Bool.false_eq_true, if_false, if_true, false_iff]
        intro hh
        exact hc (hs.2 (hh.2.2 first rest (by simp)).1)

namespace fbjs

theorem Node.compare_numeric (value : Rat) (l : Nat) (cs : List (Option Node)) (val : Bool) :
    (Node.mk (.NumericLiteral value) l cs).compare val =
      (if val then value != 0 else value == 0) := by
  simp [Node.compare]

theorem Node.compare_boolean (value : Bool) (l : Nat) (cs : List (Option Node)) (val : Bool) :
    (Node.mk (.BooleanLiteral value) l cs).compare val = (val == value) := by
  simp [Node.compare]

theorem Node.compare_parenthetical (l : Nat) (inner : Node) (cs : List (Option Node))
    (val : Bool) :
    (Node.mk .Parenthetical l (some inner :: cs)).compare val = inner.compare val := by
  simp [Node.compare]

theorem Node.compare_isExpression {n : Node} {val : Bool} (h : n.compare val = true) :
    n.kind.isExpression = true := by
  cases n with
  | mk k l cs =>
    cases k <;> first | rfl | (simp [Node.compare] at h)

/-- C11: `compare(b)` is true exactly for a numeric literal whose value is
non-zero (`b` true) or zero (`b` false), for a boolean literal equal to `b`,
and for a parenthetical whose inner expression compares true with `b`; for
every other class it is false for both `b`. -/
theorem compare_iff (n : Node) (b : Bool) :
    n.compare b = true ↔
      (∃ value, n.kind = .NumericLiteral value ∧
          ((b = true ∧ value ≠ 0) ∨ (b = false ∧ value = 0))) ∨
      n.kind = .BooleanLiteral b ∨
      (n.kind = .Parenthetical ∧
          ∃ inner, n.childNodes.head? = some (some inner) ∧ inner.compare b = true) := by
  cases n with
  | mk k l cs =>
    cases k <;> simp [Node.compare, Node.kind, Node.childNodes]
    case NumericLiteral value => cases b <;> simp
    case BooleanLiteral value => cases b <;> cases value <;> simp
    case Parenthetical =>
      cases cs with
      | nil => simp [Node.compare]
      | cons c rest =>
        cases c with
        | none => simp [Node.compare]
        | some inner => simp [Node.compare]

end fbjs

open fbjs
namespace fbjs

/-! ## Projections -/

theorem Node.kind_mk (k : NodeKind) (l : Nat) (cs : List (Option Node)) :
    (Node.mk k l cs).kind = k := rfl

theorem Node.lineno_mk (k : NodeKind) (l : Nat) (cs : List (Option Node)) :
    (Node.mk k l cs).lineno = l := rfl

theorem Node.childNodes_mk (k : NodeKind) (l : Nat) (cs : List (Option Node)) :
    (Node.mk k l cs).childNodes = cs := rfl

theorem Node.setLineno_mk (k : NodeKind) (l l2 : Nat) (cs : List (Option Node)) :
    (Node.mk k l cs).setLineno l2 = Node.mk k l2 cs := rfl

theorem Node.setChildNodes_mk (k : NodeKind) (l : Nat) (cs cs2 : List (Option Node)) :
    (Node.mk k l cs).setChildNodes cs2 = Node.mk k l cs2 := rfl

theorem Node.setChildNodes_childNodes (n : Node) : n.setChildNodes n.childNodes = n := by
  cases n; rfl

theorem Node.kind_setChildNodes (n : Node) (cs : List (Option Node)) :
    (n.setChildNodes cs).kind = n.kind := by
  cases n; rfl

theorem Node.lineno_setChildNodes (n : Node) (cs : List (Option Node)) :
    (n.setChildNodes cs).lineno = n.lineno := by
  cases n; rfl

theorem Node.childNodes_setChildNodes (n : Node) (cs : List (Option Node)) :
    (n.setChildNodes cs).childNodes = cs := by
  cases n; rfl

theorem Node.kind_setLineno (n : Node) (l : Nat) : (n.setLineno l).kind = n.kind := by
  cases n; rfl

theorem Node.childNodes_setLineno (n : Node) (l : Nat) :
    (n.setLineno l).childNodes = n.childNodes := by
  cases n; rfl

theorem Node.lineno_setLineno (n : Node) (l : Nat) : (n.setLineno l).lineno = l := by
  cases n; rfl

/-! ## Weights -/

theorem Node.weight_mk (k : NodeKind) (l : Nat) (cs : List (Option Node)) :
    (Node.mk k l cs).weight = 1 + Node.weightList cs + bonus k cs := by
  rw [Node.weight]

theorem slotWeight_some (n : Node) : slotWeight (some n) = n.weight := rfl

theorem slotWeight_none : slotWeight none = 0 := rfl

theorem Node.weightList_cons (c : Option Node) (cs : List (Option Node)) :
    Node.weightList (c :: cs) = slotWeight c + Node.weightList cs := by
  cases c <;> simp [Node.weightList, slotWeight]

theorem Node.weightList_nil : Node.weightList [] = 0 := by
  simp [Node.weightList]

theorem Node.weight_setLineno (n : Node) (l : Nat) : (n.setLineno l).weight = n.weight := by
  cases n with
  | mk k l0 cs => simp [Node.setLineno, Node.weight_mk]

theorem Node.weight_pos (n : Node) : 0 < n.weight := by
  cases n with
  | mk k l cs => rw [Node.weight_mk]; omega

theorem slotWeight_le_weightList {c : Option Node} {cs : List (Option Node)} (h : c ∈ cs) :
    slotWeight c ≤ Node.weightList cs := by
  induction cs with
  | nil => cases h
  | cons d ds ih =>
    rw [Node.weightList_cons]
    rcases List.mem_cons.1 h with h | h
    · subst h; omega
    · have := ih h; omega

theorem Node.weightList_lt_weight (n : Node) : Node.weightList n.childNodes < n.weight := by
  cases n with
  | mk k l cs => simp [Node.childNodes, Node.weight_mk]; omega

theorem slotWeight_lt_weight {c : Option Node} {n : Node} (h : c ∈ n.childNodes) :
    slotWeight c < n.weight :=
  Nat.lt_of_le_of_lt (slotWeight_le_weightList h) (Node.weightList_lt_weight n)

end fbjs

open fbjs
namespace fbjs

theorem mem_of_head? {α : Type} {l : List α} {x : α} (h : l.head? = some x) : x ∈ l := by
  cases l with
  | nil => simp at h
  | cons a t => simp at h; simp [h]

theorem mem_of_getLast? {α : Type} {l : List α} {x : α} (h : l.getLast? = some x) : x ∈ l :=
  List.mem_of_getLast?_eq_some h

theorem mem_of_get? {α : Type} {l : List α} {i : Nat} {x : α} (h : l.get? i = some x) :
    x ∈ l :=
  List.get?_mem h

theorem compareSlot_eq_true {s : Option (Option Node)} {val : Bool}
    (h : compareSlot s val = true) : ∃ e, s = some (some e) ∧ e.compare val = true := by
  unfold compareSlot at h
  split at h
  · rename_i e
    simp only [Bool.and_eq_true] at h
    exact ⟨e, rfl, h.2⟩
  · simp at h

theorem compareSlot_some (e : Node) (val : Bool) :
    compareSlot (some (some e)) val = e.compare val := by
  have hx : compareSlot (some (some e)) val = (e.kind.isExpression && e.compare val) := rfl
  rw [hx]
  cases h : e.compare val
  · simp
  · rw [Node.compare_isExpression h]; rfl

theorem weight_booleanLiteral (b : Bool) :
    slotWeight (some (Node.mk (.BooleanLiteral b) 0 [])) = 1 := by
  simp [slotWeight, Node.weight_mk, Node.weightList_nil, bonus]

theorem two_le_weight_of_child {v e : Node} (h : some e ∈ v.childNodes) : 2 ≤ v.weight := by
  have h1 := slotWeight_lt_weight h
  have h2 := Node.weight_pos e
  simp only [slotWeight] at h1
  omega

theorem two_le_weight_of_compareSlot_head {v : Node} {val : Bool}
    (h : compareSlot v.childNodes.head? val = true) : 2 ≤ v.weight := by
  obtain ⟨e, he, _⟩ := compareSlot_eq_true h
  exact two_le_weight_of_child (mem_of_head? he)

theorem visitNodeOperator_ok (op : node_operator_t) (v : Node) :
    ActionOK v (ReductionWalker.visitNodeOperator op v) := by
  unfold ReductionWalker.visitNodeOperator
  simp only []
  split
  all_goals (repeat' split)
  all_goals first
    | (simp only [ActionOK]; exact Nat.le_refl _)
    | (simp only [ActionOK, weight_booleanLiteral]
       exact two_le_weight_of_compareSlot_head (by assumption))
    | (simp only [ActionOK]
       exact slotWeight_lt_weight (mem_of_head? (by assumption)))
    | (simp only [ActionOK]
       exact slotWeight_lt_weight (mem_of_get? (by assumption)))
    | skip

theorem visitNodeUnary_ok (op : node_unary_t) (v : Node) :
    ActionOK v (ReductionWalker.visitNodeUnary op v) := by
  unfold ReductionWalker.visitNodeUnary
  simp only []
  repeat' split
  all_goals first
    | (simp only [ActionOK]; exact Nat.le_refl _)
    | (simp only [ActionOK, weight_booleanLiteral]
       exact two_le_weight_of_compareSlot_head (by assumption))

theorem visitNodeConditionalExpression_ok (v : Node) :
    ActionOK v (ReductionWalker.visitNodeConditionalExpression v) := by
  unfold ReductionWalker.visitNodeConditionalExpression
  simp only []
  repeat' split
  all_goals first
    | (simp only [ActionOK]; exact Nat.le_refl _)
    | (simp only [ActionOK]
       exact slotWeight_lt_weight (mem_of_get? (by assumption)))

theorem visitNodeFunctionCall_ok (v : Node) :
    ActionOK v (ReductionWalker.visitNodeFunctionCall v) := by
  unfold ReductionWalker.visitNodeFunctionCall
  repeat' split
  all_goals first
    | (simp only [ActionOK]; exact Nat.le_refl _)
    | (simp only [ActionOK, weight_booleanLiteral]
       exact two_le_weight_of_child (mem_of_head? (by assumption)))

theorem visitNodeExpression_ok (parent : Option NodeKind) (v : Node) :
    ActionOK v (ReductionWalker.visitNodeExpression parent v) := by
  unfold ReductionWalker.visitNodeExpression
  repeat' split
  all_goals first
    | (simp only [ActionOK]; exact Nat.le_refl _)
    | (simp only [ActionOK])

theorem bonus_eq_zero {k : NodeKind} (h : k ≠ .If) (h2 : k ≠ .DynamicMemberExpression)
    (cs : List (Option Node)) : bonus k cs = 0 := by
  unfold bonus
  split
  · exact absurd rfl h
  · exact absurd rfl h2
  · rfl

theorem bonus_dynamic (cs : List (Option Node)) :
    bonus .DynamicMemberExpression cs = 1 := by
  unfold bonus
  split <;> simp_all

theorem bonus_le (k : NodeKind) (cs : List (Option Node)) : bonus k cs ≤ 2 := by
  unfold bonus
  split <;> omega

theorem visitNodeObjectLiteralProperty_ok (v : Node) :
    ActionOK v (ReductionWalker.visitNodeObjectLiteralProperty v) := by
  unfold ReductionWalker.visitNodeObjectLiteralProperty
  cases v with
  | mk k l cs =>
    simp only [Node.childNodes, Node.lineno]
    repeat' split
    all_goals first
      | (simp only [ActionOK]; exact Nat.le_refl _)
      | (simp only [ActionOK, slotWeight_some, Node.weight_mk, Node.weightList_cons,
           Node.weightList_nil]
         rw [bonus_eq_zero (k := NodeKind.ObjectLiteralProperty) (by decide) (by decide),
           bonus_eq_zero (k := NodeKind.Identifier _) (by simp) (by simp)]
         omega)

theorem visitNodeDynamicMemberExpression_ok (v : Node)
    (hk : v.kind = .DynamicMemberExpression) :
    ActionOK v (ReductionWalker.visitNodeDynamicMemberExpression v) := by
  unfold ReductionWalker.visitNodeDynamicMemberExpression
  split
  · rename_i value quoted litLineno cs object hlast hhead
    simp only []
    split
    · simp only [ActionOK]; exact Nat.le_refl _
    · have h1 := slotWeight_le_weightList (mem_of_head? hhead)
      cases v with
      | mk k l vs =>
        simp only [Node.kind] at hk
        subst hk
        simp only [Node.childNodes] at h1
        simp only [ActionOK, slotWeight_some, Node.weight_mk, Node.weightList_cons,
          Node.weightList_nil, bonus_dynamic]
        rw [bonus_eq_zero (k := NodeKind.StaticMemberExpression) (by decide) (by decide),
          bonus_eq_zero (k := NodeKind.Identifier _) (by simp) (by simp)]
        omega
  · simp only [ActionOK]; exact Nat.le_refl _

theorem bonus_if_else (a b : Option Node) (e : Node) (rest : List (Option Node)) :
    bonus .If (a :: b :: some e :: rest) = 2 := by
  unfold bonus
  split <;> simp_all

theorem bonus_if_none (a b : Option Node) (rest : List (Option Node)) :
    bonus .If (a :: b :: none :: rest) = 0 := by
  unfold bonus
  split <;> simp_all

theorem visitNodeIfEmptyBlocks_ok (v : Node) (hk : v.kind = .If) :
    ActionOK v (ReductionWalker.visitNodeIfEmptyBlocks v) := by
  unfold ReductionWalker.visitNodeIfEmptyBlocks
  cases v with
  | mk k l vs =>
    simp only [Node.kind_mk] at hk
    subst hk
    simp only [Node.childNodes_mk]
    split
    · rename_i expression ifBlock elseSlot rest
      have hpos := Node.weight_pos ifBlock
      cases elseSlot with
      | none =>
        simp only []
        split
        · simp only [ActionOK, slotWeight_some, Node.weight_mk, Node.weightList_cons,
            slotWeight_none]
          omega
        · simp only [ActionOK, Node.setChildNodes_mk]; exact Nat.le_refl _
      | some e =>
        simp only []
        by_cases hemp : e.childNodes.isEmpty = true
        · simp only [hemp, if_true]
          split
          · simp only [ActionOK, slotWeight_some, Node.weight_mk, Node.weightList_cons,
              bonus_if_else]
            omega
          · simp only [ActionOK, Node.setChildNodes_mk, slotWeight_some, Node.weight_mk,
              Node.weightList_cons, slotWeight_none, bonus_if_else, bonus_if_none]
            omega
        · simp only [hemp, Bool.false_eq_true, if_false]
          split
          · simp only [ActionOK, Node.setChildNodes_mk, slotWeight_some, Node.weight_mk,
              Node.weightList_cons, Node.weightList_nil, slotWeight_none, bonus_if_else,
              bonus_if_none]
            rw [bonus_eq_zero (k := NodeKind.Unary _) (by simp) (by simp),
              bonus_eq_zero (k := NodeKind.Parenthetical) (by simp) (by simp)]
            omega
          · simp only [ActionOK, Node.setChildNodes_mk]; exact Nat.le_refl _
    · simp only [ActionOK]; exact Nat.le_refl _

theorem visitNodeIf_ok (v : Node) (hk : v.kind = .If) :
    ActionOK v (ReductionWalker.visitNodeIf v) := by
  unfold ReductionWalker.visitNodeIf
  simp only []
  split
  · split
    · simp only [ActionOK]
      exact Nat.le_of_lt (slotWeight_lt_weight (mem_of_get? (by assumption)))
    · simp only [ActionOK]; exact Nat.le_refl _
  · split
    · split
      · simp only [ActionOK]
      · simp only [ActionOK]
        exact Nat.le_of_lt (slotWeight_lt_weight (mem_of_get? (by assumption)))
      · simp only [ActionOK]; exact Nat.le_refl _
    · exact visitNodeIfEmptyBlocks_ok v hk

theorem visit_ok (parent : Option NodeKind) (v : Node) :
    ActionOK v (ReductionWalker.visit parent v) := by
  unfold ReductionWalker.visit
  split
  · exact visitNodeOperator_ok _ v
  · exact visitNodeUnary_ok _ v
  · exact visitNodeConditionalExpression_ok v
  · exact visitNodeFunctionCall_ok v
  · exact visitNodeIf_ok v (by assumption)
  · exact visitNodeObjectLiteralProperty_ok v
  · exact visitNodeDynamicMemberExpression_ok v (by assumption)
  · split
    · exact visitNodeExpression_ok parent v
    · simp only [ActionOK]; exact Nat.le_refl _

end fbjs

open fbjs
namespace fbjs

/-! ## The traversal: unfolding, fuel -/

theorem visitChildren_nil (r : Bool) (h : Option Node → Option NodeWalker) :
    visitChildren r h [] = some [] := by
  simp [visitChildren]

theorem visitChildren_cons (r : Bool) (h : Option Node → Option NodeWalker)
    (c : Option Node) (cs : List (Option Node)) :
    visitChildren r h (c :: cs) =
      match h c with
      | none => none
      | some walker =>
        match visitChildren r h cs with
        | none => none
        | some rest2 => if r then some rest2 else some (walker._node :: rest2) := by
  rw [visitChildren]
  all_goals
    cases h c with
    | none => rfl
    | some w => cases visitChildren r h cs <;> rfl

theorem visitChildren_mono {r : Bool} {h h2 : Option Node → Option NodeWalker}
    (hh : ∀ c w, h c = some w → h2 c = some w) :
    ∀ {cs out}, visitChildren r h cs = some out → visitChildren r h2 cs = some out := by
  intro cs
  induction cs with
  | nil => intro out h1; simpa [visitChildren_nil] using h1
  | cons c cs ih =>
    intro out h1
    rw [visitChildren_cons] at h1
    rw [visitChildren_cons]
    cases hc : h c with
    | none => rw [hc] at h1; cases h1
    | some w =>
      rw [hc] at h1
      rw [hh c w hc]
      cases hr : visitChildren r h cs with
      | none => rw [hr] at h1; cases h1
      | some rest2 =>
        rw [hr] at h1
        rw [ih hr]
        exact h1

/-- The child lists `cs2`, slot by slot not heavier than `cs`, or emptied. -/
theorem visitChildren_total {r : Bool} {h : Option Node → Option NodeWalker} :
    ∀ {cs : List (Option Node)},
      (∀ c ∈ cs, ∃ w, h c = some w ∧ slotWeight w._node ≤ slotWeight c) →
      ∃ out, visitChildren r h cs = some out ∧
        (out = [] ∨ List.Forall₂ (fun a b => slotWeight a ≤ slotWeight b) out cs) := by
  intro cs
  induction cs with
  | nil => intro _; exact ⟨[], visitChildren_nil r h, Or.inl rfl⟩
  | cons c cs ih =>
    intro hall
    obtain ⟨w, hw, hle⟩ := hall c (List.mem_cons_self c cs)
    obtain ⟨out, hout, hrel⟩ := ih (fun d hd => hall d (List.mem_cons_of_mem c hd))
    rw [visitChildren_cons, hw, hout]
    cases r with
    | true =>
      refine ⟨out, rfl, ?_⟩
      -- with the flag set every child is unlinked
      left
      have : ∀ {ds : List (Option Node)} {o}, visitChildren true h ds = some o → o = [] := by
        intro ds
        induction ds with
        | nil => intro o ho; simpa [visitChildren_nil] using ho.symm
        | cons d ds ihd =>
          intro o ho
          rw [visitChildren_cons] at ho
          cases hd : h d with
          | none => rw [hd] at ho; cases ho
          | some wd =>
            rw [hd] at ho
            cases hr : visitChildren true h ds with
            | none => rw [hr] at ho; cases ho
            | some r2 =>
              rw [hr] at ho
              simp only [if_true] at ho
              cases ho
              exact ihd hr
      exact this hout
    | false =>
      refine ⟨w._node :: out, rfl, Or.inr ?_⟩
      rcases hrel with hrel | hrel
      · subst hrel
        -- out = [] only if cs = []
        have hcs : cs = [] := by
          cases cs with
          | nil => rfl
          | cons d ds =>
            rw [visitChildren_cons] at hout
            cases hd : h d with
            | none => rw [hd] at hout; cases hout
            | some wd =>
              rw [hd] at hout
              cases hr : visitChildren false h ds with
              | none => rw [hr] at hout; cases hout
              | some r2 => rw [hr] at hout; simp at hout
        subst hcs
        exact List.Forall₂.cons hle List.Forall₂.nil
      · exact List.Forall₂.cons hle hrel

theorem weightList_le_of_forall₂ {out cs : List (Option Node)}
    (h : List.Forall₂ (fun a b => slotWeight a ≤ slotWeight b) out cs) :
    Node.weightList out ≤ Node.weightList cs := by
  induction h with
  | nil => exact Nat.le_refl _
  | cons hab _ ih =>
    rw [Node.weightList_cons, Node.weightList_cons]
    omega

theorem slotWeight_eq_zero {c : Option Node} (h : slotWeight c ≤ 0) : c = none := by
  cases c with
  | none => rfl
  | some n =>
    have := Node.weight_pos n
    rw [slotWeight_some] at h
    omega

theorem bonus_le_of_forall₂ (k : NodeKind) {out cs : List (Option Node)}
    (h : List.Forall₂ (fun a b => slotWeight a ≤ slotWeight b) out cs) :
    bonus k out ≤ bonus k cs := by
  by_cases hk : k = .If
  · subst hk
    match out, cs, h with
    | [], _, _ => simp [bonus]
    | [_], _, _ => simp [bonus]
    | [_, _], _, _ => simp [bonus]
    | _ :: _ :: none :: _, _, _ => rw [bonus_if_none]; exact Nat.zero_le _
    | _ :: _ :: some e :: _, _ :: _ :: none :: _, h =>
      rw [List.forall₂_cons, List.forall₂_cons, List.forall₂_cons] at h
      have := Node.weight_pos e
      have h3 := h.2.2.1
      rw [slotWeight_some, slotWeight_none] at h3
      omega
    | _ :: _ :: some e :: _, _ :: _ :: some e2 :: _, _ =>
      rw [bonus_if_else, bonus_if_else]
    | _ :: _ :: some e :: _, [], h => cases h
    | _ :: _ :: some e :: _, [_], h =>
      rw [List.forall₂_cons] at h; cases h.2
    | _ :: _ :: some e :: _, [_, _], h =>
      rw [List.forall₂_cons, List.forall₂_cons] at h; cases h.2.2
  · by_cases hd : k = .DynamicMemberExpression
    · subst hd; rw [bonus_dynamic, bonus_dynamic]
    · rw [bonus_eq_zero hk hd, bonus_eq_zero hk hd]

theorem bonus_nil_le (k : NodeKind) (cs : List (Option Node)) : bonus k [] ≤ bonus k cs := by
  by_cases hk : k = .If
  · subst hk; simp [bonus]
  · by_cases hd : k = .DynamicMemberExpression
    · subst hd; rw [bonus_dynamic, bonus_dynamic]
    · rw [bonus_eq_zero hk hd, bonus_eq_zero hk hd]

theorem weight_setChildNodes_le {n : Node} {out : List (Option Node)}
    (h : out = [] ∨ List.Forall₂ (fun a b => slotWeight a ≤ slotWeight b) out n.childNodes) :
    (n.setChildNodes out).weight ≤ n.weight := by
  cases n with
  | mk k l cs =>
    rw [Node.setChildNodes_mk, Node.weight_mk, Node.weight_mk]
    rw [Node.childNodes_mk] at h
    rcases h with h | h
    · subst h
      have := bonus_nil_le k cs
      rw [Node.weightList_nil]
      omega
    · have h1 := weightList_le_of_forall₂ h
      have h2 := bonus_le_of_forall₂ k h
      omega

end fbjs

open fbjs
namespace fbjs

open ReductionWalker

theorem accept_zero (p : Option NodeKind) (self : NodeWalker) : accept 0 p self = none := by
  rw [accept]

theorem accept_succ_none (f : Nat) (p : Option NodeKind) (self : NodeWalker)
    (h : self._node = none) : accept (f + 1) p self = some self := by
  rw [accept]; simp [h]

theorem accept_succ_some (f : Nat) (p : Option NodeKind) (self : NodeWalker) (node : Node)
    (h : self._node = some node) :
    accept (f + 1) p self =
      match visitChildren self._remove
          (fun ii => accept f (some node.kind) (NodeWalker.cloneFor ii))
          node.childNodes with
      | none => none
      | some children => finish f p self (node.setChildNodes children) := by
  rw [accept]
  simp only [h]
  cases visitChildren self._remove
      (fun ii => accept f (some node.kind) (NodeWalker.cloneFor ii)) node.childNodes with
  | none => rfl
  | some children =>
    simp only [finish]

theorem finish_done {f : Nat} {p : Option NodeKind} {self : NodeWalker} {v n : Node}
    (h : visit p v = .done n) :
    finish f p self v = some { _node := some n, _remove := self._remove } := by
  unfold finish; rw [h]

theorem finish_remove {f : Nat} {p : Option NodeKind} {self : NodeWalker} {v n : Node}
    (h : visit p v = .remove n) :
    finish f p self v = some { _node := some n, _remove := true } := by
  unfold finish; rw [h]; rfl

theorem finish_replace {f : Nat} {p : Option NodeKind} {self : NodeWalker} {v : Node}
    {m : Option Node} (h : visit p v = .replace m) :
    finish f p self v =
      some (NodeWalker.replace { _node := some v, _remove := self._remove } m) := by
  unfold finish; rw [h]

theorem finish_replaceAndVisit {f : Nat} {p : Option NodeKind} {self : NodeWalker} {v : Node}
    {m : Option Node} (h : visit p v = .replaceAndVisit m) :
    finish f p self v =
      accept f p (NodeWalker.replace { _node := some v, _remove := self._remove } m) := by
  unfold finish; rw [h]

theorem finish_visitChildren {f : Nat} {p : Option NodeKind} {self : NodeWalker} {v n : Node}
    (h : visit p v = .visitChildren n) :
    finish f p self v =
      (visitChildren self._remove
          (fun ii => accept f (some n.kind) (NodeWalker.cloneFor ii)) n.childNodes).map
        (fun children2 =>
          { _node := some (n.setChildNodes children2), _remove := self._remove }) := by
  unfold finish; rw [h]
  simp only []
  cases visitChildren self._remove
      (fun ii => accept f (some n.kind) (NodeWalker.cloneFor ii)) n.childNodes <;> rfl

theorem slotWeight_replace (self : NodeWalker) (m : Option Node) :
    slotWeight (self.replace m)._node = slotWeight m := by
  unfold NodeWalker.replace
  cases m with
  | none => rfl
  | some n =>
    cases self._node with
    | none => rfl
    | some old => simp only [slotWeight_some, Node.weight_setLineno]

theorem replace_remove (self : NodeWalker) (m : Option Node) :
    (self.replace m)._remove = false := rfl

/-- Totality: with more fuel than the weight of the node the traversal returns,
and what it returns is not heavier than the node. -/
theorem accept_total :
    ∀ (f : Nat) (p : Option NodeKind) (self : NodeWalker), slotWeight self._node < f →
      ∃ w, accept f p self = some w ∧ slotWeight w._node ≤ slotWeight self._node := by
  intro f
  induction f with
  | zero => intro p self h; omega
  | succ f ih =>
    intro p self h
    cases hn : self._node with
    | none => exact ⟨self, accept_succ_none f p self hn, by rw [hn]⟩
    | some node =>
      rw [hn, slotWeight_some] at h
      rw [accept_succ_some f p self node hn]
      have hchildren : ∀ c ∈ node.childNodes,
          ∃ w, accept f (some node.kind) (NodeWalker.cloneFor c) = some w ∧
            slotWeight w._node ≤ slotWeight c := by
        intro c hc
        have := slotWeight_lt_weight hc
        exact ih (some node.kind) (NodeWalker.cloneFor c) (by
          show slotWeight c < f
          omega)
      obtain ⟨out, hout, hrel⟩ := visitChildren_total (r := self._remove) hchildren
      rw [hout]
      simp only []
      have hv : (node.setChildNodes out).weight ≤ node.weight := weight_setChildNodes_le hrel
      have hok := visit_ok p (node.setChildNodes out)
      cases hact : visit p (node.setChildNodes out) with
      | done n =>
        rw [hact] at hok
        simp only [ActionOK] at hok
        rw [finish_done hact]
        exact ⟨_, rfl, by simp only [slotWeight_some]; omega⟩
      | remove n =>
        rw [hact] at hok
        simp only [ActionOK] at hok
        subst hok
        rw [finish_remove hact]
        exact ⟨_, rfl, by simp only [slotWeight_some]; omega⟩
      | replace m =>
        rw [hact] at hok
        simp only [ActionOK] at hok
        rw [finish_replace hact]
        exact ⟨_, rfl, by rw [slotWeight_replace, slotWeight_some]; omega⟩
      | replaceAndVisit m =>
        rw [hact] at hok
        simp only [ActionOK] at hok
        rw [finish_replaceAndVisit hact]
        obtain ⟨w, hw, hle⟩ := ih p (NodeWalker.replace
          { _node := some (node.setChildNodes out), _remove := self._remove } m)
          (by rw [slotWeight_replace]; omega)
        refine ⟨w, hw, ?_⟩
        rw [slotWeight_replace] at hle
        rw [slotWeight_some]
        omega
      | visitChildren n =>
        rw [hact] at hok
        simp only [ActionOK] at hok
        rw [finish_visitChildren hact]
        have hchildren2 : ∀ c ∈ n.childNodes,
            ∃ w, accept f (some n.kind) (NodeWalker.cloneFor c) = some w ∧
              slotWeight w._node ≤ slotWeight c := by
          intro c hc
          have := slotWeight_lt_weight hc
          exact ih (some n.kind) (NodeWalker.cloneFor c) (by
            show slotWeight c < f
            omega)
        obtain ⟨out2, hout2, hrel2⟩ := visitChildren_total (r := self._remove) hchildren2
        rw [hout2]
        have hv2 : (n.setChildNodes out2).weight ≤ n.weight := weight_setChildNodes_le hrel2
        exact ⟨_, rfl, by simp only [slotWeight_some]; omega⟩

/-- More fuel does not change the result. -/
theorem accept_succ_mono :
    ∀ (f : Nat) (p : Option NodeKind) (self w : NodeWalker),
      accept f p self = some w → accept (f + 1) p self = some w := by
  intro f
  induction f with
  | zero => intro p self w h; rw [accept_zero] at h; cases h
  | succ f ih =>
    intro p self w h
    cases hn : self._node with
    | none =>
      rw [accept_succ_none f p self hn] at h
      rw [accept_succ_none (f + 1) p self hn]
      exact h
    | some node =>
      rw [accept_succ_some f p self node hn] at h
      rw [accept_succ_some (f + 1) p self node hn]
      cases hvc : visitChildren self._remove
          (fun ii => accept f (some node.kind) (NodeWalker.cloneFor ii)) node.childNodes with
      | none => rw [hvc] at h; cases h
      | some out =>
        rw [hvc] at h
        rw [visitChildren_mono (fun c w hc => ih (some node.kind) (NodeWalker.cloneFor c) w hc) hvc]
        simp only [] at h ⊢
        cases hact : visit p (node.setChildNodes out) with
        | done n => rw [finish_done hact] at h ⊢; exact h
        | remove n => rw [finish_remove hact] at h ⊢; exact h
        | replace m => rw [finish_replace hact] at h ⊢; exact h
        | replaceAndVisit m =>
          rw [finish_replaceAndVisit hact] at h ⊢
          exact ih p _ w h
        | visitChildren n =>
          rw [finish_visitChildren hact] at h ⊢
          cases hvc2 : visitChildren self._remove
              (fun ii => accept f (some n.kind) (NodeWalker.cloneFor ii)) n.childNodes with
          | none => rw [hvc2] at h; cases h
          | some out2 =>
            rw [hvc2] at h
            rw [visitChildren_mono
              (fun c w hc => ih (some n.kind) (NodeWalker.cloneFor c) w hc) hvc2]
            exact h

theorem accept_mono {f g : Nat} (hfg : f ≤ g) {p : Option NodeKind} {self w : NodeWalker}
    (h : accept f p self = some w) : accept g p self = some w := by
  induction hfg with
  | refl => exact h
  | step _ ih => exact accept_succ_mono _ p self w ih

end fbjs

open fbjs
namespace fbjs

open ReductionWalker

/-! ## Quiet nodes -/

theorem visitNodeExpression_done_or_remove (p : Option NodeKind) (v : Node) :
    visitNodeExpression p v = .done v ∨ visitNodeExpression p v = .remove v := by
  unfold visitNodeExpression
  split
  · split
    · exact Or.inr rfl
    · exact Or.inl rfl
  · exact Or.inl rfl

/-- When the visit method leaves the node as it is under one parent, it does
so under every parent. -/
theorem quiet_of_done_or_remove {p : Option NodeKind} {v : Node}
    (h : visit p v = .done v ∨ visit p v = .remove v) : Quiet v := by
  intro p2
  unfold visit at h ⊢
  split
  · rename_i hk; simp only [hk] at h; exact h
  · rename_i hk; simp only [hk] at h; exact h
  · rename_i hk; simp only [hk] at h; exact h
  · rename_i hk; simp only [hk] at h; exact h
  · rename_i hk; simp only [hk] at h; exact h
  · rename_i hk; simp only [hk] at h; exact h
  · rename_i hk; simp only [hk] at h; exact h
  · split
    · exact visitNodeExpression_done_or_remove p2 v
    · exact Or.inl rfl

/-! ## The rules do not look at the line number of the node -/

theorem Node.compare_lineno (k : NodeKind) (l0 l : Nat) (cs : List (Option Node))
    (val : Bool) : (Node.mk k l cs).compare val = (Node.mk k l0 cs).compare val := by
  cases k <;> first
    | rfl
    | (simp only [Node.compare]; done)
    | (cases cs with
       | nil => simp [Node.compare]
       | cons c rest => cases c <;> simp [Node.compare])

theorem visit_done_lineno (p : Option NodeKind) (k : NodeKind) (l0 l : Nat)
    (cs : List (Option Node)) :
    visit p (.mk k l0 cs) = .done (.mk k l0 cs) →
      visit p (.mk k l cs) = .done (.mk k l cs) := by
  unfold visit
  simp only [Node.kind_mk]
  split
  · unfold visitNodeOperator
    simp only [Node.childNodes_mk]
    intro h
    repeat' split
    all_goals first
      | rfl
      | (simp_all; done)
  · unfold visitNodeUnary
    simp only [Node.childNodes_mk]
    intro h
    repeat' split
    all_goals first
      | rfl
      | (simp_all; done)
  · unfold visitNodeConditionalExpression
    simp only [Node.childNodes_mk]
    intro h
    repeat' split
    all_goals first
      | rfl
      | (simp_all; done)
  · unfold visitNodeFunctionCall
    simp only [Node.childNodes_mk]
    intro h
    repeat' split
    all_goals first
      | rfl
      | (simp_all; done)
  · unfold visitNodeIf visitNodeIfEmptyBlocks
    simp only [Node.childNodes_mk, Node.setChildNodes_mk]
    intro h
    repeat' split
    all_goals first
      | rfl
      | (simp_all; done)
  · unfold visitNodeObjectLiteralProperty
    simp only [Node.childNodes_mk, Node.lineno_mk]
    intro h
    repeat' split
    all_goals first
      | rfl
      | (simp_all; done)
  · unfold visitNodeDynamicMemberExpression
    simp only [Node.childNodes_mk, Node.lineno_mk]
    intro h
    repeat' split
    all_goals first
      | rfl
      | (simp_all; done)
  · unfold visitNodeExpression
    rw [Node.compare_lineno k l0 l cs true, Node.compare_lineno k l0 l cs false]
    intro h
    repeat' split
    all_goals first
      | rfl
      | (simp_all; done)

theorem visit_remove_lineno (p : Option NodeKind) (k : NodeKind) (l0 l : Nat)
    (cs : List (Option Node)) :
    visit p (.mk k l0 cs) = .remove (.mk k l0 cs) →
      visit p (.mk k l cs) = .remove (.mk k l cs) := by
  unfold visit
  simp only [Node.kind_mk]
  split
  · unfold visitNodeOperator
    simp only [Node.childNodes_mk]
    intro h
    repeat' split at h
    all_goals first
      | (cases h; done)
      | (simp_all; done)
  · unfold visitNodeUnary
    simp only [Node.childNodes_mk]
    intro h
    repeat' split at h
    all_goals first
      | (cases h; done)
      | (simp_all; done)
  · unfold visitNodeConditionalExpression
    simp only [Node.childNodes_mk]
    intro h
    repeat' split at h
    all_goals first
      | (cases h; done)
      | (simp_all; done)
  · unfold visitNodeFunctionCall
    simp only [Node.childNodes_mk]
    intro h
    repeat' split at h
    all_goals first
      | (cases h; done)
      | (simp_all; done)
  · unfold visitNodeIf visitNodeIfEmptyBlocks
    simp only [Node.childNodes_mk, Node.setChildNodes_mk]
    intro h
    repeat' split at h
    all_goals first
      | (cases h; done)
      | (simp_all; done)
  · unfold visitNodeObjectLiteralProperty
    simp only [Node.childNodes_mk, Node.lineno_mk]
    intro h
    repeat' split at h
    all_goals first
      | (cases h; done)
      | (simp_all; done)
  · unfold visitNodeDynamicMemberExpression
    simp only [Node.childNodes_mk, Node.lineno_mk]
    intro h
    repeat' split at h
    all_goals first
      | (cases h; done)
      | (simp_all; done)
  · unfold visitNodeExpression
    rw [Node.compare_lineno k l0 l cs true, Node.compare_lineno k l0 l cs false]
    intro h
    repeat' split at h
    all_goals first
      | (cases h; done)
      | (simp_all; done)

theorem quiet_setLineno {n : Node} (h : Quiet n) (l : Nat) : Quiet (n.setLineno l) := by
  cases n with
  | mk k l0 cs =>
    intro p
    rw [Node.setLineno_mk]
    rcases h p with h | h
    · exact Or.inl (visit_done_lineno p k l0 l cs h)
    · exact Or.inr (visit_remove_lineno p k l0 l cs h)

theorem normalForm_setLineno {n : Node} (h : NormalForm n) (l : Nat) :
    NormalForm (n.setLineno l) := by
  cases h with
  | mk _ quiet children =>
    refine NormalForm.mk _ (quiet_setLineno quiet l) ?_
    intro c hc
    rw [Node.childNodes_setLineno] at hc
    exact children c hc

theorem NormalForm.quiet {n : Node} (h : NormalForm n) : Quiet n := by
  cases h with
  | mk _ quiet _ => exact quiet

theorem NormalForm.child {n c : Node} (h : NormalForm n) (hc : some c ∈ n.childNodes) :
    NormalForm c := by
  cases h with
  | mk _ _ children => exact children c hc

end fbjs

open fbjs
namespace fbjs

open ReductionWalker

/-! ## A tree in normal form is left as it is -/

theorem visitChildren_id {h : Option Node → Option NodeWalker} :
    ∀ {cs out : List (Option Node)},
      (∀ c ∈ cs, ∀ w, h c = some w → w._node = c) →
      visitChildren false h cs = some out → out = cs := by
  intro cs
  induction cs with
  | nil => intro out _ h1; rw [visitChildren_nil] at h1; cases h1; rfl
  | cons c cs ih =>
    intro out hall h1
    rw [visitChildren_cons] at h1
    cases hc : h c with
    | none => rw [hc] at h1; cases h1
    | some w =>
      rw [hc] at h1
      cases hr : visitChildren false h cs with
      | none => rw [hr] at h1; cases h1
      | some rest2 =>
        rw [hr] at h1
        simp only [Bool.false_eq_true, if_false] at h1
        cases h1
        rw [hall c (List.mem_cons_self c cs) w hc,
          ih (fun d hd => hall d (List.mem_cons_of_mem c hd)) hr]

theorem visitChildren_forall {h : Option Node → Option NodeWalker} (P : Option Node → Prop) :
    ∀ {cs out : List (Option Node)},
      (∀ c ∈ cs, ∀ w, h c = some w → P w._node) →
      visitChildren false h cs = some out → ∀ o ∈ out, P o := by
  intro cs
  induction cs with
  | nil => intro out _ h1; rw [visitChildren_nil] at h1; cases h1; intro o ho; cases ho
  | cons c cs ih =>
    intro out hall h1
    rw [visitChildren_cons] at h1
    cases hc : h c with
    | none => rw [hc] at h1; cases h1
    | some w =>
      rw [hc] at h1
      cases hr : visitChildren false h cs with
      | none => rw [hr] at h1; cases h1
      | some rest2 =>
        rw [hr] at h1
        simp only [Bool.false_eq_true, if_false] at h1
        cases h1
        intro o ho
        rcases List.mem_cons.1 ho with ho | ho
        · subst ho; exact hall c (List.mem_cons_self c cs) w hc
        · exact ih (fun d hd => hall d (List.mem_cons_of_mem c hd)) hr o ho

theorem accept_cloneFor_none {f : Nat} {p : Option NodeKind} {w : NodeWalker}
    (h : accept f p (NodeWalker.cloneFor none) = some w) : w._node = none := by
  cases f with
  | zero => rw [accept_zero] at h; cases h
  | succ f =>
    rw [accept_succ_none f p _ rfl] at h
    cases h; rfl

/-- A tree in normal form comes back as it is. -/
theorem NormalForm.accept_eq :
    ∀ (f : Nat) (p : Option NodeKind) (n : Node) (w : NodeWalker), NormalForm n →
      accept f p { _node := some n, _remove := false } = some w → w._node = some n := by
  intro f
  induction f with
  | zero => intro p n w _ h; rw [accept_zero] at h; cases h
  | succ f ih =>
    intro p n w hn h
    rw [accept_succ_some f p _ n rfl] at h
    cases hvc : visitChildren (NodeWalker.mk (some n) false)._remove
        (fun ii => accept f (some n.kind) (NodeWalker.cloneFor ii)) n.childNodes with
    | none => rw [hvc] at h; cases h
    | some out =>
      rw [hvc] at h
      simp only [] at h
      have hout : out = n.childNodes := by
        refine visitChildren_id ?_ hvc
        intro c hc w2 hw2
        cases c with
        | none => exact accept_cloneFor_none hw2
        | some x => exact ih (some n.kind) x w2 (hn.child hc) hw2
      subst hout
      rw [Node.setChildNodes_childNodes] at h
      rcases hn.quiet p with hq | hq
      · rw [finish_done hq] at h; cases h; rfl
      · rw [finish_remove hq] at h; cases h; rfl

end fbjs

open fbjs
namespace fbjs

open ReductionWalker

/-! ## What the rules return is in normal form -/

theorem visit_done_eq_or_if {p : Option NodeKind} {v n : Node} (h : visit p v = .done n) :
    n = v ∨ v.kind = .If := by
  unfold visit at h
  split at h
  · left
    unfold visitNodeOperator at h
    simp only [] at h
    repeat' split at h
    all_goals first
      | (cases h; rfl)
      | (cases h; done)
  · left
    unfold visitNodeUnary at h
    simp only [] at h
    repeat' split at h
    all_goals first
      | (cases h; rfl)
      | (cases h; done)
  · left
    unfold visitNodeConditionalExpression at h
    simp only [] at h
    repeat' split at h
    all_goals first
      | (cases h; rfl)
      | (cases h; done)
  · left
    unfold visitNodeFunctionCall at h
    repeat' split at h
    all_goals first
      | (cases h; rfl)
      | (cases h; done)
  · right; assumption
  · left
    unfold visitNodeObjectLiteralProperty at h
    split at h
    · dsimp only at h
      split at h
      · cases h; rfl
      · cases h
    · cases h; rfl
  · left
    unfold visitNodeDynamicMemberExpression at h
    split at h
    · dsimp only at h
      split at h
      · cases h; rfl
      · cases h
    · cases h; rfl
  · left
    unfold visitNodeExpression at h
    repeat' split at h
    all_goals first
      | (cases h; rfl)
      | (cases h; done)

theorem visit_remove_eq {p : Option NodeKind} {v n : Node} (h : visit p v = .remove n) :
    n = v := by
  have := visit_ok p v
  rw [h] at this
  exact this

theorem quiet_identifier (name : String) (l : Nat) :
    Quiet (.mk (.Identifier name) l []) :=
  quiet_of_done_or_remove (p := none) (Or.inl rfl)

theorem normalForm_identifier (name : String) (l : Nat) :
    NormalForm (.mk (.Identifier name) l []) :=
  NormalForm.mk _ (quiet_identifier name l) (fun c hc => by cases hc)

theorem quiet_property_identifier (name : String) (l l2 : Nat) (slot : Option Node) :
    Quiet (.mk .ObjectLiteralProperty l [some (.mk (.Identifier name) l2 []), slot]) :=
  quiet_of_done_or_remove (p := none) (Or.inl rfl)

theorem quiet_staticMember (l : Nat) (cs : List (Option Node)) :
    Quiet (.mk .StaticMemberExpression l cs) :=
  quiet_of_done_or_remove (p := none) (Or.inl rfl)

theorem quiet_parenthetical (l : Nat) (cs : List (Option Node)) :
    Quiet (.mk .Parenthetical l cs) :=
  quiet_of_done_or_remove (p := none) (Or.inl rfl)

theorem visit_if (p : Option NodeKind) (l : Nat) (cs : List (Option Node)) :
    visit p (.mk .If l cs) = visitNodeIf (.mk .If l cs) := rfl

theorem visit_unary (p : Option NodeKind) (op : node_unary_t) (l : Nat)
    (cs : List (Option Node)) :
    visit p (.mk (.Unary op) l cs) = visitNodeUnary op (.mk (.Unary op) l cs) := rfl

theorem compare_unary (op : node_unary_t) (l : Nat) (cs : List (Option Node)) (val : Bool) :
    (Node.mk (.Unary op) l cs).compare val = false := by
  simp [Node.compare]

/-- The condition of an `if` that compares neither true nor false, negated. -/
theorem quiet_negated (expression : Node) (l l2 : Nat)
    (ht : expression.compare true = false) (hf : expression.compare false = false) :
    Quiet (.mk (.Unary .NOT_UNARY) l [some (.mk .Parenthetical l2 [some expression])]) := by
  apply quiet_of_done_or_remove (p := none)
  left
  rw [visit_unary]
  unfold visitNodeUnary
  simp only [Node.childNodes_mk, List.head?_cons, compareSlot_some, Node.compare_parenthetical,
    ht, hf, if_true, Bool.false_eq_true, if_false]

theorem normalForm_negated (expression : Node) (l l2 : Nat) (hn : NormalForm expression)
    (ht : expression.compare true = false) (hf : expression.compare false = false) :
    NormalForm (.mk (.Unary .NOT_UNARY) l [some (.mk .Parenthetical l2 [some expression])]) := by
  refine NormalForm.mk _ (quiet_negated expression l l2 ht hf) ?_
  intro c hc
  simp only [Node.childNodes_mk, List.mem_singleton, Option.some.injEq] at hc
  subst hc
  refine NormalForm.mk _ (quiet_parenthetical l2 _) ?_
  intro c hc
  simp only [Node.childNodes_mk, List.mem_singleton, Option.some.injEq] at hc
  subst hc
  exact hn

/-- The `if` statements on which no rule fires: the condition compares neither
true nor false, the else slot is null or holds a block with children, and the
then block has children or there is an else block. -/
theorem quiet_if (l : Nat) (expression ifBlock : Node) (elseSlot : Option Node)
    (rest : List (Option Node))
    (ht : expression.compare true = false) (hf : expression.compare false = false)
    (helse : ∀ e, elseSlot = some e → e.childNodes.isEmpty = false)
    (hif : ifBlock.childNodes.isEmpty = false) :
    Quiet (.mk .If l (some expression :: some ifBlock :: elseSlot :: rest)) := by
  apply quiet_of_done_or_remove (p := none)
  left
  rw [visit_if]
  unfold visitNodeIf
  simp only [Node.childNodes_mk, List.head?_cons, compareSlot_some, ht, hf,
    Bool.false_eq_true, if_false]
  unfold visitNodeIfEmptyBlocks
  simp only [Node.childNodes_mk, hif, Bool.false_eq_true, if_false, Node.setChildNodes_mk]
  cases elseSlot with
  | none => rfl
  | some e => simp only [helse e rfl, Bool.false_eq_true, if_false]

theorem normalForm_of_done_self {p : Option NodeKind} {v : Node} (h : visit p v = .done v)
    (hc : ∀ c, some c ∈ v.childNodes → NormalForm c) : NormalForm v :=
  NormalForm.mk v (quiet_of_done_or_remove (Or.inl h)) hc

theorem visitNodeIf_done {l : Nat} {cs : List (Option Node)} {n : Node}
    (h : visitNodeIf (.mk .If l cs) = .done n) (hne : n ≠ .mk .If l cs)
    (hc : ∀ c, some c ∈ cs → NormalForm c) : NormalForm n := by
  unfold visitNodeIf at h
  simp only [Node.childNodes_mk] at h
  split at h
  · split at h
    · cases h
    · cases h; exact absurd rfl hne
  · split at h
    · split at h
      · cases h
      · cases h
      · cases h; exact absurd rfl hne
    · rename_i ht hf
      unfold visitNodeIfEmptyBlocks at h
      simp only [Node.childNodes_mk, Node.setChildNodes_mk] at h
      split at h
      · rename_i expression ifBlock elseSlot rest
        simp only [List.head?_cons, compareSlot_some] at ht hf
        have ht2 : expression.compare true = false := by
          cases hx : expression.compare true
          · rfl
          · exact absurd hx ht
        have hf2 : expression.compare false = false := by
          cases hx : expression.compare false
          · rfl
          · exact absurd hx hf
        split at h
        · split at h
          · cases h
          · cases h
        · rename_i hif
          have hif2 : ifBlock.childNodes.isEmpty = false := by
            cases hx : ifBlock.childNodes.isEmpty
            · rfl
            · exact absurd hx hif
          cases h
          refine NormalForm.mk _ (quiet_if l expression ifBlock _ rest ht2 hf2 ?_ hif2) ?_
          · intro e he
            cases elseSlot with
            | none => simp at he
            | some e2 =>
              by_cases hx : e2.childNodes.isEmpty = true
              · simp [hx] at he
              · simp only [hx, Bool.false_eq_true, if_false, Option.some.injEq] at he
                subst he
                cases hy : e2.childNodes.isEmpty
                · rfl
                · exact absurd hy hx
          · intro c hcm
            apply hc
            simp only [Node.childNodes_mk, List.mem_cons] at hcm ⊢
            rcases hcm with hcm | hcm | hcm | hcm
            · exact Or.inl hcm
            · exact Or.inr (Or.inl hcm)
            · right; right; left
              cases elseSlot with
              | none => simp at hcm
              | some e2 =>
                by_cases hx : e2.childNodes.isEmpty = true
                · simp [hx] at hcm
                · simp only [hx, Bool.false_eq_true, if_false] at hcm
                  exact hcm
            · exact Or.inr (Or.inr (Or.inr hcm))
      · cases h; exact absurd rfl hne

/-- What a visit method ends with in `done` is in normal form once the children
are. -/
theorem normalForm_of_done {p : Option NodeKind} {v n : Node} (h : visit p v = .done n)
    (hc : ∀ c, some c ∈ v.childNodes → NormalForm c) : NormalForm n := by
  by_cases hnv : n = v
  · subst hnv; exact normalForm_of_done_self h hc
  · rcases visit_done_eq_or_if h with h1 | h1
    · exact absurd h1 hnv
    · cases v with
      | mk k l cs =>
        simp only [Node.kind_mk] at h1
        subst h1
        rw [visit_if] at h
        exact visitNodeIf_done h hnv hc

theorem normalForm_of_remove {p : Option NodeKind} {v n : Node} (h : visit p v = .remove n)
    (hc : ∀ c, some c ∈ v.childNodes → NormalForm c) : NormalForm n := by
  have hnv := visit_remove_eq h
  subst hnv
  exact NormalForm.mk _ (quiet_of_done_or_remove (Or.inr h)) hc

theorem bool_eq_false_of_ne_true {b : Bool} (h : ¬ b = true) : b = false := by
  cases b
  · rfl
  · exact absurd rfl h

theorem normalForm_of_replace {p : Option NodeKind} {v m : Node}
    (h : visit p v = .replace (some m))
    (hc : ∀ c, some c ∈ v.childNodes → NormalForm c) : NormalForm m := by
  unfold visit at h
  split at h
  · unfold visitNodeOperator at h
    simp only [] at h
    repeat' split at h
    all_goals (cases h; done)
  · unfold visitNodeUnary at h
    simp only [] at h
    repeat' split at h
    all_goals (cases h; done)
  · unfold visitNodeConditionalExpression at h
    simp only [] at h
    repeat' split at h
    all_goals (cases h; done)
  · unfold visitNodeFunctionCall at h
    repeat' split at h
    all_goals (cases h; done)
  · unfold visitNodeIf at h
    simp only [] at h
    split at h
    · split at h
      · rename_i hget
        cases h
        exact hc m (mem_of_get? hget)
      · cases h
    · split at h
      · split at h
        · cases h
        · rename_i hget
          cases h
          exact hc m (mem_of_get? hget)
        · cases h
      · unfold visitNodeIfEmptyBlocks at h
        split at h
        · rename_i hcs
          dsimp only at h
          split at h
          · split at h
            · cases h
              exact hc m (by rw [hcs]; exact List.mem_cons_self _ _)
            · cases h
          · cases h
        · cases h
  · unfold visitNodeObjectLiteralProperty at h
    split at h
    · rename_i hcs
      dsimp only at h
      split at h
      · cases h
      · cases h
        refine NormalForm.mk _ (quiet_property_identifier _ _ _ _) ?_
        intro c hcm
        simp only [Node.childNodes_mk, List.mem_cons, Option.some.injEq, List.mem_singleton,
          List.not_mem_nil, or_false] at hcm
        rcases hcm with hcm | hcm
        · subst hcm; exact normalForm_identifier _ _
        · exact hc c (by rw [hcs]; exact List.mem_cons_of_mem _ (by rw [hcm]; exact List.mem_cons_self _ _))
    · cases h
  · unfold visitNodeDynamicMemberExpression at h
    split at h
    · rename_i hlast hhead
      dsimp only at h
      split at h
      · cases h
      · cases h
        refine NormalForm.mk _ (quiet_staticMember _ _) ?_
        intro c hcm
        simp only [Node.childNodes_mk, List.mem_cons, Option.some.injEq, List.mem_singleton,
          List.not_mem_nil, or_false] at hcm
        rcases hcm with hcm | hcm
        · exact hc c (by rw [hcm]; exact mem_of_head? hhead)
        · subst hcm; exact normalForm_identifier _ _
    · cases h
  · unfold visitNodeExpression at h
    repeat' split at h
    all_goals (cases h; done)

theorem normalForm_of_visitChildren {p : Option NodeKind} {v n : Node}
    (h : visit p v = .visitChildren n)
    (hc : ∀ c, some c ∈ v.childNodes → NormalForm c) : NormalForm n := by
  unfold visit at h
  split at h
  · unfold visitNodeOperator at h
    simp only [] at h
    repeat' split at h
    all_goals (cases h; done)
  · unfold visitNodeUnary at h
    simp only [] at h
    repeat' split at h
    all_goals (cases h; done)
  · unfold visitNodeConditionalExpression at h
    simp only [] at h
    repeat' split at h
    all_goals (cases h; done)
  · unfold visitNodeFunctionCall at h
    repeat' split at h
    all_goals (cases h; done)
  · rename_i hk
    cases v with
    | mk k l cs =>
    simp only [Node.kind_mk] at hk
    subst hk
    unfold visitNodeIf at h
    simp only [Node.childNodes_mk] at h hc
    split at h
    · split at h <;> cases h
    · split at h
      · split at h <;> cases h
      · rename_i ht hf
        unfold visitNodeIfEmptyBlocks at h
        simp only [Node.childNodes_mk, Node.setChildNodes_mk] at h
        split at h
        · rename_i expression ifBlock elseSlot rest
          simp only [List.head?_cons, compareSlot_some] at ht hf
          have ht2 := bool_eq_false_of_ne_true ht
          have hf2 := bool_eq_false_of_ne_true hf
          split at h
          · split at h
            · cases h
            · rename_i e he
              cases h
              have hmem : elseSlot = some e ∧ e.childNodes.isEmpty = false := by
                cases elseSlot with
                | none => simp at he
                | some e2 =>
                  by_cases hx : e2.childNodes.isEmpty = true
                  · simp [hx] at he
                  · simp only [hx, Bool.false_eq_true, if_false, Option.some.injEq] at he
                    subst he
                    exact ⟨rfl, bool_eq_false_of_ne_true hx⟩
              obtain ⟨hes, hee⟩ := hmem
              subst hes
              refine NormalForm.mk _ (quiet_if l _ e none rest (compare_unary _ _ _ _)
                (compare_unary _ _ _ _) (fun _ hx => by cases hx) hee) ?_
              intro c hcm
              simp only [Node.childNodes_mk, List.mem_cons, Option.some.injEq] at hcm
              rcases hcm with hcm | hcm | hcm | hcm
              · subst hcm
                exact normalForm_negated expression _ _
                  (hc expression (List.mem_cons_self _ _)) ht2 hf2
              · subst hcm
                exact hc c (by simp)
              · cases hcm
              · exact hc c (by simp [hcm])
          · cases h
        · cases h
  · unfold visitNodeObjectLiteralProperty at h
    split at h
    · dsimp only at h
      split at h <;> cases h
    · cases h
  · unfold visitNodeDynamicMemberExpression at h
    split at h
    · dsimp only at h
      split at h <;> cases h
    · cases h
  · unfold visitNodeExpression at h
    repeat' split at h
    all_goals (cases h; done)

end fbjs

open fbjs
namespace fbjs

open ReductionWalker

/-! ## The traversal ends in a normal form -/

theorem accept_normalForm :
    ∀ (f : Nat) (p : Option NodeKind) (self w : NodeWalker), self._remove = false →
      accept f p self = some w → ∀ n, w._node = some n → NormalForm n := by
  intro f
  induction f with
  | zero => intro p self w _ h; rw [accept_zero] at h; cases h
  | succ f ih =>
    intro p self w hr h n hwn
    cases hn : self._node with
    | none =>
      rw [accept_succ_none f p self hn] at h
      cases h
      rw [hn] at hwn
      cases hwn
    | some node =>
      rw [accept_succ_some f p self node hn, hr] at h
      cases hvc : visitChildren false
          (fun ii => accept f (some node.kind) (NodeWalker.cloneFor ii)) node.childNodes with
      | none => rw [hvc] at h; cases h
      | some out =>
        rw [hvc] at h
        simp only [] at h
        have hout : ∀ o ∈ out, ∀ c, o = some c → NormalForm c :=
          visitChildren_forall (fun o => ∀ c, o = some c → NormalForm c)
            (fun c _ w2 hw2 => ih (some node.kind) (NodeWalker.cloneFor c) w2 rfl hw2) hvc
        have hc : ∀ c, some c ∈ (node.setChildNodes out).childNodes → NormalForm c := by
          intro c hcm
          rw [Node.childNodes_setChildNodes] at hcm
          exact hout (some c) hcm c rfl
        cases hact : visit p (node.setChildNodes out) with
        | done m =>
          rw [finish_done hact] at h
          cases h
          cases hwn
          exact normalForm_of_done hact hc
        | remove m =>
          rw [finish_remove hact] at h
          cases h
          cases hwn
          exact normalForm_of_remove hact hc
        | replace m =>
          rw [finish_replace hact] at h
          cases h
          cases m with
          | none => cases hwn
          | some m =>
            simp only [NodeWalker.replace, Option.some.injEq] at hwn
            subst hwn
            exact normalForm_setLineno (normalForm_of_replace hact hc) _
        | replaceAndVisit m =>
          rw [finish_replaceAndVisit hact] at h
          exact ih p _ w rfl h n hwn
        | visitChildren m =>
          rw [finish_visitChildren hact, hr] at h
          have hm := normalForm_of_visitChildren hact hc
          cases hvc2 : visitChildren false
              (fun ii => accept f (some m.kind) (NodeWalker.cloneFor ii)) m.childNodes with
          | none => rw [hvc2] at h; cases h
          | some out2 =>
            rw [hvc2] at h
            simp only [Option.map_some'] at h
            cases h
            cases hwn
            have hout2 : out2 = m.childNodes := by
              refine visitChildren_id ?_ hvc2
              intro c hcm w2 hw2
              cases c with
              | none => exact accept_cloneFor_none hw2
              | some x => exact NormalForm.accept_eq f (some m.kind) x w2 (hm.child hcm) hw2
            rw [hout2, Node.setChildNodes_childNodes]
            exact hm

/-! ## `walk` -/

theorem walk_eq (root : Option Node) :
    ∃ w, accept (slotWeight root + 1) none { _node := root, _remove := false } = some w ∧
      walk root = some w._node := by
  have hrep : NodeWalker.replace { _node := none, _remove := false } root =
      { _node := root, _remove := false } := by
    cases root <;> rfl
  obtain ⟨w, hw, _⟩ := accept_total (slotWeight root + 1) none
    { _node := root, _remove := false } (Nat.lt_succ_self _)
  refine ⟨w, hw, ?_⟩
  unfold walk
  rw [hrep, hw]

/-- The reduction of a tree in normal form returns the tree. -/
theorem walk_normalForm {n : Node} (h : NormalForm n) : walk (some n) = some (some n) := by
  obtain ⟨w, hw, hwalk⟩ := walk_eq (some n)
  rw [hwalk, NormalForm.accept_eq _ none n w h hw]

/-- C1: the reduction walker is idempotent. For every tree `T` (or null
pointer) the walk returns a result `R`, within its fuel, and the walk on `R`
returns `R` itself, line numbers included. -/
theorem walk_idempotent (T : Option Node) :
    ∃ R, walk T = some R ∧ walk R = some R := by
  obtain ⟨w, hw, hwalk⟩ := walk_eq T
  refine ⟨w._node, hwalk, ?_⟩
  cases hn : w._node with
  | none =>
    obtain ⟨w2, hw2, hwalk2⟩ := walk_eq none
    rw [hwalk2]
    rw [accept_succ_none _ none _ rfl] at hw2
    cases hw2
    rfl
  | some n => exact walk_normalForm (accept_normalForm _ none _ w rfl hw n hn)

end fbjs

open fbjs
namespace fbjs

open ReductionWalker

/-! ## The rules on a node whose children are reduced -/

theorem normalForm_of_walk {t : Option Node} {n : Node} (h : walk t = some (some n)) :
    NormalForm n := by
  obtain ⟨w, hw, hwalk⟩ := walk_eq t
  rw [hwalk] at h
  exact accept_normalForm _ none _ w rfl hw n (Option.some.inj h)

/-- On a node whose children are in normal form the leading `visitChildren()`
changes nothing: the traversal is the visit method on the node as it is. -/
theorem accept_normal_children (f : Nat) (p : Option NodeKind) (node : Node)
    (hc : ∀ c, some c ∈ node.childNodes → NormalForm c) (hf : node.weight < f + 1) :
    accept (f + 1) p { _node := some node, _remove := false } =
      finish f p { _node := some node, _remove := false } node := by
  rw [accept_succ_some f p _ node rfl]
  have htot : ∀ c ∈ node.childNodes, ∃ w,
      (fun ii => accept f (some node.kind) (NodeWalker.cloneFor ii)) c = some w ∧
        slotWeight w._node ≤ slotWeight c := by
    intro c hcm
    have hlt : slotWeight c < node.weight := slotWeight_lt_weight hcm
    exact accept_total f (some node.kind) (NodeWalker.cloneFor c) (by
      show slotWeight c < f
      omega)
  obtain ⟨out, hout, _⟩ := visitChildren_total (r := false) htot
  have hid : out = node.childNodes := by
    refine visitChildren_id ?_ hout
    intro c hcm w hw
    cases c with
    | none => exact accept_cloneFor_none hw
    | some x => exact NormalForm.accept_eq f (some node.kind) x w (hc x hcm) hw
  show (match visitChildren false
      (fun ii => accept f (some node.kind) (NodeWalker.cloneFor ii)) node.childNodes with
    | none => none
    | some children => finish f p _ (node.setChildNodes children)) = _
  rw [hout, hid]
  show finish f p _ (node.setChildNodes node.childNodes) = _
  rw [Node.setChildNodes_childNodes]

/-- `replaceAndVisit(m)` for a node `m` in normal form: `m` stays, with the
line number of the node it replaces. -/
theorem accept_replace_normalForm (f : Nat) (p : Option NodeKind) (v m : Node) (r : Bool)
    (hm : NormalForm m) (hf : m.weight < f) :
    ∃ w, accept f p (NodeWalker.replace { _node := some v, _remove := r } (some m)) = some w ∧
      w._node = some (m.setLineno v.lineno) := by
  have hrep : NodeWalker.replace { _node := some v, _remove := r } (some m) =
      { _node := some (m.setLineno v.lineno), _remove := false } := rfl
  rw [hrep]
  obtain ⟨w, hw, _⟩ := accept_total f p { _node := some (m.setLineno v.lineno), _remove := false }
    (by rw [slotWeight_some, Node.weight_setLineno]; exact hf)
  exact ⟨w, hw, NormalForm.accept_eq f p _ w (normalForm_setLineno hm _) hw⟩

/-- A literal without children is in normal form. -/
theorem normalForm_booleanLiteral (b : Bool) (l : Nat) :
    NormalForm (.mk (.BooleanLiteral b) l []) := by
  refine NormalForm.mk _ ?_ ?_
  · intro p
    exact visitNodeExpression_done_or_remove p _
  · intro c hc
    rw [Node.childNodes_mk] at hc
    cases hc

/-- Induction on a tree: a property holds of every node if it holds of a node
whenever it holds of all its children. -/
theorem Node.induction_on {P : Node → Prop}
    (h : ∀ k l cs, (∀ c, some c ∈ cs → P c) → P (.mk k l cs)) : ∀ n, P n := by
  intro n
  refine @Node.rec P (fun cs => ∀ c, some c ∈ cs → P c) (fun o => ∀ c, o = some c → P c)
    ?_ ?_ ?_ ?_ ?_ n
  · intro k l cs ih
    exact h k l cs ih
  · intro c hc
    cases hc
  · intro head tail ih1 ih2 c hc
    rcases List.mem_cons.mp hc with hc | hc
    · exact ih1 c hc.symm
    · exact ih2 c hc
  · intro c hc
    cases hc
  · intro val ih c hc
    cases hc
    exact ih

theorem compare_exclusive (e : Node) : e.compare true = true → e.compare false = false := by
  induction e using Node.induction_on with
  | h k l cs ih =>
    intro h
    cases k <;> try (simp [Node.compare] at h)
    case NumericLiteral v =>
      simp [Node.compare] at h ⊢
      exact h
    case BooleanLiteral b =>
      simp [Node.compare] at h ⊢
      exact h
    case Parenthetical =>
      cases cs with
      | nil => simp [Node.compare] at h
      | cons c rest =>
        cases c with
        | none => simp [Node.compare] at h
        | some x =>
          simp only [Node.compare] at h ⊢
          exact ih x (List.mem_cons_self _ _) h

end fbjs

open fbjs
namespace fbjs

open ReductionWalker

/-! ## Constant conditions and dead statements -/

theorem visitChildren_length {h : Option Node → Option NodeWalker} :
    ∀ {cs out : List (Option Node)}, visitChildren false h cs = some out →
      out.length = cs.length := by
  intro cs
  induction cs with
  | nil => intro out h1; rw [visitChildren_nil] at h1; cases h1; rfl
  | cons c cs ih =>
    intro out h1
    rw [visitChildren_cons] at h1
    cases hc : h c with
    | none => rw [hc] at h1; cases h1
    | some w =>
      rw [hc] at h1
      cases hr : visitChildren false h cs with
      | none => rw [hr] at h1; cases h1
      | some rest =>
        rw [hr] at h1
        simp only [Bool.false_eq_true, if_false] at h1
        cases h1
        simp only [List.length_cons, ih hr]

theorem visit_statementList (p : Option NodeKind) (l : Nat) (cs : List (Option Node)) :
    visit p (.mk .StatementList l cs) = .done (.mk .StatementList l cs) := rfl

/-- C5, on the code: no statement is ever taken out of a statement list. The
program `1; if (0) a();` comes back as it is, though `1;` is a statically
boolean expression and the `if` has a statically false condition and no else
branch; and in general the visit of a statement list returns a statement list
with as many children as before (`visitChild` tests the `_remove` flag of the
walker of the list, which no handler sets, instead of the flag of the walker
that visited the child). -/
theorem statementList_keeps_dead_statements :
    walk (some Example.deadStatements) = some (some Example.deadStatements) ∧
    ∀ (f : Nat) (p : Option NodeKind) (l : Nat) (cs : List (Option Node)) (w : NodeWalker),
      accept f p { _node := some (.mk .StatementList l cs), _remove := false } = some w →
      ∃ out, w = { _node := some (.mk .StatementList l out), _remove := false } ∧
        out.length = cs.length := by
  refine ⟨by rfl, ?_⟩
  intro f p l cs w h
  cases f with
  | zero => rw [accept_zero] at h; cases h
  | succ f =>
    rw [accept_succ_some f p _ _ rfl] at h
    simp only [Node.childNodes_mk, Node.kind_mk] at h
    cases hvc : visitChildren false
        (fun ii => accept f (some .StatementList) (NodeWalker.cloneFor ii)) cs with
    | none => rw [hvc] at h; cases h
    | some out =>
      rw [hvc] at h
      simp only [Node.setChildNodes_mk] at h
      rw [finish_done (visit_statementList p l out)] at h
      cases h
      exact ⟨out, rfl, visitChildren_length hvc⟩

theorem visit_if_true {p : Option NodeKind} {l : Nat} {c : Node} {thenSlot : Option Node}
    {rest : List (Option Node)} (h : c.compare true = true) :
    visit p (.mk .If l (some c :: thenSlot :: rest)) = .replace thenSlot := by
  rw [visit_if]
  unfold visitNodeIf
  simp only [Node.childNodes_mk, List.head?_cons, compareSlot_some, h, if_true]
  rfl

theorem visit_if_false {p : Option NodeKind} {l : Nat} {c e : Node} {thenSlot : Option Node}
    {rest : List (Option Node)} (h : c.compare false = true) :
    visit p (.mk .If l (some c :: thenSlot :: some e :: rest)) = .replace (some e) := by
  have hne : c.compare true = false := by
    cases ht : c.compare true
    · rfl
    · rw [compare_exclusive c ht] at h; cases h
  rw [visit_if]
  unfold visitNodeIf
  simp only [Node.childNodes_mk, List.head?_cons, compareSlot_some, h, hne, if_true,
    Bool.false_eq_true, if_false]
  rfl

/-- C4: an `if` whose reduced condition is statically true is replaced by its
reduced then-block, and one whose reduced condition is statically false and
that has an else-block by its reduced else-block. For every `if` node whose
children are reduced (in normal form), with condition `c`, and every fuel
above the weight of the node, the traversal returns the block (which takes
over the line number of the `if`). The three programs reduce to programs
whose compact rendering is `a();`, `b();` and `x();`. -/
theorem if_constant_condition :
    (∀ (f : Nat) (p : Option NodeKind) (l : Nat) (c thenBlock : Node)
        (elseSlot : Option Node),
        (∀ x, some x ∈ [some c, some thenBlock, elseSlot] → NormalForm x) →
        (Node.mk .If l [some c, some thenBlock, elseSlot]).weight < f →
        (c.compare true = true →
          accept f p { _node := some (.mk .If l [some c, some thenBlock, elseSlot]),
                       _remove := false } =
            some { _node := some (thenBlock.setLineno l), _remove := false }) ∧
        (c.compare false = true → ∀ elseBlock, elseSlot = some elseBlock →
          accept f p { _node := some (.mk .If l [some c, some thenBlock, elseSlot]),
                       _remove := false } =
            some { _node := some (elseBlock.setLineno l), _remove := false })) ∧
    (∀ g_fmt, (walk (some Example.ifOne)).map (Option.map (Node.render g_fmt)) =
      some (some "a();")) ∧
    (∀ g_fmt, (walk (some Example.ifZero)).map (Option.map (Node.render g_fmt)) =
      some (some "b();")) ∧
    (∀ g_fmt, (walk (some Example.ifTrue)).map (Option.map (Node.render g_fmt)) =
      some (some "x();")) := by
  refine ⟨?_, fun _ => rfl, fun _ => rfl, fun _ => rfl⟩
  intro f p l c thenBlock elseSlot hnf hf
  cases f with
  | zero => omega
  | succ f =>
    have hacc := accept_normal_children f p _ (by
      intro x hx
      rw [Node.childNodes_mk] at hx
      exact hnf x hx) hf
    constructor
    · intro hc
      rw [hacc, finish_replace (visit_if_true hc)]
      rfl
    · intro hc elseBlock he
      subst he
      rw [hacc, finish_replace (visit_if_false hc)]
      rfl

end fbjs

open fbjs
namespace fbjs

open ReductionWalker

/-! ## Binary operators with constant operands -/

/-- The rule of `visit(NodeOperator&)` on a node with the two children `lhs`
and `rhs`, spelled out on the four comparisons. -/
theorem visit_operator (p : Option NodeKind) (op : node_operator_t) (l : Nat) (lhs rhs : Node) :
    visit p (.mk (.Operator op) l [some lhs, some rhs]) =
      match op with
      | .OR =>
        if lhs.compare true then .replaceAndVisit (some lhs)
        else if lhs.compare false then
          if rhs.compare true then .replaceAndVisit (some rhs)
          else if rhs.compare false then
            .replaceAndVisit (some (.mk (.BooleanLiteral false) 0 []))
          else .done (.mk (.Operator op) l [some lhs, some rhs])
        else .done (.mk (.Operator op) l [some lhs, some rhs])
      | .AND =>
        if lhs.compare false then .replaceAndVisit (some (.mk (.BooleanLiteral false) 0 []))
        else if lhs.compare true then
          if rhs.compare false then .replaceAndVisit (some (.mk (.BooleanLiteral false) 0 []))
          else .replaceAndVisit (some rhs)
        else .done (.mk (.Operator op) l [some lhs, some rhs])
      | .COMMA =>
        if lhs.compare false || lhs.compare true then .replaceAndVisit (some rhs)
        else .done (.mk (.Operator op) l [some lhs, some rhs])
      | _ => .done (.mk (.Operator op) l [some lhs, some rhs]) := by
  have hv : visit p (.mk (.Operator op) l [some lhs, some rhs]) =
      visitNodeOperator op (.mk (.Operator op) l [some lhs, some rhs]) := rfl
  rw [hv]
  unfold visitNodeOperator
  simp only [Node.childNodes_mk, List.head?_cons, List.getLast?_cons_cons, List.getLast?_singleton,
    List.get?_cons_succ, List.get?_cons_zero, compareSlot_some]
  all_goals (cases op <;> rfl)

theorem weight_binary (k : NodeKind) (l : Nat) (a b : Node) :
    a.weight + b.weight < (Node.mk k l [some a, some b]).weight := by
  rw [Node.weight_mk, Node.weightList_cons, Node.weightList_cons, Node.weightList_nil,
    slotWeight_some, slotWeight_some]
  omega

/-- What the traversal returns when the visit method ends in
`replaceAndVisit(m)` for a node `m` in normal form. -/
theorem finish_replaceAndVisit_normalForm {f : Nat} {p : Option NodeKind} {v m : Node}
    {w : NodeWalker} (hact : visit p v = .replaceAndVisit (some m)) (hm : NormalForm m)
    (hf : m.weight < f)
    (h : finish f p { _node := some v, _remove := false } v = some w) :
    w._node = some (m.setLineno v.lineno) := by
  rw [finish_replaceAndVisit hact] at h
  obtain ⟨w2, hw2, hn⟩ := accept_replace_normalForm f p v m false hm hf
  rw [hw2] at h
  cases h
  exact hn

theorem finish_done_node {f : Nat} {p : Option NodeKind} {v n : Node} {w : NodeWalker}
    (hact : visit p v = .done n)
    (h : finish f p { _node := some v, _remove := false } v = some w) :
    w._node = some n := by
  rw [finish_done hact] at h
  cases h
  rfl

/-- C6: the folding of `||`, `&&` and `,`. For a binary node whose children
`lhs` and `rhs` are reduced (in normal form) and every fuel above the weight
of the node, the traversal returns a walker whose node is: for `||`, `lhs`
when `lhs.compare(true)`, `rhs` when `lhs.compare(false)` and
`rhs.compare(true)`, the literal `false` when both compare false; for `&&`,
the literal `false` when `lhs.compare(false)` or when `lhs.compare(true)` and
`rhs.compare(false)`, and `rhs` when `lhs.compare(true)` otherwise; for `,`,
`rhs` when `lhs` is statically boolean; and the node itself in every other
case. What replaces the node takes over its line number. -/
theorem operator_constant_folding (f : Nat) (p : Option NodeKind) (op : node_operator_t)
    (l : Nat) (lhs rhs : Node) (hl : NormalForm lhs) (hr : NormalForm rhs)
    (hf : (Node.mk (.Operator op) l [some lhs, some rhs]).weight < f) :
    ∃ w, accept f p { _node := some (.mk (.Operator op) l [some lhs, some rhs]),
                      _remove := false } = some w ∧
      (op = .OR → lhs.compare true = true → w._node = some (lhs.setLineno l)) ∧
      (op = .OR → lhs.compare false = true → rhs.compare true = true →
        w._node = some (rhs.setLineno l)) ∧
      (op = .OR → lhs.compare false = true → rhs.compare false = true →
        w._node = some (.mk (.BooleanLiteral false) l [])) ∧
      (op = .AND → lhs.compare false = true →
        w._node = some (.mk (.BooleanLiteral false) l [])) ∧
      (op = .AND → lhs.compare true = true → rhs.compare false = true →
        w._node = some (.mk (.BooleanLiteral false) l [])) ∧
      (op = .AND → lhs.compare true = true → rhs.compare false = false →
        w._node = some (rhs.setLineno l)) ∧
      (op = .COMMA → (lhs.compare true = true ∨ lhs.compare false = true) →
        w._node = some (rhs.setLineno l)) ∧
      (((op ≠ .OR ∧ op ≠ .AND ∧ op ≠ .COMMA) ∨
          (lhs.compare true = false ∧ lhs.compare false = false) ∨
          (op = .OR ∧ lhs.compare false = true ∧
            rhs.compare true = false ∧ rhs.compare false = false)) →
        w._node = some (.mk (.Operator op) l [some lhs, some rhs])) := by
  obtain ⟨w, hw, _⟩ := accept_total f p
    { _node := some (.mk (.Operator op) l [some lhs, some rhs]), _remove := false }
    (by rw [slotWeight_some]; exact hf)
  refine ⟨w, hw, ?_⟩
  have hwt := weight_binary (.Operator op) l lhs rhs
  have hlp := Node.weight_pos lhs
  have hrp := Node.weight_pos rhs
  cases f with
  | zero => omega
  | succ f =>
    rw [accept_normal_children f p _ (by
      intro x hx
      rw [Node.childNodes_mk] at hx
      simp only [List.mem_cons, Option.some.injEq, List.mem_singleton, List.not_mem_nil,
        or_false] at hx
      rcases hx with hx | hx
      · rw [hx]; exact hl
      · rw [hx]; exact hr) hf] at hw
    have hvis := visit_operator p op l lhs rhs
    have hfalse : NormalForm (.mk (.BooleanLiteral false) 0 []) := normalForm_booleanLiteral _ _
    have hwf : (Node.mk (.BooleanLiteral false) 0 []).weight = 1 := by
      simpa using weight_booleanLiteral false
    have hexl : lhs.compare true = true → lhs.compare false = false := compare_exclusive lhs
    have hexr : rhs.compare true = true → rhs.compare false = false := compare_exclusive rhs
    refine ⟨?_, ?_, ?_, ?_, ?_, ?_, ?_, ?_⟩
    · intro hop h1
      subst hop
      simp only [h1, if_true] at hvis
      exact finish_replaceAndVisit_normalForm hvis hl (by omega) hw
    · intro hop h1 h2
      subst hop
      have h0 : lhs.compare true = false := by
        cases ht : lhs.compare true
        · rfl
        · rw [hexl ht] at h1; cases h1
      simp only [h0, h1, h2, if_true, Bool.false_eq_true, if_false] at hvis
      exact finish_replaceAndVisit_normalForm hvis hr (by omega) hw
    · intro hop h1 h2
      subst hop
      have h0 : lhs.compare true = false := by
        cases ht : lhs.compare true
        · rfl
        · rw [hexl ht] at h1; cases h1
      have h3 : rhs.compare true = false := by
        cases ht : rhs.compare true
        · rfl
        · rw [hexr ht] at h2; cases h2
      simp only [h0, h1, h2, h3, if_true, Bool.false_eq_true, if_false] at hvis
      exact finish_replaceAndVisit_normalForm hvis hfalse (by omega) hw
    · intro hop h1
      subst hop
      simp only [h1, if_true] at hvis
      exact finish_replaceAndVisit_normalForm hvis hfalse (by omega) hw
    · intro hop h1 h2
      subst hop
      simp only [hexl h1, h1, h2, if_true, Bool.false_eq_true, if_false] at hvis
      exact finish_replaceAndVisit_normalForm hvis hfalse (by omega) hw
    · intro hop h1 h2
      subst hop
      simp only [hexl h1, h1, h2, if_true, Bool.false_eq_true, if_false] at hvis
      exact finish_replaceAndVisit_normalForm hvis hr (by omega) hw
    · intro hop h1
      subst hop
      have hor : (lhs.compare false || lhs.compare true) = true := by
        rcases h1 with h1 | h1 <;> simp [h1]
      simp only [hor, if_true] at hvis
      exact finish_replaceAndVisit_normalForm hvis hr (by omega) hw
    · intro hcases
      refine finish_done_node ?_ hw
      rw [hvis]
      rcases hcases with ⟨h1, h2, h3⟩ | ⟨h1, h2⟩ | ⟨hop, h1, h2, h3⟩
      · cases op <;> first | rfl | exact absurd rfl h1 | exact absurd rfl h2 | exact absurd rfl h3
      · cases op <;> simp [h1, h2]
      · subst hop
        have h0 : lhs.compare true = false := by
          cases ht : lhs.compare true
          · rfl
          · rw [hexl ht] at h1; cases h1
        simp [h0, h1, h2, h3]

theorem operator_constant_folding_witness :
    NormalForm (Example.numeric 1) ∧ NormalForm (Example.identifier "x") ∧
    (Node.mk (.Operator .OR) 1
      [some (Example.numeric 1), some (Example.identifier "x")]).weight < 4 ∧
    ∃ w, accept 4 (some .StatementList)
        { _node := some (.mk (.Operator .OR) 1
            [some (Example.numeric 1), some (Example.identifier "x")]),
          _remove := false } = some w ∧
      w._node = some (Example.numeric 1) := by
  have h1 : NormalForm (Example.numeric 1) := normalForm_of_walk (t := some (Example.numeric 1)) rfl
  have h2 : NormalForm (Example.identifier "x") := normalForm_identifier "x" 1
  refine ⟨h1, h2, by decide, ?_⟩
  obtain ⟨w, hw, hor, _⟩ := operator_constant_folding 4 (some .StatementList) .OR 1
    (Example.numeric 1) (Example.identifier "x") h1 h2 (by decide)
  exact ⟨w, hw, hor rfl rfl⟩

end fbjs

open fbjs
namespace fbjs

/-! ## The rendering and the number formatting -/

theorem renderKind_congr (g g2 : Rat → String) (k : NodeKind) (cs : List RenderedChild)
    (h : ∀ v, k = .NumericLiteral v → g v = g2 v) :
    renderKind g k cs = renderKind g2 k cs := by
  cases k <;> first | rfl | exact h _ rfl

theorem ropesKind_congr (g g2 : Rat → String) (k : NodeKind) (cs : List RenderedChild)
    (h : ∀ v, k = .NumericLiteral v → g v = g2 v) :
    ropesKind g k cs = ropesKind g2 k cs := by
  unfold ropesKind
  rw [renderKind_congr g g2 k cs h]

theorem numericValues_mk (k : NodeKind) (l : Nat) (cs : List (Option Node)) (v : Rat)
    (h : v ∈ Node.numericValuesList cs) : v ∈ (Node.mk k l cs).numericValues := by
  cases k <;> simp [Node.numericValues, h]

theorem numericValues_self (l : Nat) (cs : List (Option Node)) (v : Rat) :
    v ∈ (Node.mk (.NumericLiteral v) l cs).numericValues := by
  simp [Node.numericValues]

theorem numericValuesList_mem {cs : List (Option Node)} {c : Node} (hc : some c ∈ cs)
    {v : Rat} (hv : v ∈ c.numericValues) : v ∈ Node.numericValuesList cs := by
  induction cs with
  | nil => cases hc
  | cons head tail ih =>
    rcases List.mem_cons.mp hc with h | h
    · subst h
      simp [Node.numericValuesList, hv]
    · cases head with
      | none => simpa [Node.numericValuesList] using ih h
      | some n => simp [Node.numericValuesList, ih h]

theorem ropesList_congr (g g2 : Rat → String) :
    ∀ cs : List (Option Node), (∀ c, some c ∈ cs → c.ropes g = c.ropes g2) →
      Node.ropesList g cs = Node.ropesList g2 cs := by
  intro cs
  induction cs with
  | nil => intro _; rfl
  | cons head tail ih =>
    intro h
    cases head with
    | none =>
      rw [Node.ropesList, Node.ropesList, ih (fun c hc => h c (List.mem_cons_of_mem _ hc))]
    | some n =>
      rw [Node.ropesList, Node.ropesList, h n (List.mem_cons_self _ _),
        ih (fun c hc => h c (List.mem_cons_of_mem _ hc))]

/-- The rendering depends on the number formatting only through the numeric
literals of the tree. -/
theorem ropes_congr (g g2 : Rat → String) (t : Node) :
    (∀ v ∈ t.numericValues, g v = g2 v) → t.ropes g = t.ropes g2 := by
  induction t using Node.induction_on with
  | h k l cs ih =>
    intro h
    rw [Node.ropes, Node.ropes, ropesList_congr g g2 cs (fun c hc =>
      ih c hc (fun v hv => h v (numericValues_mk k l cs v (numericValuesList_mem hc hv))))]
    exact ropesKind_congr g g2 k _ (fun v hk => h v (by rw [hk]; exact numericValues_self l cs v))

theorem render_congr (g g2 : Rat → String) (t : Node)
    (h : ∀ v ∈ t.numericValues, g v = g2 v) : t.render g = t.render g2 := by
  unfold Node.render
  rw [ropes_congr g g2 t h]

end fbjs

open fbjs
namespace fbjs

open ReductionWalker

/-! ## Empty then-blocks, member accesses and property keys -/

theorem normalForm_leaf_expression (k : NodeKind) (l : Nat)
    (h : visit none (.mk k l []) = visitNodeExpression none (.mk k l [])) :
    NormalForm (.mk k l []) := by
  refine NormalForm.mk _ ?_ ?_
  · exact quiet_of_done_or_remove (p := none) (by
      rw [h]
      exact visitNodeExpression_done_or_remove none _)
  · intro c hc
    rw [Node.childNodes_mk] at hc
    cases hc

theorem visit_if_empty_then {p : Option NodeKind} {l : Nat} {c thenBlock elseBlock : Node}
    (ht : c.compare true = false) (hf : c.compare false = false)
    (hthen : thenBlock.childNodes = []) (helse : elseBlock.childNodes ≠ []) :
    visit p (.mk .If l [some c, some thenBlock, some elseBlock]) =
      .visitChildren (.mk .If l
        [some (.mk (.Unary .NOT_UNARY) c.lineno [some (.mk .Parenthetical c.lineno [some c])]),
         some elseBlock, none]) := by
  rw [visit_if]
  unfold visitNodeIf
  simp only [Node.childNodes_mk, List.head?_cons, compareSlot_some, ht, hf,
    Bool.false_eq_true, if_false]
  unfold visitNodeIfEmptyBlocks
  have he : elseBlock.childNodes.isEmpty = false := by
    cases hcs : elseBlock.childNodes with
    | nil => exact absurd hcs helse
    | cons _ _ => rfl
  simp only [Node.childNodes_mk, hthen, he, List.isEmpty_nil, Bool.false_eq_true, if_false,
    if_true, Node.setChildNodes_mk]

/-- C7: an `if` with an empty then-block and an else-block. For every `if`
node whose children are reduced (in normal form), whose condition `c` is not
statically constant (compares neither true nor false), whose then-block has no
children and whose else-block `E` has children, and every fuel above the
weight of the node, the traversal returns the node
`If(Unary(!, Parenthetical(c)), E, nil)`; the `!` and the parentheses get the
line number of `c`. The program `if (c) {} else { x(); }` reduces to the tree
of `if(!(c)){x();}`: the negated condition, the block `{x();}` and no else
branch (the compact rendering writes this tree `if(!(c))x();`, a block of one
statement without its braces). -/
theorem if_empty_then_negated :
    (∀ (f : Nat) (p : Option NodeKind) (l : Nat) (c thenBlock elseBlock : Node),
        NormalForm c → NormalForm thenBlock → NormalForm elseBlock →
        c.compare true = false → c.compare false = false →
        thenBlock.childNodes = [] → elseBlock.childNodes ≠ [] →
        (Node.mk .If l [some c, some thenBlock, some elseBlock]).weight < f →
        accept f p { _node := some (.mk .If l [some c, some thenBlock, some elseBlock]),
                     _remove := false } =
          some { _node := some (.mk .If l
                   [some (.mk (.Unary .NOT_UNARY) c.lineno
                      [some (.mk .Parenthetical c.lineno [some c])]),
                    some elseBlock, none]),
                 _remove := false }) ∧
    walk (some Example.ifEmptyThen) = some (some Example.ifNegated) ∧
    (∀ g_fmt, Node.render g_fmt Example.ifNegated = "if(!(c))x();") := by
  refine ⟨?_, by rfl, fun _ => rfl⟩
  intro f p l c thenBlock elseBlock hc hthenN helseN ht hf hthen helse hfuel
  cases f with
  | zero => omega
  | succ f =>
    rw [accept_normal_children f p _ (by
      intro x hx
      rw [Node.childNodes_mk] at hx
      simp only [List.mem_cons, Option.some.injEq, List.mem_singleton, List.not_mem_nil,
        or_false] at hx
      rcases hx with hx | hx | hx
      · rw [hx]; exact hc
      · rw [hx]; exact hthenN
      · rw [hx]; exact helseN) hfuel]
    rw [finish_visitChildren (visit_if_empty_then ht hf hthen helse)]
    simp only [Node.childNodes_mk, Node.kind_mk, Node.setChildNodes_mk]
    have hneg := normalForm_negated c c.lineno c.lineno hc ht hf
    have hw : (Node.mk .If l [some c, some thenBlock, some elseBlock]).weight =
        1 + (c.weight + (thenBlock.weight + elseBlock.weight)) + 2 := by
      rw [Node.weight_mk, Node.weightList_cons, Node.weightList_cons, Node.weightList_cons,
        Node.weightList_nil, slotWeight_some, slotWeight_some, slotWeight_some]
      rfl
    have hwn : (Node.mk (.Unary .NOT_UNARY) c.lineno
        [some (.mk .Parenthetical c.lineno [some c])]).weight = c.weight + 2 := by
      rw [Node.weight_mk, Node.weightList_cons, Node.weightList_nil, slotWeight_some,
        Node.weight_mk, Node.weightList_cons, Node.weightList_nil, slotWeight_some]
      simp only [bonus]
      omega
    have htp := Node.weight_pos thenBlock
    have htot : ∀ x ∈ [some (Node.mk (.Unary .NOT_UNARY) c.lineno
          [some (.mk .Parenthetical c.lineno [some c])]), some elseBlock, none],
        ∃ w, (fun ii => accept f (some NodeKind.If) (NodeWalker.cloneFor ii)) x = some w ∧
          slotWeight w._node ≤ slotWeight x := by
      intro x hx
      refine accept_total f (some .If) (NodeWalker.cloneFor x) ?_
      show slotWeight x < f
      simp only [List.mem_cons, List.mem_singleton, List.not_mem_nil, or_false] at hx
      rcases hx with hx | hx | hx
      · rw [hx, slotWeight_some, hwn]; omega
      · rw [hx, slotWeight_some]; omega
      · rw [hx, slotWeight_none]; omega
    obtain ⟨out, hout, _⟩ := visitChildren_total (r := false) htot
    have hid := visitChildren_id (by
      intro x hx w hw2
      cases x with
      | none => exact accept_cloneFor_none hw2
      | some y =>
        refine NormalForm.accept_eq f (some .If) y w ?_ hw2
        simp only [List.mem_cons, Option.some.injEq, List.mem_singleton, List.not_mem_nil,
          or_false, reduceCtorEq] at hx
        rcases hx with hx | hx
        · rw [hx]; exact hneg
        · rw [hx]; exact helseN) hout
    rw [hout, hid]
    rfl

theorem visit_dynamicMember (p : Option NodeKind) (l l2 : Nat) (object : Node)
    (value : String) (quoted : Bool) :
    visit p (.mk .DynamicMemberExpression l
        [some object, some (.mk (.StringLiteral value quoted) l2 [])]) =
      if is_identifier (unquoted_value value quoted) then
        .replace (some (.mk .StaticMemberExpression l
          [some object, some (.mk (.Identifier (unquoted_value value quoted)) l2 [])]))
      else .done (.mk .DynamicMemberExpression l
        [some object, some (.mk (.StringLiteral value quoted) l2 [])]) := by
  have hv : visit p (.mk .DynamicMemberExpression l
        [some object, some (.mk (.StringLiteral value quoted) l2 [])]) =
      visitNodeDynamicMemberExpression (.mk .DynamicMemberExpression l
        [some object, some (.mk (.StringLiteral value quoted) l2 [])]) := rfl
  rw [hv]
  unfold visitNodeDynamicMemberExpression
  simp only [Node.childNodes_mk, List.getLast?_cons_cons, List.getLast?_singleton,
    List.head?_cons, Node.lineno_mk]
  cases is_identifier (unquoted_value value quoted) <;> rfl

/-- C8: a dynamic member access whose index is a string literal is rewritten
to the static access exactly when the unquoted text of the literal is a valid
identifier. For every access `obj[k]` with `obj` reduced (in normal form) and
`k` a string literal, and every fuel above the weight of the node: when
`is_identifier` holds of the unquoted text the traversal returns the static
access of the identifier of that text, and when not it returns the node as it
is. The programs `a["foo"];`, `a["for"];` and `a["b"]["c d"];` reduce to
programs rendered `a.foo;`, `a["for"];` and `a.b["c d"];`. -/
theorem dynamic_member_to_static :
    (∀ (f : Nat) (p : Option NodeKind) (l l2 : Nat) (object : Node) (value : String)
        (quoted : Bool), NormalForm object →
        (Node.mk .DynamicMemberExpression l
          [some object, some (.mk (.StringLiteral value quoted) l2 [])]).weight < f →
        accept f p { _node := some (.mk .DynamicMemberExpression l
            [some object, some (.mk (.StringLiteral value quoted) l2 [])]), _remove := false } =
          some { _node :=
                   if is_identifier (unquoted_value value quoted) then
                     some (.mk .StaticMemberExpression l
                       [some object, some (.mk (.Identifier (unquoted_value value quoted)) l2 [])])
                   else
                     some (.mk .DynamicMemberExpression l
                       [some object, some (.mk (.StringLiteral value quoted) l2 [])]),
                 _remove := false }) ∧
    (∀ g_fmt, (walk (some Example.memberFoo)).map (Option.map (Node.render g_fmt)) =
      some (some "a.foo;")) ∧
    (∀ g_fmt, (walk (some Example.memberFor)).map (Option.map (Node.render g_fmt)) =
      some (some "a[\"for\"];")) ∧
    (∀ g_fmt, (walk (some Example.memberChain)).map (Option.map (Node.render g_fmt)) =
      some (some "a.b[\"c d\"];")) := by
  refine ⟨?_, fun _ => rfl, fun _ => rfl, fun _ => rfl⟩
  intro f p l l2 object value quoted hobj hfuel
  cases f with
  | zero => omega
  | succ f =>
    rw [accept_normal_children f p _ (by
      intro x hx
      rw [Node.childNodes_mk] at hx
      simp only [List.mem_cons, Option.some.injEq, List.mem_singleton, List.not_mem_nil,
        or_false] at hx
      rcases hx with hx | hx
      · rw [hx]; exact hobj
      · rw [hx]; exact normalForm_leaf_expression _ _ rfl) hfuel]
    have hvis := visit_dynamicMember p l l2 object value quoted
    cases hid : is_identifier (unquoted_value value quoted)
    · simp only [hid, Bool.false_eq_true, if_false] at hvis ⊢
      rw [finish_done hvis]
    · simp only [hid, if_true] at hvis ⊢
      rw [finish_replace hvis]
      rfl

theorem visit_property_string (p : Option NodeKind) (l l2 : Nat) (valueSlot : Option Node)
    (value : String) (quoted : Bool) :
    visit p (.mk .ObjectLiteralProperty l
        [some (.mk (.StringLiteral value quoted) l2 []), valueSlot]) =
      if is_identifier (unquoted_value value quoted) then
        .replace (some (.mk .ObjectLiteralProperty l
          [some (.mk (.Identifier (unquoted_value value quoted)) l2 []), valueSlot]))
      else .done (.mk .ObjectLiteralProperty l
        [some (.mk (.StringLiteral value quoted) l2 []), valueSlot]) := by
  have hv : visit p (.mk .ObjectLiteralProperty l
        [some (.mk (.StringLiteral value quoted) l2 []), valueSlot]) =
      visitNodeObjectLiteralProperty (.mk .ObjectLiteralProperty l
        [some (.mk (.StringLiteral value quoted) l2 []), valueSlot]) := rfl
  rw [hv]
  unfold visitNodeObjectLiteralProperty
  simp only [Node.childNodes_mk, Node.lineno_mk]
  cases is_identifier (unquoted_value value quoted) <;> rfl

theorem visit_property_other (p : Option NodeKind) (l : Nat) (key : Node)
    (valueSlot : Option Node) (h : ∀ value quoted, key.kind ≠ .StringLiteral value quoted) :
    visit p (.mk .ObjectLiteralProperty l [some key, valueSlot]) =
      .done (.mk .ObjectLiteralProperty l [some key, valueSlot]) := by
  have hv : visit p (.mk .ObjectLiteralProperty l [some key, valueSlot]) =
      visitNodeObjectLiteralProperty (.mk .ObjectLiteralProperty l [some key, valueSlot]) := rfl
  rw [hv]
  unfold visitNodeObjectLiteralProperty
  cases key with
  | mk k kl kcs =>
    cases k <;> first | rfl | exact absurd rfl (h _ _)

/-- C9: the key of an object-literal property that is a string literal is
replaced by an identifier exactly when its unquoted text is a valid
identifier. For every property with reduced children (in normal form) and
every fuel above the weight of the node: with a string-literal key, when
`is_identifier` holds of the unquoted text the traversal returns the property
with the identifier of that text as key and the same value, and when not it
returns the property as it is; a property whose key is no string literal comes
back as it is. The programs `x = {"foo": 1, "1bad": 2};` and
`var o={"foo":1,"bar baz":2};` reduce to programs rendered
`x={foo:1,"1bad":2};` and `var o={foo:1,"bar baz":2};` (`g_fmt` writing the
numbers 1 and 2 as `1` and `2`). -/
theorem property_key_to_identifier :
    (∀ (f : Nat) (p : Option NodeKind) (l l2 : Nat) (value : String) (quoted : Bool)
        (v : Node), NormalForm v →
        (Node.mk .ObjectLiteralProperty l
          [some (.mk (.StringLiteral value quoted) l2 []), some v]).weight < f →
        accept f p { _node := some (.mk .ObjectLiteralProperty l
            [some (.mk (.StringLiteral value quoted) l2 []), some v]), _remove := false } =
          some { _node :=
                   if is_identifier (unquoted_value value quoted) then
                     some (.mk .ObjectLiteralProperty l
                       [some (.mk (.Identifier (unquoted_value value quoted)) l2 []), some v])
                   else
                     some (.mk .ObjectLiteralProperty l
                       [some (.mk (.StringLiteral value quoted) l2 []), some v]),
                 _remove := false }) ∧
    (∀ (f : Nat) (p : Option NodeKind) (l : Nat) (key v : Node),
        NormalForm key → NormalForm v →
        (∀ value quoted, key.kind ≠ .StringLiteral value quoted) →
        (Node.mk .ObjectLiteralProperty l [some key, some v]).weight < f →
        accept f p { _node := some (.mk .ObjectLiteralProperty l [some key, some v]),
                     _remove := false } =
          some { _node := some (.mk .ObjectLiteralProperty l [some key, some v]),
                 _remove := false }) ∧
    (∀ g_fmt : Rat → String, g_fmt 1 = "1" → g_fmt 2 = "2" →
      (walk (some Example.objectBad)).map (Option.map (Node.render g_fmt)) =
        some (some "x=\x7bfoo:1,\"1bad\":2\x7d;")) ∧
    (∀ g_fmt : Rat → String, g_fmt 1 = "1" → g_fmt 2 = "2" →
      (walk (some Example.objectBarBaz)).map (Option.map (Node.render g_fmt)) =
        some (some "var o=\x7bfoo:1,\"bar baz\":2\x7d;")) := by
  refine ⟨?_, ?_, ?_, ?_⟩
  · intro f p l l2 value quoted v hv hfuel
    cases f with
    | zero => omega
    | succ f =>
      rw [accept_normal_children f p _ (by
        intro x hx
        rw [Node.childNodes_mk] at hx
        simp only [List.mem_cons, Option.some.injEq, List.mem_singleton, List.not_mem_nil,
          or_false] at hx
        rcases hx with hx | hx
        · rw [hx]; exact normalForm_leaf_expression _ _ rfl
        · rw [hx]; exact hv) hfuel]
      have hvis := visit_property_string p l l2 (some v) value quoted
      cases hid : is_identifier (unquoted_value value quoted)
      · simp only [hid, Bool.false_eq_true, if_false] at hvis ⊢
        rw [finish_done hvis]
      · simp only [hid, if_true] at hvis ⊢
        rw [finish_replace hvis]
        rfl
  · intro f p l key v hkey hv hk hfuel
    cases f with
    | zero => omega
    | succ f =>
      rw [accept_normal_children f p _ (by
        intro x hx
        rw [Node.childNodes_mk] at hx
        simp only [List.mem_cons, Option.some.injEq, List.mem_singleton, List.not_mem_nil,
          or_false] at hx
        rcases hx with hx | hx
        · rw [hx]; exact hkey
        · rw [hx]; exact hv) hfuel]
      rw [finish_done (visit_property_other p l key (some v) hk)]
  · intro g_fmt h1 h2
    obtain ⟨R, hR, hnum, hren⟩ : ∃ R, walk (some Example.objectBad) = some (some R) ∧
        R.numericValues = [1, 2] ∧
        R.render (fun q => if q = 1 then "1" else "2") = "x=\x7bfoo:1,\"1bad\":2\x7d;" :=
      ⟨_, rfl, rfl, rfl⟩
    rw [hR]
    simp only [Option.map_some']
    rw [render_congr g_fmt (fun q => if q = 1 then "1" else "2") R (by
      intro v hv
      rw [hnum] at hv
      simp only [List.mem_cons, List.mem_singleton, List.not_mem_nil, or_false] at hv
      rcases hv with hv | hv
      · subst hv; simpa using h1
      · subst hv; simpa using h2), hren]
  · intro g_fmt h1 h2
    obtain ⟨R, hR, hnum, hren⟩ : ∃ R, walk (some Example.objectBarBaz) = some (some R) ∧
        R.numericValues = [1, 2] ∧
        R.render (fun q => if q = 1 then "1" else "2") =
          "var o=\x7bfoo:1,\"bar baz\":2\x7d;" :=
      ⟨_, rfl, rfl, rfl⟩
    rw [hR]
    simp only [Option.map_some']
    rw [render_congr g_fmt (fun q => if q = 1 then "1" else "2") R (by
      intro v hv
      rw [hnum] at hv
      simp only [List.mem_cons, List.mem_singleton, List.not_mem_nil, or_false] at hv
      rcases hv with hv | hv
      · subst hv; simpa using h1
      · subst hv; simpa using h2), hren]

end fbjs

open fbjs
namespace fbjs

open ReductionWalker

/-! ## Constant folding and the value of the expression -/

theorem FoldedConstant.evalJS_eq {r : Node} {v : JSValue} (h : FoldedConstant r v) :
    evalJS r = some v := by
  induction h with
  | numeric value l => rfl
  | boolean value l => rfl
  | parenthetical l _ ih => rw [evalJS]; exact ih

theorem FoldedConstant.compare_eq {r : Node} {v : JSValue} (h : FoldedConstant r v) (b : Bool) :
    r.compare b = (b == v.toBoolean) := by
  induction h with
  | numeric value l =>
    cases b <;> simp [Node.compare, JSValue.toBoolean, bne]
  | boolean value l =>
    simp [Node.compare, JSValue.toBoolean]
  | parenthetical l _ ih => rw [Node.compare]; exact ih

theorem FoldedConstant.normalForm {r : Node} {v : JSValue} (h : FoldedConstant r v) :
    NormalForm r := by
  induction h with
  | numeric value l => exact normalForm_leaf_expression _ _ rfl
  | boolean value l => exact normalForm_booleanLiteral _ _
  | parenthetical l _ ih =>
    refine NormalForm.mk _ (quiet_parenthetical l _) ?_
    intro c hc
    simp only [Node.childNodes_mk, List.mem_singleton, Option.some.injEq] at hc
    subst hc
    exact ih

theorem FoldedConstant.withLineno {r : Node} {v : JSValue} (h : FoldedConstant r v) (l : Nat) :
    FoldedConstant (r.setLineno l) v := by
  cases h with
  | numeric value l0 => exact FoldedConstant.numeric value l
  | boolean value l0 => exact FoldedConstant.boolean value l
  | parenthetical l0 he => exact FoldedConstant.parenthetical l he

theorem sameOrZeroFalse_refl (v : JSValue) : v.sameOrZeroFalse v := Or.inl rfl

theorem sameOrZeroFalse_toBoolean {v w : JSValue} (h : v.sameOrZeroFalse w) :
    w.toBoolean = v.toBoolean := by
  rcases h with h | ⟨h1, h2⟩
  · rw [h]
  · rw [h1, h2]; simp [JSValue.toBoolean]

/-- A value that is falsy is the same as `false` up to the folding. -/
theorem sameOrZeroFalse_of_falsy {v w : JSValue} (h : v.sameOrZeroFalse w)
    (hw : w.toBoolean = false) : v.sameOrZeroFalse (.boolean false) := by
  rcases h with h | ⟨h1, _⟩
  · subst h
    cases w with
    | number q =>
      right
      simp [JSValue.toBoolean] at hw
      exact ⟨by rw [hw], rfl⟩
    | boolean b =>
      left
      simp [JSValue.toBoolean] at hw
      rw [hw]
  · right; exact ⟨h1, rfl⟩

theorem visitChildren_one {h : Option Node → Option NodeWalker} {a : Option Node}
    {wa : NodeWalker} (ha : h a = some wa) :
    visitChildren false h [a] = some [wa._node] := by
  rw [visitChildren_cons, ha, visitChildren_nil]
  rfl

theorem visitChildren_two {h : Option Node → Option NodeWalker} {a b : Option Node}
    {wa wb : NodeWalker} (ha : h a = some wa) (hb : h b = some wb) :
    visitChildren false h [a, b] = some [wa._node, wb._node] := by
  rw [visitChildren_cons, ha, visitChildren_one hb]
  rfl

theorem visitChildren_three {h : Option Node → Option NodeWalker} {a b c : Option Node}
    {wa wb wc : NodeWalker} (ha : h a = some wa) (hb : h b = some wb) (hc : h c = some wc) :
    visitChildren false h [a, b, c] = some [wa._node, wb._node, wc._node] := by
  rw [visitChildren_cons, ha, visitChildren_two hb hc]
  rfl

theorem finish_done_or_remove (f : Nat) (p : Option NodeKind) (self : NodeWalker) {v : Node}
    (h : visit p v = .done v ∨ visit p v = .remove v) :
    ∃ w, finish f p self v = some w ∧ w._node = some v := by
  rcases h with h | h
  · exact ⟨_, finish_done h, rfl⟩
  · exact ⟨_, finish_remove h, rfl⟩

theorem finish_replace_folded (f : Nat) (p : Option NodeKind) (self : NodeWalker) {v m : Node}
    {val : JSValue} (hact : visit p v = .replaceAndVisit (some m)) (hm : FoldedConstant m val)
    (hf : m.weight < f) :
    ∃ w r, finish f p self v = some w ∧ w._node = some r ∧ FoldedConstant r val ∧
      r.weight = m.weight := by
  rw [finish_replaceAndVisit hact]
  obtain ⟨w, hw, hn⟩ := accept_replace_normalForm f p v m self._remove hm.normalForm hf
  exact ⟨w, _, hw, hn, hm.withLineno _, Node.weight_setLineno _ _⟩

theorem weight_unary_node (k : NodeKind) (l : Nat) (a : Node) :
    a.weight < (Node.mk k l [some a]).weight := by
  rw [Node.weight_mk, Node.weightList_cons, Node.weightList_nil, slotWeight_some]
  omega

theorem weight_ternary (k : NodeKind) (l : Nat) (a b c : Node) :
    a.weight + b.weight + c.weight < (Node.mk k l [some a, some b, some c]).weight := by
  rw [Node.weight_mk, Node.weightList_cons, Node.weightList_cons, Node.weightList_cons,
    Node.weightList_nil, slotWeight_some, slotWeight_some, slotWeight_some]
  omega

theorem visit_not (p : Option NodeKind) (l : Nat) (e : Node) :
    visit p (.mk (.Unary .NOT_UNARY) l [some e]) =
      if e.compare true then .replaceAndVisit (some (.mk (.BooleanLiteral false) 0 []))
      else if e.compare false then .replaceAndVisit (some (.mk (.BooleanLiteral true) 0 []))
      else .done (.mk (.Unary .NOT_UNARY) l [some e]) := by
  rw [visit_unary]
  unfold visitNodeUnary
  simp only [Node.childNodes_mk, List.head?_cons, compareSlot_some, if_true]

theorem visit_conditional (p : Option NodeKind) (l : Nat) (c a b : Node) :
    visit p (.mk .ConditionalExpression l [some c, some a, some b]) =
      if c.compare true then .replaceAndVisit (some a)
      else if c.compare false then .replaceAndVisit (some b)
      else .done (.mk .ConditionalExpression l [some c, some a, some b]) := by
  have hv : visit p (.mk .ConditionalExpression l [some c, some a, some b]) =
      visitNodeConditionalExpression (.mk .ConditionalExpression l [some c, some a, some b]) :=
    rfl
  rw [hv]
  unfold visitNodeConditionalExpression
  simp only [Node.childNodes_mk, List.head?_cons, compareSlot_some, List.get?_cons_succ,
    List.get?_cons_zero]

end fbjs

open fbjs
namespace fbjs

open ReductionWalker

/-- What the traversal does on a constant expression: it returns a folded
constant whose value is that of the expression, up to `0` becoming `false`. -/
theorem constant_folds {e : Node} (he : ConstantExpression e) :
    ∀ (p : Option NodeKind) (f : Nat), e.weight < f →
      ∃ w r v0 v, accept f p { _node := some e, _remove := false } = some w ∧
        w._node = some r ∧ FoldedConstant r v ∧ evalJS e = some v0 ∧
        v0.sameOrZeroFalse v ∧ r.weight ≤ e.weight := by
  induction he with
  | numeric value l =>
    intro p f hf
    cases f with
    | zero => omega
    | succ f =>
      rw [accept_succ_some f p _ _ rfl]
      simp only [Node.childNodes_mk, visitChildren_nil, Node.setChildNodes_mk]
      obtain ⟨w, hw, hn⟩ := finish_done_or_remove f p
        ({ _node := some (.mk (.NumericLiteral value) l []), _remove := false })
        (v := .mk (.NumericLiteral value) l [])
        (show visit p (.mk (.NumericLiteral value) l []) = .done (.mk (.NumericLiteral value) l []) ∨
            visit p (.mk (.NumericLiteral value) l []) = .remove (.mk (.NumericLiteral value) l []) from
          visitNodeExpression_done_or_remove p (.mk (.NumericLiteral value) l []))
      exact ⟨w, _, _, _, hw, hn, FoldedConstant.numeric value l, rfl, sameOrZeroFalse_refl _,
        Nat.le_refl _⟩
  | boolean value l =>
    intro p f hf
    cases f with
    | zero => omega
    | succ f =>
      rw [accept_succ_some f p _ _ rfl]
      simp only [Node.childNodes_mk, visitChildren_nil, Node.setChildNodes_mk]
      obtain ⟨w, hw, hn⟩ := finish_done_or_remove f p
        ({ _node := some (.mk (.BooleanLiteral value) l []), _remove := false })
        (v := .mk (.BooleanLiteral value) l [])
        (show visit p (.mk (.BooleanLiteral value) l []) = .done (.mk (.BooleanLiteral value) l []) ∨
            visit p (.mk (.BooleanLiteral value) l []) = .remove (.mk (.BooleanLiteral value) l []) from
          visitNodeExpression_done_or_remove p (.mk (.BooleanLiteral value) l []))
      exact ⟨w, _, _, _, hw, hn, FoldedConstant.boolean value l, rfl, sameOrZeroFalse_refl _,
        Nat.le_refl _⟩
  | @parenthetical l e _ ih =>
    intro p f hf
    have hwt := weight_unary_node .Parenthetical l e
    cases f with
    | zero => omega
    | succ f =>
      obtain ⟨we, re, v0, v, hacc, hnode, hfold, hev, hsame, hle⟩ :=
        ih (some .Parenthetical) f (by omega)
      rw [accept_succ_some f p _ _ rfl]
      simp only [Node.childNodes_mk, Node.kind_mk, Node.setChildNodes_mk]
      rw [visitChildren_one (h := fun ii => accept f (some NodeKind.Parenthetical)
        (NodeWalker.cloneFor ii)) (a := some e) hacc, hnode]
      simp only []
      obtain ⟨w, hw, hn⟩ := finish_done_or_remove f p
        ({ _node := some (.mk .Parenthetical l [some e]), _remove := false })
        (v := .mk .Parenthetical l [some re])
        (show visit p (.mk .Parenthetical l [some re]) = .done (.mk .Parenthetical l [some re]) ∨
            visit p (.mk .Parenthetical l [some re]) = .remove (.mk .Parenthetical l [some re]) from
          visitNodeExpression_done_or_remove p (.mk .Parenthetical l [some re]))
      refine ⟨w, _, v0, v, hw, hn, FoldedConstant.parenthetical l hfold, ?_, hsame, ?_⟩
      · rw [evalJS]; exact hev
      · have h1 := weight_unary_node .Parenthetical l re
        rw [Node.weight_mk, Node.weightList_cons, Node.weightList_nil, slotWeight_some,
          Node.weight_mk, Node.weightList_cons, Node.weightList_nil, slotWeight_some]
        simp only [bonus]
        omega
  | @not l e _ ih =>
    intro p f hf
    have hwt := weight_unary_node (.Unary .NOT_UNARY) l e
    have hep := Node.weight_pos e
    cases f with
    | zero => omega
    | succ f =>
      obtain ⟨we, re, v0, v, hacc, hnode, hfold, hev, hsame, hle⟩ :=
        ih (some (.Unary .NOT_UNARY)) f (by omega)
      rw [accept_succ_some f p _ _ rfl]
      simp only [Node.childNodes_mk, Node.kind_mk, Node.setChildNodes_mk]
      rw [visitChildren_one (h := fun ii => accept f (some (NodeKind.Unary .NOT_UNARY))
        (NodeWalker.cloneFor ii)) (a := some e) hacc, hnode]
      simp only []
      have hvis := visit_not p l re
      rw [hfold.compare_eq true, hfold.compare_eq false] at hvis
      have hb := sameOrZeroFalse_toBoolean hsame
      have hev2 : evalJS (.mk (.Unary .NOT_UNARY) l [some e]) =
          some (.boolean (!v0.toBoolean)) := by
        rw [evalJS, hev]
      cases hvb : v.toBoolean
      · simp only [hvb, beq_self_eq_true, if_true, Bool.true_eq_false, Bool.false_eq_true,
          if_false, beq_iff_eq] at hvis
        obtain ⟨w, r, hw, hn, hfc, hwr⟩ := finish_replace_folded f p
          ({ _node := some (.mk (.Unary .NOT_UNARY) l [some e]), _remove := false })
          hvis (FoldedConstant.boolean true 0) (by
            have := weight_booleanLiteral true
            rw [slotWeight_some] at this
            omega)
        refine ⟨w, r, _, _, hw, hn, hfc, hev2, ?_, ?_⟩
        · left; rw [← hb, hvb]; rfl
        · have := weight_booleanLiteral true
          rw [slotWeight_some] at this
          omega
      · simp only [hvb, beq_self_eq_true, if_true] at hvis
        obtain ⟨w, r, hw, hn, hfc, hwr⟩ := finish_replace_folded f p
          ({ _node := some (.mk (.Unary .NOT_UNARY) l [some e]), _remove := false })
          hvis (FoldedConstant.boolean false 0) (by
            have := weight_booleanLiteral false
            rw [slotWeight_some] at this
            omega)
        refine ⟨w, r, _, _, hw, hn, hfc, hev2, ?_, ?_⟩
        · left; rw [← hb, hvb]; rfl
        · have := weight_booleanLiteral false
          rw [slotWeight_some] at this
          omega
  | @or l a b _ _ iha ihb =>
    intro p f hf
    have hwt := weight_binary (.Operator .OR) l a b
    have hap := Node.weight_pos a
    have hbp := Node.weight_pos b
    have hlit := weight_booleanLiteral false
    rw [slotWeight_some] at hlit
    cases f with
    | zero => omega
    | succ f =>
      obtain ⟨wa, ra, va0, va, hacca, hnodea, hfolda, heva, hsamea, hlea⟩ :=
        iha (some (.Operator .OR)) f (by omega)
      obtain ⟨wb, rb, vb0, vb, haccb, hnodeb, hfoldb, hevb, hsameb, hleb⟩ :=
        ihb (some (.Operator .OR)) f (by omega)
      rw [accept_succ_some f p _ _ rfl]
      simp only [Node.childNodes_mk, Node.kind_mk, Node.setChildNodes_mk]
      rw [visitChildren_two (h := fun ii => accept f (some (NodeKind.Operator .OR))
        (NodeWalker.cloneFor ii)) (a := some a) (b := some b) hacca haccb, hnodea, hnodeb]
      simp only []
      have hvis := visit_operator p .OR l ra rb
      simp only [hfolda.compare_eq, hfoldb.compare_eq] at hvis
      have hba := sameOrZeroFalse_toBoolean hsamea
      have hbb := sameOrZeroFalse_toBoolean hsameb
      have hev2 : evalJS (.mk (.Operator .OR) l [some a, some b]) =
          some (if va0.toBoolean then va0 else vb0) := by
        rw [evalJS, heva, hevb]
      rw [← hba] at hev2
      cases hvb : va.toBoolean
      · cases hvb2 : vb.toBoolean
        · simp only [hvb, hvb2, beq_self_eq_true, if_true, Bool.true_eq_false,
            Bool.false_eq_true, if_false, beq_iff_eq] at hvis hev2
          obtain ⟨w, r, hw, hn, hfc, hwr⟩ := finish_replace_folded f p
            ({ _node := some (.mk (.Operator .OR) l [some a, some b]),
                       _remove := false })
            hvis (FoldedConstant.boolean false 0) (by omega)
          exact ⟨w, r, _, _, hw, hn, hfc, hev2, sameOrZeroFalse_of_falsy hsameb hvb2,
            by omega⟩
        · simp only [hvb, hvb2, beq_self_eq_true, if_true, Bool.true_eq_false,
            Bool.false_eq_true, if_false, beq_iff_eq] at hvis hev2
          obtain ⟨w, r, hw, hn, hfc, hwr⟩ := finish_replace_folded f p
            ({ _node := some (.mk (.Operator .OR) l [some a, some b]),
                       _remove := false })
            hvis hfoldb (by omega)
          exact ⟨w, r, _, _, hw, hn, hfc, hev2, hsameb, by omega⟩
      · simp only [hvb, beq_self_eq_true, if_true] at hvis hev2
        obtain ⟨w, r, hw, hn, hfc, hwr⟩ := finish_replace_folded f p
          ({ _node := some (.mk (.Operator .OR) l [some a, some b]),
                     _remove := false })
          hvis hfolda (by omega)
        exact ⟨w, r, _, _, hw, hn, hfc, hev2, hsamea, by omega⟩
  | @and l a b _ _ iha ihb =>
    intro p f hf
    have hwt := weight_binary (.Operator .AND) l a b
    have hap := Node.weight_pos a
    have hbp := Node.weight_pos b
    have hlit := weight_booleanLiteral false
    rw [slotWeight_some] at hlit
    cases f with
    | zero => omega
    | succ f =>
      obtain ⟨wa, ra, va0, va, hacca, hnodea, hfolda, heva, hsamea, hlea⟩ :=
        iha (some (.Operator .AND)) f (by omega)
      obtain ⟨wb, rb, vb0, vb, haccb, hnodeb, hfoldb, hevb, hsameb, hleb⟩ :=
        ihb (some (.Operator .AND)) f (by omega)
      rw [accept_succ_some f p _ _ rfl]
      simp only [Node.childNodes_mk, Node.kind_mk, Node.setChildNodes_mk]
      rw [visitChildren_two (h := fun ii => accept f (some (NodeKind.Operator .AND))
        (NodeWalker.cloneFor ii)) (a := some a) (b := some b) hacca haccb, hnodea, hnodeb]
      simp only []
      have hvis := visit_operator p .AND l ra rb
      simp only [hfolda.compare_eq, hfoldb.compare_eq] at hvis
      have hba := sameOrZeroFalse_toBoolean hsamea
      have hbb := sameOrZeroFalse_toBoolean hsameb
      have hev2 : evalJS (.mk (.Operator .AND) l [some a, some b]) =
          some (if va0.toBoolean then vb0 else va0) := by
        rw [evalJS, heva, hevb]
      rw [← hba] at hev2
      cases hvb : va.toBoolean
      · simp only [hvb, beq_self_eq_true, if_true, Bool.false_eq_true, if_false] at hvis hev2
        obtain ⟨w, r, hw, hn, hfc, hwr⟩ := finish_replace_folded f p
          ({ _node := some (.mk (.Operator .AND) l [some a, some b]),
                     _remove := false })
          hvis (FoldedConstant.boolean false 0) (by omega)
        exact ⟨w, r, _, _, hw, hn, hfc, hev2, sameOrZeroFalse_of_falsy hsamea hvb, by omega⟩
      · cases hvb2 : vb.toBoolean
        · simp only [hvb, hvb2, beq_self_eq_true, if_true, Bool.true_eq_false,
            Bool.false_eq_true, if_false, beq_iff_eq] at hvis hev2
          obtain ⟨w, r, hw, hn, hfc, hwr⟩ := finish_replace_folded f p
            ({ _node := some (.mk (.Operator .AND) l [some a, some b]),
                       _remove := false })
            hvis (FoldedConstant.boolean false 0) (by omega)
          exact ⟨w, r, _, _, hw, hn, hfc, hev2, sameOrZeroFalse_of_falsy hsameb hvb2,
            by omega⟩
        · simp only [hvb, hvb2, beq_self_eq_true, if_true, Bool.true_eq_false,
            Bool.false_eq_true, if_false, beq_iff_eq] at hvis hev2
          obtain ⟨w, r, hw, hn, hfc, hwr⟩ := finish_replace_folded f p
            ({ _node := some (.mk (.Operator .AND) l [some a, some b]),
                       _remove := false })
            hvis hfoldb (by omega)
          exact ⟨w, r, _, _, hw, hn, hfc, hev2, hsameb, by omega⟩
  | @comma l a b _ _ iha ihb =>
    intro p f hf
    have hwt := weight_binary (.Operator .COMMA) l a b
    have hap := Node.weight_pos a
    have hbp := Node.weight_pos b
    cases f with
    | zero => omega
    | succ f =>
      obtain ⟨wa, ra, va0, va, hacca, hnodea, hfolda, heva, hsamea, hlea⟩ :=
        iha (some (.Operator .COMMA)) f (by omega)
      obtain ⟨wb, rb, vb0, vb, haccb, hnodeb, hfoldb, hevb, hsameb, hleb⟩ :=
        ihb (some (.Operator .COMMA)) f (by omega)
      rw [accept_succ_some f p _ _ rfl]
      simp only [Node.childNodes_mk, Node.kind_mk, Node.setChildNodes_mk]
      rw [visitChildren_two (h := fun ii => accept f (some (NodeKind.Operator .COMMA))
        (NodeWalker.cloneFor ii)) (a := some a) (b := some b) hacca haccb, hnodea, hnodeb]
      simp only []
      have hvis := visit_operator p .COMMA l ra rb
      simp only [hfolda.compare_eq, hfoldb.compare_eq] at hvis
      have hev2 : evalJS (.mk (.Operator .COMMA) l [some a, some b]) = some vb0 := by
        rw [evalJS, heva, hevb]
      have hor : ((false == va.toBoolean) || (true == va.toBoolean)) = true := by
        cases va.toBoolean <;> rfl
      simp only [hor, if_true] at hvis
      obtain ⟨w, r, hw, hn, hfc, hwr⟩ := finish_replace_folded f p
        ({ _node := some (.mk (.Operator .COMMA) l [some a, some b]),
                   _remove := false })
        hvis hfoldb (by omega)
      exact ⟨w, r, _, _, hw, hn, hfc, hev2, hsameb, by omega⟩
  | @conditional l c a b _ _ _ ihc iha ihb =>
    intro p f hf
    have hwt := weight_ternary .ConditionalExpression l c a b
    have hcp := Node.weight_pos c
    have hap := Node.weight_pos a
    have hbp := Node.weight_pos b
    cases f with
    | zero => omega
    | succ f =>
      obtain ⟨wc, rc, vc0, vc, haccc, hnodec, hfoldc, hevc, hsamec, hlec⟩ :=
        ihc (some .ConditionalExpression) f (by omega)
      obtain ⟨wa, ra, va0, va, hacca, hnodea, hfolda, heva, hsamea, hlea⟩ :=
        iha (some .ConditionalExpression) f (by omega)
      obtain ⟨wb, rb, vb0, vb, haccb, hnodeb, hfoldb, hevb, hsameb, hleb⟩ :=
        ihb (some .ConditionalExpression) f (by omega)
      rw [accept_succ_some f p _ _ rfl]
      simp only [Node.childNodes_mk, Node.kind_mk, Node.setChildNodes_mk]
      rw [visitChildren_three (h := fun ii => accept f (some NodeKind.ConditionalExpression)
        (NodeWalker.cloneFor ii)) (a := some c) (b := some a) (c := some b) haccc hacca haccb,
        hnodec, hnodea, hnodeb]
      simp only []
      have hvis := visit_conditional p l rc ra rb
      simp only [hfoldc.compare_eq] at hvis
      have hbc := sameOrZeroFalse_toBoolean hsamec
      have hev2 : evalJS (.mk .ConditionalExpression l [some c, some a, some b]) =
          some (if vc0.toBoolean then va0 else vb0) := by
        rw [evalJS, hevc, heva, hevb]
      rw [← hbc] at hev2
      cases hvb : vc.toBoolean
      · simp only [hvb, beq_self_eq_true, if_true, Bool.true_eq_false, Bool.false_eq_true,
          if_false, beq_iff_eq] at hvis hev2
        obtain ⟨w, r, hw, hn, hfc, hwr⟩ := finish_replace_folded f p
          ({ _node := some (.mk .ConditionalExpression l [some c, some a, some b]),
                     _remove := false })
          hvis hfoldb (by omega)
        exact ⟨w, r, _, _, hw, hn, hfc, hev2, hsameb, by omega⟩
      · simp only [hvb, beq_self_eq_true, if_true] at hvis hev2
        obtain ⟨w, r, hw, hn, hfc, hwr⟩ := finish_replace_folded f p
          ({ _node := some (.mk .ConditionalExpression l [some c, some a, some b]),
                     _remove := false })
          hvis hfolda (by omega)
        exact ⟨w, r, _, _, hw, hn, hfc, hev2, hsamea, by omega⟩

end fbjs

open fbjs
namespace fbjs

open ReductionWalker

/-- C3, as stated, fails: the program `x = 0 && 1;` is reduced to
`x = false;`, while `0 && 1` evaluates to the number `0` in JavaScript and the
literal `false` to the boolean `false`. -/
theorem constant_folding_changes_value :
    walk (some Example.assignZeroAndOne) =
      some (some (Example.program
        [Example.assign (Example.identifier "x") (Example.boolean false)])) ∧
    evalJS (Example.operator .AND (Example.numeric 0) (Example.numeric 1)) =
      some (.number 0) ∧
    evalJS (Example.boolean false) = some (.boolean false) ∧
    JSValue.number 0 ≠ JSValue.boolean false := by
  refine ⟨by rfl, by rfl, by rfl, ?_⟩
  intro h
  cases h

/-- C3, amended: for every expression `e` built only from numeric and boolean
literals with `||`, `&&`, `!`, `?:`, the comma operator and parentheses, under
every parent and with every fuel above the weight of `e`, the reduction
returns an expression `r` that evaluates under JavaScript semantics to the
value of `e`, except that the number `0` may have become the boolean `false`;
in particular `r` and `e` have the same truthiness. -/
theorem constant_folding_value (e : Node) (p : Option NodeKind) (f : Nat)
    (he : ConstantExpression e) (hf : e.weight < f) :
    ∃ w r v0 v, accept f p { _node := some e, _remove := false } = some w ∧
      w._node = some r ∧ evalJS e = some v0 ∧ evalJS r = some v ∧
      v0.sameOrZeroFalse v ∧ v.toBoolean = v0.toBoolean := by
  obtain ⟨w, r, v0, v, hacc, hnode, hfold, hev, hsame, _⟩ := constant_folds he p f hf
  exact ⟨w, r, v0, v, hacc, hnode, hev, hfold.evalJS_eq, hsame, sameOrZeroFalse_toBoolean hsame⟩

theorem constant_folding_value_witness :
    ConstantExpression (Example.operator .AND (Example.numeric 0) (Example.numeric 1)) ∧
    (Example.operator .AND (Example.numeric 0) (Example.numeric 1)).weight < 4 ∧
    ∃ w r v0 v, accept 4 (some (.Assignment .ASSIGN))
        { _node := some (Example.operator .AND (Example.numeric 0) (Example.numeric 1)),
          _remove := false } = some w ∧
      w._node = some r ∧
      evalJS (Example.operator .AND (Example.numeric 0) (Example.numeric 1)) = some v0 ∧
      evalJS r = some v ∧ v0.sameOrZeroFalse v ∧ v.toBoolean = v0.toBoolean :=
  ⟨ConstantExpression.and 1 (ConstantExpression.numeric 0 1) (ConstantExpression.numeric 1 1),
   by decide,
   constant_folding_value _ (some (.Assignment .ASSIGN)) 4
     (ConstantExpression.and 1 (ConstantExpression.numeric 0 1) (ConstantExpression.numeric 1 1))
     (by decide)⟩

end fbjs

open fbjs
namespace fbjs

open ReductionWalker

/-! ## Validity as an l-value -/

theorem isValidlVal_setLineno (n : Node) (l : Nat) :
    (n.setLineno l).isValidlVal = n.isValidlVal := by
  cases n with
  | mk k l0 cs =>
    rw [Node.setLineno_mk]
    cases k <;> first
      | rfl
      | (cases cs with
         | nil => rfl
         | cons c rest => cases c <;> rfl)

theorem isValidlVal_isExpression {n : Node} (h : n.isValidlVal = true) :
    n.kind.isExpression = true := by
  cases n with
  | mk k l cs =>
    cases k <;> first
      | rfl
      | (exfalso; revert h; simp [Node.isValidlVal])

theorem isValidlVal_parenthetical (l : Nat) (inner : Node) (rest : List (Option Node)) :
    (Node.mk .Parenthetical l (some inner :: rest)).isValidlVal =
      (inner.kind.isExpression && inner.isValidlVal) := by
  rw [Node.isValidlVal]

theorem isValidlVal_parenthetical_inv {l : Nat} {cs : List (Option Node)}
    (h : (Node.mk .Parenthetical l cs).isValidlVal = true) :
    ∃ inner rest, cs = some inner :: rest ∧ inner.isValidlVal = true := by
  cases cs with
  | nil => simp [Node.isValidlVal] at h
  | cons c rest =>
    cases c with
    | none => simp [Node.isValidlVal] at h
    | some inner =>
      rw [isValidlVal_parenthetical, Bool.and_eq_true] at h
      exact ⟨inner, rest, rfl, h.2⟩

/-- The kinds whose validity does not depend on the children. -/
theorem isValidlVal_children (k : NodeKind) (l l2 : Nat) (cs cs2 : List (Option Node))
    (hk : k ≠ .Parenthetical) :
    (Node.mk k l cs).isValidlVal = (Node.mk k l2 cs2).isValidlVal := by
  cases k <;> first
    | exact absurd rfl hk
    | simp [Node.isValidlVal]

/-- A rule that replaces a valid l-value replaces it by a valid l-value. -/
theorem visit_replace_isValidlVal {p : Option NodeKind} {v m : Node}
    (hv : v.isValidlVal = true)
    (hact : visit p v = .replace (some m) ∨ visit p v = .replaceAndVisit (some m)) :
    m.isValidlVal = true := by
  cases v with
  | mk k l cs =>
    have hne : ∀ x, visitNodeExpression p (Node.mk k l cs) ≠ .replace x ∧
        visitNodeExpression p (Node.mk k l cs) ≠ .replaceAndVisit x := by
      intro x
      rcases visitNodeExpression_done_or_remove p (Node.mk k l cs) with h | h
      · rw [h]; exact ⟨fun h2 => (by cases h2), fun h2 => (by cases h2)⟩
      · rw [h]; exact ⟨fun h2 => (by cases h2), fun h2 => (by cases h2)⟩
    cases k <;> first
      | (exfalso; revert hv; simp [Node.isValidlVal]; done)
      | (exfalso
         rcases hact with h | h
         · exact (hne _).1 h
         · exact (hne _).2 h)
      | skip
    case DynamicMemberExpression =>
      have hvis : visit p (Node.mk .DynamicMemberExpression l cs) =
        visitNodeDynamicMemberExpression (Node.mk .DynamicMemberExpression l cs) := rfl
      rw [hvis] at hact
      unfold visitNodeDynamicMemberExpression at hact
      rcases hact with h | h
      · repeat' split at h
        all_goals first
          | (cases h; done)
          | (dsimp only at h
             split at h
             · cases h
             · cases h; rfl)
      · repeat' split at h
        all_goals first
          | (cases h; done)
          | (dsimp only at h
             split at h
             · cases h
             · cases h)

/-- The traversal of a valid l-value returns a valid l-value. -/
theorem accept_isValidlVal :
    ∀ (f : Nat) (p : Option NodeKind) (e : Node) (w : NodeWalker),
      e.isValidlVal = true →
      accept f p { _node := some e, _remove := false } = some w →
      ∃ r, w._node = some r ∧ r.isValidlVal = true := by
  intro f
  induction f with
  | zero => intro p e w _ h; rw [accept_zero] at h; cases h
  | succ f ih =>
    intro p e w hv h
    rw [accept_succ_some f p _ e rfl] at h
    cases hvc : visitChildren false
        (fun ii => accept f (some e.kind) (NodeWalker.cloneFor ii)) e.childNodes with
    | none =>
      simp only [] at h
      rw [hvc] at h
      cases h
    | some out =>
      simp only [] at h
      rw [hvc] at h
      simp only [] at h
      -- the node with its children visited is a valid l-value
      have hvisited : (e.setChildNodes out).isValidlVal = true := by
        cases e with
        | mk k l cs =>
          rw [Node.setChildNodes_mk]
          by_cases hk : k = .Parenthetical
          · subst hk
            obtain ⟨inner, rest, hcs, hin⟩ := isValidlVal_parenthetical_inv hv
            subst hcs
            rw [Node.childNodes_mk, visitChildren_cons] at hvc
            cases hacc : accept f (some (Node.mk .Parenthetical l (some inner :: rest)).kind)
                (NodeWalker.cloneFor (some inner)) with
            | none => simp only [hacc] at hvc; cases hvc
            | some wi =>
              simp only [hacc] at hvc
              cases hrest : visitChildren false
                  (fun ii => accept f (some (Node.mk .Parenthetical l (some inner :: rest)).kind)
                    (NodeWalker.cloneFor ii)) rest with
              | none => simp only [hrest] at hvc; cases hvc
              | some rest2 =>
                simp only [hrest, Bool.false_eq_true, if_false, Option.some.injEq] at hvc
                obtain ⟨r, hr, hrv⟩ := ih _ inner wi hin hacc
                rw [← hvc, hr, isValidlVal_parenthetical, hrv, isValidlVal_isExpression hrv]
                rfl
          · rw [← isValidlVal_children k l l cs out hk]
            exact hv
      generalize e.setChildNodes out = v at h hvisited
      cases hact : visit p v with
      | done n =>
        rw [finish_done hact] at h
        cases h
        rcases visit_done_eq_or_if hact with hn | hn
        · exact ⟨n, rfl, by rw [hn]; exact hvisited⟩
        · exfalso
          cases v with
          | mk k l cs =>
            rw [Node.kind_mk] at hn
            rw [hn] at hvisited
            simp [Node.isValidlVal] at hvisited
      | remove n =>
        rw [finish_remove hact] at h
        cases h
        exact ⟨n, rfl, by rw [visit_remove_eq hact]; exact hvisited⟩
      | replace m =>
        rw [finish_replace hact] at h
        cases h
        cases m with
        | none =>
          exfalso
          cases v with
          | mk k l cs =>
            have hne : visitNodeExpression p (Node.mk k l cs) ≠ .replace none := by
              rcases visitNodeExpression_done_or_remove p (Node.mk k l cs) with h | h
              · rw [h]; exact fun h2 => (by cases h2)
              · rw [h]; exact fun h2 => (by cases h2)
            cases k <;> first
              | (revert hvisited; simp [Node.isValidlVal]; done)
              | exact hne hact
              | skip
            case DynamicMemberExpression =>
              have hvis : visit p (Node.mk .DynamicMemberExpression l cs) =
                visitNodeDynamicMemberExpression (Node.mk .DynamicMemberExpression l cs) := rfl
              rw [hvis] at hact
              unfold visitNodeDynamicMemberExpression at hact
              repeat' split at hact
              all_goals first
                | (cases hact; done)
                | (dsimp only at hact
                   split at hact
                   · cases hact
                   · cases hact)
        | some m =>
          refine ⟨m.setLineno v.lineno, rfl, ?_⟩
          rw [isValidlVal_setLineno]
          exact visit_replace_isValidlVal hvisited (Or.inl hact)
      | replaceAndVisit m =>
        exfalso
        cases v with
        | mk k l cs =>
          have hne : visitNodeExpression p (Node.mk k l cs) ≠ .replaceAndVisit m := by
            rcases visitNodeExpression_done_or_remove p (Node.mk k l cs) with h | h
            · rw [h]; exact fun h2 => (by cases h2)
            · rw [h]; exact fun h2 => (by cases h2)
          cases k <;> first
            | (revert hvisited; simp [Node.isValidlVal]; done)
            | exact hne hact
            | skip
          case DynamicMemberExpression =>
            have hvis : visit p (Node.mk .DynamicMemberExpression l cs) =
              visitNodeDynamicMemberExpression (Node.mk .DynamicMemberExpression l cs) := rfl
            rw [hvis] at hact
            unfold visitNodeDynamicMemberExpression at hact
            repeat' split at hact
            all_goals first
              | (cases hact; done)
              | (dsimp only at hact
                 split at hact
                 · cases hact
                 · cases hact)
      | visitChildren n =>
        exfalso
        cases v with
        | mk k l cs =>
          have hne : visitNodeExpression p (Node.mk k l cs) ≠ .visitChildren n := by
            rcases visitNodeExpression_done_or_remove p (Node.mk k l cs) with h | h
            · rw [h]; exact fun h2 => (by cases h2)
            · rw [h]; exact fun h2 => (by cases h2)
          cases k <;> first
            | (revert hvisited; simp [Node.isValidlVal]; done)
            | exact hne hact
            | skip
          case DynamicMemberExpression =>
            have hvis : visit p (Node.mk .DynamicMemberExpression l cs) =
              visitNodeDynamicMemberExpression (Node.mk .DynamicMemberExpression l cs) := rfl
            rw [hvis] at hact
            unfold visitNodeDynamicMemberExpression at hact
            repeat' split at hact
            all_goals first
              | (cases hact; done)
              | (dsimp only at hact
                 split at hact
                 · cases hact
                 · cases hact)

end fbjs

open fbjs
namespace fbjs

open ReductionWalker

/-- C12, as stated, fails: in the program `(1 && x);` the rule for `&&`
replaces the node `1 && x`, which is no valid l-value, by its operand `x`,
which is one, and the enclosing parenthetical, no valid l-value before the
reduction, is one after it. -/
theorem and_operand_becomes_lvalue :
    walk (some Example.parenthesisedAnd) =
      some (some (Example.program [.mk .Parenthetical 1 [some (Example.identifier "x")]])) ∧
    visit (some .Parenthetical)
      (Example.operator .AND (Example.numeric 1) (Example.identifier "x")) =
      .replaceAndVisit (some (Example.identifier "x")) ∧
    (Example.operator .AND (Example.numeric 1) (Example.identifier "x")).isValidlVal = false ∧
    (Example.identifier "x").isValidlVal = true ∧
    (Node.mk .Parenthetical 1
      [some (Example.operator .AND (Example.numeric 1) (Example.identifier "x"))]).isValidlVal
      = false ∧
    (Node.mk .Parenthetical 1 [some (Example.identifier "x")]).isValidlVal = true := by
  refine ⟨by rfl, by rfl, by rfl, by rfl, by rfl, by rfl⟩

/-- C12, amended: the reduction never loses l-value validity. When the
traversal of an expression `e` that is a valid l-value returns, the node it
returns, which stands where `e` stood, is a valid l-value (so an enclosing
parenthetical that was valid stays valid); and whenever a rule replaces a node
that is a valid l-value, by `replace` or `replaceAndVisit`, the replacement is
a valid l-value. -/
theorem lvalue_validity_kept (f : Nat) (p : Option NodeKind) (e : Node) (w : NodeWalker)
    (hv : e.isValidlVal = true)
    (h : accept f p { _node := some e, _remove := false } = some w) :
    (∃ r, w._node = some r ∧ r.isValidlVal = true) ∧
    (∀ p2 m, (visit p2 e = .replace (some m) ∨ visit p2 e = .replaceAndVisit (some m)) →
      m.isValidlVal = true) :=
  ⟨accept_isValidlVal f p e w hv h, fun _ _ hact => visit_replace_isValidlVal hv hact⟩

theorem lvalue_validity_kept_witness :
    (Node.mk .Parenthetical 1
      [some (Example.dynamicMember (Example.identifier "a")
        (Example.string "\"foo\""))]).isValidlVal = true ∧
    ∃ w, accept 4 (some .StatementList)
        { _node := some (.mk .Parenthetical 1
            [some (Example.dynamicMember (Example.identifier "a")
              (Example.string "\"foo\""))]),
          _remove := false } = some w ∧
      ∃ r, w._node = some r ∧ r.isValidlVal = true :=
  ⟨rfl, _, rfl,
    (lvalue_validity_kept 4 (some .StatementList)
      (.mk .Parenthetical 1
        [some (Example.dynamicMember (Example.identifier "a") (Example.string "\"foo\""))])
      { _node := some (.mk .Parenthetical 1
          [some (Example.staticMember (Example.identifier "a") "foo")]),
        _remove := false } rfl rfl).1⟩

end fbjs

open fbjs
namespace fbjs

open ReductionWalker

/-- C13, as stated, fails: the program `x = !0;` is reduced to `x = true;`,
and for every number formatting that writes zero in at most two characters
(`g_fmt` writes `0`) the compact rendering `x=true;` of the result is longer
than the compact rendering `x=!0;` of the program. -/
theorem not_zero_renders_longer :
    walk (some Example.assignNotZero) =
      some (some (Example.program
        [Example.assign (Example.identifier "x") (Example.boolean true)])) ∧
    ∀ g_fmt : Rat → String, (g_fmt 0).length ≤ 2 →
      (Node.render g_fmt Example.assignNotZero).length <
        (Node.render g_fmt (Example.program
          [Example.assign (Example.identifier "x") (Example.boolean true)])).length := by
  refine ⟨by rfl, ?_⟩
  intro g_fmt h
  have h1 : Node.render g_fmt Example.assignNotZero = "x=!" ++ g_fmt 0 ++ ";" := rfl
  have h2 : Node.render g_fmt (Example.program
      [Example.assign (Example.identifier "x") (Example.boolean true)]) = "x=true;" := rfl
  rw [h1, h2, String.length_append, String.length_append]
  have h3 : "x=!".length = 3 := rfl
  have h4 : ";".length = 1 := rfl
  have h5 : "x=true;".length = 7 := rfl
  omega

/-- The reduction never makes the tree larger in nodes: for every tree `T`
(or null pointer) it returns a tree `R` whose `weight` is at most that of `T`,
the weight counting one for every node, two more for every `if` with an
else-branch and one more for every dynamic member access. -/
theorem reduce_not_larger (T : Option Node) :
    ∃ R, walk T = some R ∧ slotWeight R ≤ slotWeight T := by
  obtain ⟨w, hw, hwalk⟩ := walk_eq T
  obtain ⟨w2, hw2, hle⟩ := accept_total (slotWeight T + 1) none
    { _node := T, _remove := false } (Nat.lt_succ_self _)
  rw [hw] at hw2
  cases hw2
  exact ⟨w._node, hwalk, hle⟩

end fbjs

open fbjs
namespace fbjs

/-! ## The name factory and the examples of the renaming -/

/-- C18, as stated, fails: the 27th name of a fresh factory is not `aa`. -/
theorem name_factory_27th_not_aa : (NameFactory.new "").nth 26 ≠ "aa" := by
  decide

/-- C18, amended: the first 26 names of a fresh factory with the empty prefix
are the single lowercase letters in order, the 27th name is `za` and the 28th
is `zb`: when every character of the current name is `z` an `a` is appended,
and the characters before it stay `z`. -/
theorem name_factory_first_names :
    (List.range 28).map (NameFactory.new "").nth =
      ["a", "b", "c", "d", "e", "f", "g", "h", "i", "j", "k", "l", "m", "n", "o", "p", "q",
       "r", "s", "t", "u", "v", "w", "x", "y", "z", "za", "zb"] := by
  decide

/-- C19, on the code: with the global variable `a`, the parameters and the
local of `function func(foo, bar) { var gee = a; }` are renamed in the order
of the `std::map` that holds them, which is the order of the names: `bar`
becomes `b`, `foo` becomes `c` and `gee` becomes `d`. -/
theorem rename_order_by_name :
    VariableRenaming.process Example.fileComment =
      Example.program
        [Example.var [Example.assign (Example.identifier "a") (Example.numeric 10)],
         Example.function "func" ["c", "b"]
           [Example.var [Example.assign (Example.identifier "d") (Example.identifier "a")]]] := by
  with_unfolding_all rfl

/-- C20, as stated, fails: the program
`var a=1; function f(x){var y=x+1; return y;}` is renamed to the tree of
`var a=1;function f(b){var c=b+1;return c;}`, which is not the tree of
`var a=1;function f(a){var b=a+1;return b;}`. -/
theorem global_name_is_skipped :
    VariableRenaming.process Example.globalAndFunction =
      Example.program
        [Example.var [Example.assign (Example.identifier "a") (Example.numeric 1)],
         Example.function "f" ["b"]
           [Example.var [Example.assign (Example.identifier "c")
              (Example.operator .PLUS (Example.identifier "b") (Example.numeric 1))],
            Example.returns (Example.identifier "c")]] ∧
    VariableRenaming.process Example.globalAndFunction ≠
      Example.program
        [Example.var [Example.assign (Example.identifier "a") (Example.numeric 1)],
         Example.function "f" ["a"]
           [Example.var [Example.assign (Example.identifier "b")
              (Example.operator .PLUS (Example.identifier "a") (Example.numeric 1))],
            Example.returns (Example.identifier "b")]] := by
  have h : VariableRenaming.process Example.globalAndFunction =
      Example.program
        [Example.var [Example.assign (Example.identifier "a") (Example.numeric 1)],
         Example.function "f" ["b"]
           [Example.var [Example.assign (Example.identifier "c")
              (Example.operator .PLUS (Example.identifier "b") (Example.numeric 1))],
            Example.returns (Example.identifier "c")]] := by with_unfolding_all rfl
  refine ⟨h, ?_⟩
  rw [h]
  decide

/-- C20, amended: variable renaming followed by compact rendering turns the
program `var a=1; function f(x){var y=x+1; return y;}` into
`var a=1;function f(b){var c=b+1;return c;}` (`g_fmt` writing the number 1 as
`1`): the global `a` and the function name keep their names, the parameter
takes the first factory name that is not in use in an enclosing scope, which
is `b` because the global scope holds `a`, and the local the next one, `c`. -/
theorem rename_global_and_function (g_fmt : Rat → String) (h1 : g_fmt 1 = "1") :
    Node.render g_fmt (VariableRenaming.process Example.globalAndFunction) =
      "var a=1;function f(b)\x7bvar c=b+1;return c;\x7d" := by
  obtain ⟨R, hR, hnum, hren⟩ : ∃ R, VariableRenaming.process Example.globalAndFunction = R ∧
      R.numericValues = [1, 1] ∧
      R.render (fun _ => "1") = "var a=1;function f(b)\x7bvar c=b+1;return c;\x7d" :=
    ⟨_, rfl, by with_unfolding_all rfl, by with_unfolding_all rfl⟩
  rw [hR, render_congr g_fmt (fun _ => "1") R (by
    intro v hv
    rw [hnum] at hv
    simp only [List.mem_cons, List.mem_singleton, List.not_mem_nil, or_false, or_self] at hv
    subst hv
    exact h1), hren]

theorem rename_global_and_function_witness :
    (fun _ : Rat => "1") 1 = "1" ∧
    Node.render (fun _ => "1") (VariableRenaming.process Example.globalAndFunction) =
      "var a=1;function f(b)\x7bvar c=b+1;return c;\x7d" :=
  ⟨rfl, rename_global_and_function (fun _ => "1") rfl⟩

end fbjs

open fbjs
namespace fbjs

open VariableRenaming

/-! ## Functions with `with` or `eval` -/

theorem has_with_or_eval_children_of_mem {cs : List (Option Node)} {c : Node}
    (hc : some c ∈ cs) (h : c.isWithOrEval = true ∨ function_has_with_or_eval c = true) :
    function_has_with_or_eval_children cs = true := by
  induction cs with
  | nil => cases hc
  | cons head tail ih =>
    cases head with
    | none =>
      rw [function_has_with_or_eval_children]
      rcases List.mem_cons.mp hc with h1 | h1
      · cases h1
      · exact ih h1
    | some child =>
      rw [function_has_with_or_eval_children]
      rcases List.mem_cons.mp hc with h1 | h1
      · cases h1
        rcases h with h | h
        · unfold Node.isWithOrEval at h
          by_cases hw : c.kind = .With
          · simp [hw]
          · simp only [hw, decide_False, Bool.false_or] at h
            simp [hw, h]
        · by_cases hw : c.kind = .With
          · simp [hw]
          · simp [hw, h]
      · have := ih h1
        simp only [this]
        split
        · rfl
        · split
          · rfl
          · split <;> rfl

theorem has_with_or_eval_mk (k : NodeKind) (l : Nat) (cs : List (Option Node)) :
    function_has_with_or_eval (.mk k l cs) = function_has_with_or_eval_children cs := by
  rw [function_has_with_or_eval]

/-- A tree that has a `with` statement or a call of `eval` at some depth below
its root is recognised by `function_has_with_or_eval`. -/
theorem has_with_or_eval_of_descendant :
    ∀ (path : List Nat) (n d : Node), path ≠ [] → n.subtreeAt path = some d →
      d.isWithOrEval = true → function_has_with_or_eval n = true := by
  intro path
  induction path with
  | nil => intro n d h; exact absurd rfl h
  | cons i rest ih =>
    intro n d _ hsub hd
    cases n with
    | mk k l cs =>
      rw [Node.subtreeAt] at hsub
      rw [has_with_or_eval_mk]
      cases hget : cs.get? i with
      | none => rw [hget] at hsub; cases hsub
      | some slot =>
        cases slot with
        | none => rw [hget] at hsub; cases hsub
        | some c =>
          rw [hget] at hsub
          simp only [] at hsub
          have hmem : some c ∈ cs := List.get?_mem hget
          cases rest with
          | nil =>
            rw [Node.subtreeAt] at hsub
            cases hsub
            exact has_with_or_eval_children_of_mem hmem (Or.inl hd)
          | cons j rest2 =>
            exact has_with_or_eval_children_of_mem hmem
              (Or.inr (ih c d (List.cons_ne_nil _ _) hsub hd))

theorem slotMinified_refl (a : Option Node) : SlotMinified a a := by
  cases a with
  | none => exact True.intro
  | some c => exact Or.inl rfl

theorem slotMinified_list_refl (cs : List (Option Node)) :
    List.Forall₂ SlotMinified cs cs := by
  induction cs with
  | nil => exact List.Forall₂.nil
  | cons a rest ih => exact List.Forall₂.cons (slotMinified_refl a) ih

theorem minify_slot_minified (ii : Option Node) (scope : ScopeChain) :
    SlotMinified ii (minify_slot ii scope).1 := by
  cases ii with
  | none => rw [minify_slot]; exact True.intro
  | some n => rw [minify_slot]; exact Or.inr ⟨scope, rfl⟩

theorem minify_children_minified :
    ∀ (cs : List (Option Node)) (scope : ScopeChain),
      List.Forall₂ SlotMinified cs (minify_children cs scope).1 := by
  intro cs
  induction cs with
  | nil => intro scope; rw [minify_children]; exact List.Forall₂.nil
  | cons a rest ih =>
    intro scope
    rw [minify_children]
    exact List.Forall₂.cons (minify_slot_minified a scope) (ih _)

theorem minify_back_minified :
    ∀ (cs : List (Option Node)) (scope : ScopeChain),
      List.Forall₂ SlotMinified cs (minify_back cs scope).1 := by
  intro cs
  induction cs with
  | nil => intro scope; rw [minify_back]; exact List.Forall₂.nil
  | cons a rest ih =>
    intro scope
    cases rest with
    | nil =>
      rw [minify_back]
      exact List.Forall₂.cons (minify_slot_minified a scope) List.Forall₂.nil
    | cons b rest2 =>
      rw [minify_back]
      · exact List.Forall₂.cons (slotMinified_refl a) (ih scope)
      · intro h; cases h

/-- What `minify` returns for a node has the line number of the node, and its
children stand where the children of the node stood. -/
theorem minify_children_step (k : NodeKind) (l : Nat) (cs : List (Option Node))
    (scope : ScopeChain) :
    ∃ k2 cs2, (minify (.mk k l cs) scope).1 = .mk k2 l cs2 ∧
      List.Forall₂ SlotMinified cs cs2 := by
  by_cases h1 : k = .ObjectLiteralProperty
  · subst h1
    rw [minify]
    exact ⟨_, _, rfl, minify_back_minified cs scope⟩
  by_cases h2 : k = .StaticMemberExpression
  · subst h2
    cases cs with
    | nil => rw [minify]; exact ⟨_, _, rfl, List.Forall₂.nil⟩
    | cons front rest =>
      rw [minify]
      exact ⟨_, _, rfl, List.Forall₂.cons (minify_slot_minified front scope)
        (slotMinified_list_refl rest)⟩
  by_cases h3 : ∃ name, k = .Identifier name
  · obtain ⟨name, h3⟩ := h3
    subst h3
    rw [minify]
    split
    · exact ⟨_, _, rfl, slotMinified_list_refl cs⟩
    · exact ⟨_, _, rfl, slotMinified_list_refl cs⟩
  by_cases h4 : k = .FunctionDeclaration
  · subst h4
    rw [minify]
    split
    · cases cs with
      | nil => exact ⟨_, _, rfl, List.Forall₂.nil⟩
      | cons name rest =>
        exact ⟨_, _, rfl, List.Forall₂.cons (minify_slot_minified name _)
          (minify_children_minified rest _)⟩
    · exact ⟨_, _, rfl, slotMinified_list_refl cs⟩
  by_cases h5 : k = .FunctionExpression
  · subst h5
    rw [minify]
    split
    · cases cs with
      | nil => exact ⟨_, _, rfl, List.Forall₂.nil⟩
      | cons name rest =>
        exact ⟨_, _, rfl, List.Forall₂.cons (minify_slot_minified name _)
          (minify_children_minified rest _)⟩
    · exact ⟨_, _, rfl, slotMinified_list_refl cs⟩
  rw [minify.eq_7 scope k l cs h1 h2 (fun name hn => h3 ⟨name, hn⟩) h4 h5]
  exact ⟨_, _, rfl, minify_children_minified cs scope⟩

/-- A function with `with` or `eval` below it is returned by `minify` as it
is. -/
theorem minify_with_or_eval (F : Node) (scope : ScopeChain)
    (hk : F.kind = .FunctionDeclaration ∨ F.kind = .FunctionExpression)
    (h : function_has_with_or_eval F = true) : minify F scope = (F, scope) := by
  cases F with
  | mk k l cs =>
    rw [has_with_or_eval_mk] at h
    rw [Node.kind_mk] at hk
    rcases hk with hk | hk
    · subst hk
      rw [minify]
      simp [h]
    · subst hk
      rw [minify]
      simp [h]

theorem forall₂_get? {R : Option Node → Option Node → Prop} :
    ∀ {cs cs2 : List (Option Node)}, List.Forall₂ R cs cs2 → ∀ (i : Nat) (a : Option Node),
      cs.get? i = some a → ∃ b, cs2.get? i = some b ∧ R a b := by
  intro cs cs2 h
  induction h with
  | nil => intro i a hi; cases hi
  | cons hab _ ih =>
    intro i a hi
    cases i with
    | zero =>
      simp only [List.get?_cons_zero, Option.some.injEq] at hi
      subst hi
      exact ⟨_, rfl, hab⟩
    | succ j =>
      simp only [List.get?_cons_succ] at hi
      exact ih j a hi

/-- The subtree of a function with `with` or `eval` is where it was, as it
was, after `minify`. -/
theorem minify_subtreeAt :
    ∀ (path : List Nat) (n F : Node) (scope : ScopeChain), n.subtreeAt path = some F →
      (F.kind = .FunctionDeclaration ∨ F.kind = .FunctionExpression) →
      function_has_with_or_eval F = true →
      (minify n scope).1.subtreeAt path = some F := by
  intro path
  induction path with
  | nil =>
    intro n F scope hsub hk h
    rw [Node.subtreeAt] at hsub
    cases hsub
    rw [minify_with_or_eval n scope hk h]
    show Node.subtreeAt n [] = some n
    rw [Node.subtreeAt]
  | cons i rest ih =>
    intro n F scope hsub hk h
    cases n with
    | mk k l cs =>
      rw [Node.subtreeAt] at hsub
      obtain ⟨k2, cs2, heq, hrel⟩ := minify_children_step k l cs scope
      rw [heq, Node.subtreeAt]
      cases hget : cs.get? i with
      | none => rw [hget] at hsub; cases hsub
      | some slot =>
        cases slot with
        | none => rw [hget] at hsub; cases hsub
        | some c =>
          rw [hget] at hsub
          simp only [] at hsub
          obtain ⟨b, hb, hR⟩ := forall₂_get? hrel i (some c) hget
          rw [hb]
          cases b with
          | none => exact False.elim hR
          | some c2 =>
            simp only []
            rcases hR with hR | ⟨s, hR⟩
            · rw [hR]; exact hsub
            · rw [hR]; exact ih c F s hsub hk h

/-- C15: a function that has a `with` statement or a call of `eval` below it
is left as it is. For every program `root` and every function declaration or
function expression `F` in it (the subtree at a position `path`) that has, at
some depth below it, a `with` statement or a call whose callee is the
identifier `eval`, the renamed program has `F` itself at that position: name,
parameters, body and nested functions are unchanged. The program
`function f(){with(o){x=1;}}` is returned as it is. -/
theorem with_or_eval_function_unchanged :
    (∀ (root F d : Node) (path below : List Nat),
        root.subtreeAt path = some F →
        (F.kind = .FunctionDeclaration ∨ F.kind = .FunctionExpression) →
        below ≠ [] → F.subtreeAt below = some d → d.isWithOrEval = true →
        (process root).subtreeAt path = some F) ∧
    process Example.functionWith = Example.functionWith := by
  refine ⟨?_, by with_unfolding_all rfl⟩
  intro root F d path below hsub hk hne hd hwe
  unfold process
  exact minify_subtreeAt path root F _ hsub hk
    (has_with_or_eval_of_descendant below F d hne hd hwe)

end fbjs

open fbjs
namespace fbjs

open VariableRenaming

/-! ## The global scope keeps every name -/

theorem rename_t_mem_set {m : List (String × String)} {key value : String}
    {e : String × String} (h : e ∈ rename_t.set m key value) :
    e = (key, value) ∨ e ∈ m := by
  induction m with
  | nil =>
    rw [rename_t.set] at h
    exact Or.inl (List.mem_singleton.mp h)
  | cons head tail ih =>
    obtain ⟨k, v⟩ := head
    rw [rename_t.set] at h
    split at h
    · rcases List.mem_cons.mp h with h | h
      · exact Or.inl h
      · exact Or.inr h
    · split at h
      · rcases List.mem_cons.mp h with h | h
        · exact Or.inl h
        · exact Or.inr (List.mem_cons_of_mem _ h)
      · rcases List.mem_cons.mp h with h | h
        · exact Or.inr (by rw [h]; exact List.mem_cons_self _ _)
        · rcases ih h with h | h
          · exact Or.inl h
          · exact Or.inr (List.mem_cons_of_mem _ h)

theorem isIdentity_empty : Scope.empty.IsIdentity := by
  intro e he
  cases he

theorem isIdentity_declare {s : Scope} (h : s.IsIdentity) (name : String) :
    (s.declare name).IsIdentity := by
  intro e he
  rcases rename_t_mem_set he with he | he
  · rw [he]
  · exact h e he

theorem isIdentity_rename_internal {s : Scope} (h : s.IsIdentity) (name : String) :
    (s.rename_internal name name).IsIdentity := by
  intro e he
  rcases rename_t_mem_set he with he | he
  · rw [he]
  · exact h e he

theorem isIdentity_chain_declare {chain : ScopeChain} (h : chain.global.IsIdentity)
    (name : String) : (chain.declare name).global.IsIdentity := by
  unfold ScopeChain.declare
  split
  · exact isIdentity_declare h name
  · exact h

theorem isIdentity_reserveGlobal {chain : ScopeChain} (h : chain.global.IsIdentity)
    (name : String) : (chain.reserveGlobal name).global.IsIdentity :=
  isIdentity_rename_internal h name

theorem locals_chain_declare_nil {chain : ScopeChain} (h : chain.locals = []) (name : String) :
    (chain.declare name).locals = [] := by
  unfold ScopeChain.declare
  rw [h]

theorem isIdentity_rename_vars {s : Scope} (h : s.IsIdentity) :
    (GlobalScope.rename_vars s).IsIdentity := by
  unfold GlobalScope.rename_vars
  have hgen : ∀ (L : List (String × String)) (t : Scope), (∀ e ∈ L, e.2 = e.1) →
      t.IsIdentity → (L.foldl (fun s e => s.rename_internal e.1 e.2) t).IsIdentity := by
    intro L
    induction L with
    | nil => intro t _ ht; exact ht
    | cons e rest ih =>
      intro t hL ht
      rw [List.foldl_cons]
      refine ih _ (fun x hx => hL x (List.mem_cons_of_mem _ hx)) ?_
      rw [hL e (List.mem_cons_self _ _)]
      exact isIdentity_rename_internal ht _
  exact hgen _ s h h

/-- A property of the global scope that `declare` on the chain and
`reserve` on the global scope keep is kept by `build_scope`. -/
theorem build_scope_var_keeps (P : ScopeChain → Prop)
    (hd : ∀ c name, P c → P (c.declare name)) :
    ∀ (cs : List (Option Node)) (chain : ScopeChain), P chain → P (build_scope_var cs chain) := by
  intro cs
  induction cs with
  | nil => intro chain h; rw [build_scope_var]; exact h
  | cons ii rest ih =>
    intro chain h
    cases ii with
    | none => rw [build_scope_var]; exact ih chain h
    | some n =>
      rw [build_scope_var]
      split
      · exact ih _ (hd _ _ h)
      · split
        · split
          · exact ih _ (hd _ _ h)
          · exact ih _ h
        · exact ih _ h

theorem build_scope_children_keeps (P : ScopeChain → Prop) :
    ∀ (cs : List (Option Node)),
      (∀ c, some c ∈ cs → ∀ chain, P chain → P (build_scope c chain)) →
      ∀ chain, P chain → P (build_scope_children cs chain) := by
  intro cs
  induction cs with
  | nil => intro _ chain h; rw [build_scope_children]; exact h
  | cons ii rest ih =>
    intro hc chain h
    cases ii with
    | none =>
      rw [build_scope_children]
      exact ih (fun c hm => hc c (List.mem_cons_of_mem _ hm)) chain h
    | some n =>
      rw [build_scope_children]
      exact ih (fun c hm => hc c (List.mem_cons_of_mem _ hm)) _
        (hc n (List.mem_cons_self _ _) chain h)

theorem build_scope_keeps (P : ScopeChain → Prop)
    (hd : ∀ c name, P c → P (c.declare name))
    (hr : ∀ c name, P c → P (c.reserveGlobal name)) :
    ∀ (n : Node) (chain : ScopeChain), P chain → P (build_scope n chain) := by
  intro n
  induction n using Node.induction_on with
  | h k l cs ih =>
    intro chain h
    unfold build_scope
    split
    · exact h
    · split
      · exact hd _ _ h
      · exact h
    · exact build_scope_var_keeps P hd cs chain h
    · split
      · exact hd _ _ h
      · exact h
    · apply build_scope_children_keeps P cs ih
      split
      · split
        · split
          · exact hr _ _ h
          · exact h
        · exact h
      · exact h

theorem declare_args_keeps (P : ScopeChain → Prop)
    (hd : ∀ c name, P c → P (c.declare name)) :
    ∀ (cs : List (Option Node)) (chain : ScopeChain), P chain → P (declare_args cs chain) := by
  intro cs
  induction cs with
  | nil => intro chain h; rw [declare_args]; exact h
  | cons ii rest ih =>
    intro chain h
    cases ii with
    | none => rw [declare_args]; exact ih chain h
    | some n =>
      rw [declare_args]
      split
      · exact ih _ (hd _ _ h)
      · exact ih _ h

theorem chain_declare_cons (s : Scope) (rest : List Scope) (g : Scope) (name : String) :
    ScopeChain.declare { locals := s :: rest, global := g } name =
      { locals := s.declare name :: rest, global := g } := rfl

theorem rename_vars_global (c : ScopeChain) :
    (LocalScope.rename_vars c).global = c.global ∧
      (LocalScope.rename_vars c).locals.tail = c.locals.tail ∧
      ((LocalScope.rename_vars c).locals = [] ↔ c.locals = []) := by
  unfold LocalScope.rename_vars
  split
  · rename_i h
    exact ⟨rfl, rfl, Iff.rfl⟩
  · rename_i self rest h
    rw [h]
    exact ⟨rfl, rfl, by simp⟩

/-- While a function is entered the chain has the new local scope in front of
the local scopes it had, and the global scope changes by reservations only. -/
theorem function_scope_keeps (Q : Scope → Prop)
    (hres : ∀ s name, Q s → Q (s.reserve name))
    (cs : List (Option Node)) (scope : ScopeChain) (h : Q scope.global) :
    Q (function_scope cs scope).global ∧
      (function_scope cs scope).locals.tail = scope.locals ∧
      (function_scope cs scope).locals ≠ [] := by
  have hd : ∀ (c : ScopeChain) (name : String),
      (Q c.global ∧ c.locals.tail = scope.locals ∧ c.locals ≠ []) →
      (Q (c.declare name).global ∧ (c.declare name).locals.tail = scope.locals ∧
        (c.declare name).locals ≠ []) := by
    intro c name hc
    obtain ⟨loc, g⟩ := c
    cases loc with
    | nil => exact absurd rfl hc.2.2
    | cons s rest =>
      rw [chain_declare_cons]
      exact ⟨hc.1, hc.2.1, List.cons_ne_nil _ _⟩
  have hr : ∀ (c : ScopeChain) (name : String),
      (Q c.global ∧ c.locals.tail = scope.locals ∧ c.locals ≠ []) →
      (Q (c.reserveGlobal name).global ∧ (c.reserveGlobal name).locals.tail = scope.locals ∧
        (c.reserveGlobal name).locals ≠ []) := by
    intro c name hc
    exact ⟨hres _ _ hc.1, hc.2.1, hc.2.2⟩
  have h0 : Q scope.push.global ∧ scope.push.locals.tail = scope.locals ∧
      scope.push.locals ≠ [] := ⟨h, rfl, List.cons_ne_nil _ _⟩
  have step_args : ∀ c : ScopeChain,
      (Q c.global ∧ c.locals.tail = scope.locals ∧ c.locals ≠ []) →
      (fun c : ScopeChain => Q c.global ∧ c.locals.tail = scope.locals ∧ c.locals ≠ [])
        (match cs.get? 1 with
         | some (some args) => declare_args args.childNodes c
         | _ => c) := by
    intro c hc
    split
    · exact declare_args_keeps
        (fun c => Q c.global ∧ c.locals.tail = scope.locals ∧ c.locals ≠ []) hd _ _ hc
    · exact hc
  have step_body : ∀ c : ScopeChain,
      (Q c.global ∧ c.locals.tail = scope.locals ∧ c.locals ≠ []) →
      (fun c : ScopeChain => Q c.global ∧ c.locals.tail = scope.locals ∧ c.locals ≠ [])
        (match cs.get? 2 with
         | some (some body) => build_scope body c
         | _ => c) := by
    intro c hc
    split
    · exact build_scope_keeps
        (fun c => Q c.global ∧ c.locals.tail = scope.locals ∧ c.locals ≠ []) hd hr _ _ hc
    · exact hc
  have step_rename : ∀ c : ScopeChain,
      (Q c.global ∧ c.locals.tail = scope.locals ∧ c.locals ≠ []) →
      (fun c : ScopeChain => Q c.global ∧ c.locals.tail = scope.locals ∧ c.locals ≠ [])
        (LocalScope.rename_vars c) := by
    intro c hc
    obtain ⟨h1, h2, h3⟩ := rename_vars_global c
    exact ⟨by rw [h1]; exact hc.1, by rw [h2]; exact hc.2.1, fun hn => hc.2.2 (h3.mp hn)⟩
  exact step_rename _ (step_body _ (step_args _ h0))

end fbjs

open fbjs
namespace fbjs

open VariableRenaming

theorem isFunction_iff (k : NodeKind) :
    k.isFunction = true ↔ k = .FunctionDeclaration ∨ k = .FunctionExpression := by
  cases k <;> simp [NodeKind.isFunction]

theorem minify_function_nil (k : NodeKind) (hk : k.isFunction = true) (l : Nat)
    (chain : ScopeChain) : minify (.mk k l []) chain = (.mk k l [], chain) := by
  rcases (isFunction_iff k).mp hk with h | h
  · subst h
    rw [minify]
    split <;> rfl
  · subst h
    rw [minify]
    split <;> rfl

theorem minify_function_skip (k : NodeKind) (hk : k.isFunction = true) (l : Nat)
    (cs : List (Option Node)) (chain : ScopeChain)
    (h : function_has_with_or_eval_children cs = true) :
    minify (.mk k l cs) chain = (.mk k l cs, chain) := by
  refine minify_with_or_eval (.mk k l cs) chain ?_ ?_
  · rw [Node.kind_mk]; exact (isFunction_iff k).mp hk
  · rw [has_with_or_eval_mk]; exact h

/-- `minify` on a function without `with` and `eval`: the name is renamed in
the scope of the call, the other children in the scope of the function. -/
theorem minify_function_cons (k : NodeKind) (hk : k.isFunction = true) (l : Nat)
    (name : Option Node) (rest : List (Option Node)) (chain : ScopeChain)
    (h : function_has_with_or_eval_children (name :: rest) = false) :
    minify (.mk k l (name :: rest)) chain =
      (.mk k l
        ((minify_slot name
            { locals := chain.locals,
              global := (function_scope (name :: rest) chain).global }).1 ::
          (minify_children rest
            { locals := (function_scope (name :: rest) chain).locals,
              global := (minify_slot name
                { locals := chain.locals,
                  global := (function_scope (name :: rest) chain).global }).2.global }).1),
       { locals := chain.locals,
         global := (minify_children rest
            { locals := (function_scope (name :: rest) chain).locals,
              global := (minify_slot name
                { locals := chain.locals,
                  global := (function_scope (name :: rest) chain).global }).2.global }).2.global
       }) := by
  rcases (isFunction_iff k).mp hk with hk2 | hk2
  · subst hk2
    rw [minify]
    simp only [h, Bool.not_false, if_true]
  · subst hk2
    rw [minify]
    simp only [h, Bool.not_false, if_true]

theorem minify_slot_keeps (Q : Scope → Prop) (ii : Option Node)
    (hc : ∀ c, ii = some c → ∀ chain, (minify c chain).2.locals = chain.locals ∧
      (Q chain.global → Q (minify c chain).2.global)) (chain : ScopeChain) :
    (minify_slot ii chain).2.locals = chain.locals ∧
      (Q chain.global → Q (minify_slot ii chain).2.global) := by
  cases ii with
  | none => rw [minify_slot]; exact ⟨rfl, fun h => h⟩
  | some n => rw [minify_slot]; exact hc n rfl chain

theorem minify_children_keeps (Q : Scope → Prop) :
    ∀ (cs : List (Option Node)),
      (∀ c, some c ∈ cs → ∀ chain, (minify c chain).2.locals = chain.locals ∧
        (Q chain.global → Q (minify c chain).2.global)) →
      ∀ chain, (minify_children cs chain).2.locals = chain.locals ∧
        (Q chain.global → Q (minify_children cs chain).2.global) := by
  intro cs
  induction cs with
  | nil => intro _ chain; rw [minify_children]; exact ⟨rfl, fun h => h⟩
  | cons ii rest ih =>
    intro hc chain
    rw [minify_children]
    have h1 := minify_slot_keeps Q ii
      (fun c hii => hc c (by rw [hii]; exact List.mem_cons_self _ _)) chain
    have h2 := ih (fun c hm => hc c (List.mem_cons_of_mem _ hm)) (minify_slot ii chain).2
    exact ⟨by rw [h2.1, h1.1], fun h => h2.2 (h1.2 h)⟩

theorem minify_back_keeps (Q : Scope → Prop) :
    ∀ (cs : List (Option Node)),
      (∀ c, some c ∈ cs → ∀ chain, (minify c chain).2.locals = chain.locals ∧
        (Q chain.global → Q (minify c chain).2.global)) →
      ∀ chain, (minify_back cs chain).2.locals = chain.locals ∧
        (Q chain.global → Q (minify_back cs chain).2.global) := by
  intro cs
  induction cs with
  | nil => intro _ chain; rw [minify_back]; exact ⟨rfl, fun h => h⟩
  | cons ii rest ih =>
    intro hc chain
    cases rest with
    | nil =>
      rw [minify_back]
      exact minify_slot_keeps Q ii
        (fun c hii => hc c (by rw [hii]; exact List.mem_cons_self _ _)) chain
    | cons b rest2 =>
      rw [minify_back]
      · exact ih (fun c hm => hc c (List.mem_cons_of_mem _ hm)) chain
      · intro h; cases h

/-- `minify` leaves the local scopes of the chain as they are, and changes the
global scope by reservations only. -/
theorem minify_keeps (Q : Scope → Prop) (hres : ∀ s name, Q s → Q (s.reserve name)) :
    ∀ (n : Node) (chain : ScopeChain), (minify n chain).2.locals = chain.locals ∧
      (Q chain.global → Q (minify n chain).2.global) := by
  intro n
  induction n using Node.induction_on with
  | h k l cs ih =>
    intro chain
    have hfun : k.isFunction = true →
        (minify (.mk k l cs) chain).2.locals = chain.locals ∧
          (Q chain.global → Q (minify (.mk k l cs) chain).2.global) := by
      intro hk
      cases hwe : function_has_with_or_eval_children cs
      · cases cs with
        | nil => rw [minify_function_nil k hk]; exact ⟨rfl, fun h => h⟩
        | cons name rest =>
          rw [minify_function_cons k hk l name rest chain hwe]
          refine ⟨rfl, fun h => ?_⟩
          have hfs := (function_scope_keeps Q hres (name :: rest) chain h).1
          have h1 := (minify_slot_keeps Q name
            (fun c hii => ih c (by rw [hii]; exact List.mem_cons_self _ _))
            { locals := chain.locals, global := (function_scope (name :: rest) chain).global }).2
            hfs
          exact (minify_children_keeps Q rest
            (fun c hm => ih c (List.mem_cons_of_mem _ hm)) _).2 h1
      · rw [minify_function_skip k hk l cs chain hwe]
        exact ⟨rfl, fun h => h⟩
    by_cases h1 : k = .ObjectLiteralProperty
    · subst h1
      rw [minify]
      exact minify_back_keeps Q cs ih chain
    by_cases h2 : k = .StaticMemberExpression
    · subst h2
      cases cs with
      | nil => rw [minify]; exact ⟨rfl, fun h => h⟩
      | cons front rest =>
        rw [minify]
        exact minify_slot_keeps Q front
          (fun c hii => ih c (by rw [hii]; exact List.mem_cons_self _ _)) chain
    by_cases h3 : ∃ name, k = .Identifier name
    · obtain ⟨name, h3⟩ := h3
      subst h3
      rw [minify]
      split
      · exact ⟨rfl, fun h => h⟩
      · exact ⟨rfl, fun h => h⟩
    by_cases h4 : k = .FunctionDeclaration
    · exact hfun (by rw [h4]; rfl)
    by_cases h5 : k = .FunctionExpression
    · exact hfun (by rw [h5]; rfl)
    rw [minify.eq_7 chain k l cs h1 h2 (fun name hn => h3 ⟨name, hn⟩) h4 h5]
    exact minify_children_keeps Q cs ih chain

end fbjs

open fbjs
namespace fbjs

open VariableRenaming

theorem rename_t_find_mem {m : List (String × String)} {key v : String}
    (h : rename_t.find m key = some v) : (key, v) ∈ m := by
  unfold rename_t.find at h
  cases hf : m.find? (fun e => e.1 == key) with
  | none => rw [hf] at h; cases h
  | some e =>
    rw [hf] at h
    simp only [Option.map_some', Option.some.injEq] at h
    have hmem := List.mem_of_find?_eq_some hf
    have hkey := List.find?_some hf
    simp only [beq_iff_eq] at hkey
    rw [← hkey, ← h]
    exact hmem

theorem new_name_identity (chain : ScopeChain) (hl : chain.locals = [])
    (hg : chain.global.IsIdentity) (name : String) : chain.new_name name = name := by
  unfold ScopeChain.new_name ScopeChain.scopes
  rw [hl]
  simp only [List.nil_append, List.findSome?_cons, List.findSome?_nil]
  cases hf : rename_t.find chain.global._replacement name with
  | none => rfl
  | some v =>
    simp only []
    exact hg _ (rename_t_find_mem hf)

theorem outsideFunctions_mk (k : NodeKind) (l : Nat) (cs : List (Option Node)) :
    (Node.mk k l cs).outsideFunctions =
      if k.isFunction then .mk k l (Node.outsideFunctionsName cs)
      else .mk k l (Node.outsideFunctionsList cs) := by
  rw [Node.outsideFunctions]

theorem minify_keeps_global_chain (n : Node) (chain : ScopeChain) (hl : chain.locals = [])
    (hg : chain.global.IsIdentity) :
    (minify n chain).2.locals = [] ∧ (minify n chain).2.global.IsIdentity := by
  have h := minify_keeps Scope.IsIdentity (fun s name hs => isIdentity_rename_internal hs name)
    n chain
  exact ⟨by rw [h.1, hl], h.2 hg⟩

theorem minify_slot_outside (ii : Option Node)
    (hc : ∀ c, ii = some c → ∀ chain : ScopeChain, chain.locals = [] →
      chain.global.IsIdentity → (minify c chain).1.outsideFunctions = c.outsideFunctions)
    (chain : ScopeChain) (hl : chain.locals = []) (hg : chain.global.IsIdentity) :
    Node.outsideFunctionsList ((minify_slot ii chain).1 :: []) =
        Node.outsideFunctionsList (ii :: []) ∧
      Node.outsideFunctionsName ((minify_slot ii chain).1 :: []) =
        Node.outsideFunctionsName (ii :: []) ∧
      (minify_slot ii chain).2.locals = [] ∧ (minify_slot ii chain).2.global.IsIdentity := by
  cases ii with
  | none => rw [minify_slot]; exact ⟨rfl, rfl, hl, hg⟩
  | some n =>
    rw [minify_slot]
    have h := hc n rfl chain hl hg
    have hk := minify_keeps_global_chain n chain hl hg
    refine ⟨?_, ?_, hk.1, hk.2⟩
    · simp only [Node.outsideFunctionsList, h]
    · simp only [Node.outsideFunctionsName, h]

theorem outsideFunctionsList_cons (a : Option Node) (rest : List (Option Node)) :
    Node.outsideFunctionsList (a :: rest) =
      Node.outsideFunctionsList (a :: []) ++ Node.outsideFunctionsList rest := by
  cases a <;> simp [Node.outsideFunctionsList]

theorem outsideFunctionsName_cons (a : Option Node) (rest : List (Option Node)) :
    Node.outsideFunctionsName (a :: rest) = Node.outsideFunctionsName (a :: []) := by
  cases a <;> simp [Node.outsideFunctionsName]

theorem minify_children_outside :
    ∀ (cs : List (Option Node)),
      (∀ c, some c ∈ cs → ∀ chain : ScopeChain, chain.locals = [] →
        chain.global.IsIdentity → (minify c chain).1.outsideFunctions = c.outsideFunctions) →
      ∀ chain : ScopeChain, chain.locals = [] → chain.global.IsIdentity →
        Node.outsideFunctionsList (minify_children cs chain).1 =
          Node.outsideFunctionsList cs := by
  intro cs
  induction cs with
  | nil => intro _ chain _ _; rw [minify_children]
  | cons ii rest ih =>
    intro hc chain hl hg
    rw [minify_children]
    obtain ⟨h1, _, h3, h4⟩ := minify_slot_outside ii
      (fun c hii => hc c (by rw [hii]; exact List.mem_cons_self _ _)) chain hl hg
    rw [outsideFunctionsList_cons, h1,
      ih (fun c hm => hc c (List.mem_cons_of_mem _ hm)) _ h3 h4,
      ← outsideFunctionsList_cons]

theorem minify_back_outside :
    ∀ (cs : List (Option Node)),
      (∀ c, some c ∈ cs → ∀ chain : ScopeChain, chain.locals = [] →
        chain.global.IsIdentity → (minify c chain).1.outsideFunctions = c.outsideFunctions) →
      ∀ chain : ScopeChain, chain.locals = [] → chain.global.IsIdentity →
        Node.outsideFunctionsList (minify_back cs chain).1 =
          Node.outsideFunctionsList cs := by
  intro cs
  induction cs with
  | nil => intro _ chain _ _; rw [minify_back]
  | cons ii rest ih =>
    intro hc chain hl hg
    cases rest with
    | nil =>
      rw [minify_back]
      exact (minify_slot_outside ii
        (fun c hii => hc c (by rw [hii]; exact List.mem_cons_self _ _)) chain hl hg).1
    | cons b rest2 =>
      rw [minify_back]
      · rw [outsideFunctionsList_cons,
          ih (fun c hm => hc c (List.mem_cons_of_mem _ hm)) chain hl hg,
          ← outsideFunctionsList_cons]
      · intro h; cases h

/-- In the global scope `minify` changes nothing outside the function
bodies. -/
theorem minify_outside :
    ∀ (n : Node) (chain : ScopeChain), chain.locals = [] → chain.global.IsIdentity →
      (minify n chain).1.outsideFunctions = n.outsideFunctions := by
  intro n
  induction n using Node.induction_on with
  | h k l cs ih =>
    intro chain hl hg
    have hfun : k.isFunction = true →
        (minify (.mk k l cs) chain).1.outsideFunctions = (Node.mk k l cs).outsideFunctions := by
      intro hk
      cases hwe : function_has_with_or_eval_children cs
      · cases cs with
        | nil => rw [minify_function_nil k hk]
        | cons name rest =>
          rw [minify_function_cons k hk l name rest chain hwe]
          rw [outsideFunctions_mk, outsideFunctions_mk]
          simp only [hk, if_true]
          have hfs := (function_scope_keeps Scope.IsIdentity
            (fun s name hs => isIdentity_rename_internal hs name) (name :: rest) chain hg).1
          have h1 := (minify_slot_outside name
            (fun c hii => ih c (by rw [hii]; exact List.mem_cons_self _ _))
            { locals := chain.locals, global := (function_scope (name :: rest) chain).global }
            hl hfs).2.1
          rw [outsideFunctionsName_cons, h1, ← outsideFunctionsName_cons name rest]
      · rw [minify_function_skip k hk l cs chain hwe]
    by_cases h1 : k = .ObjectLiteralProperty
    · subst h1
      rw [minify, outsideFunctions_mk, outsideFunctions_mk]
      simp only [NodeKind.isFunction, Bool.false_eq_true, if_false]
      rw [minify_back_outside cs ih chain hl hg]
    by_cases h2 : k = .StaticMemberExpression
    · subst h2
      cases cs with
      | nil => rw [minify]
      | cons front rest =>
        rw [minify, outsideFunctions_mk, outsideFunctions_mk]
        simp only [NodeKind.isFunction, Bool.false_eq_true, if_false]
        rw [outsideFunctionsList_cons, (minify_slot_outside front
          (fun c hii => ih c (by rw [hii]; exact List.mem_cons_self _ _)) chain hl hg).1,
          ← outsideFunctionsList_cons]
    by_cases h3 : ∃ name, k = .Identifier name
    · obtain ⟨name, h3⟩ := h3
      subst h3
      rw [minify]
      split
      · rw [new_name_identity chain hl hg]
      · rfl
    by_cases h4 : k = .FunctionDeclaration
    · exact hfun (by rw [h4]; rfl)
    by_cases h5 : k = .FunctionExpression
    · exact hfun (by rw [h5]; rfl)
    rw [minify.eq_7 chain k l cs h1 h2 (fun name hn => h3 ⟨name, hn⟩) h4 h5]
    have hnf : k.isFunction = false := by
      cases hk : k.isFunction
      · rfl
      · rcases (isFunction_iff k).mp hk with h | h
        · exact absurd h h4
        · exact absurd h h5
    rw [outsideFunctions_mk, outsideFunctions_mk]
    simp only [hnf, Bool.false_eq_true, if_false]
    rw [minify_children_outside cs ih chain hl hg]

end fbjs

open fbjs
namespace fbjs

open VariableRenaming

theorem hasFunction_mk (k : NodeKind) (l : Nat) (cs : List (Option Node)) :
    (Node.mk k l cs).hasFunction = (k.isFunction || Node.hasFunctionList cs) := by
  rw [Node.hasFunction]

theorem hasFunctionList_mem :
    ∀ (cs : List (Option Node)), Node.hasFunctionList cs = false →
      ∀ c, some c ∈ cs → c.hasFunction = false := by
  intro cs
  induction cs with
  | nil => intro _ c hc; cases hc
  | cons ii rest ih =>
    intro h c hc
    cases ii with
    | none =>
      rw [Node.hasFunctionList] at h
      rcases List.mem_cons.mp hc with h1 | h1
      · cases h1
      · exact ih h c h1
    | some n =>
      rw [Node.hasFunctionList, Bool.or_eq_false_iff] at h
      rcases List.mem_cons.mp hc with h1 | h1
      · cases h1; exact h.1
      · exact ih h.2 c h1

theorem minify_slot_fixed (ii : Option Node) (chain : ScopeChain)
    (hc : ∀ c, ii = some c → minify c chain = (c, chain)) :
    minify_slot ii chain = (ii, chain) := by
  cases ii with
  | none => rw [minify_slot]
  | some n => rw [minify_slot, hc n rfl]

theorem minify_children_fixed :
    ∀ (cs : List (Option Node)) (chain : ScopeChain),
      (∀ c, some c ∈ cs → minify c chain = (c, chain)) →
      minify_children cs chain = (cs, chain) := by
  intro cs
  induction cs with
  | nil => intro chain _; rw [minify_children]
  | cons ii rest ih =>
    intro chain hc
    rw [minify_children, minify_slot_fixed ii chain
      (fun c hii => hc c (by rw [hii]; exact List.mem_cons_self _ _))]
    simp only []
    rw [ih chain (fun c hm => hc c (List.mem_cons_of_mem _ hm))]

theorem minify_back_fixed :
    ∀ (cs : List (Option Node)) (chain : ScopeChain),
      (∀ c, some c ∈ cs → minify c chain = (c, chain)) →
      minify_back cs chain = (cs, chain) := by
  intro cs
  induction cs with
  | nil => intro chain _; rw [minify_back]
  | cons ii rest ih =>
    intro chain hc
    cases rest with
    | nil =>
      rw [minify_back, minify_slot_fixed ii chain
        (fun c hii => hc c (by rw [hii]; exact List.mem_cons_self _ _))]
    | cons b rest2 =>
      rw [minify_back]
      · rw [ih chain (fun c hm => hc c (List.mem_cons_of_mem _ hm))]
      · intro h; cases h

/-- In the global scope `minify` leaves a tree without functions as it is. -/
theorem minify_no_function :
    ∀ (n : Node) (chain : ScopeChain), chain.locals = [] → chain.global.IsIdentity →
      n.hasFunction = false → minify n chain = (n, chain) := by
  intro n
  induction n using Node.induction_on with
  | h k l cs ih =>
    intro chain hl hg hf
    rw [hasFunction_mk, Bool.or_eq_false_iff] at hf
    have hcs : ∀ c, some c ∈ cs → minify c chain = (c, chain) :=
      fun c hc => ih c hc chain hl hg (hasFunctionList_mem cs hf.2 c hc)
    by_cases h1 : k = .ObjectLiteralProperty
    · subst h1
      rw [minify, minify_back_fixed cs chain hcs]
    by_cases h2 : k = .StaticMemberExpression
    · subst h2
      cases cs with
      | nil => rw [minify]
      | cons front rest =>
        rw [minify, minify_slot_fixed front chain
          (fun c hii => hcs c (by rw [hii]; exact List.mem_cons_self _ _))]
    by_cases h3 : ∃ name, k = .Identifier name
    · obtain ⟨name, h3⟩ := h3
      subst h3
      rw [minify]
      split
      · rw [new_name_identity chain hl hg]
      · rfl
    by_cases h4 : k = .FunctionDeclaration
    · rw [h4] at hf; cases hf.1
    by_cases h5 : k = .FunctionExpression
    · rw [h5] at hf; cases hf.1
    rw [minify.eq_7 chain k l cs h1 h2 (fun name hn => h3 ⟨name, hn⟩) h4 h5,
      minify_children_fixed cs chain hcs]

theorem globalChain_spec (root : Node) :
    (build_scope root { locals := [], global := Scope.empty }).locals = [] ∧
      (build_scope root { locals := [], global := Scope.empty }).global.IsIdentity :=
  build_scope_keeps (fun c => c.locals = [] ∧ c.global.IsIdentity)
    (fun _ name h => ⟨locals_chain_declare_nil h.1 name, isIdentity_chain_declare h.2 name⟩)
    (fun _ name h => ⟨h.1, isIdentity_reserveGlobal h.2 name⟩)
    root _ ⟨rfl, isIdentity_empty⟩

theorem process_eq (root : Node) :
    process root = (minify root { locals := [], global := globalScope root }).1 := by
  unfold process globalScope
  simp only []
  rw [(globalChain_spec root).1]

/-- C14: the variable-renaming pass never renames at global scope. Every entry
of the global scope, as it stands when the renaming of `root` starts, maps a
name to itself, and the new name of every name in the global chain is the name
itself; so the part of the program outside all function bodies is the same
after `process` as before, and a program without functions is left
unchanged. -/
theorem global_scope_keeps_names (root : Node) :
    (VariableRenaming.globalScope root).IsIdentity ∧
      (∀ name, ScopeChain.new_name
        { locals := [], global := VariableRenaming.globalScope root } name = name) ∧
      (VariableRenaming.process root).outsideFunctions = root.outsideFunctions ∧
      (root.hasFunction = false → VariableRenaming.process root = root) := by
  have hid : (VariableRenaming.globalScope root).IsIdentity :=
    isIdentity_rename_vars (globalChain_spec root).2
  refine ⟨hid, fun name => new_name_identity _ rfl hid name, ?_, ?_⟩
  · rw [process_eq]
    exact minify_outside root _ rfl hid
  · intro hf
    rw [process_eq, minify_no_function root _ rfl hid hf]

end fbjs

open fbjs
namespace fbjs

theorem char_toNat_ofNat (n : Nat) (h : n ≤ 122) : (Char.ofNat n).toNat = n := by
  have hv : n.isValidChar := Or.inl (by omega)
  unfold Char.ofNat
  rw [dif_pos hv]
  simp [Char.ofNatAux, Char.toNat, UInt32.toNat, BitVec.toNat_ofNatLt]

theorem char_eq_z (c : Char) (h : c.toNat = 122) : c = 'z' := by
  apply Char.ext
  apply UInt32.ext
  simpa using h

theorem z_toNat : 'z'.toNat = 122 := rfl

namespace NameFactory

theorem measure_cons (c : Char) (d : List Char) : measure (c :: d) = c.toNat + measure d := by
  simp [measure]

theorem measure_append (d e : List Char) : measure (d ++ e) = measure d + measure e := by
  simp [measure]

theorem bump_measure : ∀ (d d2 : List Char), bump d = some d2 → measure d2 = measure d + 1 := by
  intro d
  induction d with
  | nil => intro d2 h; cases h
  | cons c rest ih =>
    intro d2 h
    rw [bump] at h
    split at h
    · rename_i hc
      cases h
      rw [z_toNat] at hc
      rw [measure_cons, measure_cons, char_toNat_ofNat _ hc]
      omega
    · cases hb : bump rest with
      | none => rw [hb] at h; cases h
      | some r =>
        rw [hb] at h
        cases h
        rw [measure_cons, measure_cons, ih r hb]
        omega

theorem bump_fresh (k : Nat) (c : Char) :
    bump (List.replicate k 'z' ++ [c]) =
      if c.toNat + 1 ≤ 'z'.toNat then some (List.replicate k 'z' ++ [Char.ofNat (c.toNat + 1)])
      else none := by
  induction k with
  | zero =>
    simp only [List.replicate_zero, List.nil_append]
    rw [bump]
    split
    · rfl
    · rfl
  | succ k ih =>
    rw [List.replicate_succ, List.cons_append, bump, if_neg (by decide), ih]
    split
    · rfl
    · rfl

theorem next_current (f : NameFactory) (k : Nat) (c : Char)
    (hd : f._current.data = List.replicate k 'z' ++ [c]) :
    f.next.2._current.data =
      if c.toNat + 1 ≤ 'z'.toNat then List.replicate k 'z' ++ [Char.ofNat (c.toNat + 1)]
      else f._current.data ++ ['a'] := by
  show (String.data (match bump f._current.data with
    | some cs => String.mk cs
    | none => f._current.push 'a')) = _
  rw [hd, bump_fresh]
  by_cases hlt : c.toNat + 1 ≤ 'z'.toNat
  · rw [if_pos hlt, if_pos hlt]
  · rw [if_neg hlt, if_neg hlt]
    show f._current.data ++ ['a'] = _
    rw [hd]

theorem next_good (f : NameFactory) (h : f.Good) :
    f.next.1 = f._current ∧ f.next.2.Good ∧
      measure f._current.data < measure f.next.2._current.data := by
  obtain ⟨hp, k, c, hd, hc0, hc⟩ := h
  rw [z_toNat] at hc
  have ha : 'a'.toNat = 97 := rfl
  rw [ha] at hc0
  have hcur := next_current f k c hd
  refine ⟨?_, ?_⟩
  · show f._prefix ++ f._current = f._current
    rw [hp, String.empty_append]
  · by_cases hlt : c.toNat + 1 ≤ 'z'.toNat
    · rw [if_pos hlt] at hcur
      rw [z_toNat] at hlt
      refine ⟨⟨hp, k, _, hcur, ?_, ?_⟩, ?_⟩
      · rw [char_toNat_ofNat _ hlt, ha]; omega
      · rw [char_toNat_ofNat _ hlt, z_toNat]; exact hlt
      · rw [hcur, hd, measure_append, measure_append, measure_cons, measure_cons,
          char_toNat_ofNat _ hlt]
        omega
    · rw [if_neg hlt] at hcur
      rw [z_toNat] at hlt
      have hz : c = 'z' := char_eq_z c (by omega)
      subst hz
      refine ⟨⟨hp, k + 1, 'a', ?_, by decide, by decide⟩, ?_⟩
      · rw [hcur, hd, List.replicate_succ', List.append_assoc]
      · rw [hcur, measure_append _ ['a']]
        have : measure ['a'] = 97 := rfl
        omega

theorem fresh_ne_event (d : List Char) (h : Fresh d) : d ≠ "event".data := by
  obtain ⟨k, c, hd, _, _⟩ := h
  intro he
  rw [hd] at he
  have hlen := congrArg List.length he
  have h5 : "event".data.length = 5 := rfl
  rw [h5, List.length_append, List.length_replicate, List.length_singleton] at hlen
  have hk : k = 4 := by omega
  subst hk
  have := congrArg List.head? he
  cases this

theorem name_ne_event (s : String) (h : Fresh s.data) : s ≠ "event" := by
  intro he
  exact fresh_ne_event s.data h (by rw [he])

end NameFactory

/-- What `nextFree` draws from a good factory: a name of the factory that
comes no earlier than the current one, and the factory after it is good and
further on. -/
theorem nextFree_good (in_use : String → Bool) :
    ∀ (fuel : Nat) (f : NameFactory), f.Good →
      NameFactory.Fresh (nextFree in_use fuel f).1.data ∧
        NameFactory.measure f._current.data ≤
          NameFactory.measure (nextFree in_use fuel f).1.data ∧
        NameFactory.measure (nextFree in_use fuel f).1.data <
          NameFactory.measure (nextFree in_use fuel f).2._current.data ∧
        (nextFree in_use fuel f).2.Good := by
  intro fuel
  induction fuel with
  | zero =>
    intro f h
    obtain ⟨h1, h2, h3⟩ := NameFactory.next_good f h
    rw [nextFree, h1]
    exact ⟨h.2, le_refl _, h3, h2⟩
  | succ fuel ih =>
    intro f h
    obtain ⟨h1, h2, h3⟩ := NameFactory.next_good f h
    rw [nextFree]
    split
    · obtain ⟨a, b, c, d⟩ := ih f.next.2 h2
      exact ⟨a, by omega, c, d⟩
    · rw [h1]
      exact ⟨h.2, le_refl _, h3, h2⟩

end fbjs

open fbjs
namespace fbjs

open VariableRenaming

theorem rename_t_set_spec :
    ∀ (m : List (String × String)) (key value : String), rename_t.Sorted m →
      rename_t.Sorted (rename_t.set m key value) ∧
        ∀ e, e ∈ rename_t.set m key value ↔ e = (key, value) ∨ (e ∈ m ∧ e.1 ≠ key) := by
  intro m
  induction m with
  | nil =>
    intro key value _
    rw [rename_t.set]
    refine ⟨List.pairwise_singleton _ _, fun e => ?_⟩
    simp
  | cons kv rest ih =>
    intro key value hs
    obtain ⟨k, v⟩ := kv
    have hs2 := List.pairwise_cons.mp hs
    rw [rename_t.set]
    by_cases h1 : key < k
    · rw [if_pos h1]
      refine ⟨List.pairwise_cons.mpr ⟨?_, hs⟩, fun e => ?_⟩
      · intro b hb
        rcases List.mem_cons.mp hb with hb | hb
        · rw [hb]; exact h1
        · exact lt_trans h1 (hs2.1 b hb)
      · constructor
        · intro he
          rcases List.mem_cons.mp he with he | he
          · exact Or.inl he
          · refine Or.inr ⟨he, ?_⟩
            rcases List.mem_cons.mp he with he | he
            · rw [he]; exact ne_of_gt h1
            · exact ne_of_gt (lt_trans h1 (hs2.1 e he))
        · rintro (he | ⟨he, _⟩)
          · rw [he]; exact List.mem_cons_self _ _
          · exact List.mem_cons_of_mem _ he
    · rw [if_neg h1]
      by_cases h2 : key = k
      · rw [if_pos h2]
        subst h2
        refine ⟨List.pairwise_cons.mpr ⟨hs2.1, hs2.2⟩, fun e => ?_⟩
        constructor
        · intro he
          rcases List.mem_cons.mp he with he | he
          · exact Or.inl he
          · exact Or.inr ⟨List.mem_cons_of_mem _ he, ne_of_gt (hs2.1 e he)⟩
        · rintro (he | ⟨he, hne⟩)
          · rw [he]; exact List.mem_cons_self _ _
          · rcases List.mem_cons.mp he with he | he
            · rw [he] at hne; exact absurd rfl hne
            · exact List.mem_cons_of_mem _ he
      · rw [if_neg h2]
        have h3 : k < key := by
          rcases lt_trichotomy key k with h | h | h
          · exact absurd h h1
          · exact absurd h h2
          · exact h
        obtain ⟨ih1, ih2⟩ := ih key value hs2.2
        refine ⟨List.pairwise_cons.mpr ⟨?_, ih1⟩, fun e => ?_⟩
        · intro b hb
          rcases (ih2 b).mp hb with hb | ⟨hb, _⟩
          · rw [hb]; exact h3
          · exact hs2.1 b hb
        · constructor
          · intro he
            rcases List.mem_cons.mp he with he | he
            · refine Or.inr ⟨by rw [he]; exact List.mem_cons_self _ _, ?_⟩
              rw [he]; exact ne_of_lt h3
            · rcases (ih2 e).mp he with he | ⟨he, hne⟩
              · exact Or.inl he
              · exact Or.inr ⟨List.mem_cons_of_mem _ he, hne⟩
          · rintro (he | ⟨he, hne⟩)
            · exact List.mem_cons_of_mem _ ((ih2 e).mpr (Or.inl he))
            · rcases List.mem_cons.mp he with he | he
              · rw [he]; exact List.mem_cons_self _ _
              · exact List.mem_cons_of_mem _ ((ih2 e).mpr (Or.inr ⟨he, hne⟩))

theorem renamed_mono {Q : String → Prop} {b1 b2 : Nat} {pending : List String} {s : Scope}
    (h : LocalScope.Renamed Q b1 pending s) (hb : b1 ≤ b2) :
    LocalScope.Renamed Q b2 pending s := by
  obtain ⟨h1, h2, h3⟩ := h
  refine ⟨h1, fun e he hp => ?_, h3⟩
  obtain ⟨a, b⟩ := h2 e he hp
  refine ⟨a, ?_⟩
  rcases b with b | ⟨b1, b2, b3, b4⟩
  · exact Or.inl b
  · exact Or.inr ⟨b1, b2, by omega, b4⟩

/-- One turn of the loop of `rename_vars`: the entry of `key` gets the new
name `n`, which is `event` for `event` and otherwise a name of the factory no
earlier than `bound`. -/
theorem renamed_step {Q : String → Prop} {bound : Nat} {pending : List String} {s : Scope}
    (h : LocalScope.Renamed Q bound (key :: pending) s) (n : String)
    (hn : (key = "event" ∧ n = "event") ∨
      (key ≠ "event" ∧ NameFactory.Fresh n.data ∧ bound ≤ NameFactory.measure n.data ∧ Q n))
    (b2 : Nat) (hb : bound ≤ b2) (hb2 : key ≠ "event" → NameFactory.measure n.data < b2) :
    LocalScope.Renamed Q b2 pending (s.rename_internal key n) := by
  obtain ⟨h1, h2, h3⟩ := h
  obtain ⟨hs1, hs2⟩ := rename_t_set_spec s._replacement key n h1
  have hold : ∀ e, e ∈ s._replacement → e.1 ≠ key → e.1 ∉ pending → e.1 ∉ key :: pending := by
    intro e _ hne hp hm
    rcases List.mem_cons.mp hm with hm | hm
    · exact hne hm
    · exact hp hm
  have hnew : (key = "event" ∧ n = "event") ∨
      (key ≠ "event" ∧ NameFactory.Fresh n.data ∧
        NameFactory.measure n.data < b2 ∧ Q n) := by
    rcases hn with hn | ⟨a, b, _, d⟩
    · exact Or.inl hn
    · exact Or.inr ⟨a, b, hb2 a, d⟩
  have hclash : ∀ e, e ∈ s._replacement → e.1 ≠ key → e.1 ∉ pending → e.2 ≠ n := by
    intro e he hne hp heq
    obtain ⟨_, b⟩ := h2 e he (hold e he hne hp)
    rcases hn with ⟨k1, k2⟩ | ⟨k1, k2, k3, _⟩
    · rcases b with ⟨b1, _⟩ | ⟨_, b2, _, _⟩
      · exact hne (by rw [b1, k1])
      · rw [heq, k2] at b2
        exact NameFactory.fresh_ne_event _ b2 rfl
    · rcases b with ⟨_, b2⟩ | ⟨_, _, b3, _⟩
      · rw [← heq, b2] at k2
        exact NameFactory.fresh_ne_event _ k2 rfl
      · rw [heq] at b3
        omega
  refine ⟨hs1, fun e he hp => ?_, fun e1 he1 e2 he2 hp1 hp2 heq => ?_⟩
  · rcases (hs2 e).mp he with he | ⟨he, hne⟩
    · rw [he]
      exact ⟨List.mem_cons_self _ _, hnew⟩
    · obtain ⟨a, b⟩ := h2 e he (hold e he hne hp)
      refine ⟨List.mem_cons_of_mem _ a, ?_⟩
      rcases b with b | ⟨c1, c2, c3, c4⟩
      · exact Or.inl b
      · exact Or.inr ⟨c1, c2, by omega, c4⟩
  · rcases (hs2 e1).mp he1 with he1 | ⟨he1, hne1⟩
    · rcases (hs2 e2).mp he2 with he2 | ⟨he2, hne2⟩
      · rw [he1, he2]
      · rw [he1] at heq
        exact absurd heq.symm (hclash e2 he2 hne2 hp2)
    · rcases (hs2 e2).mp he2 with he2 | ⟨he2, hne2⟩
      · rw [he2] at heq
        exact absurd heq (hclash e1 he1 hne1 hp1)
      · exact h3 e1 he1 e2 he2 (hold e1 he1 hne1 hp1) (hold e2 he2 hne2 hp2) heq

theorem need_rename_iff (name : String) :
    LocalScope.need_rename name = true ↔ name ≠ "event" := by
  simp [LocalScope.need_rename]

/-- The loop of `rename_vars` brings every entry through. -/
theorem rename_loop_renamed (Q : String → Prop) (parent : ScopeChain)
    (hQ : ∀ f : NameFactory, f.Good →
      Q (nextFree parent.in_use (parent.scopes.map (·._new_names.length)).sum f).1) :
    ∀ (rest : List (String × String)) (f : NameFactory) (self : Scope), f.Good →
      (∀ e ∈ rest, e.2 = e.1) →
      LocalScope.Renamed Q (NameFactory.measure f._current.data) (rest.map Prod.fst) self →
      ∃ b, LocalScope.Renamed Q b [] (LocalScope.rename_loop parent rest f self) := by
  intro rest
  induction rest with
  | nil =>
    intro f self _ _ h
    rw [LocalScope.rename_loop]
    exact ⟨_, h⟩
  | cons kv rest ih =>
    intro f self hf hid h
    obtain ⟨k, v⟩ := kv
    rw [LocalScope.rename_loop]
    have hid2 : ∀ e ∈ rest, e.2 = e.1 := fun e he => hid e (List.mem_cons_of_mem _ he)
    by_cases hk : k = "event"
    · rw [if_neg (by rw [need_rename_iff]; exact fun hne => hne hk)]
      have hv : v = k := hid (k, v) (List.mem_cons_self _ _)
      exact ih f _ hf hid2
        (renamed_step h v (Or.inl ⟨hk, by rw [hv, hk]⟩) _ (le_refl _) (fun hne => absurd hk hne))
    · rw [if_pos ((need_rename_iff k).mpr hk)]
      obtain ⟨a, b, c, d⟩ :=
        nextFree_good parent.in_use (parent.scopes.map (·._new_names.length)).sum f hf
      exact ih _ _ d hid2
        (renamed_step h _ (Or.inr ⟨hk, a, b, hQ f hf⟩) _ (by omega) (fun _ => c))

theorem good_new : (NameFactory.new "").Good :=
  ⟨rfl, 0, 'a', rfl, by decide, by decide⟩

theorem sorted_declare {s : Scope} (h : rename_t.Sorted s._replacement) (name : String) :
    rename_t.Sorted (s.declare name)._replacement :=
  (rename_t_set_spec s._replacement name name h).1

/-- Before `rename_vars` the current scope of `child_scope` holds its entries
in the order of the keys, each name mapped to itself. -/
theorem child_scope_head (cs : List (Option Node)) (scope : ScopeChain) :
    ∃ s, (child_scope cs scope).locals = s :: scope.locals ∧
      rename_t.Sorted s._replacement ∧ s.IsIdentity := by
  have hd : ∀ (c : ScopeChain) (name : String),
      (∃ s, c.locals = s :: scope.locals ∧ rename_t.Sorted s._replacement ∧ s.IsIdentity) →
      ∃ s, (c.declare name).locals = s :: scope.locals ∧
        rename_t.Sorted s._replacement ∧ s.IsIdentity := by
    rintro ⟨locals, g⟩ name ⟨s, h1, h2, h3⟩
    simp only at h1
    subst h1
    exact ⟨s.declare name, rfl, sorted_declare h2 name, isIdentity_declare h3 name⟩
  have hr : ∀ (c : ScopeChain) (name : String),
      (∃ s, c.locals = s :: scope.locals ∧ rename_t.Sorted s._replacement ∧ s.IsIdentity) →
      ∃ s, (c.reserveGlobal name).locals = s :: scope.locals ∧
        rename_t.Sorted s._replacement ∧ s.IsIdentity := fun _ _ h => h
  have h0 : ∃ s, scope.push.locals = s :: scope.locals ∧
      rename_t.Sorted s._replacement ∧ s.IsIdentity :=
    ⟨Scope.empty, rfl, List.Pairwise.nil, isIdentity_empty⟩
  have h1 : ∃ s, (match cs.get? 1 with
      | some (some args) => declare_args args.childNodes scope.push
      | _ => scope.push).locals = s :: scope.locals ∧
      rename_t.Sorted s._replacement ∧ s.IsIdentity := by
    split
    · exact declare_args_keeps _ hd _ _ h0
    · exact h0
  unfold child_scope
  simp only []
  split
  · exact build_scope_keeps _ hd hr _ _ h1
  · exact h1

theorem function_scope_eq (cs : List (Option Node)) (scope : ScopeChain) :
    function_scope cs scope = LocalScope.rename_vars (child_scope cs scope) := rfl

/-- The scope of a function after `rename_vars`: every entry is through. The
property `Q` is any that holds of the names drawn against the parent chain,
which is the chain of the enclosing scopes with the global scope as
`build_scope` left it. -/
theorem function_scope_renamed (Q : String → Prop) (cs : List (Option Node))
    (scope : ScopeChain)
    (hQ : ∀ f : NameFactory, f.Good →
      Q (nextFree (function_scope cs scope).parent.in_use
        ((function_scope cs scope).parent.scopes.map (·._new_names.length)).sum f).1) :
    ∃ s b, (function_scope cs scope).locals = s :: scope.locals ∧
      LocalScope.Renamed Q b [] s := by
  obtain ⟨s0, h1, h2, _h3⟩ := child_scope_head cs scope
  have hpar : (function_scope cs scope).parent = (child_scope cs scope).parent := by
    obtain ⟨a, b, _⟩ := rename_vars_global (child_scope cs scope)
    rw [function_scope_eq]
    unfold ScopeChain.parent
    rw [a, b]
  rw [hpar] at hQ
  have hloc : (function_scope cs scope).locals =
      LocalScope.rename_loop (child_scope cs scope).parent s0._replacement
        (NameFactory.new "") s0 :: scope.locals := by
    rw [function_scope_eq]
    unfold LocalScope.rename_vars
    rw [h1]
  obtain ⟨b, hb⟩ := rename_loop_renamed Q (child_scope cs scope).parent hQ s0._replacement
    (NameFactory.new "") s0 good_new _h3
    ⟨h2, fun e he hp => absurd (List.mem_map_of_mem Prod.fst he) hp,
      fun e1 he1 _ _ hp _ _ => absurd (List.mem_map_of_mem Prod.fst he1) hp⟩
  exact ⟨_, b, hloc, hb⟩

/-- C16: after renaming, the map of a local scope from the declared names to
the new names is injective. The scope that `minify` sets up for a function
with the children `cs` under the chain `scope` is the first of the local
scopes of `function_scope cs scope`; no two of its entries with different
names share a new name. -/
theorem local_renaming_injective (cs : List (Option Node)) (scope : ScopeChain) :
    ∃ s, (VariableRenaming.function_scope cs scope).locals = s :: scope.locals ∧
      s.Injective := by
  obtain ⟨s, _, h1, _, _, h3⟩ :=
    function_scope_renamed (fun _ => True) cs scope (fun _ _ => trivial)
  exact ⟨s, h1, fun e1 he1 e2 he2 heq =>
    h3 e1 he1 e2 he2 (List.not_mem_nil _) (List.not_mem_nil _) heq⟩

end fbjs

open fbjs
namespace fbjs

open VariableRenaming

/-- The loop `while (in_use(new_name))` ends on a name that is not in use when
it may take as many turns as there are names in use: the names the factory has
still to give are all different, so each turn uses up one of the names in
use. -/
theorem nextFree_free (in_use : String → Bool) :
    ∀ (fuel : Nat) (L : List String) (f : NameFactory), f.Good → L.length ≤ fuel →
      (∀ n, in_use n = true →
        NameFactory.measure f._current.data ≤ NameFactory.measure n.data → n ∈ L) →
      in_use (nextFree in_use fuel f).1 = false := by
  intro fuel
  induction fuel with
  | zero =>
    intro L f hf hL hin
    obtain ⟨h1, _, _⟩ := NameFactory.next_good f hf
    rw [nextFree, h1]
    cases hu : in_use f._current
    · rfl
    · have hm := hin _ hu (le_refl _)
      have hnil : L = [] := List.length_eq_zero.mp (Nat.le_zero.mp hL)
      rw [hnil] at hm
      cases hm
  | succ fuel ih =>
    intro L f hf hL hin
    obtain ⟨h1, h2, h3⟩ := NameFactory.next_good f hf
    rw [nextFree]
    cases hu : in_use f.next.1
    · rw [if_neg (by simp)]
      exact hu
    · rw [if_pos rfl]
      have hmem : f.next.1 ∈ L := hin _ hu (by rw [h1])
      refine ih (L.erase f.next.1) f.next.2 h2 ?_ ?_
      · rw [List.length_erase_of_mem hmem]
        have := List.length_pos_of_mem hmem
        omega
      · intro n hn hle
        have hne : n ≠ f.next.1 := by
          intro he
          rw [he, h1] at hle
          omega
        exact (List.mem_erase_of_ne hne).mpr (hin n hn (by omega))

theorem in_use_list :
    ∀ (scopes : List Scope), ∃ L : List String,
      L.length = (scopes.map (·._new_names.length)).sum ∧
        ∀ n, (scopes.any fun s => s._new_names.contains n) = true → n ∈ L := by
  intro scopes
  induction scopes with
  | nil => exact ⟨[], rfl, fun n h => by simp at h⟩
  | cons s rest ih =>
    obtain ⟨L, h1, h2⟩ := ih
    refine ⟨s._new_names ++ L, ?_, fun n h => ?_⟩
    · rw [List.length_append, h1, List.map_cons, List.sum_cons]
    · rw [List.any_cons, Bool.or_eq_true] at h
      rcases h with h | h
      · exact List.mem_append_left _ (by simpa using h)
      · exact List.mem_append_right _ (h2 n h)

/-- The name that `rename_vars` draws against the chain `parent` is not in
use in `parent`. -/
theorem nextFree_not_in_use (parent : ScopeChain) (f : NameFactory) (hf : f.Good) :
    parent.in_use
      (nextFree parent.in_use (parent.scopes.map (·._new_names.length)).sum f).1 = false := by
  obtain ⟨L, h1, h2⟩ := in_use_list parent.scopes
  exact nextFree_free parent.in_use _ L f hf (le_of_eq h1) (fun n hn _ => h2 n hn)

/-- C17, as stated, fails: in `function f(c){function g(y){}}` the scope of
`f` maps `c` to `a` and `g` to `b`, and the scope of `g` inside it maps `y` to
`c`, which is a declared (original) name of the enclosing scope of `f`. The
program is renamed to the tree of `function f(a){function b(c){}}`. -/
theorem inner_name_is_outer_original :
    (VariableRenaming.function_scope (Example.function "g" ["y"] []).childNodes
      (VariableRenaming.function_scope
        (Example.function "f" ["c"] [Example.function "g" ["y"] []]).childNodes
        { locals := [],
          global := VariableRenaming.globalScope Example.nestedFunction })).new_name "y"
      = "c" ∧
    (VariableRenaming.function_scope
        (Example.function "f" ["c"] [Example.function "g" ["y"] []]).childNodes
        { locals := [],
          global := VariableRenaming.globalScope Example.nestedFunction }).declared "c"
      = true ∧
    VariableRenaming.process Example.nestedFunction =
      Example.program [Example.function "f" ["a"] [Example.function "b" ["c"] []]] := by
  refine ⟨?_, ?_, ?_⟩
  · with_unfolding_all rfl
  · with_unfolding_all rfl
  · with_unfolding_all rfl

/-- C17, amended: when `minify` sets up the scope of a function with the
children `cs` under the chain `scope`, the new name of every entry of that
scope other than `event` is not in use in the parent chain: it is not among
the new and reserved names that the enclosing scopes, the global scope
included, hold when the scope is renamed. -/
theorem new_name_not_in_use (cs : List (Option Node)) (scope : ScopeChain) :
    ∃ s, (VariableRenaming.function_scope cs scope).locals = s :: scope.locals ∧
      ∀ e ∈ s._replacement, e.1 ≠ "event" →
        (VariableRenaming.function_scope cs scope).parent.in_use e.2 = false := by
  obtain ⟨s, _, h1, _, h2, _⟩ :=
    function_scope_renamed
      (fun n => (VariableRenaming.function_scope cs scope).parent.in_use n = false) cs scope
      (fun f hf => nextFree_not_in_use _ f hf)
  refine ⟨s, h1, fun e he hne => ?_⟩
  rcases (h2 e he (List.not_mem_nil _)).2 with ⟨h3, _⟩ | ⟨_, _, _, h3⟩
  · exact absurd h3 hne
  · exact h3

end fbjs

open fbjs
namespace fbjs

open VariableRenaming

theorem closed_rename_internal {s : Scope} (h : s.Closed) (k v : String) :
    (s.rename_internal k v).Closed := by
  intro e he
  rcases rename_t_mem_set he with he | he
  · rw [he]; exact List.mem_cons_self _ _
  · exact List.mem_cons_of_mem _ (h e he)

theorem closed_rename_vars (s : Scope) : (GlobalScope.rename_vars s).Closed := by
  unfold GlobalScope.rename_vars
  have key : ∀ (L : List (String × String)) (t : Scope),
      (∀ e ∈ t._replacement, e ∈ L ∨ e.2 ∈ t._new_names) →
      (L.foldl (fun s e => s.rename_internal e.1 e.2) t).Closed := by
    intro L
    induction L with
    | nil =>
      intro t ht e he
      rcases ht e he with h | h
      · cases h
      · exact h
    | cons kv L ih =>
      intro t ht
      rw [List.foldl_cons]
      refine ih _ (fun e he => ?_)
      rcases rename_t_mem_set he with he | he
      · exact Or.inr (by rw [he]; exact List.mem_cons_self _ _)
      · rcases ht e he with h | h
        · rcases List.mem_cons.mp h with h | h
          · exact Or.inr (by rw [h]; exact List.mem_cons_self _ _)
          · exact Or.inl h
        · exact Or.inr (List.mem_cons_of_mem _ h)
  exact key _ s (fun e he => Or.inl he)

theorem find_none_of_not_declared {m : List (String × String)} {x : String}
    (h : rename_t.find m x = none) : ∀ e ∈ m, e.1 ≠ x := by
  intro e he hx
  unfold rename_t.find at h
  rw [Option.map_eq_none', List.find?_eq_none] at h
  exact h e he (by simpa using hx)

/-- A name that the chain declares has its new name in use in the chain, when
every scope of the chain is closed. -/
theorem declared_in_use :
    ∀ (scopes : List Scope) (x : String), (∀ s ∈ scopes, s.Closed) →
      (scopes.any fun s => (rename_t.find s._replacement x).isSome) = true →
      (scopes.any fun s => s._new_names.contains
        ((scopes.findSome? fun s => rename_t.find s._replacement x).getD x)) = true := by
  intro scopes x
  induction scopes with
  | nil => intro _ h; simp at h
  | cons s rest ih =>
    intro hc hd
    cases hf : rename_t.find s._replacement x with
    | some v =>
      rw [List.findSome?_cons, hf]
      simp only [Option.getD_some]
      rw [List.any_cons, Bool.or_eq_true]
      left
      have := hc s (List.mem_cons_self _ _) _ (rename_t_find_mem hf)
      simpa using this
    | none =>
      rw [List.findSome?_cons, hf]
      simp only []
      rw [List.any_cons, hf] at hd
      rw [List.any_cons, Bool.or_eq_true]
      right
      exact ih (fun t ht => hc t (List.mem_cons_of_mem _ ht)) (by simpa using hd)

theorem new_name_eq (chain : ScopeChain) (x : String) :
    chain.new_name x =
      (chain.scopes.findSome? fun s => rename_t.find s._replacement x).getD x := by
  unfold ScopeChain.new_name
  cases List.findSome? (fun s => rename_t.find s._replacement x) chain.scopes <;> rfl

/-- Every entry of every scope the pass works with went through
`rename_internal`: this holds of the global scope when the renaming starts, is
kept when a name is reserved, and is kept by `function_scope`. In such a
chain, for a function with the children `cs`, a name `x` that the scope of the
function does not declare and the chain does declare has a new name that
differs from the new name of every entry of the scope of the function other
than `event`. -/
theorem function_scope_avoids_enclosing :
    (∀ root, (VariableRenaming.globalScope root).Closed) ∧
    (∀ (s : Scope) (name : String), s.Closed → (s.reserve name).Closed) ∧
    ∀ (cs : List (Option Node)) (scope : ScopeChain), (∀ t ∈ scope.scopes, t.Closed) →
      ∃ s, (VariableRenaming.function_scope cs scope).locals = s :: scope.locals ∧
        (∀ t ∈ (VariableRenaming.function_scope cs scope).scopes, t.Closed) ∧
        ∀ x, rename_t.find s._replacement x = none →
          (VariableRenaming.function_scope cs scope).declared x = true →
          ∀ e ∈ s._replacement, e.1 ≠ "event" →
            (VariableRenaming.function_scope cs scope).new_name x ≠ e.2 := by
  refine ⟨fun root => closed_rename_vars _,
    fun s name h => closed_rename_internal h name name, fun cs scope hc => ?_⟩
  obtain ⟨s, _, h1, _, h2, _⟩ :=
    function_scope_renamed
      (fun n => (VariableRenaming.function_scope cs scope).parent.in_use n = false) cs scope
      (fun f hf => nextFree_not_in_use _ f hf)
  have hs : s.Closed := fun e he => (h2 e he (List.not_mem_nil _)).1
  have hg : (function_scope cs scope).global.Closed :=
    (function_scope_keeps Scope.Closed
      (fun t name ht => closed_rename_internal ht name name) cs scope
      (hc _ (by unfold ScopeChain.scopes; simp))).1
  have hpar : ∀ t ∈ (function_scope cs scope).parent.scopes, t.Closed := by
    intro t ht
    unfold ScopeChain.scopes ScopeChain.parent at ht
    rw [h1] at ht
    simp only [List.tail_cons, List.mem_append, List.mem_singleton] at ht
    rcases ht with ht | ht
    · exact hc t (by unfold ScopeChain.scopes; simp [ht])
    · rw [ht]; exact hg
  have hsc : (function_scope cs scope).scopes = s :: (function_scope cs scope).parent.scopes := by
    unfold ScopeChain.scopes ScopeChain.parent
    rw [h1]
    rfl
  refine ⟨s, h1, ?_, fun x hx hd e he hne heq => ?_⟩
  · intro t ht
    rw [hsc] at ht
    rcases List.mem_cons.mp ht with ht | ht
    · rw [ht]; exact hs
    · exact hpar t ht
  · have hfree : (function_scope cs scope).parent.in_use e.2 = false := by
      rcases (h2 e he (List.not_mem_nil _)).2 with ⟨h3, _⟩ | ⟨_, _, _, h3⟩
      · exact absurd h3 hne
      · exact h3
    unfold ScopeChain.declared at hd
    rw [hsc, List.any_cons, hx] at hd
    have hused := declared_in_use _ x hpar (by simpa using hd)
    rw [new_name_eq, hsc, List.findSome?_cons, hx] at heq
    simp only [] at heq
    rw [heq] at hused
    unfold ScopeChain.in_use at hfree
    rw [hfree] at hused
    cases hused

end fbjs

open fbjs
namespace fbjs

open VariableRenaming

/-- C21: `build_scope` returns at a `try` statement once it has declared the
catch variable and does not go into the blocks of the statement. In
`function f(p){try{var x=p;}catch(e){}}` the scope built for `f` declares `e`
and `p` and does not declare `x`, which the claim says it declares: the
program is renamed to the tree of `function f(b){try{var x=b;}catch(a){}}`.
The example of the claim itself is renamed as the claim says:
`function f(){try{g();}catch(e){h(e);}}` becomes the tree of
`function f(){try{g();}catch(a){h(a);}}`. -/
theorem try_block_var_not_declared :
    (VariableRenaming.function_scope Example.functionTryVar.childNodes
      { locals := [],
        global := VariableRenaming.globalScope
          (Example.program [Example.functionTryVar]) }).declared "x" = false ∧
    (VariableRenaming.function_scope Example.functionTryVar.childNodes
      { locals := [],
        global := VariableRenaming.globalScope
          (Example.program [Example.functionTryVar]) }).declared "e" = true ∧
    VariableRenaming.process (Example.program [Example.functionTryVar]) =
      Example.program [Example.function "f" ["b"]
        [Example.tryCatch
          [Example.var [Example.assign (Example.identifier "x") (Example.identifier "b")]]
          "a" []]] ∧
    VariableRenaming.process (Example.program [Example.functionTry]) =
      Example.program [Example.function "f" []
        [Example.tryCatch [Example.call "g"] "a"
          [Example.callWith "h" (Example.identifier "a")]]] := by
  refine ⟨?_, ?_, ?_, ?_⟩
  · with_unfolding_all rfl
  · with_unfolding_all rfl
  · with_unfolding_all rfl
  · with_unfolding_all rfl

theorem rename_t_find_set_self :
    ∀ (m : List (String × String)) (key value : String),
      rename_t.find (rename_t.set m key value) key = some value := by
  intro m
  induction m with
  | nil => intro key value; simp [rename_t.set, rename_t.find]
  | cons kv rest ih =>
    intro key value
    obtain ⟨k, v⟩ := kv
    rw [rename_t.set]
    by_cases h1 : key < k
    · rw [if_pos h1]
      simp [rename_t.find]
    · rw [if_neg h1]
      by_cases h2 : key = k
      · rw [if_pos h2]
        simp [rename_t.find]
      · rw [if_neg h2]
        have := ih key value
        unfold rename_t.find at this ⊢
        rw [List.find?_cons_of_neg _ (by simpa using fun h => h2 h.symm)]
        exact this

theorem rename_t_find_set_ne :
    ∀ (m : List (String × String)) (key value name : String), name ≠ key →
      rename_t.find (rename_t.set m key value) name = rename_t.find m name := by
  intro m
  induction m with
  | nil =>
    intro key value name hne
    simp [rename_t.set, rename_t.find]
    exact fun h => hne h.symm
  | cons kv rest ih =>
    intro key value name hne
    obtain ⟨k, v⟩ := kv
    have hk : ((key, value).1 == name) = false := by simpa using fun h => hne h.symm
    rw [rename_t.set]
    by_cases h1 : key < k
    · rw [if_pos h1]
      unfold rename_t.find
      rw [List.find?_cons_of_neg _ (by simpa using fun h => hne h.symm)]
    · rw [if_neg h1]
      by_cases h2 : key = k
      · rw [if_pos h2]
        unfold rename_t.find
        rw [List.find?_cons_of_neg _ (by simpa using fun h => hne h.symm),
          List.find?_cons_of_neg _ (by simpa using fun h => hne (h.symm.trans h2.symm))]
      · rw [if_neg h2]
        have := ih key value name hne
        unfold rename_t.find at this ⊢
        by_cases h3 : k = name
        · rw [List.find?_cons_of_pos _ (by simpa using h3),
            List.find?_cons_of_pos _ (by simpa using h3)]
        · rw [List.find?_cons_of_neg _ (by simpa using h3),
            List.find?_cons_of_neg _ (by simpa using h3)]
          exact this

theorem reserved_declare {s : Scope} {name : String} (h : s.Reserved name) (x : String) :
    (s.declare x).Reserved name := by
  refine ⟨?_, h.2⟩
  show rename_t.find (rename_t.set s._replacement x x) name = some name
  by_cases hx : name = x
  · rw [hx, rename_t_find_set_self]
  · rw [rename_t_find_set_ne _ _ _ _ hx]
    exact h.1

theorem reserved_reserve {s : Scope} {name : String} (h : s.Reserved name) (x : String) :
    (s.reserve x).Reserved name := by
  refine ⟨?_, List.mem_cons_of_mem _ h.2⟩
  show rename_t.find (rename_t.set s._replacement x x) name = some name
  by_cases hx : name = x
  · rw [hx, rename_t_find_set_self]
  · rw [rename_t_find_set_ne _ _ _ _ hx]
    exact h.1

theorem reserved_self (s : Scope) (name : String) : (s.reserve name).Reserved name :=
  ⟨rename_t_find_set_self _ _ _, List.mem_cons_self _ _⟩

theorem reserved_chain_declare {chain : ScopeChain} {name : String}
    (h : chain.global.Reserved name) (x : String) : (chain.declare x).global.Reserved name := by
  unfold ScopeChain.declare
  split
  · exact reserved_declare h x
  · exact h

theorem build_scope_reserved (name : String) (n : Node) (chain : ScopeChain)
    (h : chain.global.Reserved name) : (build_scope n chain).global.Reserved name :=
  build_scope_keeps (fun c => c.global.Reserved name)
    (fun _ x hc => reserved_chain_declare hc x) (fun _ x hc => reserved_reserve hc x) n chain h

theorem build_scope_forIn (l l2 : Nat) (name : String) (cs2 rest : List (Option Node))
    (scope : ScopeChain) (hd : scope.declared name = false) :
    build_scope (.mk .ForIn l (some (.mk (.Identifier name) l2 cs2) :: rest)) scope =
      build_scope_children (some (.mk (.Identifier name) l2 cs2) :: rest)
        (scope.reserveGlobal name) := by
  rw [build_scope]
  · simp [hd]
  all_goals first | (intro _ h; cases h) | (intro h; cases h)

theorem build_scope_assignment (op : node_assignment_t) (l l2 : Nat) (name : String)
    (cs2 rest : List (Option Node)) (scope : ScopeChain) (hd : scope.declared name = false)
    (hg : scope.is_global = false) :
    build_scope (.mk (.Assignment op) l (some (.mk (.Identifier name) l2 cs2) :: rest)) scope =
      build_scope_children (some (.mk (.Identifier name) l2 cs2) :: rest)
        (scope.reserveGlobal name) := by
  rw [build_scope]
  · simp [hd, hg]
  all_goals first | (intro _ h; cases h) | (intro h; cases h)

theorem build_scope_children_reserved (name : String) (cs : List (Option Node))
    (chain : ScopeChain) (h : chain.global.Reserved name) :
    (build_scope_children cs chain).global.Reserved name :=
  build_scope_children_keeps (fun c => c.global.Reserved name) cs
    (fun c _ ch hc => build_scope_reserved name c ch hc) chain h

/-- C22, as stated, fails: in the program `x=1;` the assignment stands at top
level and `x` is declared nowhere, and when the pass has finished the global
scope has no entry for `x` and does not report it as in use. -/
theorem top_level_assignment_not_reserved :
    rename_t.find (VariableRenaming.finalGlobal Example.assignTopLevel)._replacement "x" = none ∧
    ScopeChain.in_use
      { locals := [], global := VariableRenaming.finalGlobal Example.assignTopLevel } "x"
      = false := by
  refine ⟨?_, ?_⟩
  · with_unfolding_all rfl
  · with_unfolding_all rfl

end fbjs

open fbjs
namespace fbjs

theorem rename_t_set_set :
    ∀ (m : List (String × String)) (key a b : String),
      rename_t.set (rename_t.set m key a) key b = rename_t.set m key b := by
  intro m
  induction m with
  | nil =>
    intro key a b
    simp [rename_t.set]
  | cons kv rest ih =>
    intro key a b
    obtain ⟨k, v⟩ := kv
    by_cases h1 : key < k
    · simp [rename_t.set, h1]
    · by_cases h2 : key = k
      · subst h2
        simp [rename_t.set]
      · simp [rename_t.set, h1, h2, ih]

namespace GlobalScope

theorem extends_refl (s : GlobalScope) : s.Extends s := ⟨rfl, fun _ _ h => h⟩

theorem extends_trans {s t u : GlobalScope} (h1 : s.Extends t) (h2 : t.Extends u) :
    s.Extends u :=
  ⟨h2.1.trans h1.1, fun name v h => h2.2 name v (h1.2 name v h)⟩

theorem new_name_of_find {s : GlobalScope} {name v : String}
    (h : rename_t.find s.toScope._replacement name = some v) : s.new_name name = v := by
  unfold new_name
  rw [h]
  rfl

theorem rename_var_declare_replacement (s : GlobalScope) (name : String) :
    (rename_var { s with toScope := s.toScope.declare name } name).toScope._replacement =
      rename_t.set s.toScope._replacement name
        (nextFree (in_use { s with toScope := s.toScope.declare name })
          s.toScope._new_names.length s._name_factory).1 := by
  show rename_t.set (rename_t.set s.toScope._replacement name name) name _ = _
  rw [rename_t_set_set]
  rfl

theorem extends_rename_var (s : GlobalScope) (name : String) (h : s.declared name = false) :
    s.Extends (rename_var { s with toScope := s.toScope.declare name } name) := by
  refine ⟨rfl, fun x v hx => ?_⟩
  rw [rename_var_declare_replacement]
  have hne : x ≠ name := by
    intro he
    rw [he] at hx
    unfold declared at h
    rw [hx] at h
    cases h
  rw [rename_t_find_set_ne _ _ _ _ hne]
  exact hx

end GlobalScope

namespace PropertyRenaming

theorem property_name_none (s : GlobalScope) : property_name s none = (none, s) := rfl

theorem property_name_other (s : GlobalScope) (c : Node) (h : c.identifierName = none) :
    property_name s (some c) = (none, s) := by
  unfold property_name
  simp only [Option.bind, h]

theorem property_name_public (s : GlobalScope) (c : Node) (name : String)
    (h : c.identifierName = some name)
    (hp : GlobalScope.need_rename s._rename_private name = false) :
    property_name s (some c) = (none, s) := by
  unfold property_name
  simp only [Option.bind, h, hp, Bool.false_eq_true, if_false]

theorem property_name_declared (s : GlobalScope) (c : Node) (name : String)
    (h : c.identifierName = some name)
    (hp : GlobalScope.need_rename s._rename_private name = true)
    (hd : s.declared name = true) :
    property_name s (some c) = (some (s.new_name name), s) := by
  unfold property_name
  simp only [Option.bind, h, hp, hd, Bool.not_true, Bool.false_eq_true, if_false, if_true]

theorem property_name_fresh (s : GlobalScope) (c : Node) (name : String)
    (h : c.identifierName = some name)
    (hp : GlobalScope.need_rename s._rename_private name = true)
    (hd : s.declared name = false) :
    property_name s (some c) =
      (some ((GlobalScope.rename_var
          { s with toScope := s.toScope.declare name } name).new_name name),
        GlobalScope.rename_var { s with toScope := s.toScope.declare name } name) := by
  unfold property_name
  simp only [Option.bind, h, hp, hd, Bool.not_false, if_true]

theorem mappedName_other (p : Bool) (f : String → String) (c : Node)
    (h : c.identifierName = none) : Node.mappedName p f (some c) = none := by
  unfold Node.mappedName
  simp only [h]

theorem mappedName_id (p : Bool) (f : String → String) (c : Node) (name : String)
    (h : c.identifierName = some name) :
    Node.mappedName p f (some c) =
      if GlobalScope.need_rename p name then some (f name) else none := by
  unfold Node.mappedName
  simp only [h]

/-- What `property_name` gives: the scope is extended, and the name to set is
the one that every later scope gives. -/
theorem property_name_spec (s : GlobalScope) (n : Option Node) :
    s.Extends (property_name s n).2 ∧
      ∀ t, (property_name s n).2.Extends t →
        (property_name s n).1 = Node.mappedName s._rename_private t.new_name n := by
  cases n with
  | none => exact ⟨GlobalScope.extends_refl s, fun _ _ => rfl⟩
  | some c =>
    cases hid : c.identifierName with
    | none =>
      rw [property_name_other s c hid]
      exact ⟨GlobalScope.extends_refl s, fun _ _ => (mappedName_other _ _ c hid).symm⟩
    | some name =>
      simp only [mappedName_id _ _ c name hid]
      cases hp : GlobalScope.need_rename s._rename_private name with
      | false =>
        rw [property_name_public s c name hid hp]
        exact ⟨GlobalScope.extends_refl s, fun _ _ => by simp⟩
      | true =>
        simp only [if_true]
        cases hd : s.declared name with
        | true =>
          rw [property_name_declared s c name hid hp hd]
          refine ⟨GlobalScope.extends_refl s, fun t ht => ?_⟩
          unfold GlobalScope.declared at hd
          obtain ⟨v, hv⟩ := Option.isSome_iff_exists.mp hd
          show some _ = some _
          rw [GlobalScope.new_name_of_find hv, GlobalScope.new_name_of_find (ht.2 name v hv)]
        | false =>
          rw [property_name_fresh s c name hid hp hd]
          refine ⟨GlobalScope.extends_rename_var s name hd, fun t ht => ?_⟩
          have hv : rename_t.find
              (GlobalScope.rename_var
                { s with toScope := s.toScope.declare name } name).toScope._replacement name =
              some (nextFree (GlobalScope.in_use { s with toScope := s.toScope.declare name })
                s.toScope._new_names.length s._name_factory).1 := by
            rw [GlobalScope.rename_var_declare_replacement, rename_t_find_set_self]
          show some _ = some _
          rw [GlobalScope.new_name_of_find hv, GlobalScope.new_name_of_find (ht.2 name _ hv)]

end PropertyRenaming

end fbjs

open fbjs
namespace fbjs

namespace PropertyRenaming

theorem minify_slot_spec (ii : Option Node)
    (hc : ∀ c, ii = some c → ∀ s : GlobalScope, s.Extends (minify c s).2 ∧
      ∀ t, (minify c s).2.Extends t →
        (minify c s).1 = Node.mapProperties s._rename_private t.new_name c)
    (s : GlobalScope) :
    s.Extends (minify_slot ii s).2 ∧
      ∀ t, (minify_slot ii s).2.Extends t →
        (minify_slot ii s).1 = Node.mapPropertiesSlot s._rename_private t.new_name ii := by
  cases ii with
  | none =>
    rw [minify_slot]
    exact ⟨GlobalScope.extends_refl s, fun _ _ => by rw [Node.mapPropertiesSlot]⟩
  | some c =>
    rw [minify_slot]
    obtain ⟨h1, h2⟩ := hc c rfl s
    exact ⟨h1, fun t ht => by rw [Node.mapPropertiesSlot]; exact congrArg some (h2 t ht)⟩

theorem minify_children_spec :
    ∀ (cs : List (Option Node)),
      (∀ c, some c ∈ cs → ∀ s : GlobalScope, s.Extends (minify c s).2 ∧
        ∀ t, (minify c s).2.Extends t →
          (minify c s).1 = Node.mapProperties s._rename_private t.new_name c) →
      ∀ s : GlobalScope, s.Extends (minify_children cs s).2 ∧
        ∀ t, (minify_children cs s).2.Extends t →
          (minify_children cs s).1 = Node.mapPropertiesList s._rename_private t.new_name cs := by
  intro cs
  induction cs with
  | nil =>
    intro _ s
    rw [minify_children]
    exact ⟨GlobalScope.extends_refl s, fun _ _ => by rw [Node.mapPropertiesList]⟩
  | cons ii rest ih =>
    intro hc s
    rw [minify_children]
    obtain ⟨h1, h2⟩ := minify_slot_spec ii
      (fun c hii => hc c (by rw [hii]; exact List.mem_cons_self _ _)) s
    obtain ⟨h3, h4⟩ := ih (fun c hm => hc c (List.mem_cons_of_mem _ hm)) (minify_slot ii s).2
    refine ⟨GlobalScope.extends_trans h1 h3, fun t ht => ?_⟩
    rw [Node.mapPropertiesList]
    show _ :: _ = _ :: _
    rw [h2 t (GlobalScope.extends_trans h3 ht), h4 t ht, h1.1]

theorem minify_back_spec :
    ∀ (cs : List (Option Node)),
      (∀ c, some c ∈ cs → ∀ s : GlobalScope, s.Extends (minify c s).2 ∧
        ∀ t, (minify c s).2.Extends t →
          (minify c s).1 = Node.mapProperties s._rename_private t.new_name c) →
      ∀ s : GlobalScope, s.Extends (minify_back cs s).2 ∧
        ∀ t, (minify_back cs s).2.Extends t →
          (minify_back cs s).1 = Node.mapPropertiesBack s._rename_private t.new_name cs := by
  intro cs
  induction cs with
  | nil =>
    intro _ s
    rw [minify_back]
    exact ⟨GlobalScope.extends_refl s, fun _ _ => by rw [Node.mapPropertiesBack]⟩
  | cons ii rest ih =>
    intro hc s
    cases rest with
    | nil =>
      rw [minify_back]
      obtain ⟨h1, h2⟩ := minify_slot_spec ii
        (fun c hii => hc c (by rw [hii]; exact List.mem_cons_self _ _)) s
      refine ⟨h1, fun t ht => ?_⟩
      rw [Node.mapPropertiesBack]
      show [_] = [_]
      rw [h2 t ht]
    | cons b rest2 =>
      rw [minify_back]
      · obtain ⟨h3, h4⟩ := ih (fun c hm => hc c (List.mem_cons_of_mem _ hm)) s
        refine ⟨h3, fun t ht => ?_⟩
        rw [Node.mapPropertiesBack]
        · show _ :: _ = _ :: _
          rw [h4 t ht]
        · intro h; cases h
      · intro h; cases h

/-- The tree that `minify` returns is the tree in which every name of a
property is mapped by the `new_name` of any scope that extends the scope
`minify` returns. -/
theorem minify_spec :
    ∀ (n : Node) (s : GlobalScope), s.Extends (minify n s).2 ∧
      ∀ t, (minify n s).2.Extends t →
        (minify n s).1 = Node.mapProperties s._rename_private t.new_name n := by
  intro n
  induction n using Node.induction_on with
  | h k l cs ih =>
    intro s
    by_cases h1 : k = .ObjectLiteralProperty
    · subst h1
      rw [minify]
      obtain ⟨p1, p2⟩ := property_name_spec s cs.head?.join
      obtain ⟨h3, h4⟩ := minify_back_spec cs ih (property_name s cs.head?.join).2
      refine ⟨GlobalScope.extends_trans p1 h3, fun t ht => ?_⟩
      rw [Node.mapProperties]
      show Node.mk _ _ _ = Node.mk _ _ _
      rw [p2 t (GlobalScope.extends_trans h3 ht), h4 t ht, p1.1]
    by_cases h2 : k = .StaticMemberExpression
    · subst h2
      cases cs with
      | nil =>
        rw [minify]
        exact ⟨GlobalScope.extends_refl s, fun _ _ => by rw [Node.mapProperties]⟩
      | cons front rest =>
        rw [minify]
        obtain ⟨h3, h4⟩ := minify_slot_spec front
          (fun c hii => ih c (by rw [hii]; exact List.mem_cons_self _ _)) s
        obtain ⟨p1, p2⟩ := property_name_spec (minify_slot front s).2
          ((minify_slot front s).1 :: rest).getLast?.join
        refine ⟨GlobalScope.extends_trans h3 p1, fun t ht => ?_⟩
        rw [Node.mapProperties]
        show Node.mk _ _ _ = Node.mk _ _ _
        rw [p2 t ht, h3.1, h4 t (GlobalScope.extends_trans p1 ht)]
    rw [minify.eq_4 s k l cs h1 h2]
    obtain ⟨h3, h4⟩ := minify_children_spec cs ih s
    refine ⟨h3, fun t ht => ?_⟩
    rw [Node.mapProperties.eq_4 _ _ k l cs h1 h2]
    show Node.mk _ _ _ = Node.mk _ _ _
    rw [h4 t ht]

end PropertyRenaming

end fbjs

open fbjs
namespace fbjs

/-- What `nextFree` draws from a factory that stands at one of its names,
whatever its prefix: the prefix followed by a name of the factory that comes no
earlier than the current one; the factory is then further on. -/
theorem nextFree_drawn (in_use : String → Bool) :
    ∀ (fuel : Nat) (f : NameFactory), NameFactory.Fresh f._current.data →
      ∃ d, NameFactory.Fresh d ∧
        (nextFree in_use fuel f).1 = f._prefix ++ String.mk d ∧
        NameFactory.measure f._current.data ≤ NameFactory.measure d ∧
        NameFactory.measure d < NameFactory.measure (nextFree in_use fuel f).2._current.data ∧
        NameFactory.Fresh (nextFree in_use fuel f).2._current.data ∧
        NameFactory._prefix (nextFree in_use fuel f).2 = f._prefix := by
  intro fuel
  have hnext : ∀ f : NameFactory, NameFactory.Fresh f._current.data →
      NameFactory.Fresh f.next.2._current.data ∧
        NameFactory.measure f._current.data < NameFactory.measure f.next.2._current.data := by
    intro f hf
    have h := NameFactory.next_good { f with _prefix := "" } ⟨rfl, hf⟩
    exact ⟨h.2.1.2, h.2.2⟩
  induction fuel with
  | zero =>
    intro f hf
    rw [nextFree]
    exact ⟨f._current.data, hf, rfl, le_refl _, (hnext f hf).2, (hnext f hf).1, rfl⟩
  | succ fuel ih =>
    intro f hf
    rw [nextFree]
    split
    · obtain ⟨d, a, b, c, e, g, h⟩ := ih f.next.2 (hnext f hf).1
      have := (hnext f hf).2
      exact ⟨d, a, b, by omega, e, g, h⟩
    · exact ⟨f._current.data, hf, rfl, le_refl _, (hnext f hf).2, (hnext f hf).1, rfl⟩

theorem underscore_toNat : '_'.toNat = 95 := rfl

/-- A string that is `_` followed by a name of the factory starts with
exactly one `_`. -/
theorem fresh_private (d : List Char) (h : NameFactory.Fresh d) :
    ∃ c rest, d = c :: rest ∧ c ≠ '_' := by
  obtain ⟨k, c, hd, hc, _⟩ := h
  cases k with
  | zero =>
    refine ⟨c, [], hd, fun he => ?_⟩
    rw [he] at hc
    revert hc
    decide
  | succ k =>
    refine ⟨'z', List.replicate k 'z' ++ [c], ?_, by decide⟩
    rw [hd, List.replicate_succ, List.cons_append]

theorem need_rename_iff_private (name : String) :
    GlobalScope.need_rename true name = true ↔
      ∃ c rest, name.data = '_' :: c :: rest ∧ c ≠ '_' := by
  unfold GlobalScope.need_rename
  obtain ⟨data⟩ := name
  simp only [Bool.true_and, String.length]
  cases data with
  | nil => simp
  | cons a t =>
    cases t with
    | nil => simp
    | cons b t2 =>
      constructor
      · intro h
        simp only [List.length_cons, List.head?_cons, List.get?_cons_succ, List.get?_cons_zero,
          Bool.and_eq_true, beq_iff_eq, Option.some.injEq, bne_iff_ne, ne_eq] at h
        refine ⟨b, t2, ?_, h.2⟩
        rw [h.1.2]
      · rintro ⟨c, rest, h1, h2⟩
        simp only [List.cons.injEq] at h1
        obtain ⟨ha, hb, _⟩ := h1
        subst ha hb
        simp only [List.length_cons, List.head?_cons, List.get?_cons_succ, List.get?_cons_zero,
          Bool.and_eq_true, beq_iff_eq, bne_iff_ne, ne_eq, Option.some.injEq]
        exact ⟨⟨by simp, trivial⟩, h2⟩

namespace PropertyRenaming

theorem property_minify_slot_keeps (Q : GlobalScope → Prop) (ii : Option Node)
    (hc : ∀ c, ii = some c → ∀ s, Q s → Q (minify c s).2) (s : GlobalScope) (h : Q s) :
    Q (minify_slot ii s).2 := by
  cases ii with
  | none => rw [minify_slot]; exact h
  | some c => rw [minify_slot]; exact hc c rfl s h

theorem property_minify_children_keeps (Q : GlobalScope → Prop) :
    ∀ (cs : List (Option Node)), (∀ c, some c ∈ cs → ∀ s, Q s → Q (minify c s).2) →
      ∀ s, Q s → Q (minify_children cs s).2 := by
  intro cs
  induction cs with
  | nil => intro _ s h; rw [minify_children]; exact h
  | cons ii rest ih =>
    intro hc s h
    rw [minify_children]
    exact ih (fun c hm => hc c (List.mem_cons_of_mem _ hm)) _
      (property_minify_slot_keeps Q ii (fun c hii => hc c (by rw [hii]; exact List.mem_cons_self _ _)) s h)

theorem property_minify_back_keeps (Q : GlobalScope → Prop) :
    ∀ (cs : List (Option Node)), (∀ c, some c ∈ cs → ∀ s, Q s → Q (minify c s).2) →
      ∀ s, Q s → Q (minify_back cs s).2 := by
  intro cs
  induction cs with
  | nil => intro _ s h; rw [minify_back]; exact h
  | cons ii rest ih =>
    intro hc s h
    cases rest with
    | nil =>
      rw [minify_back]
      exact property_minify_slot_keeps Q ii
        (fun c hii => hc c (by rw [hii]; exact List.mem_cons_self _ _)) s h
    | cons b rest2 =>
      rw [minify_back]
      · exact ih (fun c hm => hc c (List.mem_cons_of_mem _ hm)) s h
      · intro h; cases h

/-- What the steps on the names of the properties keep, `minify` keeps. -/
theorem property_minify_keeps (Q : GlobalScope → Prop)
    (hp : ∀ s n, Q s → Q (property_name s n).2) :
    ∀ (n : Node) (s : GlobalScope), Q s → Q (minify n s).2 := by
  intro n
  induction n using Node.induction_on with
  | h k l cs ih =>
    intro s h
    by_cases h1 : k = .ObjectLiteralProperty
    · subst h1
      rw [minify]
      exact property_minify_back_keeps Q cs ih _ (hp s _ h)
    by_cases h2 : k = .StaticMemberExpression
    · subst h2
      cases cs with
      | nil => rw [minify]; exact h
      | cons front rest =>
        rw [minify]
        exact hp _ _ (property_minify_slot_keeps Q front
          (fun c hii => ih c (by rw [hii]; exact List.mem_cons_self _ _)) s h)
    rw [minify.eq_4 s k l cs h1 h2]
    exact property_minify_children_keeps Q cs ih s h

theorem property_good_new : (GlobalScope.new true).Good :=
  ⟨rfl, rfl, ⟨0, 'a', rfl, by decide, by decide⟩, fun _ he => (by cases he),
    fun _ he => (by cases he)⟩

theorem data_underscore_append (d : List Char) : ("_" ++ String.mk d).data = '_' :: d := rfl

theorem good_rename_var (s : GlobalScope) (name : String) (h : s.Good) :
    (GlobalScope.rename_var { s with toScope := s.toScope.declare name } name).Good := by
  obtain ⟨h1, h2, h3, h4, h5⟩ := h
  obtain ⟨d, a, b, c, hlt, g, hpre⟩ :=
    nextFree_drawn (GlobalScope.in_use { s with toScope := s.toScope.declare name })
      s.toScope._new_names.length s._name_factory h3
  have hval : (nextFree (GlobalScope.in_use { s with toScope := s.toScope.declare name })
      s.toScope._new_names.length s._name_factory).1.data = '_' :: d := by
    rw [b, h2]
    rfl
  have hmem : ∀ e ∈ (GlobalScope.rename_var
      { s with toScope := s.toScope.declare name } name).toScope._replacement,
      e = (name, (nextFree (GlobalScope.in_use { s with toScope := s.toScope.declare name })
        s.toScope._new_names.length s._name_factory).1) ∨ e ∈ s.toScope._replacement := by
    intro e he
    rw [GlobalScope.rename_var_declare_replacement] at he
    exact rename_t_mem_set he
  have hclash : ∀ e ∈ s.toScope._replacement,
      e.2 ≠ (nextFree (GlobalScope.in_use { s with toScope := s.toScope.declare name })
        s.toScope._new_names.length s._name_factory).1 := by
    intro e he heq
    obtain ⟨d2, a2, _, c2⟩ := h4 e he
    rw [heq, hval] at a2
    have : d = d2 := (List.cons.inj a2).2
    rw [this] at c
    omega
  refine ⟨h1, hpre.trans h2, g, fun e he => ?_, fun e1 he1 e2 he2 heq => ?_⟩
  · rcases hmem e he with he | he
    · rw [he]
      exact ⟨d, hval, a, hlt⟩
    · obtain ⟨d2, a2, b2, c2⟩ := h4 e he
      exact ⟨d2, a2, b2, lt_trans c2 (lt_of_le_of_lt c hlt)⟩
  · rcases hmem e1 he1 with h6 | h6
    · rcases hmem e2 he2 with h7 | h7
      · rw [h6, h7]
      · rw [h6] at heq
        exact absurd heq.symm (hclash e2 h7)
    · rcases hmem e2 he2 with h7 | h7
      · rw [h7] at heq
        exact absurd heq (hclash e1 h6)
      · exact h5 e1 h6 e2 h7 heq

theorem good_property_name (s : GlobalScope) (n : Option Node) (h : s.Good) :
    (property_name s n).2.Good := by
  cases n with
  | none => exact h
  | some c =>
    cases hid : c.identifierName with
    | none => rw [property_name_other s c hid]; exact h
    | some name =>
      cases hp : GlobalScope.need_rename s._rename_private name with
      | false => rw [property_name_public s c name hid hp]; exact h
      | true =>
        cases hd : s.declared name with
        | true => rw [property_name_declared s c name hid hp hd]; exact h
        | false =>
          rw [property_name_fresh s c name hid hp hd]
          exact good_rename_var s name h

end PropertyRenaming

/-- C25: property renaming never makes two different property names equal.
In the property scope as `PropertyRenaming::minify` leaves it, every new name
starts with exactly one `_`, no two entries with different names share a new
name, and no new name is a name that the pass does not rename (a name that
`need_rename` does not hold of, which is one that does not start with exactly
one `_`). -/
theorem property_names_stay_distinct (n : Node) :
    (∀ e ∈ (PropertyRenaming.minify n (GlobalScope.new true)).2.toScope._replacement,
      ∃ c rest, e.2.data = '_' :: c :: rest ∧ c ≠ '_') ∧
    (PropertyRenaming.minify n (GlobalScope.new true)).2.toScope.Injective ∧
    (∀ e ∈ (PropertyRenaming.minify n (GlobalScope.new true)).2.toScope._replacement,
      ∀ name, GlobalScope.need_rename true name = false → e.2 ≠ name) ∧
    ∀ name, GlobalScope.need_rename true name = true ↔
      ∃ c rest, name.data = '_' :: c :: rest ∧ c ≠ '_' := by
  obtain ⟨_, _, _, h4, h5⟩ :=
    PropertyRenaming.property_minify_keeps GlobalScope.Good
      (fun s m hs => PropertyRenaming.good_property_name s m hs) n (GlobalScope.new true)
      PropertyRenaming.property_good_new
  have hpriv : ∀ e ∈ (PropertyRenaming.minify n (GlobalScope.new true)).2.toScope._replacement,
      ∃ c rest, e.2.data = '_' :: c :: rest ∧ c ≠ '_' := by
    intro e he
    obtain ⟨d, a, b, _⟩ := h4 e he
    obtain ⟨c, rest, hd, hc⟩ := fresh_private d b
    exact ⟨c, rest, by rw [a, hd], hc⟩
  refine ⟨hpriv, h5, fun e he name hn heq => ?_, need_rename_iff_private⟩
  have := (need_rename_iff_private e.2).mpr (hpriv e he)
  rw [heq, hn] at this
  cases this

end fbjs

open fbjs
namespace fbjs

theorem identifierName_mk (k : NodeKind) (l : Nat) (cs : List (Option Node)) :
    (Node.mk k l cs).identifierName = (Node.mk k 0 []).identifierName := by
  cases k <;> rfl

theorem identifierName_of_kind {a b : Node} (h : a.kind = b.kind) :
    a.identifierName = b.identifierName := by
  obtain ⟨ka, la, ca⟩ := a
  obtain ⟨kb, lb, cb⟩ := b
  have hk : ka = kb := h
  subst hk
  rw [identifierName_mk ka la ca, identifierName_mk ka lb cb]

theorem identifierName_some {n : Node} {name : String} (h : n.identifierName = some name) :
    n = .mk (.Identifier name) n.lineno n.childNodes := by
  cases n with
  | mk k l cs =>
    cases k
    case Identifier x =>
      simp only [Node.identifierName, Option.some.injEq] at h
      rw [h]
      rfl
    all_goals cases h

theorem kind_mapProperties (p : Bool) (f : String → String) (n : Node) :
    (Node.mapProperties p f n).kind = n.kind := by
  obtain ⟨k, l, cs⟩ := n
  by_cases h1 : k = .ObjectLiteralProperty
  · subst h1; rw [Node.mapProperties]; rfl
  by_cases h2 : k = .StaticMemberExpression
  · subst h2
    cases cs with
    | nil => rw [Node.mapProperties]
    | cons front rest => rw [Node.mapProperties]; rfl
  rw [Node.mapProperties.eq_4 _ _ k l cs h1 h2]
  rfl

theorem rename_identifier (name str : String) (l : Nat) (cs : List (Option Node)) :
    (Node.mk (.Identifier name) l cs).rename str = .mk (.Identifier str) l cs := rfl

theorem rename_other {n : Node} (h : n.identifierName = none) (str : String) :
    n.rename str = n := by
  unfold Node.rename
  rw [h]

theorem mapProperties_identifier (p : Bool) (f : String → String) (name : String) (l : Nat)
    (cs : List (Option Node)) :
    Node.mapProperties p f (.mk (.Identifier name) l cs) =
      .mk (.Identifier name) l (Node.mapPropertiesList p f cs) := by
  rw [Node.mapProperties]
  · intro h; cases h
  · intro h; cases h

theorem mapProperties_rename (p : Bool) (f : String → String) (n : Node) (str : String) :
    Node.mapProperties p f (n.rename str) = (Node.mapProperties p f n).rename str := by
  cases h : n.identifierName with
  | none =>
    rw [rename_other h, rename_other]
    rw [identifierName_of_kind (kind_mapProperties p f n)]
    exact h
  | some name =>
    rw [identifierName_some h, rename_identifier, mapProperties_identifier,
      mapProperties_identifier, rename_identifier]

theorem rename_rename (n : Node) (a b : String) : (n.rename a).rename b = n.rename b := by
  cases h : n.identifierName with
  | none => rw [rename_other h, rename_other h]
  | some name => rw [identifierName_some h, rename_identifier, rename_identifier, rename_identifier]

theorem identifierName_rename_some {n : Node} {name : String} (h : n.identifierName = some name)
    (str : String) : (n.rename str).identifierName = some str := by
  rw [identifierName_some h, rename_identifier]
  rfl

namespace PropertyRenaming

theorem mappedName_none (p : Bool) (f : String → String) : Node.mappedName p f none = none := rfl

theorem mappedName_private (p : Bool) (f : String → String) (c : Node) (name : String)
    (h : c.identifierName = some name) (hp : GlobalScope.need_rename p name = true) :
    Node.mappedName p f (some c) = some (f name) := by
  rw [mappedName_id p f c name h, if_pos hp]

theorem mappedName_public (p : Bool) (f : String → String) (c : Node) (name : String)
    (h : c.identifierName = some name) (hp : GlobalScope.need_rename p name = false) :
    Node.mappedName p f (some c) = none := by
  rw [mappedName_id p f c name h, hp]
  rfl

theorem rename_slot_none (n : Option Node) : rename_slot none n = n := by
  cases n <;> rfl

theorem rename_slot_some (str : String) (c : Node) :
    rename_slot (some str) (some c) = some (c.rename str) := rfl

theorem mapPropertiesSlot_some (p : Bool) (f : String → String) (c : Node) :
    Node.mapPropertiesSlot p f (some c) = some (Node.mapProperties p f c) := by
  rw [Node.mapPropertiesSlot]

theorem mapPropertiesSlot_none (p : Bool) (f : String → String) :
    Node.mapPropertiesSlot p f none = none := by
  rw [Node.mapPropertiesSlot]

/-- The slot `y` stands where the slot `x` stood: both are null, or both are
nodes of the same class and, for identifiers, of the same name. -/
theorem mapped_twice (p : Bool) (f g : String → String)
    (hf : ∀ name, GlobalScope.need_rename p name = true →
      GlobalScope.need_rename p (f name) = true)
    (x y : Option Node) (hxy : y.bind Node.identifierName = x.bind Node.identifierName)
    (hnull : y = none ↔ x = none) :
    Node.mappedName p g (rename_slot (Node.mappedName p f x) y) =
        Node.mappedName p (fun n => g (f n)) x ∧
      rename_slot (Node.mappedName p (fun n => g (f n)) x)
          (rename_slot (Node.mappedName p f x) y) =
        rename_slot (Node.mappedName p (fun n => g (f n)) x) y ∧
      Node.mappedName p g y = Node.mappedName p g x := by
  cases x with
  | none =>
    have hy : y = none := hnull.mpr rfl
    subst hy
    exact ⟨rfl, rfl, rfl⟩
  | some c =>
    cases y with
    | none => exact absurd (hnull.mp rfl) (by simp)
    | some d =>
      simp only [Option.bind] at hxy
      cases hc : c.identifierName with
      | none =>
        rw [hc] at hxy
        rw [mappedName_other p f c hc, mappedName_other p _ c hc, rename_slot_none,
          mappedName_other p g d hxy, mappedName_other p g c hc]
        exact ⟨rfl, rfl, rfl⟩
      | some name =>
        rw [hc] at hxy
        cases hp : GlobalScope.need_rename p name with
        | false =>
          rw [mappedName_public p f c name hc hp, mappedName_public p _ c name hc hp,
            rename_slot_none, mappedName_public p g d name hxy hp,
            mappedName_public p g c name hc hp]
          exact ⟨rfl, rfl, rfl⟩
        | true =>
          rw [mappedName_private p f c name hc hp, mappedName_private p _ c name hc hp,
            rename_slot_some, rename_slot_some, rename_slot_some, rename_rename,
            mappedName_private p g _ (f name) (identifierName_rename_some hxy _) (hf name hp),
            mappedName_private p g d name hxy hp, mappedName_private p g c name hc hp]
          exact ⟨rfl, rfl, rfl⟩

theorem mapPropertiesSlot_rename_slot (p : Bool) (f : String → String) (m : Option String)
    (y : Option Node) :
    Node.mapPropertiesSlot p f (rename_slot m y) = rename_slot m (Node.mapPropertiesSlot p f y) := by
  cases m with
  | none => rw [rename_slot_none, rename_slot_none]
  | some str =>
    cases y with
    | none => rfl
    | some c =>
      rw [rename_slot_some, mapPropertiesSlot_some, mapPropertiesSlot_some, rename_slot_some,
        mapProperties_rename]

theorem identifierName_mapPropertiesSlot (p : Bool) (f : String → String) (x : Option Node) :
    (Node.mapPropertiesSlot p f x).bind Node.identifierName = x.bind Node.identifierName ∧
      (Node.mapPropertiesSlot p f x = none ↔ x = none) := by
  cases x with
  | none => rw [mapPropertiesSlot_none]; exact ⟨rfl, Iff.rfl⟩
  | some c =>
    rw [mapPropertiesSlot_some]
    exact ⟨identifierName_of_kind (kind_mapProperties p f c), by simp⟩

end PropertyRenaming

end fbjs

open fbjs
namespace fbjs

namespace PropertyRenaming

theorem mapPropertiesBack_one (p : Bool) (f : String → String) (x : Option Node) :
    Node.mapPropertiesBack p f [x] = [Node.mapPropertiesSlot p f x] := by
  rw [Node.mapPropertiesBack]

theorem mapPropertiesBack_cons (p : Bool) (f : String → String) (a : Option Node)
    (L : List (Option Node)) (h : L ≠ []) :
    Node.mapPropertiesBack p f (a :: L) = a :: Node.mapPropertiesBack p f L := by
  cases L with
  | nil => exact absurd rfl h
  | cons b r =>
    rw [Node.mapPropertiesBack]
    intro h2; cases h2

theorem mapPropertiesBack_ne_nil (p : Bool) (f : String → String) :
    ∀ (L : List (Option Node)), L ≠ [] → Node.mapPropertiesBack p f L ≠ [] := by
  intro L h
  cases L with
  | nil => exact absurd rfl h
  | cons a r =>
    cases r with
    | nil => rw [mapPropertiesBack_one]; simp
    | cons b r2 => rw [mapPropertiesBack_cons p f a _ (by simp)]; simp

theorem rename_back_one (m : Option String) (x : Option Node) :
    rename_back m [x] = [rename_slot m x] := rfl

theorem rename_back_cons (m : Option String) (a : Option Node) (L : List (Option Node))
    (h : L ≠ []) : rename_back m (a :: L) = a :: rename_back m L := by
  cases L with
  | nil => exact absurd rfl h
  | cons b r => rfl

theorem rename_back_ne_nil (m : Option String) :
    ∀ (L : List (Option Node)), L ≠ [] → rename_back m L ≠ [] := by
  intro L h
  cases L with
  | nil => exact absurd rfl h
  | cons a r =>
    cases r with
    | nil => simp [rename_back_one]
    | cons b r2 => rw [rename_back_cons m a _ (by simp)]; simp

theorem getLast?_rename_back (m : Option String) :
    ∀ (L : List (Option Node)), (rename_back m L).getLast? = L.getLast?.map (rename_slot m) := by
  intro L
  induction L with
  | nil => rfl
  | cons a r ih =>
    cases r with
    | nil => rfl
    | cons b r2 =>
      rw [rename_back_cons m a _ (by simp), List.getLast?_cons_cons]
      obtain ⟨c, r3, hc⟩ := List.exists_cons_of_ne_nil (rename_back_ne_nil m (b :: r2) (by simp))
      rw [hc, List.getLast?_cons_cons, ← hc, ih]

theorem rename_back_twice (m0 m1 : Option String) :
    ∀ (L : List (Option Node)),
      (∀ z, L.getLast? = some z → rename_slot m0 (rename_slot m1 z) = rename_slot m0 z) →
      rename_back m0 (rename_back m1 L) = rename_back m0 L := by
  intro L
  induction L with
  | nil => intro _; rfl
  | cons a r ih =>
    intro h
    cases r with
    | nil =>
      rw [rename_back_one, rename_back_one, rename_back_one, h a rfl]
    | cons b r2 =>
      rw [rename_back_cons m1 a _ (by simp),
        rename_back_cons m0 a _ (rename_back_ne_nil m1 _ (by simp)),
        rename_back_cons m0 a _ (by simp), ih (fun z hz => h z (by
          rw [List.getLast?_cons_cons]; exact hz))]

theorem comp_slot (p : Bool) (f g : String → String) (ii : Option Node)
    (hc : ∀ c, ii = some c →
      Node.mapProperties p g (Node.mapProperties p f c) =
        Node.mapProperties p (fun n => g (f n)) c) :
    Node.mapPropertiesSlot p g (Node.mapPropertiesSlot p f ii) =
      Node.mapPropertiesSlot p (fun n => g (f n)) ii := by
  cases ii with
  | none => simp only [mapPropertiesSlot_none]
  | some c => simp only [mapPropertiesSlot_some, hc c rfl]

theorem comp_list (p : Bool) (f g : String → String) :
    ∀ (cs : List (Option Node)),
      (∀ c, some c ∈ cs →
        Node.mapProperties p g (Node.mapProperties p f c) =
          Node.mapProperties p (fun n => g (f n)) c) →
      Node.mapPropertiesList p g (Node.mapPropertiesList p f cs) =
        Node.mapPropertiesList p (fun n => g (f n)) cs := by
  intro cs
  induction cs with
  | nil => intro _; simp only [Node.mapPropertiesList]
  | cons ii rest ih =>
    intro hc
    simp only [Node.mapPropertiesList]
    rw [comp_slot p f g ii (fun c hii => hc c (by rw [hii]; exact List.mem_cons_self _ _)),
      ih (fun c hm => hc c (List.mem_cons_of_mem _ hm))]

theorem comp_back (p : Bool) (f g : String → String) :
    ∀ (cs : List (Option Node)),
      (∀ c, some c ∈ cs →
        Node.mapProperties p g (Node.mapProperties p f c) =
          Node.mapProperties p (fun n => g (f n)) c) →
      Node.mapPropertiesBack p g (Node.mapPropertiesBack p f cs) =
        Node.mapPropertiesBack p (fun n => g (f n)) cs := by
  intro cs
  induction cs with
  | nil => intro _; simp only [Node.mapPropertiesBack]
  | cons ii rest ih =>
    intro hc
    cases rest with
    | nil =>
      rw [mapPropertiesBack_one, mapPropertiesBack_one, mapPropertiesBack_one,
        comp_slot p f g ii (fun c hii => hc c (by rw [hii]; exact List.mem_cons_self _ _))]
    | cons b r =>
      rw [mapPropertiesBack_cons p f ii _ (by simp),
        mapPropertiesBack_cons p g ii _ (mapPropertiesBack_ne_nil p f _ (by simp)),
        mapPropertiesBack_cons p _ ii _ (by simp),
        ih (fun c hm => hc c (List.mem_cons_of_mem _ hm))]

end PropertyRenaming

end fbjs

open fbjs
namespace fbjs

namespace PropertyRenaming

theorem olp_nil (p : Bool) (f : String → String) (l : Nat) :
    Node.mapProperties p f (.mk .ObjectLiteralProperty l []) =
      .mk .ObjectLiteralProperty l [] := by
  rw [Node.mapProperties]
  rfl

theorem olp_one (p : Bool) (f : String → String) (l : Nat) (x : Option Node) :
    Node.mapProperties p f (.mk .ObjectLiteralProperty l [x]) =
      .mk .ObjectLiteralProperty l
        [rename_slot (Node.mappedName p f x) (Node.mapPropertiesSlot p f x)] := by
  rw [Node.mapProperties, mapPropertiesBack_one]
  rfl

theorem olp_cons (p : Bool) (f : String → String) (l : Nat) (x : Option Node)
    (L : List (Option Node)) (h : L ≠ []) :
    Node.mapProperties p f (.mk .ObjectLiteralProperty l (x :: L)) =
      .mk .ObjectLiteralProperty l
        (rename_slot (Node.mappedName p f x) x :: Node.mapPropertiesBack p f L) := by
  rw [Node.mapProperties, mapPropertiesBack_cons p f x L h]
  rfl

theorem sme_nil (p : Bool) (f : String → String) (l : Nat) :
    Node.mapProperties p f (.mk .StaticMemberExpression l []) =
      .mk .StaticMemberExpression l [] := by
  rw [Node.mapProperties]

theorem sme_one (p : Bool) (f : String → String) (l : Nat) (x : Option Node) :
    Node.mapProperties p f (.mk .StaticMemberExpression l [x]) =
      .mk .StaticMemberExpression l
        [rename_slot (Node.mappedName p f (Node.mapPropertiesSlot p f x))
          (Node.mapPropertiesSlot p f x)] := by
  rw [Node.mapProperties]
  rfl

theorem sme_cons (p : Bool) (f : String → String) (l : Nat) (x : Option Node)
    (L : List (Option Node)) (h : L ≠ []) :
    Node.mapProperties p f (.mk .StaticMemberExpression l (x :: L)) =
      .mk .StaticMemberExpression l
        (Node.mapPropertiesSlot p f x :: rename_back (Node.mappedName p f L.getLast?.join) L) := by
  obtain ⟨b, r, hL⟩ := List.exists_cons_of_ne_nil h
  subst hL
  rw [Node.mapProperties, List.getLast?_cons_cons, rename_back_cons _ _ _ (by simp)]

/-- Mapping the names of the properties by `f` and then by `g` is mapping them
by `g` after `f`, when `f` gives private names for private names. -/
theorem mapProperties_comp (p : Bool) (f g : String → String)
    (hf : ∀ name, GlobalScope.need_rename p name = true →
      GlobalScope.need_rename p (f name) = true) :
    ∀ n : Node, Node.mapProperties p g (Node.mapProperties p f n) =
      Node.mapProperties p (fun n => g (f n)) n := by
  intro n
  induction n using Node.induction_on with
  | h k l cs ih =>
    by_cases h1 : k = .ObjectLiteralProperty
    · subst h1
      cases cs with
      | nil => rw [olp_nil, olp_nil, olp_nil]
      | cons x L =>
        cases L with
        | nil =>
          obtain ⟨i1, i2⟩ := identifierName_mapPropertiesSlot p f x
          obtain ⟨a, b, c⟩ := mapped_twice p f g hf x (Node.mapPropertiesSlot p f x) i1 i2
          obtain ⟨j1, j2⟩ := identifierName_mapPropertiesSlot p (fun n => g (f n)) x
          obtain ⟨_, b2, _⟩ := mapped_twice p f g hf x
            (Node.mapPropertiesSlot p (fun n => g (f n)) x) j1 j2
          rw [olp_one, olp_one, olp_one, a, mapPropertiesSlot_rename_slot,
            comp_slot p f g x (fun c hx => ih c (by rw [hx]; exact List.mem_cons_self _ _)), b2]
        | cons y r =>
          obtain ⟨a, b, _⟩ := mapped_twice p f g hf x x rfl Iff.rfl
          rw [olp_cons p f l x _ (by simp),
            olp_cons p g l _ _ (mapPropertiesBack_ne_nil p f _ (by simp)),
            olp_cons p _ l x _ (by simp), a, b,
            comp_back p f g _ (fun c hm => ih c (List.mem_cons_of_mem _ hm))]
    by_cases h2 : k = .StaticMemberExpression
    · subst h2
      cases cs with
      | nil => rw [sme_nil, sme_nil, sme_nil]
      | cons x L =>
        have hx := comp_slot p f g x (fun c hx => ih c (by rw [hx]; exact List.mem_cons_self _ _))
        cases L with
        | nil =>
          obtain ⟨i1, i2⟩ := identifierName_mapPropertiesSlot p f x
          obtain ⟨j1, j2⟩ := identifierName_mapPropertiesSlot p (fun n => g (f n)) x
          obtain ⟨_, _, c1⟩ := mapped_twice p f f hf x (Node.mapPropertiesSlot p f x) i1 i2
          obtain ⟨a, b, _⟩ := mapped_twice p f g hf x
            (Node.mapPropertiesSlot p (fun n => g (f n)) x) j1 j2
          obtain ⟨_, _, c3⟩ := mapped_twice p f (fun n => g (f n)) hf x
            (Node.mapPropertiesSlot p (fun n => g (f n)) x) j1 j2
          rw [sme_one, sme_one, sme_one, c1, mapPropertiesSlot_rename_slot, hx, a, b, c3]
        | cons y r =>
          have hlast : ∀ z, (y :: r).getLast? = some z →
              Node.mappedName p g (rename_slot (Node.mappedName p f z) z) =
                Node.mappedName p (fun n => g (f n)) z ∧
              rename_slot (Node.mappedName p (fun n => g (f n)) z)
                  (rename_slot (Node.mappedName p f z) z) =
                rename_slot (Node.mappedName p (fun n => g (f n)) z) z := by
            intro z _
            obtain ⟨a, b, _⟩ := mapped_twice p f g hf z z rfl Iff.rfl
            exact ⟨a, b⟩
          obtain ⟨z, hz⟩ : ∃ z, (y :: r).getLast? = some z :=
            ⟨_, List.getLast?_eq_getLast _ (by simp)⟩
          rw [sme_cons p f l x _ (by simp),
            sme_cons p g l _ _ (rename_back_ne_nil _ _ (by simp)),
            sme_cons p _ l x _ (by simp), hx, getLast?_rename_back, hz]
          simp only [Option.map_some', Option.join, Option.some_bind, id]
          rw [(hlast z hz).1, rename_back_twice _ _ _ (fun z2 hz2 => by
            rw [hz] at hz2
            cases hz2
            exact (hlast z hz).2)]
    rw [Node.mapProperties.eq_4 _ _ k l cs h1 h2, Node.mapProperties.eq_4 _ _ k l _ h1 h2,
      Node.mapProperties.eq_4 _ _ k l cs h1 h2, comp_list p f g cs ih]

end PropertyRenaming

/-- C24: the renaming step of the property pass changes only the names of
private properties. With the name of every private property blanked out (an
identifier that is the first child of an object-literal property or the last
child of a static member access, and that `need_rename` holds of) the tree
that `PropertyRenaming::minify` returns is the tree it was given: the shape,
every other payload and every other name are the same, and a private property
name has become a private property name. A name is private when it starts
with `_` and goes on with a character other than `_`. -/
theorem property_renaming_frame (n : Node) :
    (PropertyRenaming.minify n (GlobalScope.new true)).1.maskProperties = n.maskProperties ∧
    ∀ name, GlobalScope.need_rename true name = true ↔
      ∃ c rest, name.data = '_' :: c :: rest ∧ c ≠ '_' := by
  refine ⟨?_, need_rename_iff_private⟩
  obtain ⟨_, _, _, h4, _⟩ :=
    PropertyRenaming.property_minify_keeps GlobalScope.Good
      (fun s m hs => PropertyRenaming.good_property_name s m hs) n (GlobalScope.new true)
      PropertyRenaming.property_good_new
  have hf : ∀ name, GlobalScope.need_rename true name = true →
      GlobalScope.need_rename true
        ((PropertyRenaming.minify n (GlobalScope.new true)).2.new_name name) = true := by
    intro name hn
    unfold GlobalScope.new_name
    cases hfind : rename_t.find
        (PropertyRenaming.minify n (GlobalScope.new true)).2.toScope._replacement name with
    | none => exact hn
    | some v =>
      obtain ⟨d, a, b, _⟩ := h4 _ (rename_t_find_mem hfind)
      obtain ⟨c, rest, hd, hc⟩ := fresh_private d b
      exact (need_rename_iff_private v).mpr ⟨c, rest, by rw [a, hd], hc⟩
  have hspec := (PropertyRenaming.minify_spec n (GlobalScope.new true)).2 _
    (GlobalScope.extends_refl _)
  unfold Node.maskProperties
  rw [hspec]
  exact PropertyRenaming.mapProperties_comp true _ (fun _ => "") hf n

end fbjs

open fbjs
namespace fbjs

theorem eqKinds_base (k1 k2 : NodeKind) (c : Option Bool) (h : k1.hasOwnEq = false) :
    Node.eqKinds k1 k2 c = if k1.data.tag ≠ k2.data.tag then some false else c := by
  cases k1 <;> first | rfl | cases h

theorem compared_plain (k : NodeKind) (h : k.hasOwnEq = false) :
    k.compared =
        ⟨k.data.tag, 0, "", "", false, .COMMA, .ASSIGN, .DELETE, .INCR_POSTFIX, .RETURN⟩ ∧
      k.isLeafCompared = false := by
  cases k <;> first | exact ⟨rfl, rfl⟩ | cases h

theorem hasOwnEq_tag (k : NodeKind) :
    k.hasOwnEq = decide (k.data.tag ∈ [3, 4, 5, 6, 10, 13, 14, 15, 16, 23]) := by
  cases k <;> rfl

theorem compared_tag (k : NodeKind) : k.compared.tag = k.data.tag := by
  cases k <;> rfl

theorem compared_eq_of_plain (k1 k2 : NodeKind) (h : k1.hasOwnEq = false) :
    k1.compared = k2.compared ↔ k1.data.tag = k2.data.tag := by
  constructor
  · intro he
    rw [← compared_tag k1, ← compared_tag k2, he]
  · intro ht
    have h2 : k2.hasOwnEq = false := by
      rw [hasOwnEq_tag, ← ht, ← hasOwnEq_tag]
      exact h
    rw [(compared_plain k1 h).1, (compared_plain k2 h2).1, ht]

set_option maxHeartbeats 1000000 in
theorem eqKinds_own (k1 k2 : NodeKind) (cb : Bool) (h : k1.hasOwnEq = true) :
    Node.eqKinds k1 k2 (some cb) =
      some (decide (k1.compared = k2.compared) && (k1.isLeafCompared || cb)) := by
  cases k1 <;> first | exact absurd h (by decide) | (cases k2 <;>
    simp [Node.eqKinds, NodeKind.compared, NodeKind.data, NodeKind.isLeafCompared, eq_comm,
      beq_eq_decide, Bool.and_comm] <;> congr)

/-- The `operator==` of the class of `this` in terms of the compared data,
when the loop over the children has a result. -/
theorem eqKinds_some (k1 k2 : NodeKind) (cb : Bool) :
    Node.eqKinds k1 k2 (some cb) =
      some (decide (k1.compared = k2.compared) && (k1.isLeafCompared || cb)) := by
  cases h : k1.hasOwnEq with
  | true => exact eqKinds_own k1 k2 cb h
  | false =>
    rw [eqKinds_base k1 k2 _ h, (compared_plain k1 h).2]
    by_cases ht : k1.data.tag = k2.data.tag
    · rw [if_neg (not_not.mpr ht), decide_eq_true ((compared_eq_of_plain k1 k2 h).mpr ht)]
      simp
    · rw [if_pos ht, decide_eq_false (fun he => ht ((compared_eq_of_plain k1 k2 h).mp he))]
      simp

theorem isLeafCompared_tag (k : NodeKind) :
    k.isLeafCompared = decide (k.compared.tag ∈ [3, 4, 5, 6, 16]) := by
  cases k <;> rfl

/-- The same with the two classes in the other order. -/
theorem eqKinds_some_flip (k1 k2 : NodeKind) (cb : Bool) :
    Node.eqKinds k2 k1 (some cb) =
      some (decide (k1.compared = k2.compared) && (k1.isLeafCompared || cb)) := by
  rw [eqKinds_some]
  by_cases he : k1.compared = k2.compared
  · rw [decide_eq_true he, decide_eq_true he.symm, isLeafCompared_tag k2, ← he,
      ← isLeafCompared_tag]
  · rw [decide_eq_false he, decide_eq_false (fun h => he h.symm)]
    simp

theorem sameShapeList_cons {xs ys : List (Option Node)} {a : Option Node}
    (h : Node.sameShapeList (a :: xs) ys = true) :
    ∃ x y ys2, a = some x ∧ ys = some y :: ys2 ∧ Node.sameShape x y = true ∧
      Node.sameShapeList xs ys2 = true := by
  cases a with
  | none => simp [Node.sameShapeList] at h
  | some x =>
    cases ys with
    | nil => simp [Node.sameShapeList] at h
    | cons b ys2 =>
      cases b with
      | none => simp [Node.sameShapeList] at h
      | some y =>
        rw [Node.sameShapeList, Bool.and_eq_true] at h
        exact ⟨x, y, ys2, rfl, rfl, h.1, h.2⟩

theorem sameShapeList_nil {ys : List (Option Node)} (h : Node.sameShapeList [] ys = true) :
    ys = [] := by
  cases ys with
  | nil => rfl
  | cons b ys2 => simp [Node.sameShapeList] at h

theorem sameShapeList_nil_right {xs : List (Option Node)}
    (h : Node.sameShapeList xs [] = true) : xs = [] := by
  cases xs with
  | nil => rfl
  | cons a xs2 =>
    obtain ⟨_, _, _, _, h2, _⟩ := sameShapeList_cons h
    cases h2

theorem eqLoop_nil (flip : Bool) : Node.eqLoop flip [] [] = some true := by
  rw [Node.eqLoop]

theorem eqLoop_cons_false (flip : Bool) (x y : Node) (xs ys : List (Option Node))
    (h : Node.eqFlip (!flip) x y = some false) :
    Node.eqLoop flip (some x :: xs) (some y :: ys) = some false := by
  rw [Node.eqLoop, h]

theorem eqLoop_cons_true (flip : Bool) (x y : Node) (xs ys : List (Option Node))
    (h : Node.eqFlip (!flip) x y = some true) :
    Node.eqLoop flip (some x :: xs) (some y :: ys) =
      if flip then (if xs.isEmpty then some ys.isEmpty else Node.eqLoop flip xs ys)
      else (if ys.isEmpty then some xs.isEmpty else Node.eqLoop flip xs ys) := by
  rw [Node.eqLoop, h]

theorem eqLoop_similar :
    ∀ (xs ys : List (Option Node)) (flip : Bool),
      (∀ x, some x ∈ xs → ∀ (y : Node) (flip : Bool), Node.sameShape x y = true →
        Node.eqFlip flip x y = some (Node.similar x y)) →
      Node.sameShapeList xs ys = true →
      Node.eqLoop flip xs ys = some (Node.similarList xs ys) := by
  intro xs
  induction xs with
  | nil =>
    intro ys flip _ h
    rw [sameShapeList_nil h, eqLoop_nil]
    rfl
  | cons a xs ih =>
    intro ys flip hc h
    obtain ⟨x, y, ys2, ha, hys, h1, h2⟩ := sameShapeList_cons h
    subst ha hys
    have hxy := hc x (List.mem_cons_self _ _) y (!flip) h1
    have hrest := ih ys2 flip (fun c hm => hc c (List.mem_cons_of_mem _ hm)) h2
    rw [Node.similarList]
    cases hs : Node.similar x y with
    | false =>
      rw [hs] at hxy
      rw [eqLoop_cons_false flip x y xs ys2 hxy]
      rfl
    | true =>
      rw [hs] at hxy
      rw [eqLoop_cons_true flip x y xs ys2 hxy]
      simp only [Bool.true_and]
      cases flip with
      | false =>
        simp only [Bool.false_eq_true, if_false]
        cases ys2 with
        | nil =>
          rw [sameShapeList_nil_right h2]
          rfl
        | cons b r =>
          simp only [List.isEmpty_cons, Bool.false_eq_true, if_false]
          exact hrest
      | true =>
        simp only [if_true]
        cases xs with
        | nil =>
          rw [sameShapeList_nil h2]
          rfl
        | cons b r =>
          simp only [List.isEmpty_cons, Bool.false_eq_true, if_false]
          exact hrest

/-- On two trees of the same shape `operator==`, in either order, is
`similar`. -/
theorem eqFlip_similar :
    ∀ (a b : Node) (flip : Bool), Node.sameShape a b = true →
      Node.eqFlip flip a b = some (Node.similar a b) := by
  intro a
  induction a using Node.induction_on with
  | h k l cs ih =>
    intro b flip h
    rw [Node.sameShape] at h
    have hloop := eqLoop_similar cs b.childNodes flip ih h
    rw [Node.eqFlip, Node.similar, hloop]
    cases flip with
    | false =>
      simp only [Bool.false_eq_true, if_false]
      exact eqKinds_some k b.kind _
    | true =>
      simp only [if_true]
      exact eqKinds_some_flip k b.kind _

/-- C26, the code at the failing inputs: `Node::operator==` checks the number
of children in one direction only. The loop runs over the children of `this`
and ends with `true` when they are used up, so the argument list `(x)` is
equal to `(x, y)`, while `(x, y) == (x)` is false; one level up the operands
change places (`**jj != **ii`), so that `f(x) == f()` holds. Besides, a string
literal is equal to one with the same text and another `quoted`, and `==` on
`if(x)y();`, whose third child is null, dereferences the null child. -/
theorem eq_ignores_children_count :
    Node.eq (.mk .ArgList 1 [some (Example.identifier "x")])
      (.mk .ArgList 1 [some (Example.identifier "x"), some (Example.identifier "y")]) =
      some true ∧
    Node.eq (.mk .ArgList 1 [some (Example.identifier "x"), some (Example.identifier "y")])
      (.mk .ArgList 1 [some (Example.identifier "x")]) = some false ∧
    Node.eq Example.callFx (Example.call "f") = some true ∧
    Node.eq Example.quotedA Example.unquotedA = some true ∧
    Node.eq Example.ifNoElse Example.ifNoElse = none := by
  refine ⟨?_, ?_, ?_, ?_, ?_⟩ <;> rfl

/-- On two trees of the same shape (at every position the same number of
children, none of them null) `a == b` holds exactly when `a` and `b` are
`similar`: the same variant, the same compared payload (numeric value,
string text, boolean value, identifier name, operator kind, regex body and
flags, statement kind; not the quoting flag of a string literal, the iterator
flag of a var declaration or the data of the XML classes) and pairwise similar
children, where the children of a literal with a value and of an identifier
are not compared. The line numbers play no part. -/
theorem eq_iff_similar (a b : Node) (h : Node.sameShape a b = true) :
    Node.eq a b = some (Node.similar a b) :=
  eqFlip_similar a b false h

/-- The theorem `eq_iff_similar` at `f(x)` and `f(y)`, which are not equal. -/
theorem eq_iff_similar_witness :
    Node.sameShape Example.callFx (Example.callWith "f" (Example.identifier "y")) = true ∧
    Node.eq Example.callFx (Example.callWith "f" (Example.identifier "y")) = some false :=
  ⟨by decide,
    (eq_iff_similar Example.callFx (Example.callWith "f" (Example.identifier "y"))
      (by decide)).trans (by decide)⟩

end fbjs

open fbjs
namespace fbjs

/-- C27: `NodeVarDeclaration::clone` makes the new node with
`new NodeVarDeclaration()`, without the `_iterator` of the node, so the clone
of the declaration `var k` of a `for(var k in o)` is a var declaration whose
iterator flag is false: the clone does not carry the same payload as the
tree. And on a tree with a null child, such as `if(x)y();` with its null
`else`, `clone(T) == T` is undefined, because `Node::operator==` dereferences
the null children. -/
theorem clone_drops_iterator_flag :
    Example.varIterator.clone =
      .mk (.VarDeclaration false) 0 [some (.mk (.Identifier "k") 0 [])] ∧
    Example.varIterator.clone.kind ≠ Example.varIterator.kind ∧
    Node.eq Example.ifNoElse.clone Example.ifNoElse = none := by
  refine ⟨?_, ?_, ?_⟩
  · rfl
  · decide
  · rfl

/-- C28, as stated, fails: the clone of the identifier `a` of line 5 has the
line number 0. -/
theorem clone_resets_lineno :
    Example.identifierLine5.lineno = 5 ∧ Example.identifierLine5.clone.lineno = 0 := by
  exact ⟨rfl, rfl⟩

theorem cloneList_linenoReset :
    ∀ (cs : List (Option Node)), (∀ c, some c ∈ cs → c.clone.linenoReset = true) →
      Node.linenoResetList (Node.cloneList cs) = true := by
  intro cs
  induction cs with
  | nil => intro _; rfl
  | cons a rest ih =>
    intro hc
    cases a with
    | none =>
      rw [Node.cloneList, Node.linenoResetList]
      exact ih (fun c hm => hc c (List.mem_cons_of_mem _ hm))
    | some c =>
      rw [Node.cloneList, Node.linenoResetList, hc c (List.mem_cons_self _ _),
        ih (fun c hm => hc c (List.mem_cons_of_mem _ hm))]
      rfl

/-- C28, amended: cloning does not keep the line numbers. Every node of
`clone(T)` has the line number that the constructor of its class gives when it
is called without one: 0, and 1 for a program node. -/
theorem clone_linenoReset (t : Node) : t.clone.linenoReset = true := by
  induction t using Node.induction_on with
  | h k l cs ih =>
    have hcs := cloneList_linenoReset cs ih
    cases k <;> simp [Node.clone, Node.linenoReset, Node.linenoResetList, hcs]

end fbjs

open fbjs
namespace fbjs

namespace CodeReduction

theorem replace_found (k : NodeKind) (l : Nat) (cs : List (Option Node)) (needle rep : Node)
    (h : Node.eq (.mk k l cs) needle = some true) :
    replace (.mk k l cs) needle rep = some rep.clone := by
  rw [replace, h]

theorem replace_not_found (k : NodeKind) (l : Nat) (cs cs2 : List (Option Node))
    (needle rep : Node) (h : Node.eq (.mk k l cs) needle = some false)
    (hc : replace_children cs needle rep = some cs2) :
    replace (.mk k l cs) needle rep = some (.mk k l cs2) := by
  rw [replace, h]
  simp only []
  rw [hc]

theorem replaceOutermost_found (found : Node → Bool) (rep : Node) (k : NodeKind) (l : Nat)
    (cs : List (Option Node)) (h : found (.mk k l cs) = true) :
    Node.replaceOutermost found rep (.mk k l cs) = rep := by
  rw [Node.replaceOutermost, if_pos h]

theorem replaceOutermost_not_found (found : Node → Bool) (rep : Node) (k : NodeKind) (l : Nat)
    (cs : List (Option Node)) (h : found (.mk k l cs) = false) :
    Node.replaceOutermost found rep (.mk k l cs) =
      .mk k l (Node.replaceOutermostList found rep cs) := by
  rw [Node.replaceOutermost, if_neg (by rw [h]; simp)]

theorem eqDefinedOn_found (needle : Node) (k : NodeKind) (l : Nat) (cs : List (Option Node))
    (h : Node.eqDefinedOn needle (.mk k l cs) = true) :
    Node.eq (.mk k l cs) needle = some true ∨
      (Node.eq (.mk k l cs) needle = some false ∧ Node.eqDefinedOnList needle cs = true) := by
  rw [Node.eqDefinedOn] at h
  cases he : Node.eq (.mk k l cs) needle with
  | none => rw [he] at h; cases h
  | some b =>
    cases b with
    | true => exact Or.inl rfl
    | false =>
      rw [he] at h
      exact Or.inr ⟨rfl, h⟩

theorem replace_children_spec (needle rep : Node) :
    ∀ (cs : List (Option Node)),
      (∀ c, some c ∈ cs → Node.eqDefinedOn needle c = true →
        replace c needle rep =
          some (Node.replaceOutermost (fun s => Node.eq s needle == some true) rep.clone c)) →
      Node.eqDefinedOnList needle cs = true →
      replace_children cs needle rep =
        some (Node.replaceOutermostList (fun s => Node.eq s needle == some true)
          rep.clone cs) := by
  intro cs
  induction cs with
  | nil => intro _ _; rw [replace_children, Node.replaceOutermostList]
  | cons a rest ih =>
    intro hc hd
    cases a with
    | none =>
      rw [Node.eqDefinedOnList] at hd
      rw [replace_children, ih (fun c hm => hc c (List.mem_cons_of_mem _ hm)) hd,
        Node.replaceOutermostList]
    | some c =>
      rw [Node.eqDefinedOnList, Bool.and_eq_true] at hd
      rw [replace_children, hc c (List.mem_cons_self _ _) hd.1]
      simp only []
      rw [ih (fun c hm => hc c (List.mem_cons_of_mem _ hm)) hd.2, Node.replaceOutermostList]

/-- Where every comparison that `replace` comes to is defined, `replace`
returns the tree with every outermost subtree that is `== needle` replaced by
a clone of `rep`. -/
theorem replace_spec (needle rep : Node) :
    ∀ h : Node, Node.eqDefinedOn needle h = true →
      replace h needle rep =
        some (Node.replaceOutermost (fun s => Node.eq s needle == some true) rep.clone h) := by
  intro h
  induction h using Node.induction_on with
  | h k l cs ih =>
    intro hd
    rcases eqDefinedOn_found needle k l cs hd with he | ⟨he, hcs⟩
    · rw [replace_found k l cs needle rep he,
        replaceOutermost_found _ _ k l cs (by simp [he])]
    · rw [replace_not_found k l cs _ needle rep he (replace_children_spec needle rep cs ih hcs),
        replaceOutermost_not_found _ _ k l cs (by simp [he])]

theorem replace_children_noMatch (needle rep : Node) :
    ∀ (cs : List (Option Node)),
      (∀ c, some c ∈ cs → Node.noMatch needle c = true → replace c needle rep = some c) →
      Node.noMatchList needle cs = true → replace_children cs needle rep = some cs := by
  intro cs
  induction cs with
  | nil => intro _ _; rw [replace_children]
  | cons a rest ih =>
    intro hc hd
    cases a with
    | none =>
      rw [Node.noMatchList] at hd
      rw [replace_children, ih (fun c hm => hc c (List.mem_cons_of_mem _ hm)) hd]
    | some c =>
      rw [Node.noMatchList, Bool.and_eq_true] at hd
      rw [replace_children, hc c (List.mem_cons_self _ _) hd.1]
      simp only []
      rw [ih (fun c hm => hc c (List.mem_cons_of_mem _ hm)) hd.2]

/-- A tree no subtree of which is `== needle` is returned as it is. -/
theorem replace_noMatch (needle rep : Node) :
    ∀ h : Node, Node.noMatch needle h = true → replace h needle rep = some h := by
  intro h
  induction h using Node.induction_on with
  | h k l cs ih =>
    intro hd
    rw [Node.noMatch, Bool.and_eq_true, beq_iff_eq] at hd
    exact replace_not_found k l cs cs needle rep hd.1
      (replace_children_noMatch needle rep cs ih hd.2)

end CodeReduction

/-- C29, the code at the failing input: with the needle `f()` the subtree
`f(x)` is replaced, although it is not structurally equal to the needle (its
argument list has one child, that of the needle none): `replace` goes by
`Node::operator==`, which checks the number of children in one direction only
and for which `f(x) == f()` holds. -/
theorem replace_not_structural :
    CodeReduction.replace Example.callFx (Example.call "f") (Example.boolean false) =
      some (.mk (.BooleanLiteral false) 0 []) ∧
    Node.similar Example.callFx (Example.call "f") = false := by
  exact ⟨rfl, rfl⟩

/-- Where every comparison `== needle` that `replace` comes to is defined,
`replace(h, n, r)` returns the tree obtained from `h` by replacing each
outermost subtree `s` for which `s == n` holds, in the sense of
`Node::operator==`, by `clone(r)`; and a tree in which `== n` is false at
every subtree is returned unchanged. -/
theorem replace_outermost (h needle rep : Node)
    (hd : Node.eqDefinedOn needle h = true) :
    CodeReduction.replace h needle rep =
      some (Node.replaceOutermost (fun s => Node.eq s needle == some true) rep.clone h) ∧
    (Node.noMatch needle h = true → CodeReduction.replace h needle rep = some h) :=
  ⟨CodeReduction.replace_spec needle rep h hd, CodeReduction.replace_noMatch needle rep h⟩

/-- The theorem `replace_outermost` at the program `a;` with the needle `a`
and the replacement `false`. -/
theorem replace_outermost_witness :
    Node.eqDefinedOn (Example.identifier "a") Example.programA = true ∧
    CodeReduction.replace Example.programA (Example.identifier "a") (Example.boolean false) =
      some (.mk .Program 1 [some (.mk .StatementList 1 [some (.mk (.BooleanLiteral false) 0 [])])]) :=
  ⟨by decide,
    (replace_outermost Example.programA (Example.identifier "a") (Example.boolean false)
      (by decide)).1.trans (by decide)⟩

/-- C30, as stated, fails: with the patterns `a:b,b:c` the program `a;`
becomes `b;` by the first pattern, and the second pattern, which goes over the
whole tree again, rewrites the `b` that the first one inserted: the result is
`c;`. -/
theorem later_pattern_rewrites_replacement :
    CodeReduction.replace Example.programA (Example.identifier "a") (Example.identifier "b") =
      some (.mk .Program 1 [some (.mk .StatementList 1 [some (.mk (.Identifier "b") 0 [])])]) ∧
    CodeReduction.replace_all
        [(Example.identifier "a", Example.identifier "b"),
         (Example.identifier "b", Example.identifier "c")] Example.programA =
      some (.mk .Program 1 [some (.mk .StatementList 1 [some (.mk (.Identifier "c") 0 [])])]) := by
  exact ⟨rfl, rfl⟩

/-- C30, amended: within one pattern the replacement is not scanned again: a
subtree that is `== needle` becomes `clone(rep)` as it is, whatever `rep`
holds. The patterns are applied one after the other, each to the whole tree
that the one before has left, the subtrees it inserted included. -/
theorem replacement_not_rescanned (h needle rep root root2 : Node)
    (rest : List (Node × Node))
    (hm : Node.eq h needle = some true)
    (h0 : Node.eq root needle = some false)
    (h1 : CodeReduction.replace root needle rep = some root2) :
    CodeReduction.replace h needle rep = some rep.clone ∧
    CodeReduction.replace_all ((needle, rep) :: rest) root =
      CodeReduction.replace_all rest root2 := by
  refine ⟨?_, ?_⟩
  · obtain ⟨k, l, cs⟩ := h
    exact CodeReduction.replace_found k l cs needle rep hm
  · rw [CodeReduction.replace_all, h0]
    simp only []
    rw [h1]

/-- The theorem `replacement_not_rescanned` at the pattern `a:a+a` and the
program `a;`: the result is `a+a;`, in which the two `a` of the replacement
are not replaced again. -/
theorem replacement_not_rescanned_witness :
    (Node.eq (Example.identifier "a") (Example.identifier "a") = some true ∧
      Node.eq Example.programA (Example.identifier "a") = some false ∧
      CodeReduction.replace Example.programA (Example.identifier "a")
          (Example.operator .PLUS (Example.identifier "a") (Example.identifier "a")) =
        some (.mk .Program 1 [some (.mk .StatementList 1
          [some (.mk (.Operator .PLUS) 0
            [some (.mk (.Identifier "a") 0 []), some (.mk (.Identifier "a") 0 [])])])])) ∧
    CodeReduction.replace_all
        [(Example.identifier "a",
          Example.operator .PLUS (Example.identifier "a") (Example.identifier "a"))]
        Example.programA =
      some (.mk .Program 1 [some (.mk .StatementList 1
        [some (.mk (.Operator .PLUS) 0
          [some (.mk (.Identifier "a") 0 []), some (.mk (.Identifier "a") 0 [])])])]) :=
  ⟨⟨rfl, rfl, rfl⟩,
    (replacement_not_rescanned (Example.identifier "a") (Example.identifier "a")
      (Example.operator .PLUS (Example.identifier "a") (Example.identifier "a"))
      Example.programA _ [] rfl rfl rfl).2.trans rfl⟩

end fbjs

open fbjs
namespace fbjs

open ReductionWalker

theorem visitChildren_remove_in_child :
    ∀ cs : List (Option Node),
      visitChildren false (fun ii => some (NodeWalker.cloneFor ii).remove) cs = some cs := by
  intro cs
  induction cs with
  | nil => rfl
  | cons c cs ih =>
    rw [visitChildren]
    simp only [ih]
    rfl

/-- C32, on the code: a child whose handler calls `remove()` stays a child of
its parent. `visitChild` tests `_remove` of the walker that runs
`visitChildren`, not of the walker that visited the child, so with handlers
that call `remove()` on every child the parent keeps all its children, in
their order. In the reduction walker the handler of the expression statement
`1;` calls `remove()` (the walker it returns has `_remove` set), and the
statement list that holds it comes back with the statement still in it. -/
theorem remove_leaves_child_linked :
    (∀ cs : List (Option Node),
      visitChildren false (fun ii => some (NodeWalker.cloneFor ii).remove) cs = some cs) ∧
    accept 2 (some .StatementList) (NodeWalker.cloneFor (some (Example.numeric 1))) =
      some { _node := some (Example.numeric 1), _remove := true } ∧
    accept 3 (some .Program) (NodeWalker.cloneFor (some (Example.block [Example.numeric 1]))) =
      some { _node := some (Example.block [Example.numeric 1]), _remove := false } := by
  refine ⟨visitChildren_remove_in_child, ?_, ?_⟩
  · rfl
  · rfl

/-- C33, as stated, fails: a walker that visits the identifier `a` of line 3
and replaces it by the identifier `b` of line 7 ends with `b` on line 3: the
line number of the new node was not 0 and is overwritten all the same. In the
reduction walker, `if(1)` on line 1 with the statement `a()` on line 2 is
replaced by the statement, which then has line 1. -/
theorem replace_overwrites_lineno :
    NodeWalker.replace { _node := some (.mk (.Identifier "a") 3 []), _remove := false }
        (some (.mk (.Identifier "b") 7 [])) =
      { _node := some (.mk (.Identifier "b") 3 []), _remove := false } ∧
    accept 5 (some .StatementList)
        (NodeWalker.cloneFor (some (.mk .If 1
          [some (Example.numeric 1),
           some (.mk .FunctionCall 2 [some (.mk (.Identifier "a") 2 []), some (.mk .ArgList 2 [])]),
           none]))) =
      some (NodeWalker.cloneFor (some (.mk .FunctionCall 1
        [some (.mk (.Identifier "a") 2 []), some (.mk .ArgList 2 [])]))) := by
  refine ⟨rfl, ?_⟩
  rfl

/-- C33, amended: when a walker replaces the node `old` it is visiting by a
node `new`, the line number of `new` becomes that of `old`, whatever it was
before; nothing else of `new` changes. -/
theorem replace_sets_lineno (old new : Node) (r : Bool) :
    NodeWalker.replace { _node := some old, _remove := r } (some new) =
      { _node := some (.mk new.kind old.lineno new.childNodes), _remove := false } := by
  obtain ⟨k, l, cs⟩ := new
  rfl

end fbjs

open fbjs
namespace fbjs

/-- C36, on the code: a string literal that is not `quoted` and whose text is
one backslash is written as `"\"`: the first pass counts a backslash (and a
single quote) as one character, because their `case` labels stand inside
`if (*ii < 32)`, so for a text without control characters the measure equals
the size and the text is written between the quotes as it is. So is `it's`.
With a control character in the text the second pass runs, and it writes a
backslash as a backslash and a single quote: a newline followed by a backslash
is written as `"\n\'"`. -/
theorem string_literal_backslash_not_escaped :
    NodeStringLiteral.render "\\" false = "\"\\\"" ∧
    NodeStringLiteral.render "it's" false = "\"it's\"" ∧
    NodeStringLiteral.render "\n\\" false = "\"\\n\\'\"" := by
  refine ⟨?_, ?_, ?_⟩ <;> decide

/-- C40, on the code: for the text of a newline followed by a single quote the
first pass measures 3 characters (2 for the newline, 1 for the quote, whose
`case` label stands inside `if (*ii < 32)`), which is not the size 2 of the
text, so the buffer has 3 characters and the terminator; the second pass
writes 4 characters (`\n` and `\'`) and the terminator. -/
theorem string_literal_passes_disagree :
    ("\n'".data.map escapedLength).sum = 3 ∧
    "\n'".data.length = 2 ∧
    (String.join ("\n'".data.map escapedChar)).length = 4 ∧
    NodeStringLiteral.render "\n'" false = "\"\\n\\'\"" := by
  refine ⟨?_, ?_, ?_, ?_⟩ <;> decide

end fbjs

open fbjs
namespace fbjs

open ReductionWalker

/-- C37: constant folding is sound and complete for truthiness. For every
expression `e` built only from numeric and boolean literals with `||`, `&&`,
`!`, `?:`, the comma operator and parentheses, under every parent node and
with every fuel above the weight of `e`, the reduction returns an expression
`r` that is statically boolean: `r.compare b` holds for exactly one `b`, the
JavaScript truthiness of `e`. -/
theorem constant_folding_truthiness (e : Node) (p : NodeKind) (f : Nat)
    (he : ConstantExpression e) (hf : e.weight < f) :
    ∃ w r v0, accept f (some p) { _node := some e, _remove := false } = some w ∧
      w._node = some r ∧ evalJS e = some v0 ∧
      ∀ b, r.compare b = true ↔ b = v0.toBoolean := by
  obtain ⟨w, r, v0, v, hacc, hnode, hfold, hev, hsame, _⟩ := constant_folds he (some p) f hf
  refine ⟨w, r, v0, hacc, hnode, hev, fun b => ?_⟩
  rw [hfold.compare_eq b, sameOrZeroFalse_toBoolean hsame]
  simp

/-- The theorem `constant_folding_truthiness` at `(0 , 1) || !1`, whose value
is 1, as the right side of an assignment; and the walk of the program
`x = (0 , 1) || !1;` from its `NodeProgram`, which leaves `x = (1);`. -/
theorem constant_folding_truthiness_witness :
    ConstantExpression
      (Example.operator .OR
        (.mk .Parenthetical 1 [some (Example.operator .COMMA (Example.numeric 0) (Example.numeric 1))])
        (.mk (.Unary .NOT_UNARY) 1 [some (Example.numeric 1)])) ∧
    (Example.operator .OR
        (.mk .Parenthetical 1 [some (Example.operator .COMMA (Example.numeric 0) (Example.numeric 1))])
        (.mk (.Unary .NOT_UNARY) 1 [some (Example.numeric 1)])).weight < 20 ∧
    (∃ w r v0, accept 20 (some (.Assignment .ASSIGN))
        { _node := some (Example.operator .OR
            (.mk .Parenthetical 1
              [some (Example.operator .COMMA (Example.numeric 0) (Example.numeric 1))])
            (.mk (.Unary .NOT_UNARY) 1 [some (Example.numeric 1)])),
          _remove := false } = some w ∧
      w._node = some r ∧
      evalJS (Example.operator .OR
        (.mk .Parenthetical 1 [some (Example.operator .COMMA (Example.numeric 0) (Example.numeric 1))])
        (.mk (.Unary .NOT_UNARY) 1 [some (Example.numeric 1)])) = some v0 ∧
      ∀ b, r.compare b = true ↔ b = v0.toBoolean) ∧
    walk (some (Example.program [Example.assign (Example.identifier "x")
      (Example.operator .OR
        (.mk .Parenthetical 1 [some (Example.operator .COMMA (Example.numeric 0) (Example.numeric 1))])
        (.mk (.Unary .NOT_UNARY) 1 [some (Example.numeric 1)]))])) =
      some (some (Example.program [Example.assign (Example.identifier "x")
        (.mk .Parenthetical 1 [some (Example.numeric 1)])])) :=
  ⟨ConstantExpression.or 1
      (ConstantExpression.parenthetical 1
        (ConstantExpression.comma 1 (ConstantExpression.numeric 0 1)
          (ConstantExpression.numeric 1 1)))
      (ConstantExpression.not 1 (ConstantExpression.numeric 1 1)),
    by decide,
    constant_folding_truthiness _ (.Assignment .ASSIGN) 20
      (ConstantExpression.or 1
        (ConstantExpression.parenthetical 1
          (ConstantExpression.comma 1 (ConstantExpression.numeric 0 1)
            (ConstantExpression.numeric 1 1)))
        (ConstantExpression.not 1 (ConstantExpression.numeric 1 1)))
      (by decide),
    by rfl⟩

end fbjs

open fbjs
namespace fbjs

namespace NameFactory

theorem letter_toNat (j : Nat) (hj : j < 26) : (Char.ofNat (97 + j)).toNat = 97 + j :=
  char_toNat_ofNat _ (by omega)

/-- The names a factory gives from a state `z…z` + letter on. -/
theorem nth_from :
    ∀ (n : Nat) (f : NameFactory) (k j : Nat), j < 26 →
      f._current.data = List.replicate k 'z' ++ [Char.ofNat (97 + j)] →
      f.nth n =
        f._prefix ++
          String.mk (List.replicate (k + (j + n) / 26) 'z' ++ [Char.ofNat (97 + (j + n) % 26)]) := by
  intro n
  induction n with
  | zero =>
    intro f k j hj hd
    rw [nth]
    show f._prefix ++ f._current = _
    have hcur : f._current = String.mk f._current.data := rfl
    rw [hcur, hd]
    have h1 : (j + 0) / 26 = 0 := by omega
    have h2 : (j + 0) % 26 = j := by omega
    rw [h1, h2, Nat.add_zero]
  | succ n ih =>
    intro f k j hj hd
    rw [nth]
    have hcur := next_current f k _ hd
    rw [letter_toNat j hj, z_toNat] at hcur
    by_cases hlt : 97 + j + 1 ≤ 122
    · rw [if_pos hlt] at hcur
      have := ih f.next.2 k (j + 1) (by omega) hcur
      rw [this]
      have h1 : (j + 1 + n) / 26 = (j + (n + 1)) / 26 := by rw [Nat.add_right_comm, Nat.add_assoc]
      have h2 : (j + 1 + n) % 26 = (j + (n + 1)) % 26 := by rw [Nat.add_right_comm, Nat.add_assoc]
      rw [h1, h2]
      all_goals rfl
    · rw [if_neg hlt] at hcur
      have hj25 : j = 25 := by omega
      subst hj25
      have hz : Char.ofNat (97 + 25) = 'z' := rfl
      have hd2 : f.next.2._current.data = List.replicate (k + 1) 'z' ++ [Char.ofNat (97 + 0)] := by
        rw [hcur, hd, hz, List.replicate_succ', List.append_assoc]
        all_goals rfl
      have := ih f.next.2 (k + 1) 0 (by omega) hd2
      rw [this]
      have h1 : k + 1 + (0 + n) / 26 = k + (25 + (n + 1)) / 26 := by omega
      have h2 : (0 + n) % 26 = (25 + (n + 1)) % 26 := by omega
      rw [h1, h2]
      all_goals rfl

theorem nth_new (pre : String) (n : Nat) :
    (NameFactory.new pre).nth n =
      pre ++ String.mk (List.replicate (n / 26) 'z' ++ [Char.ofNat (97 + n % 26)]) := by
  have := nth_from n (NameFactory.new pre) 0 0 (by omega) rfl
  rw [this]
  simp only [Nat.zero_add]
  rfl

end NameFactory

/-- C38: the name factory never repeats a name. The call number `n + 1` of
`next()` on a fresh factory returns the prefix, then `n / 26` times `z`, then
the letter of index `n % 26` (`a` is 0, `z` is 25); two calls with different
numbers return different names. -/
theorem name_factory_nth (pre : String) (n : Nat) :
    (NameFactory.new pre).nth n =
        pre ++ String.mk (List.replicate (n / 26) 'z' ++ [Char.ofNat ('a'.toNat + n % 26)]) ∧
      ∀ m, (NameFactory.new pre).nth m = (NameFactory.new pre).nth n → m = n := by
  refine ⟨NameFactory.nth_new pre n, fun m h => ?_⟩
  rw [NameFactory.nth_new, NameFactory.nth_new] at h
  have hdata := congrArg String.data h
  simp only [String.data_append] at hdata
  have h2 := List.append_cancel_left hdata
  have hlen := congrArg List.length h2
  simp only [List.length_append, List.length_replicate, List.length_singleton] at hlen
  have hdiv : m / 26 = n / 26 := by omega
  rw [hdiv] at h2
  have h3 := List.append_cancel_left h2
  have h4 : Char.ofNat (97 + m % 26) = Char.ofNat (97 + n % 26) := List.head_eq_of_cons_eq h3
  have h5 := congrArg Char.toNat h4
  rw [NameFactory.letter_toNat _ (Nat.mod_lt _ (by omega)),
    NameFactory.letter_toNat _ (Nat.mod_lt _ (by omega))] at h5
  omega

end fbjs

open fbjs
namespace fbjs

theorem reservedWords_shape :
    ∀ w ∈ reservedWords, 2 ≤ w.data.length ∧ w.data.head? ≠ some 'z' ∧
      w.data.head? ≠ some '_' := by
  decide

theorem letter_identifierStart : ∀ j, j < 26 → IsIdentifierStart (Char.ofNat (97 + j)) := by
  intro j hj
  unfold IsIdentifierStart
  interval_cases j <;> decide

theorem z_identifierStart : IsIdentifierStart 'z' := by
  unfold IsIdentifierStart
  decide

theorem underscore_identifierStart : IsIdentifierStart '_' := by
  unfold IsIdentifierStart
  decide

/-- A run of `z` with a letter after it, with or without `_` before it, is an
identifier. -/
theorem is_identifier_name (k j : Nat) (hj : j < 26) (us : Bool) :
    is_identifier
      ((if us then "_" else "") ++
        String.mk (List.replicate k 'z' ++ [Char.ofNat (97 + j)])) = true := by
  rw [is_identifier_iff]
  have hpart : ∀ c ∈ List.replicate k 'z' ++ [Char.ofNat (97 + j)], IsIdentifierPart c := by
    intro c hc
    rcases List.mem_append.mp hc with h | h
    · rw [(List.mem_replicate.mp h).2]
      exact Or.inl z_identifierStart
    · rw [List.mem_singleton.mp h]
      exact Or.inl (letter_identifierStart j hj)
  have hne : List.replicate k 'z' ++ [Char.ofNat (97 + j)] ≠ [] := by simp
  have hhead : (List.replicate k 'z' ++ [Char.ofNat (97 + j)]).head? = some 'z' ∨
      (List.replicate k 'z' ++ [Char.ofNat (97 + j)]).length = 1 := by
    cases k with
    | zero => right; rfl
    | succ k => left; rfl
  cases us with
  | false =>
    have hdata : (("" : String) ++
        String.mk (List.replicate k 'z' ++ [Char.ofNat (97 + j)])).data =
        List.replicate k 'z' ++ [Char.ofNat (97 + j)] := by
      simp [String.data_append]
    simp only [Bool.false_eq_true, if_false]
    refine ⟨by rw [hdata]; exact hne, fun hw => ?_, fun first rest h => ?_⟩
    · obtain ⟨h1, h2, _⟩ := reservedWords_shape _ hw
      rw [hdata] at h1 h2
      rcases hhead with h | h
      · exact h2 h
      · omega
    · rw [hdata] at h
      have hf : IsIdentifierPart first ∧ ∀ c ∈ rest, IsIdentifierPart c := by
        have : ∀ c ∈ first :: rest, IsIdentifierPart c := by rw [← h]; exact hpart
        exact ⟨this first (List.mem_cons_self _ _), fun c hc => this c (List.mem_cons_of_mem _ hc)⟩
      refine ⟨?_, hf.2⟩
      cases k with
      | zero =>
        have : first = Char.ofNat (97 + j) := by
          simp only [List.replicate_zero, List.nil_append, List.cons.injEq] at h
          exact h.1.symm
        rw [this]
        exact letter_identifierStart j hj
      | succ k =>
        have : first = 'z' := by
          rw [List.replicate_succ, List.cons_append, List.cons.injEq] at h
          exact h.1.symm
        rw [this]
        exact z_identifierStart
  | true =>
    have hdata : (("_" : String) ++
        String.mk (List.replicate k 'z' ++ [Char.ofNat (97 + j)])).data =
        '_' :: (List.replicate k 'z' ++ [Char.ofNat (97 + j)]) := rfl
    simp only [if_true]
    refine ⟨by rw [hdata]; simp, fun hw => ?_, fun first rest h => ?_⟩
    · obtain ⟨_, _, h3⟩ := reservedWords_shape _ hw
      rw [hdata] at h3
      exact h3 rfl
    · rw [hdata, List.cons.injEq] at h
      rw [← h.1, ← h.2]
      exact ⟨underscore_identifierStart, hpart⟩

/-- C39: every name the renamers can allocate is a legal identifier. For
every `n`, the name that the call number `n + 1` of `next()` returns, with the
empty prefix (the factory of `LocalScope::rename_vars`) and with the prefix
`_` (the factory of `GlobalScope`), satisfies `is_identifier`: it is not
empty, is made of identifier characters and is no reserved word. -/
theorem allocated_names_are_identifiers (n : Nat) :
    is_identifier ((NameFactory.new "").nth n) = true ∧
    is_identifier ((NameFactory.new "_").nth n) = true := by
  rw [NameFactory.nth_new, NameFactory.nth_new]
  exact ⟨is_identifier_name (n / 26) (n % 26) (Nat.mod_lt _ (by omega)) false,
    is_identifier_name (n / 26) (n % 26) (Nat.mod_lt _ (by omega)) true⟩

end fbjs

namespace fbjs
open CodeReduction

end fbjs

namespace fbjs

/-! ## The compact rendering of expressions with delimited operands -/

theorem chars_identifier (g : Rat → String) (name : String) (l : Nat) :
    Node.chars g (.mk (.Identifier name) l []) = name.data := rfl

theorem chars_parenthetical (g : Rat → String) (l : Nat) (e : Node) :
    Node.chars g (.mk .Parenthetical l [some e]) = '(' :: (Node.chars g e ++ [')']) := rfl

theorem chars_operator (g : Rat → String) (op : node_operator_t) (l : Nat) (a b : Node) :
    Node.chars g (.mk (.Operator op) l [some a, some b]) =
      Node.chars g a ++ (op.text.data ++ Node.chars g b) := by
  simp [Node.chars, Node.render, Node.ropes, Node.ropesList, ropesKind, renderKind, childRender]

theorem chars_suffixed (g : Rat → String) (op : node_postfix_t) (l : Nat) (a : Node) :
    Node.chars g (.mk (.Postfix op) l [some a]) = Node.chars g a ++ op.text.data := by
  cases op <;> rfl

theorem chars_unary_identifier (g : Rat → String) (op : node_unary_t) (l l2 : Nat)
    (name : String) :
    Node.chars g (.mk (.Unary op) l [some (.mk (.Identifier name) l2 [])]) =
      op.text.1.data ++ ((if op.text.2 then [' '] else []) ++ name.data) := by
  cases op <;> rfl

theorem chars_unary_parenthetical (g : Rat → String) (op : node_unary_t) (l l2 : Nat)
    (e : Node) :
    Node.chars g (.mk (.Unary op) l [some (.mk .Parenthetical l2 [some e])]) =
      op.text.1.data ++ Node.chars g (.mk .Parenthetical l2 [some e]) := by
  cases op <;> rfl

theorem operand_cases {a : Node} (h : a.Delimited) (ho : a.isOperand = true) :
    (∃ name l, is_identifier name = true ∧ a = .mk (.Identifier name) l []) ∨
      ∃ l e, Node.Delimited e ∧ a = .mk .Parenthetical l [some e] := by
  cases h with
  | identifier name l hn => exact Or.inl ⟨name, l, hn, rfl⟩
  | parenthetical l e he => exact Or.inr ⟨l, e, he, rfl⟩
  | operator op l a b _ _ _ _ => cases ho
  | unary op l a _ _ => cases ho
  | suffix op l a _ _ => cases ho

theorem identifierChar_loop :
    ∀ (rest : List Char), is_identifier_loop rest = true →
      ∀ x ∈ rest, isIdentifierChar x = true := by
  intro rest
  induction rest with
  | nil => intro _ x hx; cases hx
  | cons c cs ih =>
    intro h x hx
    rw [is_identifier_loop] at h
    split at h
    · cases h
    · rename_i hc
      rcases List.mem_cons.mp hx with rfl | hx
      · revert hc
        unfold isIdentifierChar
        cases isalpha x <;> cases isdigit x <;> cases hd : (x == '$') <;>
          cases hu : (x == '_') <;> simp [bne, hd, hu]
      · exact ih h x hx

/-- A name that `is_identifier` accepts is not empty and made of identifier
characters. -/
theorem identifier_chars {name : String} (h : is_identifier name = true) :
    ∃ c rest, name.data = c :: rest ∧ ∀ x ∈ c :: rest, isIdentifierChar x = true := by
  unfold is_identifier at h
  split at h
  · cases h
  · rename_i first rest hd
    split at h
    · cases h
    · split at h
      · cases h
      · rename_i _ hc
        refine ⟨first, rest, hd, fun x hx => ?_⟩
        rcases List.mem_cons.mp hx with rfl | hx
        · revert hc
          unfold isIdentifierChar
          cases isalpha x <;> cases isdigit x <;> cases hd : (x == '$') <;>
            cases hu : (x == '_') <;> simp [bne, hd, hu]
        · exact identifierChar_loop rest h x hx

/-- A name that `is_identifier` accepts is none of the words of the unary
operators. -/
theorem identifier_not_word {name : String} (h : is_identifier name = true) (op : node_unary_t)
    (hop : op.text.2 = true) : name.data ≠ op.text.1.data := by
  intro he
  have hname : name = op.text.1 := String.ext he
  rw [hname] at h
  revert h hop
  cases op <;> decide

end fbjs

namespace fbjs

theorem identifierChar_not_paren {c : Char} (h : isIdentifierChar c = true) :
    c ≠ '(' ∧ c ≠ ')' := by
  constructor <;> (rintro rfl; revert h; decide)

theorem dropWhile_name :
    ∀ (n r : List Char), (∀ x ∈ n, isIdentifierChar x = true) →
      (∀ c ∈ r.head?, isIdentifierChar c = false) →
      (n ++ r).dropWhile isIdentifierChar = r := by
  intro n
  induction n with
  | nil =>
    intro r _ hr
    cases r with
    | nil => rfl
    | cons c r2 =>
      have := hr c (by simp)
      simp [List.dropWhile, this]
  | cons x xs ih =>
    intro r hn hr
    have hx := hn x (List.mem_cons_self _ _)
    simp only [List.cons_append, List.dropWhile, hx]
    exact ih r (fun y hy => hn y (List.mem_cons_of_mem _ hy)) hr

theorem takeWhile_name :
    ∀ (n r : List Char), (∀ x ∈ n, isIdentifierChar x = true) →
      (∀ c ∈ r.head?, isIdentifierChar c = false) →
      (n ++ r).takeWhile isIdentifierChar = n := by
  intro n
  induction n with
  | nil =>
    intro r _ hr
    cases r with
    | nil => rfl
    | cons c r2 =>
      have := hr c (by simp)
      simp [List.takeWhile, this]
  | cons x xs ih =>
    intro r hn hr
    have hx := hn x (List.mem_cons_self _ _)
    simp only [List.cons_append, List.takeWhile, hx]
    exact congrArg (x :: ·) (ih r (fun y hy => hn y (List.mem_cons_of_mem _ hy)) hr)

theorem matchParen_open (d : Nat) (rest : List Char) :
    matchParen d ('(' :: rest) = matchParen (d + 1) rest := by
  simp [matchParen]

theorem matchParen_close_zero (rest : List Char) : matchParen 0 (')' :: rest) = some rest := by
  simp [matchParen]

theorem matchParen_close_succ (d : Nat) (rest : List Char) :
    matchParen (d + 1) (')' :: rest) = matchParen d rest := by
  simp [matchParen]

theorem matchParen_other (d : Nat) (c : Char) (rest : List Char) (h1 : c ≠ '(')
    (h2 : c ≠ ')') : matchParen d (c :: rest) = matchParen d rest := by
  simp [matchParen, h1, h2]

theorem matchParen_skip :
    ∀ (s rest : List Char) (d : Nat), (∀ c ∈ s, c ≠ '(' ∧ c ≠ ')') →
      matchParen d (s ++ rest) = matchParen d rest := by
  intro s
  induction s with
  | nil => intro _ _ _; rfl
  | cons x xs ih =>
    intro rest d h
    obtain ⟨h1, h2⟩ := h x (List.mem_cons_self _ _)
    rw [List.cons_append, matchParen_other d x _ h1 h2]
    exact ih rest d fun c hc => h c (List.mem_cons_of_mem _ hc)

theorem operator_text_no_paren (op : node_operator_t) :
    ∀ c ∈ op.text.data, c ≠ '(' ∧ c ≠ ')' := by
  cases op <;> decide

theorem unary_text_no_paren (op : node_unary_t) :
    ∀ c ∈ op.text.1.data, c ≠ '(' ∧ c ≠ ')' := by
  cases op <;> decide

theorem postfix_text_no_paren (op : node_postfix_t) :
    ∀ c ∈ op.text.data, c ≠ '(' ∧ c ≠ ')' := by
  cases op <;> decide

/-- The rendering of an expression with delimited operands closes every
parenthesis it opens. -/
theorem matchParen_chars (g : Rat → String) {t : Node} (h : t.Delimited) :
    ∀ (d : Nat) (rest : List Char),
      matchParen d (Node.chars g t ++ rest) = matchParen d rest := by
  induction h with
  | identifier name l hn =>
    intro d rest
    obtain ⟨c, r, hd, hall⟩ := identifier_chars hn
    rw [chars_identifier]
    exact matchParen_skip _ _ _ fun x hx => identifierChar_not_paren (hall x (hd ▸ hx))
  | parenthetical l e _ ih =>
    intro d rest
    rw [chars_parenthetical, List.cons_append, matchParen_open, List.append_assoc,
      ih (d + 1) ([')'] ++ rest)]
    rw [List.singleton_append, matchParen_close_succ]
  | operator op l a b _ _ _ _ iha ihb =>
    intro d rest
    rw [chars_operator, List.append_assoc, List.append_assoc, iha,
      matchParen_skip _ _ _ (operator_text_no_paren op), ihb]
  | unary op l a ha hoa ih =>
    intro d rest
    rcases operand_cases ha hoa with ⟨name, l2, _, rfl⟩ | ⟨l2, e, _, rfl⟩
    · have hi := ih d rest
      rw [chars_identifier] at hi
      rw [chars_unary_identifier, List.append_assoc, List.append_assoc,
        matchParen_skip _ _ _ (unary_text_no_paren op),
        matchParen_skip _ _ _ (by split <;> decide), hi]
    · rw [chars_unary_parenthetical, List.append_assoc,
        matchParen_skip _ _ _ (unary_text_no_paren op), ih]
  | suffix op l a _ _ ih =>
    intro d rest
    rw [chars_suffixed, List.append_assoc, ih,
      matchParen_skip _ _ _ (postfix_text_no_paren op)]

/-- After the rendering of an operand come the characters that follow it. -/
theorem afterOperand_chars (g : Rat → String) {a : Node} (h : a.Delimited)
    (ho : a.isOperand = true) (r : List Char)
    (hr : ∀ c ∈ r.head?, isIdentifierChar c = false) :
    afterOperand (Node.chars g a ++ r) = some r := by
  rcases operand_cases h ho with ⟨name, l, hn, rfl⟩ | ⟨l, e, he, rfl⟩
  · obtain ⟨c, rest, hd, hall⟩ := identifier_chars hn
    rw [chars_identifier, hd, List.cons_append, afterOperand,
      if_neg (identifierChar_not_paren (hall c (List.mem_cons_self _ _))).1,
      if_pos (hall c (List.mem_cons_self _ _)),
      dropWhile_name rest r (fun x hx => hall x (List.mem_cons_of_mem _ hx)) hr]
  · rw [chars_parenthetical, List.cons_append, afterOperand, if_pos rfl, List.append_assoc,
      matchParen_chars g he, List.singleton_append, matchParen_close_zero]

/-- The rendering of an operand ends where the text says so: two renderings
of operands, each followed by nothing or by a character that is not of an
identifier, that make the same text are the same. -/
theorem lead_eq (g : Rat → String) {a1 a2 : Node} (h1 : a1.Delimited)
    (ho1 : a1.isOperand = true) (h2 : a2.Delimited) (ho2 : a2.isOperand = true)
    (r1 r2 : List Char) (hr1 : ∀ c ∈ r1.head?, isIdentifierChar c = false)
    (hr2 : ∀ c ∈ r2.head?, isIdentifierChar c = false)
    (h : Node.chars g a1 ++ r1 = Node.chars g a2 ++ r2) :
    Node.chars g a1 = Node.chars g a2 ∧ r1 = r2 := by
  have e1 := afterOperand_chars g h1 ho1 r1 hr1
  have e2 := afterOperand_chars g h2 ho2 r2 hr2
  rw [h, e2] at e1
  have hr : r1 = r2 := (Option.some.inj e1).symm
  rw [hr] at h
  exact ⟨List.append_cancel_right h, hr⟩

/-- The rendering of an operand starts with `(` or with a character of an
identifier. -/
theorem operand_head (g : Rat → String) {a : Node} (h : a.Delimited)
    (ho : a.isOperand = true) :
    ∃ c rest, Node.chars g a = c :: rest ∧ isOperandStart c = true := by
  rcases operand_cases h ho with ⟨name, l, hn, rfl⟩ | ⟨l, e, he, rfl⟩
  · obtain ⟨c, rest, hd, hall⟩ := identifier_chars hn
    refine ⟨c, rest, by rw [chars_identifier, hd], ?_⟩
    unfold isOperandStart
    rw [hall c (List.mem_cons_self _ _), Bool.or_true]
  · exact ⟨'(', _, chars_parenthetical g l e, by decide⟩

end fbjs

namespace fbjs

set_option maxHeartbeats 1600000 in
/-- The operator between two operands is read off the text: no operator text
followed by the start of an operand is the start of another one. -/
theorem operator_text_inj (op1 op2 : node_operator_t) (c1 c2 : Char) (s1 s2 : List Char)
    (h1 : isOperandStart c1 = true) (h2 : isOperandStart c2 = true)
    (h : op1.text.data ++ c1 :: s1 = op2.text.data ++ c2 :: s2) :
    op1 = op2 ∧ c1 :: s1 = c2 :: s2 := by
  cases op1 <;> cases op2 <;> simp [node_operator_t.text] at h ⊢ <;>
    first
    | exact h
    | (exfalso; obtain ⟨rfl, _⟩ := h
       first
       | exact absurd h1 (by decide)
       | exact absurd h2 (by decide))

/-- The unary operator is read off the text in the same way. -/
theorem unary_text_inj (op1 op2 : node_unary_t) (d1 d2 : Char) (s1 s2 : List Char)
    (h1 : (d1 == ' ' || isOperandStart d1) = true)
    (h2 : (d2 == ' ' || isOperandStart d2) = true)
    (h : op1.text.1.data ++ d1 :: s1 = op2.text.1.data ++ d2 :: s2) :
    op1 = op2 ∧ d1 :: s1 = d2 :: s2 := by
  cases op1 <;> cases op2 <;> simp [node_unary_t.text] at h ⊢ <;>
    first
    | exact h
    | (exfalso; obtain ⟨rfl, _⟩ := h
       first
       | exact absurd h1 (by decide)
       | exact absurd h2 (by decide))

theorem tail_nil : ∀ c ∈ ([] : List Char).head?, isIdentifierChar c = false := by
  intro c hc
  cases hc

theorem operator_tail_ok (op : node_operator_t) (r : List Char) :
    ∀ c ∈ (op.text.data ++ r).head?, isIdentifierChar c = false := by
  cases op <;> simp [node_operator_t.text] <;> decide

theorem postfix_tail_ok (op : node_postfix_t) :
    ∀ c ∈ (op.text.data).head?, isIdentifierChar c = false := by
  cases op <;> simp [node_postfix_t.text] <;> decide

theorem operator_tail_ne_nil (op : node_operator_t) (r : List Char) :
    op.text.data ++ r ≠ [] := by
  cases op <;> simp [node_operator_t.text]

theorem postfix_tail_ne_nil (op : node_postfix_t) : op.text.data ≠ [] := by
  cases op <;> simp [node_postfix_t.text]

theorem operator_tail_ne_suffixed (op : node_operator_t) (pop : node_postfix_t) (c : Char)
    (s : List Char) (hc : isOperandStart c = true) :
    op.text.data ++ c :: s ≠ pop.text.data := by
  intro h
  cases op <;> cases pop <;> simp [node_operator_t.text, node_postfix_t.text] at h <;>
    (obtain ⟨rfl, _⟩ := h; exact absurd hc (by decide))

theorem postfix_text_inj (op1 op2 : node_postfix_t) (h : op1.text.data = op2.text.data) :
    op1 = op2 := by
  cases op1 <;> cases op2 <;> first | rfl | (revert h; decide)

theorem unary_word_chars (op : node_unary_t) (h : op.text.2 = true) :
    ∀ x ∈ op.text.1.data, isIdentifierChar x = true := by
  revert h
  cases op <;> decide

/-- The rendering of a unary operator on an operand: the operator text, then
a space or the start of the operand; after a word it is a space or `(`. -/
theorem unary_chars_form (g : Rat → String) (op : node_unary_t) (l : Nat) {a : Node}
    (ha : a.Delimited) (hoa : a.isOperand = true) :
    ∃ d s, Node.chars g (.mk (.Unary op) l [some a]) = op.text.1.data ++ d :: s ∧
      (d == ' ' || isOperandStart d) = true ∧
      (op.text.2 = true → isIdentifierChar d = false) := by
  rcases operand_cases ha hoa with ⟨name, l2, hn, rfl⟩ | ⟨l2, e, _, rfl⟩
  · obtain ⟨c, rest, hd, hall⟩ := identifier_chars hn
    have hc := hall c (List.mem_cons_self _ _)
    rw [chars_unary_identifier, hd]
    cases hop : op.text.2
    · refine ⟨c, rest, rfl, ?_, fun h => by cases h⟩
      unfold isOperandStart
      rw [hc]
      simp
    · exact ⟨' ', c :: rest, rfl, by decide, fun _ => by decide⟩
  · rw [chars_unary_parenthetical, chars_parenthetical]
    exact ⟨'(', _, rfl, by decide, fun _ => by decide⟩

/-- A text that starts with an operand is not the text of a unary operator
on an operand. -/
theorem lead_ne_unary (g : Rat → String) {a : Node} (ha : a.Delimited)
    (hoa : a.isOperand = true) (r : List Char)
    (hr : ∀ c ∈ r.head?, isIdentifierChar c = false) (op : node_unary_t) (l : Nat)
    {a2 : Node} (ha2 : a2.Delimited) (hoa2 : a2.isOperand = true) :
    Node.chars g a ++ r ≠ Node.chars g (.mk (.Unary op) l [some a2]) := by
  intro h
  obtain ⟨d, s, hform, hd, hword⟩ := unary_chars_form g op l ha2 hoa2
  rw [hform] at h
  rcases operand_cases ha hoa with ⟨name, l2, hn, rfl⟩ | ⟨l2, e, _, rfl⟩
  · obtain ⟨c, rest, hdata, hall⟩ := identifier_chars hn
    have hc := hall c (List.mem_cons_self _ _)
    rw [chars_identifier] at h
    cases hop : op.text.2
    · rw [hdata] at h
      cases op <;> first
        | exact absurd hop (by decide)
        | (simp [node_unary_t.text] at h
           obtain ⟨rfl, _⟩ := h
           exact absurd hc (by decide))
    · have e1 := takeWhile_name name.data r (hdata ▸ hall) hr
      have e2 := takeWhile_name op.text.1.data (d :: s) (unary_word_chars op hop)
        (by
          intro x hx
          simp only [List.head?_cons, Option.mem_def, Option.some.injEq] at hx
          rw [← hx]
          exact hword hop)
      rw [h, e2] at e1
      exact identifier_not_word hn op hop e1.symm
  · rw [chars_parenthetical] at h
    cases op <;> simp [node_unary_t.text] at h

end fbjs

namespace fbjs

theorem withoutLineno_mk (k : NodeKind) (l : Nat) (cs : List (Option Node)) :
    (Node.mk k l cs).withoutLineno = .mk k 0 (Node.withoutLinenoList cs) := by
  rw [Node.withoutLineno]

theorem withoutLineno_one (k : NodeKind) (l : Nat) (a : Node) :
    (Node.mk k l [some a]).withoutLineno = .mk k 0 [some a.withoutLineno] := by
  simp [Node.withoutLineno, Node.withoutLinenoList]

theorem withoutLineno_two (k : NodeKind) (l : Nat) (a b : Node) :
    (Node.mk k l [some a, some b]).withoutLineno =
      .mk k 0 [some a.withoutLineno, some b.withoutLineno] := by
  simp [Node.withoutLineno, Node.withoutLinenoList]

/-- The text of an operand alone is not the text of a binary operator on
operands. -/
theorem operand_ne_operator (g : Rat → String) {t : Node} (ht : t.Delimited)
    (hot : t.isOperand = true) (op : node_operator_t) (l : Nat) {a : Node}
    (ha : a.Delimited) (hoa : a.isOperand = true) (b : Node) :
    Node.chars g t ≠ Node.chars g (.mk (.Operator op) l [some a, some b]) := by
  intro h
  rw [chars_operator, ← List.append_nil (Node.chars g t)] at h
  exact operator_tail_ne_nil op _
    (lead_eq g ht hot ha hoa [] _ tail_nil (operator_tail_ok op _) h).2.symm

/-- The text of an operand alone is not the text of a postfix operator on
an operand. -/
theorem operand_ne_suffixed (g : Rat → String) {t : Node} (ht : t.Delimited)
    (hot : t.isOperand = true) (op : node_postfix_t) (l : Nat) {a : Node}
    (ha : a.Delimited) (hoa : a.isOperand = true) :
    Node.chars g t ≠ Node.chars g (.mk (.Postfix op) l [some a]) := by
  intro h
  rw [chars_suffixed, ← List.append_nil (Node.chars g t)] at h
  exact postfix_tail_ne_nil op
    (lead_eq g ht hot ha hoa [] _ tail_nil (postfix_tail_ok op) h).2.symm

/-- The text of an operand alone is not the text of a unary operator. -/
theorem operand_ne_unary (g : Rat → String) {t : Node} (ht : t.Delimited)
    (hot : t.isOperand = true) (op : node_unary_t) (l : Nat) {a : Node}
    (ha : a.Delimited) (hoa : a.isOperand = true) :
    Node.chars g t ≠ Node.chars g (.mk (.Unary op) l [some a]) := by
  intro h
  rw [← List.append_nil (Node.chars g t)] at h
  exact lead_ne_unary g ht hot [] tail_nil op l ha hoa h

/-- The text of a binary operator on operands is not the text of a postfix
operator on an operand. -/
theorem operator_ne_suffixed (g : Rat → String) (op : node_operator_t) (l : Nat) {a b : Node}
    (ha : a.Delimited) (hoa : a.isOperand = true) (hb : b.Delimited)
    (hob : b.isOperand = true) (pop : node_postfix_t) (l2 : Nat) {a2 : Node}
    (ha2 : a2.Delimited) (hoa2 : a2.isOperand = true) :
    Node.chars g (.mk (.Operator op) l [some a, some b]) ≠
      Node.chars g (.mk (.Postfix pop) l2 [some a2]) := by
  intro h
  rw [chars_operator, chars_suffixed] at h
  have ht := (lead_eq g ha hoa ha2 hoa2 _ _ (operator_tail_ok op _) (postfix_tail_ok pop) h).2
  obtain ⟨c, rest, hc, hs⟩ := operand_head g hb hob
  rw [hc] at ht
  exact operator_tail_ne_suffixed op pop c rest hs ht

/-- The text of a binary operator on operands is not the text of a unary
operator. -/
theorem operator_ne_unary (g : Rat → String) (op : node_operator_t) (l : Nat) {a : Node}
    (b : Node) (ha : a.Delimited) (hoa : a.isOperand = true) (uop : node_unary_t) (l2 : Nat)
    {a2 : Node} (ha2 : a2.Delimited) (hoa2 : a2.isOperand = true) :
    Node.chars g (.mk (.Operator op) l [some a, some b]) ≠
      Node.chars g (.mk (.Unary uop) l2 [some a2]) := by
  rw [chars_operator]
  exact lead_ne_unary g ha hoa _ (operator_tail_ok op _) uop l2 ha2 hoa2

/-- The text of a postfix operator on an operand is not the text of a unary
operator. -/
theorem postfix_ne_unary (g : Rat → String) (op : node_postfix_t) (l : Nat) {a : Node}
    (ha : a.Delimited) (hoa : a.isOperand = true) (uop : node_unary_t) (l2 : Nat)
    {a2 : Node} (ha2 : a2.Delimited) (hoa2 : a2.isOperand = true) :
    Node.chars g (.mk (.Postfix op) l [some a]) ≠
      Node.chars g (.mk (.Unary uop) l2 [some a2]) := by
  rw [chars_suffixed]
  exact lead_ne_unary g ha hoa _ (postfix_tail_ok op) uop l2 ha2 hoa2

theorem identifier_ne_parenthetical (g : Rat → String) {name : String}
    (hn : is_identifier name = true) (l l2 : Nat) (e : Node) :
    Node.chars g (.mk (.Identifier name) l []) ≠
      Node.chars g (.mk .Parenthetical l2 [some e]) := by
  intro h
  obtain ⟨c, rest, hd, hall⟩ := identifier_chars hn
  rw [chars_identifier, chars_parenthetical, hd] at h
  have hc := hall c (List.mem_cons_self _ _)
  rw [(List.cons.inj h).1] at hc
  exact absurd hc (by decide)

/-- Two unary operators on operands with the same text: the same operator on
operands with the same text. -/
theorem unary_eq (g : Rat → String) (op1 op2 : node_unary_t) (l1 l2 : Nat) {a1 a2 : Node}
    (h1 : a1.Delimited) (ho1 : a1.isOperand = true) (h2 : a2.Delimited)
    (ho2 : a2.isOperand = true)
    (h : Node.chars g (.mk (.Unary op1) l1 [some a1]) =
      Node.chars g (.mk (.Unary op2) l2 [some a2])) :
    op1 = op2 ∧ Node.chars g a1 = Node.chars g a2 := by
  obtain ⟨d1, s1, hf1, hd1, _⟩ := unary_chars_form g op1 l1 h1 ho1
  obtain ⟨d2, s2, hf2, hd2, _⟩ := unary_chars_form g op2 l2 h2 ho2
  have hops : op1 = op2 := by
    rw [hf1, hf2] at h
    exact (unary_text_inj op1 op2 d1 d2 s1 s2 hd1 hd2 h).1
  subst hops
  refine ⟨rfl, ?_⟩
  rcases operand_cases h1 ho1 with ⟨n1, k1, hn1, rfl⟩ | ⟨k1, e1, _, rfl⟩ <;>
    rcases operand_cases h2 ho2 with ⟨n2, k2, hn2, rfl⟩ | ⟨k2, e2, _, rfl⟩
  · rw [chars_unary_identifier, chars_unary_identifier] at h
    rw [chars_identifier, chars_identifier]
    exact List.append_cancel_left (List.append_cancel_left h)
  · exfalso
    rw [chars_unary_identifier, chars_unary_parenthetical, chars_parenthetical] at h
    have h3 := List.append_cancel_left h
    obtain ⟨c, rest, hd, hall⟩ := identifier_chars hn1
    have hc := hall c (List.mem_cons_self _ _)
    rw [hd] at h3
    cases hop : op1.text.2
    · rw [hop] at h3
      simp only [Bool.false_eq_true, if_false, List.nil_append] at h3
      rw [(List.cons.inj h3).1] at hc
      exact absurd hc (by decide)
    · rw [hop] at h3
      simp at h3
  · exfalso
    rw [chars_unary_identifier, chars_unary_parenthetical, chars_parenthetical] at h
    have h3 := List.append_cancel_left h
    obtain ⟨c, rest, hd, hall⟩ := identifier_chars hn2
    have hc := hall c (List.mem_cons_self _ _)
    rw [hd] at h3
    cases hop : op1.text.2
    · rw [hop] at h3
      simp only [Bool.false_eq_true, if_false, List.nil_append] at h3
      rw [← (List.cons.inj h3).1] at hc
      exact absurd hc (by decide)
    · rw [hop] at h3
      simp at h3
  · rw [chars_unary_parenthetical, chars_unary_parenthetical] at h
    exact List.append_cancel_left h

/-- Two expressions with delimited operands that render to the same compact
text are the same tree but for the line numbers. -/
theorem chars_injective (g : Rat → String) {t1 : Node} (h1 : t1.Delimited) :
    ∀ {t2 : Node}, t2.Delimited → Node.chars g t1 = Node.chars g t2 →
      t1.withoutLineno = t2.withoutLineno := by
  induction h1 with
  | identifier n1 l1 hn1 =>
    intro t2 h2 h
    cases h2 with
    | identifier n2 l2 hn2 =>
      rw [chars_identifier, chars_identifier] at h
      rw [String.ext h, withoutLineno_mk, withoutLineno_mk]
    | parenthetical l2 e2 he2 => exact absurd h (identifier_ne_parenthetical g hn1 l1 l2 e2)
    | operator op l2 a b ha hoa hb hob =>
      exact absurd h (operand_ne_operator g (.identifier n1 l1 hn1) rfl op l2 ha hoa b)
    | unary op l2 a ha hoa =>
      exact absurd h (operand_ne_unary g (.identifier n1 l1 hn1) rfl op l2 ha hoa)
    | suffix op l2 a ha hoa =>
      exact absurd h (operand_ne_suffixed g (.identifier n1 l1 hn1) rfl op l2 ha hoa)
  | parenthetical l1 e1 he1 ih =>
    intro t2 h2 h
    cases h2 with
    | identifier n2 l2 hn2 =>
      exact absurd h.symm (identifier_ne_parenthetical g hn2 l2 l1 e1)
    | parenthetical l2 e2 he2 =>
      rw [chars_parenthetical, chars_parenthetical] at h
      rw [withoutLineno_one, withoutLineno_one,
        ih he2 (List.append_cancel_right (List.cons.inj h).2)]
    | operator op l2 a b ha hoa hb hob =>
      exact absurd h (operand_ne_operator g (.parenthetical l1 e1 he1) rfl op l2 ha hoa b)
    | unary op l2 a ha hoa =>
      exact absurd h (operand_ne_unary g (.parenthetical l1 e1 he1) rfl op l2 ha hoa)
    | suffix op l2 a ha hoa =>
      exact absurd h (operand_ne_suffixed g (.parenthetical l1 e1 he1) rfl op l2 ha hoa)
  | operator op1 l1 a1 b1 ha1 hoa1 hb1 hob1 iha ihb =>
    intro t2 h2 h
    cases h2 with
    | identifier n2 l2 hn2 =>
      exact absurd h.symm
        (operand_ne_operator g (.identifier n2 l2 hn2) rfl op1 l1 ha1 hoa1 b1)
    | parenthetical l2 e2 he2 =>
      exact absurd h.symm
        (operand_ne_operator g (.parenthetical l2 e2 he2) rfl op1 l1 ha1 hoa1 b1)
    | operator op2 l2 a2 b2 ha2 hoa2 hb2 hob2 =>
      have h0 := h
      rw [chars_operator, chars_operator] at h0
      obtain ⟨hA, hT⟩ := lead_eq g ha1 hoa1 ha2 hoa2 _ _ (operator_tail_ok op1 _)
        (operator_tail_ok op2 _) h0
      obtain ⟨c1, r1, hc1, hs1⟩ := operand_head g hb1 hob1
      obtain ⟨c2, r2, hc2, hs2⟩ := operand_head g hb2 hob2
      rw [hc1, hc2] at hT
      obtain ⟨hop, hB⟩ := operator_text_inj op1 op2 c1 c2 r1 r2 hs1 hs2 hT
      rw [← hc1, ← hc2] at hB
      rw [withoutLineno_two, withoutLineno_two, iha ha2 hA, ihb hb2 hB, hop]
    | unary op l2 a ha hoa =>
      exact absurd h (operator_ne_unary g op1 l1 b1 ha1 hoa1 op l2 ha hoa)
    | suffix op l2 a ha hoa =>
      exact absurd h (operator_ne_suffixed g op1 l1 ha1 hoa1 hb1 hob1 op l2 ha hoa)
  | unary op1 l1 a1 ha1 hoa1 ih =>
    intro t2 h2 h
    cases h2 with
    | identifier n2 l2 hn2 =>
      exact absurd h.symm (operand_ne_unary g (.identifier n2 l2 hn2) rfl op1 l1 ha1 hoa1)
    | parenthetical l2 e2 he2 =>
      exact absurd h.symm
        (operand_ne_unary g (.parenthetical l2 e2 he2) rfl op1 l1 ha1 hoa1)
    | operator op l2 a b ha hoa hb hob =>
      exact absurd h.symm (operator_ne_unary g op l2 b ha hoa op1 l1 ha1 hoa1)
    | unary op2 l2 a2 ha2 hoa2 =>
      obtain ⟨hop, hA⟩ := unary_eq g op1 op2 l1 l2 ha1 hoa1 ha2 hoa2 h
      rw [withoutLineno_one, withoutLineno_one, ih ha2 hA, hop]
    | suffix op l2 a ha hoa =>
      exact absurd h.symm (postfix_ne_unary g op l2 ha hoa op1 l1 ha1 hoa1)
  | suffix op1 l1 a1 ha1 hoa1 ih =>
    intro t2 h2 h
    cases h2 with
    | identifier n2 l2 hn2 =>
      exact absurd h.symm (operand_ne_suffixed g (.identifier n2 l2 hn2) rfl op1 l1 ha1 hoa1)
    | parenthetical l2 e2 he2 =>
      exact absurd h.symm
        (operand_ne_suffixed g (.parenthetical l2 e2 he2) rfl op1 l1 ha1 hoa1)
    | operator op l2 a b ha hoa hb hob =>
      exact absurd h.symm
        (operator_ne_suffixed g op l2 ha hoa hb hob op1 l1 ha1 hoa1)
    | unary op l2 a ha hoa =>
      exact absurd h (postfix_ne_unary g op1 l1 ha1 hoa1 op l2 ha hoa)
    | suffix op2 l2 a2 ha2 hoa2 =>
      have h0 := h
      rw [chars_suffixed, chars_suffixed] at h0
      obtain ⟨hA, hT⟩ := lead_eq g ha1 hoa1 ha2 hoa2 _ _ (postfix_tail_ok op1)
        (postfix_tail_ok op2) h0
      rw [withoutLineno_one, withoutLineno_one, ih ha2 hA, postfix_text_inj op1 op2 hT]

end fbjs

namespace fbjs

/-- Two expressions with delimited operands that are the same but for the
line numbers have the same shape and are similar. -/
theorem delimited_similar {t1 : Node} (h1 : t1.Delimited) :
    ∀ {t2 : Node}, t2.Delimited → t1.withoutLineno = t2.withoutLineno →
      Node.sameShape t1 t2 = true ∧ Node.similar t1 t2 = true := by
  induction h1 with
  | identifier n1 l1 hn1 =>
    intro t2 h2 h
    cases h2 <;>
      simp only [withoutLineno_mk, Node.withoutLinenoList, Node.mk.injEq,
        NodeKind.Identifier.injEq, reduceCtorEq, false_and, and_false] at h
    obtain ⟨rfl, _⟩ := h
    simp [Node.sameShape, Node.sameShapeList, Node.similar, NodeKind.isLeafCompared,
      Node.kind, Node.childNodes]
  | parenthetical l1 e1 he1 ih =>
    intro t2 h2 h
    cases h2 <;>
      simp only [withoutLineno_mk, Node.withoutLinenoList, Node.mk.injEq,
        reduceCtorEq, false_and, and_false, true_and, and_true, List.cons.injEq,
        Option.some.injEq] at h
    rename_i l2 e2 he2
    obtain ⟨hs, hm⟩ := ih he2 h
    simp [Node.sameShape, Node.sameShapeList, Node.similar, Node.similarList,
      NodeKind.isLeafCompared, Node.kind, Node.childNodes, hs, hm]
  | operator op1 l1 a1 b1 ha1 hoa1 hb1 hob1 iha ihb =>
    intro t2 h2 h
    cases h2 <;>
      simp only [withoutLineno_mk, Node.withoutLinenoList, Node.mk.injEq,
        reduceCtorEq, false_and, and_false, true_and, and_true, List.cons.injEq,
        Option.some.injEq, NodeKind.Operator.injEq] at h
    rename_i op2 l2 a2 b2 ha2 hoa2 hb2 hob2
    obtain ⟨hop, h3, h4⟩ := h
    subst hop
    obtain ⟨hs, hm⟩ := iha ha2 h3
    obtain ⟨hs2, hm2⟩ := ihb hb2 h4
    simp [Node.sameShape, Node.sameShapeList, Node.similar, Node.similarList,
      NodeKind.isLeafCompared, Node.kind, Node.childNodes, hs, hm, hs2, hm2]
  | unary op1 l1 a1 ha1 hoa1 ih =>
    intro t2 h2 h
    cases h2 <;>
      simp only [withoutLineno_mk, Node.withoutLinenoList, Node.mk.injEq,
        reduceCtorEq, false_and, and_false, true_and, and_true, List.cons.injEq,
        Option.some.injEq, NodeKind.Unary.injEq] at h
    rename_i op2 l2 a2 ha2 hoa2
    obtain ⟨hop, h3⟩ := h
    subst hop
    obtain ⟨hs, hm⟩ := ih ha2 h3
    simp [Node.sameShape, Node.sameShapeList, Node.similar, Node.similarList,
      NodeKind.isLeafCompared, Node.kind, Node.childNodes, hs, hm]
  | suffix op1 l1 a1 ha1 hoa1 ih =>
    intro t2 h2 h
    cases h2 <;>
      simp only [withoutLineno_mk, Node.withoutLinenoList, Node.mk.injEq,
        reduceCtorEq, false_and, and_false, true_and, and_true, List.cons.injEq,
        Option.some.injEq, NodeKind.Postfix.injEq] at h
    rename_i op2 l2 a2 ha2 hoa2
    obtain ⟨hop, h3⟩ := h
    subst hop
    obtain ⟨hs, hm⟩ := ih ha2 h3
    simp [Node.sameShape, Node.sameShapeList, Node.similar, Node.similarList,
      NodeKind.isLeafCompared, Node.kind, Node.childNodes, hs, hm]

end fbjs

namespace fbjs

/-- C34, as stated, fails: the trees `(a-b)-c` and `a-(b-c)`, built from
identifiers and binary operators without a node for the parentheses, are not
equal (`==` is false, and they differ in more than line numbers), and both
render to `a-b-c`; the same for `(a++)+b` and `a+(++b)`, which both render to
`a+++b`; and an identifier node with the name `a-b` renders as the tree of
`a-b` does. -/
theorem compact_render_not_injective :
    Node.eq Example.minusLeft Example.minusRight = some false ∧
    Example.minusLeft.withoutLineno ≠ Example.minusRight.withoutLineno ∧
    Node.eq Example.postfixPlus Example.plusPrefix = some false ∧
    Example.postfixPlus.withoutLineno ≠ Example.plusPrefix.withoutLineno ∧
    (∀ g_fmt : Rat → String,
      Node.render g_fmt Example.minusLeft = Node.render g_fmt Example.minusRight ∧
      Node.render g_fmt Example.minusLeft = "a-b-c" ∧
      Node.render g_fmt Example.postfixPlus = Node.render g_fmt Example.plusPrefix ∧
      Node.render g_fmt Example.postfixPlus = "a+++b" ∧
      Node.render g_fmt (Example.identifier "a-b") =
        Node.render g_fmt (.mk (.Operator .MINUS) 1
          [some (Example.identifier "a"), some (Example.identifier "b")])) := by
  refine ⟨by rfl, by decide, by rfl, by decide, fun g_fmt => ⟨rfl, rfl, rfl, rfl, rfl⟩⟩

/-- C34, amended: for all expression trees `t1` and `t2` built from
identifiers whose names `is_identifier` accepts, parentheses, binary
operators, unary operators and postfix operators, in which every operand of
an operator is an identifier or stands in parentheses, if the compact
renderings of `t1` and `t2` are the same text then `t1` and `t2` are the same
tree but for the line numbers, and `t1 == t2` holds. -/
theorem delimited_render_injective (g_fmt : Rat → String) (t1 t2 : Node)
    (h1 : t1.Delimited) (h2 : t2.Delimited)
    (h : Node.render g_fmt t1 = Node.render g_fmt t2) :
    t1.withoutLineno = t2.withoutLineno ∧ Node.eq t1 t2 = some true := by
  have hw := chars_injective g_fmt h1 h2 (congrArg String.data h)
  obtain ⟨hs, hm⟩ := delimited_similar h1 h2 hw
  refine ⟨hw, ?_⟩
  unfold Node.eq
  rw [eqFlip_similar t1 t2 false hs, hm]

/-- The theorem `delimited_render_injective` at the tree of `(a)-(b)` with
all its nodes on line 1 and with all of them on line 7. -/
theorem delimited_render_injective_witness :
    (Example.parenMinus 1).Delimited ∧ (Example.parenMinus 7).Delimited ∧
    Node.render (fun _ => "") (Example.parenMinus 1) = "(a)-(b)" ∧
    Node.render (fun _ => "") (Example.parenMinus 7) = "(a)-(b)" ∧
    (Example.parenMinus 1).withoutLineno = (Example.parenMinus 7).withoutLineno ∧
    Node.eq (Example.parenMinus 1) (Example.parenMinus 7) = some true :=
  ⟨.operator _ _ _ _ (.parenthetical _ _ (.identifier _ _ (by decide))) rfl
      (.parenthetical _ _ (.identifier _ _ (by decide))) rfl,
    .operator _ _ _ _ (.parenthetical _ _ (.identifier _ _ (by decide))) rfl
      (.parenthetical _ _ (.identifier _ _ (by decide))) rfl,
    rfl, rfl,
    delimited_render_injective (fun _ => "") (Example.parenMinus 1) (Example.parenMinus 7)
      (.operator _ _ _ _ (.parenthetical _ _ (.identifier _ _ (by decide))) rfl
        (.parenthetical _ _ (.identifier _ _ (by decide))) rfl)
      (.operator _ _ _ _ (.parenthetical _ _ (.identifier _ _ (by decide))) rfl
        (.parenthetical _ _ (.identifier _ _ (by decide))) rfl)
      rfl⟩

end fbjs

namespace fbjs

open Rendering guts

/-! ## The line counter follows the rope -/

theorem newlines_append (a b : String) : newlines (a ++ b) = newlines a + newlines b := by
  simp [newlines, String.data_append, List.count_append]

theorem newlines_empty : newlines "" = 0 := rfl

theorem tracks_text {s : String} (h : newlines s = 0) : (text s).Tracks := by
  intro guts hs
  exact ⟨rfl, hs, by simp [text, h]⟩

theorem tracks_withPretty {f : Bool → Rendering} (h : ∀ p, (f p).Tracks) :
    (withPretty f).Tracks := by
  intro guts hs
  exact h guts.pretty guts hs

theorem tracks_withSanelineno {f : Bool → Rendering} (h : (f true).Tracks) :
    (withSanelineno f).Tracks := by
  intro guts hs
  unfold withSanelineno
  rw [hs]
  exact h guts hs

theorem tracks_seq_nil : (seq []).Tracks := tracks_text rfl

theorem tracks_seq_cons {r : Rendering} {rest : List Rendering} (h1 : r.Tracks)
    (h2 : (seq rest).Tracks) : (seq (r :: rest)).Tracks := by
  intro guts hs
  obtain ⟨a1, a2, a3⟩ := h1 guts hs
  obtain ⟨b1, b2, b3⟩ := h2 (r guts).2 a2
  refine ⟨?_, ?_, ?_⟩
  · show (seq rest (r guts).2).2.pretty = guts.pretty
    rw [b1, a1]
  · exact b2
  · show (seq rest (r guts).2).2.lineno = guts.lineno + newlines ((r guts).1 ++ _)
    rw [b3, a3, newlines_append]
    omega

theorem tracks_plus (rightFirst : Bool) {l r : Rendering} (h1 : l.Tracks) (h2 : r.Tracks) :
    (plus rightFirst l r).Tracks := by
  intro guts hs
  cases rightFirst
  · obtain ⟨a1, a2, a3⟩ := h1 guts hs
    obtain ⟨b1, b2, b3⟩ := h2 (l guts).2 a2
    refine ⟨?_, ?_, ?_⟩
    · show (r (l guts).2).2.pretty = guts.pretty
      rw [b1, a1]
    · exact b2
    · show (r (l guts).2).2.lineno = guts.lineno + newlines ((l guts).1 ++ _)
      rw [b3, a3, newlines_append]
      omega
  · obtain ⟨b1, b2, b3⟩ := h2 guts hs
    obtain ⟨a1, a2, a3⟩ := h1 (r guts).2 b2
    refine ⟨?_, ?_, ?_⟩
    · show (l (r guts).2).2.pretty = guts.pretty
      rw [a1, b1]
    · exact a2
    · show (l (r guts).2).2.lineno = guts.lineno + newlines (_ ++ (r guts).1)
      rw [a3, b3, newlines_append]
      omega

theorem tracks_seq {rs : List Rendering} (h : ∀ r ∈ rs, Rendering.Tracks r) :
    (seq rs).Tracks := by
  induction rs with
  | nil => exact tracks_seq_nil
  | cons r rest ih =>
    exact tracks_seq_cons (h r (List.mem_cons_self _ _))
      (ih fun x hx => h x (List.mem_cons_of_mem _ hx))

theorem newlines_replicate (n : Nat) : newlines (String.mk (List.replicate n '\n')) = n := by
  simp [newlines]

theorem catchup_skip {lineno : Nat} {guts : render_guts_t}
    (h : lineno = 0 ∨ lineno ≤ guts.lineno) :
    renderLinenoCatchup lineno guts = (("", false), guts) := by
  unfold renderLinenoCatchup
  rw [if_pos]
  simpa using h

theorem catchup_advance {lineno : Nat} {guts : render_guts_t} (h0 : lineno ≠ 0)
    (h : guts.lineno < lineno) :
    renderLinenoCatchup lineno guts =
      ((String.mk (List.replicate (lineno - guts.lineno) '\n'), true),
        { guts with lineno := lineno }) := by
  unfold renderLinenoCatchup
  rw [if_neg]
  simp only [Bool.or_eq_true, decide_eq_true_eq, not_or, not_le, ge_iff_le]
  exact ⟨h0, h⟩

theorem catchup_spec (lineno : Nat) (guts : render_guts_t) :
    (renderLinenoCatchup lineno guts).2.pretty = guts.pretty ∧
      (renderLinenoCatchup lineno guts).2.sanelineno = guts.sanelineno ∧
      (renderLinenoCatchup lineno guts).2.lineno =
        guts.lineno + newlines (renderLinenoCatchup lineno guts).1.1 := by
  by_cases h : lineno = 0 ∨ lineno ≤ guts.lineno
  · rw [catchup_skip h]
    exact ⟨rfl, rfl, rfl⟩
  · rw [not_or, not_le] at h
    rw [catchup_advance h.1 h.2]
    refine ⟨rfl, rfl, ?_⟩
    simp only [newlines_replicate]
    omega

theorem tracks_catchup (lineno : Nat) :
    Rendering.Tracks fun guts =>
      ((renderLinenoCatchup lineno guts).1.1, (renderLinenoCatchup lineno guts).2) := by
  intro guts hs
  obtain ⟨h1, h2, h3⟩ := catchup_spec lineno guts
  exact ⟨h1, h2.trans hs, h3⟩

end fbjs

namespace fbjs
namespace guts

open Rendering

theorem tracks_slot {cs : List RenderedChild} (h : ChildrenTrack cs)
    {slot : Option RenderedChild} (hm : ∀ c, slot = some c → c ∈ cs) (indentation : Int) :
    (childRender slot indentation).Tracks ∧
      (∀ must, (childRenderBlock slot must indentation).Tracks) := by
  unfold childRender childRenderBlock
  split
  · rename_i n m
    exact ⟨((h n m (hm _ rfl)) indentation).1, fun must => ((h n m (hm _ rfl)) indentation).2.2.2 must⟩
  · exact ⟨tracks_text rfl, fun _ => tracks_text rfl⟩

theorem tracks_front {cs : List RenderedChild} (h : ChildrenTrack cs) (indentation : Int) :
    (childRender cs.head? indentation).Tracks :=
  (tracks_slot h (fun _ hc => List.mem_of_mem_head? hc) indentation).1

theorem tracks_back {cs : List RenderedChild} (h : ChildrenTrack cs) (indentation : Int) :
    (childRender cs.getLast? indentation).Tracks :=
  (tracks_slot h (fun _ hc => List.mem_of_mem_getLast? hc) indentation).1

theorem tracks_nth {cs : List RenderedChild} (h : ChildrenTrack cs) (i : Nat)
    (indentation : Int) : (childRender (cs.get? i) indentation).Tracks :=
  (tracks_slot h (fun _ hc => List.get?_mem hc) indentation).1

theorem tracks_block_front {cs : List RenderedChild} (h : ChildrenTrack cs) (must : Bool)
    (indentation : Int) : (childRenderBlock cs.head? must indentation).Tracks :=
  (tracks_slot h (fun _ hc => List.mem_of_mem_head? hc) indentation).2 must

theorem tracks_block_back {cs : List RenderedChild} (h : ChildrenTrack cs) (must : Bool)
    (indentation : Int) : (childRenderBlock cs.getLast? must indentation).Tracks :=
  (tracks_slot h (fun _ hc => List.mem_of_mem_getLast? hc) indentation).2 must

theorem tracks_block_nth {cs : List RenderedChild} (h : ChildrenTrack cs) (i : Nat)
    (must : Bool) (indentation : Int) :
    (childRenderBlock (cs.get? i) must indentation).Tracks :=
  (tracks_slot h (fun _ hc => List.get?_mem hc) indentation).2 must

theorem tracks_childCatchup (slot : Option RenderedChild) :
    (childLinenoCatchup slot).Tracks := by
  unfold childLinenoCatchup
  split
  · exact tracks_catchup _
  · exact tracks_text rfl

theorem tracks_implode (glue : String) (hg : newlines glue = 0) (indentation : Int) :
    ∀ {cs : List RenderedChild}, ChildrenTrack cs →
      (renderImplodeChildren glue indentation cs).Tracks := by
  intro cs
  induction cs with
  | nil => intro _; exact tracks_text rfl
  | cons c rest ih =>
    intro h
    have hc : (childRender (some c) indentation).Tracks :=
      (tracks_slot h (fun x hx => by
        rw [← Option.some.inj hx]
        exact List.mem_cons_self _ _) indentation).1
    cases rest with
    | nil => exact hc
    | cons c2 rest2 =>
      rw [renderImplodeChildren]
      · exact tracks_seq_cons hc (tracks_seq_cons (tracks_text hg)
          (tracks_seq_cons (ih fun n m hm => h n m (List.mem_cons_of_mem _ hm)) tracks_seq_nil))
      · intro hx; cases hx

/-- A child by name: the methods of a child found in a slot of the list. -/
theorem tracks_of_slot {cs : List RenderedChild} (h : ChildrenTrack cs)
    {slot : Option RenderedChild} (hm : ∀ c, slot = some c → c ∈ cs) {n : Node} {m : Methods}
    (hs : slot = some (some (n, m))) : m.Tracks :=
  h n m (hm _ hs)

end guts
end fbjs

namespace fbjs
namespace guts

open Rendering

theorem newlines_operatorText (op : node_operator_t) (padding : Bool) :
    newlines (operatorText op padding) = 0 := by
  cases op <;> cases padding <;> rfl

theorem tracks_operator (op : node_operator_t) {cs : List RenderedChild}
    (h : ChildrenTrack cs) (indentation : Int) :
    (NodeOperator.render op cs indentation).Tracks := by
  unfold NodeOperator.render
  refine tracks_seq_cons (tracks_front h _) (tracks_seq_cons (tracks_withPretty fun p => ?_)
    (tracks_seq_cons (tracks_back h _) tracks_seq_nil))
  cases p
  · exact tracks_text (newlines_operatorText op true)
  · exact tracks_text (by cases op <;> rfl)

theorem tracks_unary (op : node_unary_t) {cs : List RenderedChild}
    (h : ChildrenTrack cs) (indentation : Int) :
    (NodeUnary.render op cs indentation).Tracks := by
  unfold NodeUnary.render
  refine tracks_seq_cons (tracks_text ?_) (tracks_seq_cons (tracks_front h _) tracks_seq_nil)
  rw [newlines_append]
  have h1 : newlines op.text.1 = 0 := by cases op <;> rfl
  rw [h1]
  split <;> rfl

theorem tracks_if {cs : List RenderedChild} (h : ChildrenTrack cs) (indentation : Int) :
    (NodeIf.render cs indentation).Tracks := by
  unfold NodeIf.render
  refine tracks_withPretty fun p => ?_
  refine tracks_seq_cons (tracks_text (by cases p <;> rfl))
    (tracks_seq_cons (tracks_front h _) (tracks_seq_cons (tracks_text rfl)
      (tracks_seq_cons (tracks_block_nth h 1 _ _) (tracks_seq_cons ?_ tracks_seq_nil))))
  split
  · rename_i e m heq
    have hm : m.Tracks := tracks_of_slot h (fun _ hc => List.get?_mem hc) heq
    refine tracks_seq_cons (tracks_text (by cases p <;> rfl)) (tracks_seq_cons ?_ tracks_seq_nil)
    split
    · exact tracks_seq_cons (tracks_withSanelineno (tracks_childCatchup _))
        (tracks_seq_cons (tracks_text rfl) (tracks_seq_cons (hm indentation).1 tracks_seq_nil))
    · intro guts hs
      obtain ⟨a1, a2, a3⟩ := (hm indentation).2.2.2 false guts hs
      by_cases hc : (m.renderBlock false indentation guts).1.data.head? ≠ some '\x7b' ∧
          (m.renderBlock false indentation guts).1.data.head? ≠ some ' '
      · simp only [andThen, if_pos hc, text]
        refine ⟨a1, a2, ?_⟩
        rw [newlines_append, a3]
        simp [newlines]
      · simp only [andThen, if_neg hc, text]
        exact ⟨a1, a2, a3⟩
  · exact tracks_text rfl

theorem tracks_try {cs : List RenderedChild} (h : ChildrenTrack cs) (indentation : Int) :
    (NodeTry.render cs indentation).Tracks := by
  unfold NodeTry.render
  refine tracks_withPretty fun p => ?_
  refine tracks_seq_cons (tracks_text rfl) (tracks_seq_cons (tracks_block_front h _ _)
    (tracks_seq_cons ?_ (tracks_seq_cons ?_ tracks_seq_nil)))
  · split
    · rename_i n m heq
      have hm : m.Tracks := tracks_of_slot h (fun _ hc => List.get?_mem hc) heq
      exact tracks_seq_cons (tracks_text (by cases p <;> rfl))
        (tracks_seq_cons (hm indentation).1 (tracks_seq_cons (tracks_text rfl)
          (tracks_seq_cons (tracks_block_nth h 2 _ _) tracks_seq_nil)))
    · exact tracks_text rfl
  · split
    · rename_i n m heq
      have hm : m.Tracks := tracks_of_slot h (fun _ hc => List.get?_mem hc) heq
      exact tracks_seq_cons (tracks_text (by cases p <;> rfl))
        (tracks_seq_cons ((hm indentation).2.2.2 true) tracks_seq_nil)
    · exact tracks_text rfl

theorem tracks_xmlElement {cs : List RenderedChild} (h : ChildrenTrack cs)
    (indentation : Int) : (NodeXMLElement.render cs indentation).Tracks := by
  unfold NodeXMLElement.render
  split
  · rename_i n m heq
    have hm : m.Tracks := tracks_of_slot h (fun _ hc => List.mem_of_mem_head? hc) heq
    refine tracks_seq_cons (tracks_text rfl) (tracks_seq_cons (hm indentation).1
      (tracks_seq_cons ?_ (tracks_seq_cons ?_ tracks_seq_nil)))
    · split
      · exact tracks_seq_cons (tracks_text rfl) (tracks_seq_cons (tracks_nth h 1 _) tracks_seq_nil)
      · exact tracks_text rfl
    · split
      · exact tracks_seq_cons (tracks_text rfl) (tracks_seq_cons (tracks_nth h 2 _)
          (tracks_seq_cons (tracks_text rfl) (tracks_seq_cons (tracks_nth h 3 _)
            (tracks_seq_cons (tracks_text rfl) tracks_seq_nil))))
      · split
        · rename_i n3 m3 heq3
          have hm3 : m3.Tracks := tracks_of_slot h (fun _ hc => List.get?_mem hc) heq3
          exact tracks_seq_cons (tracks_text rfl) (tracks_seq_cons (hm3 indentation).1
            (tracks_seq_cons (tracks_text rfl) tracks_seq_nil))
        · exact tracks_text rfl
  · exact tracks_seq_cons (tracks_text rfl) (tracks_seq_cons (tracks_text rfl)
      (tracks_seq_cons (tracks_nth h 2 _) (tracks_seq_cons (tracks_text rfl) tracks_seq_nil)))

end guts
end fbjs

namespace fbjs
namespace guts

open Rendering

theorem tracks_statementList (indentation : Int) :
    ∀ {cs : List RenderedChild}, ChildrenTrack cs →
      (seq (cs.map fun c =>
        match c with
        | some (_, m) => m.renderIndentedStatement indentation
        | none => text "")).Tracks := by
  intro cs h
  refine tracks_seq fun r hr => ?_
  obtain ⟨c, hc, rfl⟩ := List.mem_map.mp hr
  split
  · rename_i n m
    exact ((h n m hc) indentation).2.2.1
  · exact tracks_text rfl

theorem newlines_slash : newlines "/" = 0 := rfl

theorem tracks_head_render {cs : List RenderedChild} (h : ChildrenTrack cs) {n : Node}
    {m : Methods} (heq : cs.head? = some (some (n, m))) (indentation : Int) :
    (m.render indentation).Tracks :=
  ((tracks_of_slot h (fun _ hc => List.mem_of_mem_head? hc) heq) indentation).1

theorem newlines_assignment (op : node_assignment_t) : newlines op.text = 0 := by
  cases op <;> rfl

theorem newlines_suffixed (op : node_postfix_t) : newlines op.text = 0 := by
  cases op <;> rfl

set_option maxHeartbeats 1600000 in
/-- The `render` of every class tracks the lines when the methods of the
children do and the class writes no newline of its own. -/
theorem tracks_renderKind (rightFirst : Bool) (g_fmt : Rat → String) (k : NodeKind)
    {cs : List RenderedChild} (h : ChildrenTrack cs)
    (hk : newlines (k.payloadText g_fmt) = 0) (indentation : Int) :
    (renderKind rightFirst g_fmt k cs indentation).Tracks := by
  cases k
  case RegexLiteral value flags =>
    refine tracks_text ?_
    simp only [NodeKind.payloadText, newlines_append] at hk
    simp only [newlines_append, newlines_slash]
    omega
  case XMLName ns name =>
    refine tracks_text ?_
    simp only [NodeKind.payloadText, newlines_append] at hk
    split
    · omega
    · have h1 : newlines ":" = 0 := rfl
      simp only [newlines_append, h1]
      omega
  case XMLComment comment =>
    refine tracks_text ?_
    have h1 : newlines "<!--" = 0 := rfl
    have h2 : newlines "-->" = 0 := rfl
    simp only [NodeKind.payloadText] at hk
    simp only [newlines_append, h1, h2, hk]
  case XMLPI data =>
    refine tracks_text ?_
    have h1 : newlines "<?" = 0 := rfl
    have h2 : newlines "?>" = 0 := rfl
    simp only [NodeKind.payloadText] at hk
    simp only [newlines_append, h1, h2, hk]
  case NumericLiteral value => exact tracks_text hk
  case StringLiteral value quoted => exact tracks_text hk
  case Identifier name => exact tracks_text hk
  case XMLTextData data whitespace => exact tracks_text hk
  case Operator op => exact tracks_operator op h _
  case Unary op => exact tracks_unary op h _
  case If => exact tracks_if h _
  case Try => exact tracks_try h _
  case XMLElement => exact tracks_xmlElement h _
  case StatementList => exact tracks_statementList indentation h
  all_goals
    simp only [renderKind]
    with_reducible repeat' first
      | exact tracks_seq_nil
      | exact tracks_front h _
      | exact tracks_back h _
      | exact tracks_nth h _ _
      | exact tracks_block_front h _ _
      | exact tracks_block_back h _ _
      | exact tracks_block_nth h _ _ _
      | apply tracks_seq_cons
      | apply tracks_plus
      | exact tracks_implode _ (by first | decide | (split <;> decide)) _ h
      | exact tracks_childCatchup _
      | exact tracks_text hk
      | exact tracks_text (newlines_assignment _)
      | exact tracks_text (newlines_suffixed _)
      | exact tracks_text (by first | decide | (split <;> decide))
      | exact tracks_head_render h (by assumption) _
      | (apply tracks_withPretty; intro pretty)
      | apply tracks_withSanelineno
      | split

end guts
end fbjs

namespace fbjs
namespace guts

open Rendering

theorem tracks_renderStatementKind (k : NodeKind) {render : Int → Rendering}
    (h : ∀ i, (render i).Tracks) (indentation : Int) :
    (renderStatementKind k render indentation).Tracks := by
  unfold renderStatementKind
  split
  all_goals first
    | exact tracks_seq_cons (h _) (tracks_seq_cons (tracks_text rfl) tracks_seq_nil)
    | (split
       · exact tracks_seq_cons (h _) (tracks_seq_cons (tracks_text rfl) tracks_seq_nil)
       · exact h _)

theorem newlines_indent (indentation : Int) : newlines (indent indentation) = 0 := by
  unfold indent
  induction indentation.toNat with
  | zero => rfl
  | succ n ih =>
    rw [List.replicate_succ, String.join]
    simp only [List.foldl_cons]
    have h : ∀ (l : List String) (a : String),
        newlines (List.foldl (fun r s => r ++ s) a l) =
          newlines a + newlines (List.foldl (fun r s => r ++ s) "" l) := by
      intro l
      induction l with
      | nil => intro a; simp [newlines]
      | cons x xs ihx =>
        intro a
        simp only [List.foldl_cons]
        rw [ihx (a ++ x), ihx ("" ++ x), newlines_append, newlines_append]
        simp [newlines]
        omega
    rw [h]
    unfold String.join at ih
    rw [ih]
    rfl

/-- `Node::renderIndentedStatement` with `sanelineno` set: the catch-up of
the node, the indentation after a newline in pretty mode, the statement. -/
theorem renderIndentedStatement_sane (lineno : Nat) (renderStatement : Int → Rendering)
    (indentation : Int) (guts : render_guts_t) (hs : guts.sanelineno = true) :
    Node.renderIndentedStatement lineno renderStatement indentation guts =
      (((renderLinenoCatchup lineno guts).1.1 ++
          (if guts.pretty && (renderLinenoCatchup lineno guts).1.2 then indent indentation
            else "")) ++
          (renderStatement indentation (renderLinenoCatchup lineno guts).2).1,
        (renderStatement indentation (renderLinenoCatchup lineno guts).2).2) := by
  unfold Node.renderIndentedStatement
  have hp := (catchup_spec lineno guts).1
  simp only [hs, Bool.or_true, if_true, hp]
  cases guts.pretty <;> cases (renderLinenoCatchup lineno guts).1.2 <;> simp

theorem tracks_renderIndentedStatement (lineno : Nat) {renderStatement : Int → Rendering}
    (h : ∀ i, (renderStatement i).Tracks) (indentation : Int) :
    (Node.renderIndentedStatement lineno renderStatement indentation).Tracks := by
  intro guts hs
  rw [renderIndentedStatement_sane lineno renderStatement indentation guts hs]
  obtain ⟨c1, c2, c3⟩ := catchup_spec lineno guts
  obtain ⟨s1, s2, s3⟩ := h indentation (renderLinenoCatchup lineno guts).2 (c2.trans hs)
  refine ⟨s1.trans c1, s2, ?_⟩
  simp only [newlines_append]
  rw [s3, c3]
  have hi : newlines (if (guts.pretty && (renderLinenoCatchup lineno guts).1.2) = true
      then indent indentation else "") = 0 := by
    split
    · exact newlines_indent _
    · rfl
  omega

theorem tracks_renderIndentedStatementKind (k : NodeKind) (lineno : Nat)
    {render renderStatement : Int → Rendering} (h1 : ∀ i, (render i).Tracks)
    (h2 : ∀ i, (renderStatement i).Tracks) (indentation : Int) :
    (renderIndentedStatementKind k lineno render renderStatement indentation).Tracks := by
  unfold renderIndentedStatementKind
  split
  · exact h1 _
  · exact tracks_renderIndentedStatement lineno h2 _
  · exact tracks_renderIndentedStatement lineno h2 _
  · exact tracks_renderIndentedStatement lineno h2 _

theorem tracks_closeBlock (lineno : Nat) (indentation : Int) :
    (closeBlock lineno indentation).Tracks := by
  intro guts hs
  obtain ⟨c1, c2, c3⟩ := catchup_spec lineno guts
  unfold closeBlock
  simp only [hs, Bool.or_true, if_true]
  refine ⟨c1, c2.trans hs, ?_⟩
  rw [c3, newlines_append]
  have h1 : newlines "\x7d" = 0 := rfl
  rw [h1]
  split
  · rw [newlines_append, newlines_indent]
    omega
  · rfl

theorem tracks_catchup_if (lineno : Nat) :
    (withSanelineno fun sanelineno =>
      if sanelineno then fun guts =>
        let c := renderLinenoCatchup lineno guts
        (c.1.1, c.2)
      else text "").Tracks := by
  intro guts hs
  simp only [withSanelineno, hs, if_true]
  exact tracks_catchup lineno guts hs

theorem tracks_renderBlock (lineno : Nat) {renderStatement renderIndentedStatement : Int → Rendering}
    (h1 : ∀ i, (renderStatement i).Tracks) (h2 : ∀ i, (renderIndentedStatement i).Tracks)
    (must : Bool) (indentation : Int) :
    (Node.renderBlock lineno renderStatement renderIndentedStatement must indentation).Tracks := by
  intro guts hs
  unfold Node.renderBlock
  split
  · exact tracks_seq_cons (tracks_catchup_if lineno)
      (tracks_seq_cons (h1 _) tracks_seq_nil) guts hs
  · exact tracks_seq_cons (tracks_text (by split <;> rfl))
      (tracks_seq_cons (h2 _) (tracks_seq_cons (tracks_closeBlock _ _) tracks_seq_nil)) guts hs

theorem tracks_renderBlockKind (k : NodeKind) (lineno : Nat) {cs : List RenderedChild}
    (h : ChildrenTrack cs) {renderStatement renderIndentedStatement : Int → Rendering}
    (h1 : ∀ i, (renderStatement i).Tracks) (h2 : ∀ i, (renderIndentedStatement i).Tracks)
    (must : Bool) (indentation : Int) :
    (renderBlockKind k lineno cs renderStatement renderIndentedStatement must
      indentation).Tracks := by
  unfold renderBlockKind
  split
  · intro guts hs
    by_cases c1 : (!must && cs.isEmpty) = true
    · simp only [c1, if_true]
      exact ⟨trivial, hs, by simp [newlines]⟩
    · by_cases c2 : (!must && !guts.pretty &&
          (decide (cs.length = 1) || (childNull cs.head? && childNull cs.getLast?))) = true
      · simp only [c1, c2, if_true, if_false]
        exact tracks_seq_cons (tracks_catchup_if lineno)
          (tracks_seq_cons (tracks_block_front h _ _) tracks_seq_nil) guts hs
      · simp only [c1, c2, if_false]
        exact tracks_seq_cons (tracks_text (by split <;> rfl))
          (tracks_seq_cons (h2 _) (tracks_seq_cons (tracks_closeBlock _ _) tracks_seq_nil))
          guts hs
  · exact tracks_text rfl
  · exact tracks_renderBlock lineno h1 h2 must indentation

/-- The methods of a class track the lines when those of the children do. -/
theorem tracks_methodsKind (rightFirst : NodeKind → Bool) (g_fmt : Rat → String)
    (k : NodeKind) (lineno : Nat) {cs : List RenderedChild} (h : ChildrenTrack cs)
    (hk : newlines (k.payloadText g_fmt) = 0) :
    (methodsKind rightFirst g_fmt k lineno cs).Tracks := by
  have h1 : ∀ i, (renderKind (rightFirst k) g_fmt k cs i).Tracks :=
    tracks_renderKind (rightFirst k) g_fmt k h hk
  have h2 : ∀ i, (renderStatementKind k (renderKind (rightFirst k) g_fmt k cs) i).Tracks :=
    tracks_renderStatementKind k h1
  have h3 : ∀ i, (renderIndentedStatementKind k lineno (renderKind (rightFirst k) g_fmt k cs)
      (renderStatementKind k (renderKind (rightFirst k) g_fmt k cs)) i).Tracks :=
    tracks_renderIndentedStatementKind k lineno h1 h2
  intro indentation
  exact ⟨h1 _, h2 _, h3 _, fun must => tracks_renderBlockKind k lineno h h2 h3 must _⟩

theorem childrenTrack_methodsList (rightFirst : NodeKind → Bool)
    (g_fmt : Rat → String) :
    ∀ (cs : List (Option Node)),
      (∀ c, some c ∈ cs → (c.methods rightFirst g_fmt).Tracks) →
      ChildrenTrack (Node.methodsList rightFirst g_fmt cs) := by
  intro cs
  induction cs with
  | nil => intro _ n m hm; simp [Node.methodsList] at hm
  | cons c rest ih =>
    intro h n m hm
    cases c with
    | none =>
      rw [Node.methodsList] at hm
      rcases List.mem_cons.mp hm with hm | hm
      · cases hm
      · exact ih (fun c hc => h c (List.mem_cons_of_mem _ hc)) n m hm
    | some c =>
      rw [Node.methodsList] at hm
      rcases List.mem_cons.mp hm with hm | hm
      · have e := Option.some.inj hm
        have e1 : n = c := congrArg Prod.fst e
        have e2 : m = c.methods rightFirst g_fmt := congrArg Prod.snd e
        rw [e2]
        exact h c (List.mem_cons_self _ _)
      · exact ih (fun c hc => h c (List.mem_cons_of_mem _ hc)) n m hm

theorem payloadOnOneLine_child (g_fmt : Rat → String) :
    ∀ (cs : List (Option Node)), Node.payloadOnOneLineList g_fmt cs = true →
      ∀ c, some c ∈ cs → c.payloadOnOneLine g_fmt = true := by
  intro cs
  induction cs with
  | nil => intro _ c hc; cases hc
  | cons x rest ih =>
    intro h c hc
    cases x with
    | none =>
      rw [Node.payloadOnOneLineList] at h
      rcases List.mem_cons.mp hc with hc | hc
      · cases hc
      · exact ih h c hc
    | some x =>
      rw [Node.payloadOnOneLineList, Bool.and_eq_true] at h
      rcases List.mem_cons.mp hc with hc | hc
      · rw [Option.some.inj hc]
        exact h.1
      · exact ih h.2 c hc

/-- With `sanelineno` set, every render method of every tree that writes no
newline from its data members moves `guts->lineno` forward by the number of
newlines in the rope it returns. -/
theorem tracks_methods (rightFirst : NodeKind → Bool) (g_fmt : Rat → String)
    (t : Node) :
    t.payloadOnOneLine g_fmt = true → (t.methods rightFirst g_fmt).Tracks := by
  induction t using Node.induction_on with
  | h k l cs ih =>
    intro h
    rw [Node.payloadOnOneLine, Bool.and_eq_true, decide_eq_true_eq] at h
    rw [Node.methods]
    exact tracks_methodsKind rightFirst g_fmt k l
      (childrenTrack_methodsList rightFirst g_fmt cs fun c hc =>
        ih c hc (payloadOnOneLine_child g_fmt cs h.2 c hc)) h.1

end guts
end fbjs

namespace fbjs
namespace guts

open Rendering

/-- The catch-up of a node on line `lineno`, at least 1, from a line that is
not after it: the newlines up to `lineno`, and `guts->lineno` is `lineno`. -/
theorem catchup_reaches {lineno : Nat} (pretty : Bool) {line : Nat} (h1 : 1 ≤ lineno)
    (h : line ≤ lineno) :
    renderLinenoCatchup lineno { lineno := line, pretty := pretty, sanelineno := true } =
      ((String.mk (List.replicate (lineno - line) '\n'), decide (line < lineno)),
        { lineno := lineno, pretty := pretty, sanelineno := true }) := by
  by_cases hlt : line < lineno
  · rw [@catchup_advance lineno ⟨line, pretty, true⟩ (by omega) hlt]
    simp [hlt]
  · have he : line = lineno := by omega
    subst he
    rw [@catchup_skip line ⟨line, pretty, true⟩ (Or.inr (le_refl _))]
    simp

theorem renderIndentedStatement_methods (rightFirst : NodeKind → Bool)
    (g_fmt : Rat → String) (k : NodeKind) (l : Nat) (cs : List (Option Node))
    (hk : k ≠ .StatementList) (indentation : Int) :
    ((Node.mk k l cs).methods rightFirst g_fmt).renderIndentedStatement indentation =
      Node.renderIndentedStatement l
        ((Node.mk k l cs).methods rightFirst g_fmt).renderStatement
        (k.statementIndentation indentation) := by
  rw [Node.methods]
  show renderIndentedStatementKind k l _ _ indentation = _
  unfold renderIndentedStatementKind NodeKind.statementIndentation
  cases k <;> first | rfl | exact absurd rfl hk

theorem renderBlock_methods (rightFirst : NodeKind → Bool) (g_fmt : Rat → String)
    (k : NodeKind) (l : Nat) (cs : List (Option Node)) (hk : k ≠ .StatementList)
    (he : k ≠ .EmptyExpression) (must : Bool) (indentation : Int) :
    ((Node.mk k l cs).methods rightFirst g_fmt).renderBlock must indentation =
      Node.renderBlock l ((Node.mk k l cs).methods rightFirst g_fmt).renderStatement
        ((Node.mk k l cs).methods rightFirst g_fmt).renderIndentedStatement must
        indentation := by
  rw [Node.methods]
  show renderBlockKind k l _ _ _ must indentation = _
  unfold renderBlockKind
  cases k <;> first | rfl | exact absurd rfl hk | exact absurd rfl he

end guts

/-- C35, the code at the failing input: the statement
`p.then(function()\x7ba;\x7d).then(function()\x7bb;\x7d);` is written on three
lines, `a;` on line 2 and `b;` on line 3. `NodeFunctionCall::render` returns
`front()->render(...) + back()->render(...)`, one expression in which C++
leaves the order of the two calls open. A build that makes the call on the
right first renders the argument list `(function()\x7bb;\x7d)` first, which
moves `guts->lineno` to 3; the callee is rendered afterwards, finds the counter
past line 2, and `a;` is written on output line 1. A build that makes the
call on the left first writes `a;` on line 2 and `b;` on line 3. The rendering
of `"a"+"b";` on line 5 in pretty mode is four newlines followed by
`"a" + "b";` in either order. -/
theorem call_chain_renders_arguments_first (g_fmt : Rat → String) :
    Node.renderWith (fun _ => true) g_fmt false true Example.thenChain =
      "p.then(function()\x7ba;\x7d).then(function()\x7b\n\nb;\x7d);" ∧
    Node.renderWith (fun _ => false) g_fmt false true Example.thenChain =
      "p.then(function()\x7b\na;\x7d).then(function()\x7b\nb;\x7d);" ∧
    ∀ rightFirst : NodeKind → Bool,
      Node.renderWith rightFirst g_fmt true true Example.stringSum =
        "\n\n\n\n\"a\" + \"b\";" := by
  exact ⟨by with_unfolding_all rfl, by with_unfolding_all rfl, fun rightFirst => by rfl⟩

/-- With `sanelineno` set (with or without `pretty`), in whichever order the
calls of a `+` expression are made, for every tree none of whose nodes writes
a newline from its data members, (1) every render method moves `guts->lineno`
forward by exactly the number of newlines in the rope it returns; (2) a
statement on line `L`, at least 1, that `renderIndentedStatement` renders
when the counter is at a line not after `L` is written as `L - line`
newlines, the indentation in pretty mode after a newline, and the statement
rendered from line `L`; and (3) the same holds for a statement that
`renderBlock` renders without braces in compact mode. -/
theorem statement_starts_on_its_line (rightFirst : NodeKind → Bool) (g_fmt : Rat → String)
    (t : Node) (h : t.payloadOnOneLine g_fmt = true) (pretty : Bool) (indentation : Int)
    (line : Nat) :
    (t.methods rightFirst g_fmt).Tracks ∧
    (t.kind ≠ .StatementList → 1 ≤ t.lineno → line ≤ t.lineno →
      (t.methods rightFirst g_fmt).renderIndentedStatement indentation
          { lineno := line, pretty := pretty, sanelineno := true } =
        (String.mk (List.replicate (t.lineno - line) '\n') ++
            (if pretty && decide (line < t.lineno)
              then guts.indent (t.kind.statementIndentation indentation) else "") ++
            ((t.methods rightFirst g_fmt).renderStatement
              (t.kind.statementIndentation indentation)
              { lineno := t.lineno, pretty := pretty, sanelineno := true }).1,
          ((t.methods rightFirst g_fmt).renderStatement
            (t.kind.statementIndentation indentation)
            { lineno := t.lineno, pretty := pretty, sanelineno := true }).2)) ∧
    (t.kind ≠ .StatementList → t.kind ≠ .EmptyExpression → 1 ≤ t.lineno → line ≤ t.lineno →
      (t.methods rightFirst g_fmt).renderBlock false indentation
          { lineno := line, pretty := false, sanelineno := true } =
        (String.mk (List.replicate (t.lineno - line) '\n') ++
            ((t.methods rightFirst g_fmt).renderStatement indentation
              { lineno := t.lineno, pretty := false, sanelineno := true }).1,
          ((t.methods rightFirst g_fmt).renderStatement indentation
            { lineno := t.lineno, pretty := false, sanelineno := true }).2)) := by
  refine ⟨guts.tracks_methods rightFirst g_fmt t h, ?_, ?_⟩
  · obtain ⟨k, l, cs⟩ := t
    intro hk h1 hl
    rw [guts.renderIndentedStatement_methods rightFirst g_fmt k l cs hk,
      guts.renderIndentedStatement_sane _ _ _ _ rfl]
    simp only [Node.kind, Node.lineno] at h1 hl ⊢
    rw [guts.catchup_reaches pretty h1 hl]
  · obtain ⟨k, l, cs⟩ := t
    intro hk he h1 hl
    rw [guts.renderBlock_methods rightFirst g_fmt k l cs hk he]
    simp only [Node.kind, Node.lineno] at h1 hl ⊢
    unfold guts.Node.renderBlock
    simp only [Bool.not_false, Bool.and_self, if_true, Rendering.seq, Rendering.withSanelineno,
      Rendering.text, guts.catchup_reaches false h1 hl, String.append_empty]

/-- The theorem `statement_starts_on_its_line` at the statement `d` of line 6
rendered when the counter is at line 4, in pretty mode with indentation 1:
two newlines, two spaces, `d;`. -/
theorem statement_starts_on_its_line_witness :
    Node.payloadOnOneLine (fun _ => "") (.mk (.Identifier "d") 6 []) = true ∧
    ((Node.mk (.Identifier "d") 6 []).methods (fun _ => false) (fun _ => "")).renderIndentedStatement
        1 { lineno := 4, pretty := true, sanelineno := true } =
      ("\n\n  d;", { lineno := 6, pretty := true, sanelineno := true }) :=
  ⟨by decide,
    ((statement_starts_on_its_line (fun _ => false) (fun _ => "") (.mk (.Identifier "d") 6 [])
      (by decide) true 1 4).2.1 (by decide) (by decide) (by decide)).trans (by decide)⟩

end fbjs

open fbjs
namespace fbjs

open VariableRenaming

/-! ## The calls of `build_scope` and `minify` -/

theorem build_scope_scans (k : NodeKind) (l : Nat) (cs : List (Option Node))
    (scope : ScopeChain) (h : scansChildren k = true) :
    build_scope (.mk k l cs) scope = build_scope_children cs (reserve_target k cs scope) := by
  cases k <;> first
    | (simp [scansChildren] at h; done)
    | (rw [build_scope]
       · rfl
       all_goals first | (intro _ h; cases h) | (intro h; cases h))

theorem build_scope_children_append (pre post : List (Option Node)) (c : Node) :
    ∀ scope, build_scope_children (pre ++ some c :: post) scope =
      build_scope_children post (build_scope c (build_scope_children pre scope)) := by
  induction pre with
  | nil => intro scope; rw [List.nil_append, build_scope_children, build_scope_children]
  | cons ii rest ih =>
    intro scope
    cases ii with
    | none => rw [List.cons_append, build_scope_children, build_scope_children, ih]
    | some n => rw [List.cons_append, build_scope_children, build_scope_children, ih]

/-- What the call on `t` has reserved is reserved when the call on `n` that
made it returns. -/
theorem buildScopeCalls_reserved (name : String) {n t : Node} {scope scope2 : ScopeChain}
    (h : BuildScopeCalls n scope t scope2)
    (ht : (build_scope t scope2).global.Reserved name) :
    (build_scope n scope).global.Reserved name := by
  induction h with
  | self n scope => exact ht
  | child k l pre post c scope t scope2 hk _ ih =>
    rw [build_scope_scans k l _ scope hk, build_scope_children_append]
    exact build_scope_children_reserved name _ _ (ih ht)

theorem minify_children_append (pre post : List (Option Node)) (c : Node) :
    ∀ scope, minify_children (pre ++ some c :: post) scope =
      ((minify_children pre scope).1 ++
          some (minify c (minify_children pre scope).2).1 ::
            (minify_children post (minify c (minify_children pre scope).2).2).1,
        (minify_children post (minify c (minify_children pre scope).2).2).2) := by
  induction pre with
  | nil =>
    intro scope
    simp only [List.nil_append, minify_children, minify_slot]
  | cons ii rest ih =>
    intro scope
    rw [List.cons_append, minify_children]
    simp only [ih]
    rw [minify_children]
    rfl

theorem minify_back_append (pre : List (Option Node)) (c : Node) (scope : ScopeChain) :
    minify_back (pre ++ [some c]) scope =
      (pre ++ [some (minify c scope).1], (minify c scope).2) := by
  induction pre with
  | nil => rw [List.nil_append, minify_back, minify_slot]; rfl
  | cons ii rest ih =>
    cases rest with
    | nil =>
      rw [List.cons_append, List.nil_append, minify_back]
      · rw [List.nil_append] at ih
        rw [ih]
        rfl
      · intro h; cases h
    | cons b rest2 =>
      rw [List.cons_append, List.cons_append, minify_back]
      · rw [List.cons_append] at ih
        rw [ih]
        rfl
      · intro h; cases h

theorem minify_generic (k : NodeKind) (l : Nat) (cs : List (Option Node))
    (scope : ScopeChain) (h : minifiesChildren k = true) :
    minify (.mk k l cs) scope =
      (.mk k l (minify_children cs scope).1, (minify_children cs scope).2) := by
  have h1 : k ≠ .ObjectLiteralProperty := by intro hk; rw [hk] at h; cases h
  have h2 : k ≠ .StaticMemberExpression := by intro hk; rw [hk] at h; cases h
  have h3 : ∀ name, k ≠ .Identifier name := by intro name hk; rw [hk] at h; cases h
  have h4 : k ≠ .FunctionDeclaration := by intro hk; rw [hk] at h; cases h
  have h5 : k ≠ .FunctionExpression := by intro hk; rw [hk] at h; cases h
  rw [minify.eq_7 scope k l cs h1 h2 h3 h4 h5]

/-- What the call on `t` leaves in the global scope, and reservations keep,
is in the global scope when the call on `n` that made it returns. -/
theorem minifyCalls_keeps (Q : Scope → Prop) (hres : ∀ s name, Q s → Q (s.reserve name))
    {n t : Node} {scope scope2 : ScopeChain} {path : List Nat}
    (h : MinifyCalls n scope path t scope2) (ht : Q (minify t scope2).2.global) :
    Q (minify n scope).2.global := by
  induction h with
  | self n scope => exact ht
  | child k l pre post c scope path t scope2 hk _ ih =>
    rw [minify_generic k l _ scope hk, minify_children_append]
    exact (minify_children_keeps Q post (fun c _ => minify_keeps Q hres c) _).2 (ih ht)
  | back l pre c scope path t scope2 _ ih =>
    rw [minify, minify_back_append]
    exact ih ht
  | front l c rest scope path t scope2 _ ih =>
    rw [minify, minify_slot]
    exact ih ht
  | functionName k l c rest scope path t scope2 hk hwe _ ih =>
    rw [minify_function_cons k hk l (some c) rest scope hwe]
    refine (minify_children_keeps Q rest (fun c _ => minify_keeps Q hres c) _).2 ?_
    rw [minify_slot]
    exact ih ht
  | functionChild k l name pre post c scope path t scope2 hk hwe _ ih =>
    rw [minify_function_cons k hk l name _ scope hwe, minify_children_append]
    exact (minify_children_keeps Q post (fun c _ => minify_keeps Q hres c) _).2 (ih ht)

/-- What the scope of a function has in its global scope when the names are
chosen, and reservations keep, is in the global scope when `minify` returns
from the function. -/
theorem minify_function_keeps (Q : Scope → Prop) (hres : ∀ s name, Q s → Q (s.reserve name))
    (k : NodeKind) (hk : k.isFunction = true) (l : Nat) (name : Option Node)
    (rest : List (Option Node)) (scope : ScopeChain)
    (hwe : function_has_with_or_eval_children (name :: rest) = false)
    (h : Q (function_scope (name :: rest) scope).global) :
    Q (minify (.mk k l (name :: rest)) scope).2.global := by
  rw [minify_function_cons k hk l name rest scope hwe]
  have h1 := (minify_slot_keeps Q name (fun c _ => minify_keeps Q hres c)
    { locals := scope.locals, global := (function_scope (name :: rest) scope).global }).2 h
  exact (minify_children_keeps Q rest (fun c _ => minify_keeps Q hres c) _).2 h1

theorem function_scope_global (cs : List (Option Node)) (scope : ScopeChain) (body : Node)
    (hb : cs.get? 2 = some (some body)) :
    (function_scope cs scope).global = (build_scope body (args_scope cs scope)).global := by
  rw [function_scope_eq, (rename_vars_global _).1]
  unfold child_scope args_scope
  simp only [hb] <;> rfl

theorem reserved_rename_vars {s : Scope} {name : String} (hi : s.IsIdentity)
    (h : s.Reserved name) : (GlobalScope.rename_vars s).Reserved name := by
  unfold GlobalScope.rename_vars
  have hgen : ∀ (L : List (String × String)) (t : Scope), (∀ e ∈ L, e.2 = e.1) →
      t.Reserved name → (L.foldl (fun s e => s.rename_internal e.1 e.2) t).Reserved name := by
    intro L
    induction L with
    | nil => intro t _ ht; exact ht
    | cons e rest ih =>
      intro t hL ht
      rw [List.foldl_cons]
      refine ih _ (fun x hx => hL x (List.mem_cons_of_mem _ hx)) ?_
      rw [hL e (List.mem_cons_self _ _)]
      exact reserved_reserve ht _
  exact hgen _ s hi h

/-- The call of `build_scope` on a `for...in`, or on an assignment in a scope
that is not the global one, whose first child is an identifier the chain
does not declare, reserves the name. -/
theorem build_scope_reserves (k : NodeKind) (l l2 : Nat) (name : String)
    (cs2 rest : List (Option Node)) (scope : ScopeChain)
    (hk : k = .ForIn ∨ ((∃ op, k = .Assignment op) ∧ scope.is_global = false))
    (hd : scope.declared name = false) :
    (build_scope (.mk k l (some (.mk (.Identifier name) l2 cs2) :: rest)) scope).global.Reserved
      name := by
  rcases hk with hk | ⟨⟨op, hk⟩, hg⟩
  · rw [hk, build_scope_forIn l l2 name cs2 rest scope hd]
    exact build_scope_children_reserved name _ _ (reserved_self _ _)
  · rw [hk, build_scope_assignment op l l2 name cs2 rest scope hd hg]
    exact build_scope_children_reserved name _ _ (reserved_self _ _)

/-- What a call of `build_scope` made during the pass has reserved is
reserved in the global scope when the pass has finished. -/
theorem scans_reserved (root : Node) (name : String) {t : Node} {scope : ScopeChain}
    (h : Scans root t scope) (ht : (build_scope t scope).global.Reserved name) :
    (finalGlobal root).Reserved name := by
  have hres : ∀ (s : Scope) (x : String), s.Reserved name → (s.reserve x).Reserved name :=
    fun s x hs => reserved_reserve hs x
  cases h with
  | top _ _ hb =>
    have h1 := buildScopeCalls_reserved name hb ht
    have h2 : (globalScope root).Reserved name :=
      reserved_rename_vars (globalChain_spec root).2 h1
    exact (minify_keeps (fun s => s.Reserved name) hres root _).2 h2
  | function path k l cs body fscope _ _ hm hk hwe hbody hb =>
    have h1 := buildScopeCalls_reserved name hb ht
    rw [← function_scope_global cs fscope body hbody] at h1
    cases cs with
    | nil => cases hbody
    | cons fname rest =>
      exact minifyCalls_keeps (fun s => s.Reserved name) hres hm
        (minify_function_keeps (fun s => s.Reserved name) hres k hk l fname rest fscope hwe h1)

/-- In `function f()\x7btry\x7bx=1;\x7dcatch(e)\x7b\x7d\x7d` the assignment stands in a
`try` block, at which `build_scope` returns: `x` is not reserved. -/
theorem try_block_assignment_not_reserved :
    rename_t.find (VariableRenaming.finalGlobal Example.functionTryAssign)._replacement "x" =
      none := by
  with_unfolding_all rfl

/-- C22, amended: a call of `build_scope` that the pass makes on a `for...in`
statement, or on an assignment in a scope that is not the global one (inside
a function), whose first child is an identifier that the scope chain handed
to the call does not declare, reserves the name in the global scope for the
rest of the pass: when `process(root)` has finished, the global scope maps
the name to itself and has it among its new names. The calls the pass makes
are those of `Scans`: from the root and from the body of every function that
`minify` enters, down to, and not into, function expressions, function
declarations, `var` declarations and `try` statements. -/
theorem undeclared_target_reserved (root : Node) (k : NodeKind) (l l2 : Nat) (name : String)
    (cs2 rest : List (Option Node)) (scope : ScopeChain)
    (hs : VariableRenaming.Scans root
      (.mk k l (some (.mk (.Identifier name) l2 cs2) :: rest)) scope)
    (hk : k = .ForIn ∨ ((∃ op, k = .Assignment op) ∧ scope.is_global = false))
    (hd : scope.declared name = false) :
    (VariableRenaming.finalGlobal root).Reserved name :=
  scans_reserved root name hs (build_scope_reserves k l l2 name cs2 rest scope hk hd)

/-- The theorem `undeclared_target_reserved` at the program
`function f()\x7bx=1;\x7d`: `minify` comes to `f` at the position `[0, 0]`,
the scan of the body of `f` comes to the assignment `x=1` with the chain of
the empty scope of `f` over the global scope, which declares `f` only, and
`x` is reserved when the pass has finished. -/
theorem undeclared_target_reserved_witness :
    VariableRenaming.Scans (Example.program [Example.functionAssign])
      (.mk (.Assignment .ASSIGN) 1
        (some (.mk (.Identifier "x") 1 []) :: [some (Example.numeric 1)]))
      { locals := [Scope.empty],
        global := VariableRenaming.globalScope (Example.program [Example.functionAssign]) } ∧
    ScopeChain.declared
      { locals := [Scope.empty],
        global := VariableRenaming.globalScope (Example.program [Example.functionAssign]) }
      "x" = false ∧
    (VariableRenaming.finalGlobal (Example.program [Example.functionAssign])).Reserved "x" :=
  have hs : VariableRenaming.Scans (Example.program [Example.functionAssign])
      (.mk (.Assignment .ASSIGN) 1
        (some (.mk (.Identifier "x") 1 []) :: [some (Example.numeric 1)]))
      { locals := [Scope.empty],
        global := VariableRenaming.globalScope (Example.program [Example.functionAssign]) } :=
    Scans.function [0, 0] .FunctionDeclaration 1
      [some (Example.identifier "f"), some (.mk .ArgList 1 []),
        some (Example.block [Example.assign (Example.identifier "x") (Example.numeric 1)])]
      (Example.block [Example.assign (Example.identifier "x") (Example.numeric 1)]) _ _ _
      (MinifyCalls.child .Program 1 [] [] _ _ _ _ _ rfl
        (MinifyCalls.child .StatementList 1 [] [] _ _ _ _ _ rfl (MinifyCalls.self _ _)))
      rfl rfl rfl
      (BuildScopeCalls.child .StatementList 1 [] [] _ _ _ _ rfl (BuildScopeCalls.self _ _))
  ⟨hs, by with_unfolding_all rfl,
    undeclared_target_reserved _ (.Assignment .ASSIGN) 1 1 "x" [] [some (Example.numeric 1)] _ hs
      (Or.inr ⟨⟨.ASSIGN, rfl⟩, rfl⟩) (by with_unfolding_all rfl)⟩

end fbjs

open fbjs
namespace fbjs

open VariableRenaming

/-! ## Where the calls of `minify` leave their results, and the scopes they are handed -/

end fbjs

open fbjs
namespace fbjs

open VariableRenaming

/-! ## The name an identifier gets -/

end fbjs

open fbjs
namespace fbjs

open VariableRenaming

/-- In `function f(p)\x7bfunction g()\x7ba=1;\x7d\x7d` the name `a` is reserved in the
global scope when `minify` enters `g`, after the names of `f` were chosen:
`g` has got the new name `a`, and the program is renamed to the tree of
`function f(b)\x7bfunction a()\x7ba=1;\x7d\x7d`. -/
theorem late_reservation_is_captured :
    VariableRenaming.process Example.nestedAssign =
      Example.program [Example.function "f" ["b"]
        [Example.function "a" [] [Example.assign (Example.identifier "a") (Example.numeric 1)]]] := by
  with_unfolding_all rfl

end fbjs

open fbjs
namespace fbjs

/-! ## Ropes that are not longer -/

theorem startsBlock_append_of_ne (a t : String) (h : a ≠ "") :
    startsBlock (a ++ t) = startsBlock a := by
  unfold startsBlock
  have hd : a.data ≠ [] := fun hd => h (String.ext hd)
  rw [String.data_append]
  cases hdata : a.data with
  | nil => exact absurd hdata hd
  | cons c rest => rfl

theorem length_eq_zero_iff (a : String) : a.length = 0 ↔ a = "" := by
  constructor
  · intro h
    apply String.ext
    exact List.length_eq_zero.mp h
  · intro h; rw [h]; rfl

theorem notLonger_refl (a : String) : NotLonger a a :=
  ⟨le_refl _, fun _ _ => rfl⟩

theorem NotLonger.append {a1 a b1 b : String} (ha : NotLonger a1 a) (hb : NotLonger b1 b) :
    NotLonger (a1 ++ b1) (a ++ b) := by
  refine ⟨by rw [String.length_append, String.length_append]; exact Nat.add_le_add ha.1 hb.1,
    fun hlen t => ?_⟩
  rw [String.length_append, String.length_append] at hlen
  have h1 : a1.length = a.length := by have := ha.1; have := hb.1; omega
  have h2 : b1.length = b.length := by have := ha.1; have := hb.1; omega
  rw [String.append_assoc, String.append_assoc, ha.2 h1 (b1 ++ t)]
  by_cases hz : a = ""
  · rw [hz, String.empty_append, String.empty_append]
    exact hb.2 h2 t
  · rw [startsBlock_append_of_ne a _ hz, startsBlock_append_of_ne a _ hz]

/-- After a text that is not empty only the lengths count. -/
theorem NotLonger.after (x : String) (hx : x ≠ "") {b1 b : String}
    (h : b1.length ≤ b.length) : NotLonger (x ++ b1) (x ++ b) := by
  refine ⟨by rw [String.length_append, String.length_append]; omega, fun _ t => ?_⟩
  rw [String.append_assoc, String.append_assoc, startsBlock_append_of_ne x _ hx,
    startsBlock_append_of_ne x _ hx]

theorem NotLonger.of_eq {a b : String} (h : a = b) : NotLonger a b := by
  rw [h]; exact notLonger_refl b

theorem NotLonger.length {a b : String} (h : NotLonger a b) : a.length ≤ b.length := h.1

/-- Two ropes that start with the same text that is not empty. -/
theorem NotLonger.of_prefix (x : String) (hx : x ≠ "") {a1 a : String}
    (h1 : ∃ r, a1 = x ++ r) (h2 : ∃ r, a = x ++ r) (h : a1.length ≤ a.length) :
    NotLonger a1 a := by
  obtain ⟨r1, rfl⟩ := h1
  obtain ⟨r, rfl⟩ := h2
  refine NotLonger.after x hx ?_
  rw [String.length_append, String.length_append] at h
  omega

end fbjs

open fbjs
namespace fbjs

/-! ## The slots of two child lists -/

theorem ropesList_eq_map (g : Rat → String) :
    ∀ cs : List (Option Node), Node.ropesList g cs = cs.map (rendered g) := by
  intro cs
  induction cs with
  | nil => rfl
  | cons c rest ih =>
    cases c with
    | none => rw [Node.ropesList, ih]; rfl
    | some n => rw [Node.ropesList, ih]; rfl

theorem slotLE_get {A B : List RenderedChild} (h : List.Forall₂ ChildLE A B) :
    ∀ i, SlotLE (A.get? i) (B.get? i) := by
  induction h with
  | nil => intro i; exact trivial
  | cons hab _ ih =>
    intro i
    cases i with
    | zero => exact hab
    | succ j => exact ih j

theorem slotLE_head {A B : List RenderedChild} (h : List.Forall₂ ChildLE A B) :
    SlotLE A.head? B.head? := by
  cases h with
  | nil => exact trivial
  | cons hab _ => exact hab

theorem slotLE_last {A B : List RenderedChild} (h : List.Forall₂ ChildLE A B) :
    SlotLE A.getLast? B.getLast? := by
  induction h with
  | nil => exact trivial
  | cons hab hrest ih =>
    rename_i a b A2 B2
    cases hrest with
    | nil => exact hab
    | cons hab2 hrest2 =>
      rw [List.getLast?_cons_cons, List.getLast?_cons_cons]
      exact ih

theorem forall₂_length_eq {A B : List RenderedChild} (h : List.Forall₂ ChildLE A B) :
    A.length = B.length := h.length_eq

theorem SlotLE.render {a b : Option RenderedChild} (h : SlotLE a b) :
    NotLonger (childRender a) (childRender b) := by
  cases a <;> cases b
  · exact notLonger_refl _
  · exact False.elim h
  · exact False.elim h
  · exact ChildLE.render h

theorem SlotLE.block {a b : Option RenderedChild} (h : SlotLE a b) (must : Bool) :
    NotLonger (childRenderBlock a must) (childRenderBlock b must) := by
  cases a <;> cases b
  · exact notLonger_refl _
  · exact False.elim h
  · exact False.elim h
  · exact ChildLE.block h must

theorem SlotLE.empty {a b : Option RenderedChild} (h : SlotLE a b)
    (hb : childEmpty b = true) : childEmpty a = true := by
  cases a <;> cases b
  · rfl
  · exact False.elim h
  · exact False.elim h
  · exact ChildLE.empty h hb

theorem SlotLE.null {a b : Option RenderedChild} (h : SlotLE a b) :
    childNull a = childNull b := by
  cases a <;> cases b
  · rfl
  · exact False.elim h
  · exact False.elim h
  · rename_i x y
    have hn := ChildLE.null h
    cases x <;> cases y
    · rfl
    · exact absurd (hn.mp rfl) (by simp)
    · exact absurd (hn.mpr rfl) (by simp)
    · rfl

/-- The slots of two related lists are null together, and missing together. -/
theorem SlotLE.cases {a b : Option RenderedChild} (h : SlotLE a b) :
    (a = none ∧ b = none) ∨ (a = some none ∧ b = some none) ∨
      ∃ n r m s, a = some (some (n, r)) ∧ b = some (some (m, s)) ∧
        ChildLE (some (n, r)) (some (m, s)) := by
  cases a <;> cases b
  · exact Or.inl ⟨rfl, rfl⟩
  · exact False.elim h
  · exact False.elim h
  · rename_i x y
    have hn := ChildLE.null h
    cases x <;> cases y
    · exact Or.inr (Or.inl ⟨rfl, rfl⟩)
    · exact absurd (hn.mp rfl) (by simp)
    · exact absurd (hn.mpr rfl) (by simp)
    · rename_i p q
      exact Or.inr (Or.inr ⟨p.1, p.2, q.1, q.2, rfl, rfl, h⟩)

theorem implode_cons_cons (glue : String) (a b : RenderedChild) (rest : List RenderedChild) :
    renderImplodeChildren glue (a :: b :: rest) =
      childRender (some a) ++ glue ++ renderImplodeChildren glue (b :: rest) := by
  rw [renderImplodeChildren]
  intro h; cases h

theorem implode_le (glue : String) :
    ∀ {A B : List RenderedChild}, List.Forall₂ ChildLE A B →
      NotLonger (renderImplodeChildren glue A) (renderImplodeChildren glue B) := by
  intro A
  induction A with
  | nil => intro B h; cases h; exact notLonger_refl _
  | cons a A2 ih =>
    intro B h
    cases h with
    | cons hab hrest =>
      rename_i b B2
      cases hrest with
      | nil => exact ChildLE.render hab
      | cons hab2 hrest2 =>
        rename_i a2 A3 b2 B3
        rw [implode_cons_cons, implode_cons_cons]
        exact NotLonger.append (NotLonger.append (ChildLE.render hab) (notLonger_refl _))
          (ih (List.Forall₂.cons hab2 hrest2))

theorem foldl_append_string (l : List String) :
    ∀ init : String, l.foldl (fun r s => r ++ s) init = init ++ l.foldl (fun r s => r ++ s) "" := by
  induction l with
  | nil => intro init; simp
  | cons a rest ih =>
    intro init
    rw [List.foldl_cons, List.foldl_cons, ih (init ++ a), ih ("" ++ a), String.empty_append,
      String.append_assoc]

theorem join_cons_eq (a : String) (l : List String) :
    String.join (a :: l) = a ++ String.join l := by
  unfold String.join
  rw [List.foldl_cons, foldl_append_string, String.empty_append]

theorem join_le {A B : List String} (h : List.Forall₂ NotLonger A B) :
    NotLonger (String.join A) (String.join B) := by
  induction h with
  | nil => exact notLonger_refl _
  | cons hab _ ih =>
    rw [join_cons_eq, join_cons_eq]
    exact NotLonger.append hab ih

theorem statementList_le {A B : List RenderedChild} (h : List.Forall₂ ChildLE A B) :
    NotLonger
      (String.join (A.map fun c => match c with | some (_, r) => r.renderStatement | none => ""))
      (String.join (B.map fun c => match c with | some (_, r) => r.renderStatement | none => ""))
    := by
  refine join_le ?_
  induction h with
  | nil => exact List.Forall₂.nil
  | cons hab _ ih => exact List.Forall₂.cons (ChildLE.statement hab) ih

end fbjs

open fbjs
namespace fbjs

/-! ## The render methods on related children -/

theorem startsBlock_iff (block : String) :
    (block.data.head? ≠ some '\x7b' ∧ block.data.head? ≠ some ' ') ↔ startsBlock block = false := by
  unfold startsBlock
  simp only [Bool.or_eq_false_iff, beq_eq_false_iff_ne, ne_eq]

theorem NodeIf_render_else (cs : List RenderedChild) (e : Node) (ropes : Ropes)
    (h : cs.get? 2 = some (some (e, ropes))) :
    NodeIf.render cs =
      "if(" ++ (childRender cs.head? ++ ")" ++ childRenderBlock (cs.get? 1) true ++ "else" ++
        elseRope (some (e, ropes))) := by
  unfold NodeIf.render elseRope
  simp only [h]
  by_cases hk : e.kind = .If
  · rw [if_pos hk, if_pos hk]
    simp only [String.append_assoc]
  · rw [if_neg hk, if_neg hk]
    by_cases hs : startsBlock (ropes.renderBlock false) = true
    · have hs2 : ¬ ((ropes.renderBlock false).data.head? ≠ some '\x7b' ∧
          (ropes.renderBlock false).data.head? ≠ some ' ') := by
        rw [startsBlock_iff, hs]; simp
      rw [if_neg hs2, if_pos hs]
      simp only [String.append_assoc]
    · have hs3 : startsBlock (ropes.renderBlock false) = false := by
        cases hv : startsBlock (ropes.renderBlock false)
        · rfl
        · exact absurd hv hs
      have hs2 : (ropes.renderBlock false).data.head? ≠ some '\x7b' ∧
          (ropes.renderBlock false).data.head? ≠ some ' ' := (startsBlock_iff _).mpr hs3
      rw [if_pos hs2, if_neg hs]
      simp only [String.append_assoc]

theorem NodeIf_render_none (cs : List RenderedChild)
    (h : cs.get? 2 = none ∨ cs.get? 2 = some none) :
    NodeIf.render cs =
      "if(" ++ (childRender cs.head? ++ ")" ++
        childRenderBlock (cs.get? 1) (childEmpty (cs.get? 1))) := by
  unfold NodeIf.render
  rcases h with h | h <;> simp only [h, String.append_assoc]

theorem elseRope_length (e : Node) (r : Ropes) :
    (elseRope (some (e, r))).length =
      if e.kind = .If then r.render.length + 1
      else if startsBlock (r.renderBlock false) = true then (r.renderBlock false).length
      else (r.renderBlock false).length + 1 := by
  have h1 : " ".length = 1 := rfl
  unfold elseRope
  simp only []
  by_cases hk : e.kind = .If
  · rw [if_pos hk, if_pos hk, String.length_append, h1, Nat.add_comm]
  · rw [if_neg hk, if_neg hk]
    by_cases hs : startsBlock (r.renderBlock false) = true
    · rw [if_pos hs, if_pos hs]
    · rw [if_neg hs, if_neg hs, String.length_append, h1, Nat.add_comm]

theorem elseRope_le {a b : Node × Ropes} (h : ChildLE (some a) (some b)) :
    (elseRope (some a)).length ≤ (elseRope (some b)).length := by
  obtain ⟨e1, r1⟩ := a
  obtain ⟨e2, r2⟩ := b
  have hR := (ChildLE.render h).1
  have hB := ChildLE.block h false
  have hN := ChildLE.ifNew h
  have hO := ChildLE.ifOld h
  simp only [childRender, childRenderBlock, childIsIf, decide_eq_true_eq,
    decide_eq_false_iff_not] at hR hB hN hO
  rw [elseRope_length, elseRope_length]
  by_cases h1 : e1.kind = .If <;> by_cases h2 : e2.kind = .If
  · rw [if_pos h1, if_pos h2]
    omega
  · have := hN h1 h2
    rw [if_pos h1, if_neg h2]
    split <;> omega
  · have := hO h1 h2
    rw [if_neg h1, if_pos h2]
    split <;> omega
  · rw [if_neg h1, if_neg h2]
    have hle := hB.1
    by_cases hlen : (r1.renderBlock false).length = (r2.renderBlock false).length
    · have hs := hB.2 hlen ""
      rw [String.append_empty, String.append_empty] at hs
      rw [hs, hlen]
    · split <;> split <;> omega

theorem SlotLE.braces {a b : Option RenderedChild} (h : SlotLE a b) :
    (childRenderBlock a (childEmpty a)).length ≤ (childRenderBlock b (childEmpty b)).length := by
  rcases SlotLE.cases h with ⟨ha, hb⟩ | ⟨ha, hb⟩ | ⟨n, r, m, s, ha, hb, hc⟩
  · rw [ha, hb]
  · rw [ha, hb]
  · rw [ha, hb]
    cases h1 : childEmpty (some (some (n, r))) <;> cases h2 : childEmpty (some (some (m, s)))
    · exact (ChildLE.block hc false).1
    · rw [ChildLE.empty hc h2] at h1; cases h1
    · exact ChildLE.braces hc h1 h2
    · exact (ChildLE.block hc true).1

theorem nodeIf_le {A B : List RenderedChild} (h : List.Forall₂ ChildLE A B) :
    NotLonger (NodeIf.render A) (NodeIf.render B) := by
  have h0 := (SlotLE.render (slotLE_head h)).1
  have h1t := (SlotLE.block (slotLE_get h 1) true).1
  have h1b := SlotLE.braces (slotLE_get h 1)
  rcases SlotLE.cases (slotLE_get h 2) with ⟨ha, hb⟩ | ⟨ha, hb⟩ | ⟨n, r, m, s, ha, hb, hc⟩
  · rw [NodeIf_render_none A (Or.inl ha), NodeIf_render_none B (Or.inl hb)]
    refine NotLonger.after _ (by decide) ?_
    simp only [String.length_append]
    omega
  · rw [NodeIf_render_none A (Or.inr ha), NodeIf_render_none B (Or.inr hb)]
    refine NotLonger.after _ (by decide) ?_
    simp only [String.length_append]
    omega
  · rw [NodeIf_render_else A n r ha, NodeIf_render_else B m s hb]
    refine NotLonger.after _ (by decide) ?_
    have := elseRope_le hc
    simp only [String.length_append]
    omega

theorem nodeTry_le {A B : List RenderedChild} (h : List.Forall₂ ChildLE A B) :
    NotLonger (NodeTry.render A) (NodeTry.render B) := by
  have h0 := (SlotLE.block (slotLE_head h) true).1
  have h2 := (SlotLE.block (slotLE_get h 2) true).1
  have e1 : ∀ cs : List RenderedChild, NodeTry.render cs =
      "try" ++ (childRenderBlock cs.head? true ++
        (match cs.get? 1 with
          | some (some (_, r)) => "catch(" ++ r.render ++ ")" ++ childRenderBlock (cs.get? 2) true
          | _ => "") ++
        (match cs.get? 3 with
          | some (some (_, r)) => "finally" ++ r.renderBlock true
          | _ => "")) := by
    intro cs
    unfold NodeTry.render
    cases cs.get? 1 with
    | none => cases cs.get? 3 with
      | none => simp
      | some x => cases x <;> simp [String.append_assoc]
    | some y =>
      cases y with
      | none => cases cs.get? 3 with
        | none => simp
        | some x => cases x <;> simp [String.append_assoc]
      | some p => cases cs.get? 3 with
        | none => simp [String.append_assoc]
        | some x => cases x <;> simp [String.append_assoc]
  rw [e1 A, e1 B]
  refine NotLonger.after _ (by decide) ?_
  have hc : (match A.get? 1 with
      | some (some (_, r)) => "catch(" ++ r.render ++ ")" ++ childRenderBlock (A.get? 2) true
      | _ => "").length ≤ (match B.get? 1 with
      | some (some (_, r)) => "catch(" ++ r.render ++ ")" ++ childRenderBlock (B.get? 2) true
      | _ => "").length := by
    rcases SlotLE.cases (slotLE_get h 1) with ⟨ha, hb⟩ | ⟨ha, hb⟩ | ⟨n, r, m, s, ha, hb, hc⟩
    · rw [ha, hb]
    · rw [ha, hb]
    · rw [ha, hb]
      have := (ChildLE.render hc).1
      simp only [childRender] at this
      simp only [String.length_append]
      omega
  have hf : (match A.get? 3 with
      | some (some (_, r)) => "finally" ++ r.renderBlock true
      | _ => "").length ≤ (match B.get? 3 with
      | some (some (_, r)) => "finally" ++ r.renderBlock true
      | _ => "").length := by
    rcases SlotLE.cases (slotLE_get h 3) with ⟨ha, hb⟩ | ⟨ha, hb⟩ | ⟨n, r, m, s, ha, hb, hc⟩
    · rw [ha, hb]
    · rw [ha, hb]
    · rw [ha, hb]
      have := (ChildLE.block hc true).1
      simp only [childRenderBlock] at this
      simp only [String.length_append]
      omega
  simp only [String.length_append]
  omega

end fbjs

open fbjs
namespace fbjs

theorem NotLonger.of_head (c : Char) {a1 a : String} (h1 : a1.data.head? = some c)
    (h2 : a.data.head? = some c) (h : a1.length ≤ a.length) : NotLonger a1 a := by
  refine ⟨h, fun _ t => ?_⟩
  have e1 : a1 ≠ "" := by intro he; rw [he] at h1; cases h1
  have e2 : a ≠ "" := by intro he; rw [he] at h2; cases h2
  rw [startsBlock_append_of_ne a1 t e1, startsBlock_append_of_ne a t e2]
  unfold startsBlock
  rw [h1, h2]

theorem head_append_text (x r : String) (c : Char) (h : x.data.head? = some c) :
    (x ++ r).data.head? = some c := by
  rw [String.data_append]
  cases hd : x.data with
  | nil => rw [hd] at h; cases h
  | cons a rest => rw [hd] at h; exact h

theorem xmlElement_head (cs : List RenderedChild) :
    (NodeXMLElement.render cs).data.head? = some '<' := by
  unfold NodeXMLElement.render
  split
  · simp only []
    split <;> split <;> first
      | (simp only [String.append_assoc]; exact head_append_text "<" _ '<' rfl)
      | (split <;> (simp only [String.append_assoc]; exact head_append_text "<" _ '<' rfl))
  · simp only [String.append_assoc]
    exact head_append_text "<" _ '<' rfl

theorem SlotLE.emptyPart {a b : Option RenderedChild} (h : SlotLE a b) (x : String) :
    (if !childEmpty a then x ++ childRender a else "").length ≤
      (if !childEmpty b then x ++ childRender b else "").length := by
  have hr := (SlotLE.render h).1
  cases h1 : childEmpty a <;> cases h2 : childEmpty b
  · simp only [Bool.not_false, if_true, String.length_append]; omega
  · rw [SlotLE.empty h h2] at h1; cases h1
  · simp
  · simp

theorem xmlElement_length (cs : List RenderedChild) :
    (NodeXMLElement.render cs).length =
      match cs.head? with
      | some (some (_, r)) =>
        1 + r.render.length +
          (if !childEmpty (cs.get? 1) then " " ++ childRender (cs.get? 1) else "").length +
          (if !childEmpty (cs.get? 2) then
            (childRender (cs.get? 2)).length + (childRender (cs.get? 3)).length + 4
          else
            match cs.get? 3 with
            | some (some (_, r3)) => r3.render.length + 3
            | _ => 2)
      | _ => (childRender (cs.get? 2)).length + 5 := by
  have e1 : "<".length = 1 := rfl
  have e2 : ">".length = 1 := rfl
  have e3 : "</".length = 2 := rfl
  have e4 : "/>".length = 2 := rfl
  have e5 : "</>".length = 3 := rfl
  have e6 : " ".length = 1 := rfl
  have key : ∀ (x : String) (b : Bool) (y : String),
      (if (!b) = true then x ++ " " ++ y else x).length =
        x.length + (if (!b) = true then " " ++ y else "").length := by
    intro x b y
    cases b <;> simp [String.length_append]
    omega
  unfold NodeXMLElement.render
  cases hh : cs.head? with
  | none => simp only [String.length_append, e1, e2, e5]; omega
  | some x =>
    cases x with
    | none => simp only [String.length_append, e1, e2, e5]; omega
    | some p =>
      obtain ⟨n, r⟩ := p
      simp only []
      cases h2 : childEmpty (cs.get? 2)
      · simp only [Bool.not_false, if_true, String.length_append, key, e1, e2, e3]
        omega
      · simp only [Bool.not_true, if_false, Bool.false_eq_true]
        cases h3 : cs.get? 3 with
        | none =>
          simp only [String.length_append, key, e1, e4]
        | some y =>
          cases y with
          | none => simp only [String.length_append, key, e1, e4]
          | some q =>
            simp only [String.length_append, key, e1, e2, e3]
            omega

theorem xmlElement_le {A B : List RenderedChild} (h : List.Forall₂ ChildLE A B) :
    NotLonger (NodeXMLElement.render A) (NodeXMLElement.render B) := by
  refine NotLonger.of_head '<' (xmlElement_head A) (xmlElement_head B) ?_
  rw [xmlElement_length, xmlElement_length]
  have h1 := SlotLE.emptyPart (slotLE_get h 1) " "
  have h2 := (SlotLE.render (slotLE_get h 2)).1
  have h3 := (SlotLE.render (slotLE_get h 3)).1
  have he2 := SlotLE.empty (slotLE_get h 2)
  rcases SlotLE.cases (slotLE_head h) with ⟨ha, hb⟩ | ⟨ha, hb⟩ | ⟨n, r, m, s, ha, hb, hc⟩
  · rw [ha, hb]; simp only []; omega
  · rw [ha, hb]; simp only []; omega
  · rw [ha, hb]
    simp only []
    have h0 := (ChildLE.render hc).1
    simp only [childRender] at h0
    have hpart : (if !childEmpty (A.get? 2) then
          (childRender (A.get? 2)).length + (childRender (A.get? 3)).length + 4
        else
          match A.get? 3 with
          | some (some (_, r3)) => r3.render.length + 3
          | _ => 2) ≤
        (if !childEmpty (B.get? 2) then
          (childRender (B.get? 2)).length + (childRender (B.get? 3)).length + 4
        else
          match B.get? 3 with
          | some (some (_, r3)) => r3.render.length + 3
          | _ => 2) := by
      cases e1 : childEmpty (A.get? 2) <;> cases e2 : childEmpty (B.get? 2)
      · simp only [Bool.not_false, if_true]; omega
      · rw [he2 e2] at e1; cases e1
      · simp only [Bool.not_true, Bool.not_false, if_true, if_false, Bool.false_eq_true]
        rcases SlotLE.cases (slotLE_get h 3) with ⟨ha3, hb3⟩ | ⟨ha3, hb3⟩ | ⟨n3, r3, m3, s3, ha3, hb3, hc3⟩
        · rw [ha3]; simp only []; omega
        · rw [ha3]; simp only []; omega
        · rw [ha3, hb3]
          rw [ha3, hb3] at h3
          simp only [childRender] at h3 ⊢
          omega
      · simp only [Bool.not_true, if_false, Bool.false_eq_true]
        rcases SlotLE.cases (slotLE_get h 3) with ⟨ha3, hb3⟩ | ⟨ha3, hb3⟩ | ⟨n3, r3, m3, s3, ha3, hb3, hc3⟩
        · rw [ha3, hb3]
        · rw [ha3, hb3]
        · rw [ha3, hb3]
          rw [ha3, hb3] at h3
          simp only [childRender] at h3 ⊢
          omega
    omega

end fbjs

open fbjs
namespace fbjs

theorem unary_text_ne (op : node_unary_t) : op.text.1 ≠ "" := by
  cases op <;> decide

theorem unary_le (op : node_unary_t) {A B : List RenderedChild}
    (h : List.Forall₂ ChildLE A B) :
    NotLonger (renderKind g (.Unary op) A) (renderKind g (.Unary op) B) := by
  have e : ∀ cs : List RenderedChild, renderKind g (.Unary op) cs =
      op.text.1 ++ ((if op.text.2 && !(match cs.head? with
          | some c => childIsParenthetical c
          | none => false) then " " else "") ++ childRender cs.head?) := by
    intro cs
    cases hh : cs.head? with
    | none => simp only [renderKind, hh, String.append_assoc]
    | some x =>
      cases x with
      | none => simp only [renderKind, hh, String.append_assoc, childIsParenthetical]
      | some p => simp only [renderKind, hh, String.append_assoc, childIsParenthetical]
  rw [e A, e B]
  refine NotLonger.after _ (unary_text_ne op) ?_
  have hr := (SlotLE.render (slotLE_head h)).1
  have sp : " ".length = 1 := rfl
  have em : "".length = 0 := rfl
  rcases SlotLE.cases (slotLE_head h) with ⟨ha, hb⟩ | ⟨ha, hb⟩ | ⟨n, r, m, s, ha, hb, hc⟩
  · rw [ha, hb]
  · rw [ha, hb]
  · rw [ha, hb] at hr ⊢
    simp only [String.length_append]
    have hp := ChildLE.paren hc
    rcases Bool.eq_false_or_eq_true (childIsParenthetical (some (m, s))) with h2 | h2
    · simp only [h2, hp h2, Bool.not_true, Bool.and_false, if_false, Bool.false_eq_true, em]
      omega
    · rcases Bool.eq_false_or_eq_true (childIsParenthetical (some (n, r))) with h1 | h1 <;>
        rcases Bool.eq_false_or_eq_true op.text.2 with h3 | h3 <;>
        simp only [h1, h2, h3, Bool.false_and, Bool.true_and, Bool.not_false, Bool.not_true,
          Bool.and_false, Bool.and_true, Bool.and_self, if_true, if_false, Bool.false_eq_true,
          sp, em] <;> omega

theorem statementWith_le (st : node_statement_with_expression_t) {A B : List RenderedChild}
    (h : List.Forall₂ ChildLE A B) :
    NotLonger (renderKind g (.StatementWithExpression st) A)
      (renderKind g (.StatementWithExpression st) B) := by
  have e : ∀ cs : List RenderedChild, renderKind g (.StatementWithExpression st) cs =
      (match st with
        | .THROW => "throw" | .RETURN => "return" | .CONTINUE => "continue"
        | .BREAK => "break") ++
      (match cs.getLast? with
        | some (some _) => " " ++ childRender cs.head?
        | _ => "") := by
    intro cs
    cases hl : cs.getLast? with
    | none => simp only [renderKind, hl, String.append_empty] <;> (cases st <;> rfl)
    | some x =>
      cases x with
      | none => simp only [renderKind, hl, String.append_empty] <;> (cases st <;> rfl)
      | some p => simp only [renderKind, hl, String.append_assoc] <;> (cases st <;> rfl)
  rw [e A, e B]
  refine NotLonger.after _ (by cases st <;> decide) ?_
  have hr := (SlotLE.render (slotLE_head h)).1
  rcases SlotLE.cases (slotLE_last h) with ⟨ha, hb⟩ | ⟨ha, hb⟩ | ⟨n, r, m, s, ha, hb, hc⟩
  · rw [ha, hb]
  · rw [ha, hb]
  · rw [ha, hb]
    simp only [String.length_append]
    omega

theorem functionExpression_le {A B : List RenderedChild} (h : List.Forall₂ ChildLE A B) :
    NotLonger (renderKind g .FunctionExpression A) (renderKind g .FunctionExpression B) := by
  have e : ∀ cs : List RenderedChild, renderKind g .FunctionExpression cs =
      "function" ++ ((match cs.head? with
        | some (some (_, r)) => " " ++ r.render
        | _ => "") ++ childRender (cs.get? 1) ++ childRenderBlock (cs.get? 2) true) := by
    intro cs
    cases hh : cs.head? with
    | none => simp only [renderKind, hh, String.append_assoc]
    | some x =>
      cases x with
      | none => simp only [renderKind, hh, String.append_assoc]
      | some p => simp only [renderKind, hh, String.append_assoc]
  rw [e A, e B]
  refine NotLonger.after _ (by decide) ?_
  have h1 := (SlotLE.render (slotLE_get h 1)).1
  have h2 := (SlotLE.block (slotLE_get h 2) true).1
  have hr := (SlotLE.render (slotLE_head h)).1
  simp only [String.length_append]
  rcases SlotLE.cases (slotLE_head h) with ⟨ha, hb⟩ | ⟨ha, hb⟩ | ⟨n, r, m, s, ha, hb, hc⟩
  · rw [ha, hb]; omega
  · rw [ha, hb]; omega
  · rw [ha, hb] at hr ⊢
    simp only [childRender] at hr
    simp only [String.length_append]
    omega

theorem xmlAttribute_le {A B : List RenderedChild} (h : List.Forall₂ ChildLE A B) :
    NotLonger (renderKind g .XMLAttribute A) (renderKind g .XMLAttribute B) := by
  have e : ∀ cs : List RenderedChild, renderKind g .XMLAttribute cs =
      childRender cs.head? ++ ("=" ++
        (if (match cs.getLast? with
            | some c => childIsTextData c
            | none => false) then "\"" ++ childRender cs.getLast? ++ "\""
          else childRender cs.getLast?)) := by
    intro cs
    cases hl : cs.getLast? with
    | none => simp only [renderKind, hl, String.append_assoc, if_false, Bool.false_eq_true]
    | some c =>
      cases c with
      | none =>
        simp only [renderKind, hl, childIsTextData, String.append_assoc, if_false,
          Bool.false_eq_true]
      | some p =>
        obtain ⟨n, r⟩ := p
        obtain ⟨k, l, cs2⟩ := n
        cases k <;>
          simp only [renderKind, hl, childIsTextData, String.append_assoc, if_false, if_true,
            Bool.false_eq_true]
  rw [e A, e B]
  refine NotLonger.append (SlotLE.render (slotLE_head h)) (NotLonger.after _ (by decide) ?_)
  have hr := (SlotLE.render (slotLE_last h)).1
  have q : "\"".length = 1 := rfl
  rcases SlotLE.cases (slotLE_last h) with ⟨ha, hb⟩ | ⟨ha, hb⟩ | ⟨n, r, m, s, ha, hb, hc⟩
  · rw [ha, hb]
  · rw [ha, hb]
  · rw [ha, hb] at hr ⊢
    simp only []
    have ht := ChildLE.text hc
    rcases Bool.eq_false_or_eq_true (childIsTextData (some (n, r))) with h1 | h1 <;>
      rcases Bool.eq_false_or_eq_true (childIsTextData (some (m, s))) with h2 | h2
    · simp only [h1, h2, if_true, String.length_append, q]; omega
    · have := ht h1 h2
      simp only [h1, h2, if_false, if_true, Bool.false_eq_true, String.length_append, q]; omega
    · simp only [h1, h2, if_false, if_true, Bool.false_eq_true, String.length_append, q]; omega
    · simp only [h1, h2, if_false, Bool.false_eq_true]; exact hr

end fbjs

open fbjs
namespace fbjs

set_option maxHeartbeats 1600000 in
/-- The `render` of a class on children that are not longer is not longer. -/
theorem renderKind_le (g : Rat → String) (k : NodeKind) {A B : List RenderedChild}
    (h : List.Forall₂ ChildLE A B) :
    NotLonger (renderKind g k A) (renderKind g k B) := by
  cases k
  case If => exact nodeIf_le h
  case Try => exact nodeTry_le h
  case XMLElement => exact xmlElement_le h
  case Unary op => exact unary_le op h
  case StatementWithExpression st => exact statementWith_le st h
  case FunctionExpression => exact functionExpression_le h
  case XMLAttribute => exact xmlAttribute_le h
  case StatementList => exact statementList_le h
  all_goals
    simp only [renderKind]
    with_reducible repeat' first
      | exact notLonger_refl _
      | exact SlotLE.render (slotLE_head h)
      | exact SlotLE.render (slotLE_last h)
      | exact SlotLE.render (slotLE_get h _)
      | exact SlotLE.block (slotLE_head h) _
      | exact SlotLE.block (slotLE_last h) _
      | exact SlotLE.block (slotLE_get h _) _
      | exact implode_le _ h
      | apply NotLonger.append

theorem renderStatementKind_le (k : NodeKind) {a b : String} (h : NotLonger a b) :
    NotLonger (renderStatementKind k a) (renderStatementKind k b) := by
  unfold renderStatementKind
  split
  · exact NotLonger.append h (notLonger_refl _)
  · exact NotLonger.append h (notLonger_refl _)
  · exact NotLonger.append h (notLonger_refl _)
  · exact NotLonger.append h (notLonger_refl _)
  · exact NotLonger.append h (notLonger_refl _)
  · split
    · exact NotLonger.append h (notLonger_refl _)
    · exact h

theorem renderBlockKind_le (k : NodeKind) {A B : List RenderedChild}
    (h : List.Forall₂ ChildLE A B) {r1 r2 s1 s2 : String} (hr : NotLonger r1 r2)
    (hs : NotLonger s1 s2) (must : Bool) :
    NotLonger (renderBlockKind k A r1 s1 must) (renderBlockKind k B r2 s2 must) := by
  have hlen := forall₂_length_eq h
  have hgen : ∀ (x1 x2 : String), NotLonger x1 x2 →
      NotLonger (if !must then x1 else "\x7b" ++ x1 ++ "\x7d")
        (if !must then x2 else "\x7b" ++ x2 ++ "\x7d") := by
    intro x1 x2 hx
    cases must
    · exact hx
    · exact NotLonger.append (NotLonger.append (notLonger_refl _) hx) (notLonger_refl _)
  cases k
  case StatementList =>
    simp only [renderBlockKind]
    have he : A.isEmpty = B.isEmpty := by
      cases A <;> cases B <;> first | rfl | (simp at hlen)
    have hn1 := SlotLE.null (slotLE_head h)
    have hn2 := SlotLE.null (slotLE_last h)
    rw [he, hlen, hn1, hn2]
    split
    · exact notLonger_refl _
    · split
      · exact SlotLE.block (slotLE_head h) must
      · exact NotLonger.append (NotLonger.append (notLonger_refl _) hr) (notLonger_refl _)
  case EmptyExpression => exact notLonger_refl _
  all_goals exact hgen _ _ hs

/-- Two nodes of one class: where the children of the first are not longer
than those of the second, slot by slot, the node is not longer. -/
theorem node_le (g : Rat → String) (k : NodeKind) (l1 l2 : Nat) {cs1 cs2 : List (Option Node)}
    (h : List.Forall₂ (NodeLE g) cs1 cs2) :
    NodeLE g (some (.mk k l1 cs1)) (some (.mk k l2 cs2)) := by
  have hA : List.Forall₂ ChildLE (Node.ropesList g cs1) (Node.ropesList g cs2) := by
    rw [ropesList_eq_map, ropesList_eq_map]
    exact List.forall₂_map_left_iff.mpr (List.forall₂_map_right_iff.mpr h)
  have hr := renderKind_le g k hA
  have hs := renderStatementKind_le k hr
  have hlen : cs1.length = cs2.length := h.length_eq
  have hempty : (Node.mk k l1 cs1).empty = (Node.mk k l2 cs2).empty := by
    cases cs1 <;> cases cs2 <;> first | rfl | (simp at hlen)
  unfold NodeLE rendered
  simp only [Option.map_some']
  refine ⟨?_, ?_, ?_, ?_, ?_, ?_, ?_, ?_, ?_, ?_⟩
  · simp
  · simp only [childRender, Node.ropes, ropesKind]
    exact hr
  · simp only [childStatement, Node.ropes, ropesKind]
    exact hs
  · intro must
    simp only [childRenderBlock, Node.ropes, ropesKind]
    exact renderBlockKind_le k hA hr hs must
  · simp only [childEmpty]
    rw [hempty]
    exact fun hb => hb
  · simp only [childEmpty]
    rw [hempty]
    intro h1 h2
    rw [h1] at h2
    cases h2
  · simp only [childIsIf, Node.kind_mk]
    intro h1 h2
    rw [h1] at h2
    cases h2
  · simp only [childIsIf, Node.kind_mk]
    intro h1 h2
    rw [h2] at h1
    cases h1
  · simp only [childIsParenthetical, Node.kind_mk]
    exact fun hb => hb
  · intro h1 h2
    cases k <;> simp [childIsTextData] at h1 h2

end fbjs

open fbjs
namespace fbjs

/-! ## The order of the rendered children -/

theorem NotLonger.of_lt {a b : String} (h : a.length < b.length) : NotLonger a b :=
  ⟨Nat.le_of_lt h, fun he => absurd he (Nat.ne_of_lt h)⟩

theorem notLonger_trans {a b c : String} (h1 : NotLonger a b) (h2 : NotLonger b c) :
    NotLonger a c := by
  refine ⟨Nat.le_trans h1.1 h2.1, fun he t => ?_⟩
  have ha := h1.1
  have hb := h2.1
  rw [h1.2 (by omega) t, h2.2 (by omega) t]

theorem childLE_refl (a : RenderedChild) : ChildLE a a := by
  refine ⟨Iff.rfl, notLonger_refl _, notLonger_refl _, fun _ => notLonger_refl _, fun h => h,
    ?_, ?_, ?_, fun h => h, ?_⟩
  · intro h1 h2; rw [h1] at h2; cases h2
  · intro h1 h2; rw [h1] at h2; cases h2
  · intro h1 h2; rw [h1] at h2; cases h2
  · intro h1 h2; rw [h1] at h2; cases h2

theorem childLE_trans {a b c : RenderedChild} (h1 : ChildLE a b) (h2 : ChildLE b c) :
    ChildLE a c := by
  have r1 := h1.render.1
  have r2 := h2.render.1
  have f1 := (h1.block false).1
  have f2 := (h2.block false).1
  have t1 := (h1.block true).1
  have t2 := (h2.block true).1
  refine ⟨h1.null.trans h2.null, notLonger_trans h1.render h2.render, notLonger_trans h1.statement h2.statement,
    fun must => notLonger_trans (h1.block must) (h2.block must), fun h => h1.empty (h2.empty h),
    ?_, ?_, ?_, fun h => h1.paren (h2.paren h), ?_⟩
  · intro ha hc
    cases hb : childEmpty (some b)
    · have := h1.braces ha hb
      omega
    · have := h2.braces hb hc
      omega
  · intro ha hc
    cases hb : childIsIf b
    · have := h1.ifNew ha hb
      omega
    · have := h2.ifNew hb hc
      omega
  · intro ha hc
    cases hb : childIsIf b
    · have := h2.ifOld hb hc
      omega
    · have := h1.ifOld ha hb
      omega
  · intro ha hc
    cases hb : childIsTextData b
    · have := h1.text ha hb
      omega
    · have := h2.text hb hc
      omega

theorem nodeLE_refl (g : Rat → String) (a : Option Node) : NodeLE g a a :=
  childLE_refl _

theorem nodeLE_trans {g : Rat → String} {a b c : Option Node} (h1 : NodeLE g a b)
    (h2 : NodeLE g b c) : NodeLE g a c :=
  childLE_trans h1 h2

theorem forall₂_nodeLE_refl (g : Rat → String) :
    ∀ cs : List (Option Node), List.Forall₂ (NodeLE g) cs cs
  | [] => List.Forall₂.nil
  | c :: rest => List.Forall₂.cons (nodeLE_refl g c) (forall₂_nodeLE_refl g rest)

/-- The line number of a node plays no part in its compact rendering. -/
theorem nodeLE_setLineno (g : Rat → String) (n : Node) (l : Nat) :
    NodeLE g (some (n.setLineno l)) (some n) := by
  cases n with
  | mk k l0 cs =>
    rw [Node.setLineno_mk]
    exact node_le g k l l0 (forall₂_nodeLE_refl g cs)

theorem ropes_mk (g : Rat → String) (k : NodeKind) (l : Nat) (cs : List (Option Node)) :
    (Node.mk k l cs).ropes g = ropesKind g k (Node.ropesList g cs) := by
  rw [Node.ropes]

theorem ropes_setLineno (g : Rat → String) (n : Node) (l : Nat) :
    (n.setLineno l).ropes g = n.ropes g := by
  cases n with
  | mk k l0 cs => rw [Node.setLineno_mk, ropes_mk, ropes_mk]

theorem fits_setLineno {g : Rat → String} {n : Node} (h : Fits g n) (l : Nat) :
    Fits g (n.setLineno l) := by
  unfold Fits
  rw [ropes_setLineno]
  exact h

/-! ## Bounds between the three ropes of a node -/

theorem statement_bounds (k : NodeKind) (r : String) :
    r.length ≤ (renderStatementKind k r).length ∧
      (renderStatementKind k r).length ≤ r.length + 1 := by
  have h1 : ";".length = 1 := rfl
  unfold renderStatementKind
  split
  · rw [String.length_append, h1]; omega
  · rw [String.length_append, h1]; omega
  · rw [String.length_append, h1]; omega
  · rw [String.length_append, h1]; omega
  · rw [String.length_append, h1]; omega
  · split
    · rw [String.length_append, h1]; omega
    · omega

theorem braces_length (s : String) : ("\x7b" ++ s ++ "\x7d").length = s.length + 2 := by
  have h1 : "\x7b".length = 1 := rfl
  have h2 : "\x7d".length = 1 := rfl
  rw [String.length_append, String.length_append, h1, h2]
  omega

/-- The ropes of a node of a class other than `NodeStatementList` and
`NodeEmptyExpression`: `Node::renderBlock`. -/
theorem renderBlock_generic (k : NodeKind) (cs : List RenderedChild) (r s : String) (must : Bool)
    (h1 : k ≠ .StatementList) (h2 : k ≠ .EmptyExpression) :
    renderBlockKind k cs r s must = if !must then s else "\x7b" ++ s ++ "\x7d" := by
  cases k <;> first | rfl | exact absurd rfl h1 | exact absurd rfl h2

theorem renderBlock_generic_length (k : NodeKind) (cs : List RenderedChild) (r s : String)
    (must : Bool) (h1 : k ≠ .StatementList) (h2 : k ≠ .EmptyExpression) :
    (renderBlockKind k cs r s must).length = s.length + (if must then 2 else 0) := by
  rw [renderBlock_generic k cs r s must h1 h2]
  cases must
  · rfl
  · exact braces_length s

theorem render_le_statement (g : Rat → String) (n : Node) :
    (n.ropes g).render.length ≤ (n.ropes g).renderStatement.length := by
  cases n with
  | mk k l cs =>
    rw [ropes_mk]
    exact (statement_bounds k _).1

theorem statement_le_render (g : Rat → String) (n : Node) :
    (n.ropes g).renderStatement.length ≤ (n.ropes g).render.length + 1 := by
  cases n with
  | mk k l cs =>
    rw [ropes_mk]
    exact (statement_bounds k _).2

theorem statementList_statement (g : Rat → String) (l : Nat) (cs : List (Option Node)) :
    ((Node.mk .StatementList l cs).ropes g).renderStatement =
      ((Node.mk .StatementList l cs).ropes g).render := by
  rw [ropes_mk]
  rfl

/-- The rope `renderBlock(true)` of a node is its statement rope in braces, or
shorter. -/
theorem block_true_le (g : Rat → String) (n : Node) :
    ((n.ropes g).renderBlock true).length ≤ (n.ropes g).renderStatement.length + 2 := by
  cases n with
  | mk k l cs =>
    rw [ropes_mk]
    by_cases h1 : k = .StatementList
    · subst h1
      simp only [ropesKind]
      simp only [renderBlockKind, Bool.not_true, Bool.false_and, Bool.false_eq_true, if_false]
      rw [braces_length]
      exact Nat.le_refl _
    · by_cases h2 : k = .EmptyExpression
      · subst h2
        simp only [ropesKind, renderBlockKind]
        have h : ";".length = 1 := rfl
        omega
      · simp only [ropesKind]
        rw [renderBlock_generic_length k _ _ _ true h1 h2]
        exact Nat.le_refl _

theorem join_singleton (s : String) : String.join [s] = s := by
  rw [join_cons_eq]
  show s ++ "" = s
  exact String.append_empty s

/-- The rope `renderBlock(false)` of a node is at most two characters longer
than its rendering. -/
theorem block_false_le (g : Rat → String) :
    ∀ n : Node, ((n.ropes g).renderBlock false).length ≤ (n.ropes g).render.length + 2 := by
  intro n
  induction n using Node.induction_on with
  | h k l cs ih =>
    by_cases h1 : k = .StatementList
    · subst h1
      rw [ropes_mk]
      simp only [ropesKind]
      simp only [renderBlockKind, Bool.not_false, Bool.true_and]
      split
      · have h : ";".length = 1 := rfl
        omega
      · split
        · rename_i hone
          cases cs with
          | nil => simp [childRenderBlock, Node.ropesList]
          | cons c rest =>
            cases c with
            | none =>
              rw [Node.ropesList]
              simp [childRenderBlock]
            | some m =>
              have hm := ih m (List.mem_cons_self _ _)
              have hs := render_le_statement g m
              rw [Node.ropesList]
              simp only [List.head?_cons, childRenderBlock]
              cases rest with
              | nil =>
                simp only [Node.ropesList, renderKind, List.map_cons, List.map_nil]
                rw [join_singleton]
                omega
              | cons c2 rest2 =>
                exfalso
                cases c2 <;> simp [Node.ropesList, childNull] at hone
        · exact Nat.le_of_eq (braces_length _)
    · by_cases h2 : k = .EmptyExpression
      · subst h2
        rw [ropes_mk]
        simp only [ropesKind, renderBlockKind]
        have h : ";".length = 1 := rfl
        omega
      · rw [ropes_mk]
        simp only [ropesKind]
        rw [renderBlock_generic_length k _ _ _ false h1 h2]
        have := (statement_bounds k (renderKind g k (Node.ropesList g cs))).2
        simp only [Bool.false_eq_true, if_false]
        omega

theorem block_le_statement (g : Rat → String) (n : Node) (must : Bool) :
    ((n.ropes g).renderBlock must).length ≤ (n.ropes g).renderStatement.length + 2 := by
  cases must
  · have h1 := block_false_le g n
    have h2 := render_le_statement g n
    omega
  · exact block_true_le g n

/-- The block ropes of a node that `Fits` differ by two characters at most. -/
theorem fits_block {g : Rat → String} {n : Node} (h : Fits g n) (x y : Bool) :
    ((n.ropes g).renderBlock x).length ≤ ((n.ropes g).renderBlock y).length + 2 := by
  have h1 := block_le_statement g n x
  have h2 := h y
  omega

theorem fits_generic (g : Rat → String) (k : NodeKind) (l : Nat) (cs : List (Option Node))
    (h1 : k ≠ .StatementList) : Fits g (.mk k l cs) := by
  intro must
  rw [ropes_mk]
  by_cases h2 : k = .EmptyExpression
  · subst h2
    simp only [ropesKind, renderBlockKind, renderStatementKind, renderKind]
    exact Nat.le_refl _
  · simp only [ropesKind]
    rw [renderBlock_generic_length k _ _ _ must h1 h2]
    exact Nat.le_add_right _ _

theorem fits_statementList (g : Rat → String) (l : Nat) (cs : List (Option Node))
    (h : ∀ c ∈ cs, ∃ n, c = some n ∧ Fits g n) : Fits g (.mk .StatementList l cs) := by
  intro must
  rw [statementList_statement, ropes_mk]
  simp only [ropesKind]
  cases must
  · simp only [renderBlockKind, Bool.not_false, Bool.true_and]
    split
    · rename_i he
      cases cs with
      | nil => exact Nat.zero_le _
      | cons c rest => cases c <;> simp [Node.ropesList] at he
    · split
      · rename_i hone
        cases cs with
        | nil => exact Nat.zero_le _
        | cons c rest =>
          obtain ⟨m, hc, hm⟩ := h c (List.mem_cons_self _ _)
          subst hc
          cases rest with
          | nil =>
            rw [Node.ropesList]
            simp only [List.head?_cons, childRenderBlock]
            simp only [Node.ropesList, renderKind, List.map_cons, List.map_nil]
            rw [join_singleton]
            exact hm false
          | cons c2 rest2 =>
            exfalso
            cases c2 <;> simp [Node.ropesList, childNull] at hone
      · rw [braces_length]
        exact Nat.le_add_right _ _
  · simp only [renderBlockKind, Bool.not_true, Bool.false_and, Bool.false_eq_true, if_false]
    rw [braces_length]
    exact Nat.le_add_right _ _

end fbjs

open fbjs
namespace fbjs

/-! ## A node that is shorter than the node whose place it takes -/

/-- Where every rope of the node `m` is shorter than the rope of `v` that a
parent may read in its place, `m` is not longer than `v` in the sense of
`ChildLE`. -/
theorem childLE_of_lt {m v : Node} {rm rv : Ropes}
    (hr : rm.render.length < rv.render.length)
    (hs : rm.renderStatement.length < rv.renderStatement.length)
    (hb : ∀ must, (rm.renderBlock must).length < (rv.renderBlock must).length)
    (hE : v.empty = true → m.empty = true)
    (hbr : (rm.renderBlock true).length ≤ (rv.renderBlock false).length)
    (hnew : v.kind ≠ .If → rm.render.length + 1 ≤ (rv.renderBlock false).length)
    (hold : v.kind = .If → (rm.renderBlock false).length ≤ rv.render.length)
    (hP : v.kind ≠ .Parenthetical)
    (ht : rm.render.length + 2 ≤ rv.render.length) :
    ChildLE (some (m, rm)) (some (v, rv)) := by
  refine ⟨by simp, NotLonger.of_lt hr, NotLonger.of_lt hs, fun must => NotLonger.of_lt (hb must),
    hE, fun _ _ => hbr, ?_, ?_, ?_, fun _ _ => ht⟩
  · intro _ h2
    apply hnew
    intro hk
    simp only [childIsIf, hk, decide_True] at h2
    cases h2
  · intro _ h2
    apply hold
    simpa only [childIsIf, decide_eq_true_eq] using h2
  · intro h
    simp only [childIsParenthetical, decide_eq_true_eq] at h
    exact absurd h hP

theorem statement_expression (k : NodeKind) (r : String) (hk : k.isExpression = true) :
    renderStatementKind k r = r ++ ";" := by
  cases k <;> first | rfl | (simp [NodeKind.isExpression] at hk; done)

theorem statement_expression_length (k : NodeKind) (r : String) (hk : k.isExpression = true) :
    (renderStatementKind k r).length = r.length + 1 := by
  rw [statement_expression k r hk, String.length_append]
  rfl

/-- A node `m` in the place of an expression `v` of a class with the render
methods of `NodeExpression`, whose rendering is at least two characters longer
than that of `m`. -/
theorem nodeLE_expression (g : Rat → String) (m : Node) (k : NodeKind) (l : Nat)
    (cs : List (Option Node)) (hk : k.isExpression = true) (h1 : k ≠ .EmptyExpression)
    (h2 : k ≠ .Parenthetical) (hE : cs = [] → m.empty = true)
    (h : (m.ropes g).render.length + 2 ≤ ((Node.mk k l cs).ropes g).render.length) :
    NodeLE g (some m) (some (.mk k l cs)) := by
  have hl : k ≠ .StatementList := by
    intro hkl; rw [hkl] at hk; cases hk
  have hi : k ≠ .If := by
    intro hki; rw [hki] at hk; cases hk
  have hs := statement_le_render g m
  have hbf := block_false_le g m
  have hbt := block_true_le g m
  rw [ropes_mk] at h
  simp only [ropesKind] at h
  have hS := statement_expression_length k (renderKind g k (Node.ropesList g cs)) hk
  have hBf := renderBlock_generic_length k (Node.ropesList g cs)
    (renderKind g k (Node.ropesList g cs))
    (renderStatementKind k (renderKind g k (Node.ropesList g cs))) false hl h1
  have hBt := renderBlock_generic_length k (Node.ropesList g cs)
    (renderKind g k (Node.ropesList g cs))
    (renderStatementKind k (renderKind g k (Node.ropesList g cs))) true hl h1
  simp only [Bool.false_eq_true, if_false, if_true] at hBf hBt
  unfold NodeLE rendered
  simp only [Option.map_some']
  rw [ropes_mk g k l cs]
  refine childLE_of_lt ?_ ?_ ?_ ?_ ?_ ?_ ?_ ?_ ?_
  · simp only [ropesKind]; omega
  · simp only [ropesKind]; omega
  · intro must
    cases must
    · simp only [ropesKind]; omega
    · simp only [ropesKind]; omega
  · intro he
    apply hE
    simpa [Node.empty] using he
  · simp only [ropesKind]; omega
  · intro _
    simp only [ropesKind]; omega
  · intro hki
    exact absurd hki hi
  · exact h2
  · simp only [ropesKind]; omega

theorem ropes_if (g : Rat → String) (l : Nat) (cs : List (Option Node)) :
    ((Node.mk .If l cs).ropes g).render = NodeIf.render (Node.ropesList g cs) ∧
    ((Node.mk .If l cs).ropes g).renderStatement = NodeIf.render (Node.ropesList g cs) ∧
    ((Node.mk .If l cs).ropes g).renderBlock false = NodeIf.render (Node.ropesList g cs) ∧
    ((Node.mk .If l cs).ropes g).renderBlock true =
      "\x7b" ++ NodeIf.render (Node.ropesList g cs) ++ "\x7d" := by
  rw [ropes_mk]
  exact ⟨rfl, rfl, rfl, rfl⟩

/-- A node `m` in the place of an `if` statement `v`, where the rendering of
`v` is at least three characters longer than the statement rope of `m` and at
least one longer than its block ropes. -/
theorem nodeLE_if (g : Rat → String) (m : Node) (l : Nat) (cs : List (Option Node)) (b : Nat)
    (hE : cs = [] → m.empty = true)
    (hS : (m.ropes g).renderStatement.length ≤ b)
    (hB : ∀ must, ((m.ropes g).renderBlock must).length ≤ b + 2)
    (h : b + 3 ≤ (NodeIf.render (Node.ropesList g cs)).length) :
    NodeLE g (some m) (some (.mk .If l cs)) := by
  obtain ⟨e1, e2, e3, e4⟩ := ropes_if g l cs
  have hr := render_le_statement g m
  have hBf := hB false
  have hBt := hB true
  unfold NodeLE rendered
  simp only [Option.map_some']
  refine childLE_of_lt ?_ ?_ ?_ ?_ ?_ ?_ ?_ ?_ ?_
  · rw [e1]; omega
  · rw [e2]; omega
  · intro must
    cases must
    · rw [e3]; omega
    · rw [e4, braces_length]; omega
  · intro he
    apply hE
    simpa [Node.empty] using he
  · rw [e3]; omega
  · intro hk
    exact absurd rfl hk
  · intro _
    rw [e1]; omega
  · intro hk
    cases hk
  · rw [e1]; omega

/-- An `if` statement in the place of an `if` statement whose rendering is at
least two characters longer. -/
theorem nodeLE_if_if (g : Rat → String) (l1 l2 : Nat) (cs1 cs2 : List (Option Node))
    (hE : cs2 = [] → cs1 = [])
    (h : (NodeIf.render (Node.ropesList g cs1)).length + 2 ≤
      (NodeIf.render (Node.ropesList g cs2)).length) :
    NodeLE g (some (.mk .If l1 cs1)) (some (.mk .If l2 cs2)) := by
  obtain ⟨a1, a2, a3, a4⟩ := ropes_if g l1 cs1
  obtain ⟨e1, e2, e3, e4⟩ := ropes_if g l2 cs2
  unfold NodeLE rendered
  simp only [Option.map_some']
  refine childLE_of_lt ?_ ?_ ?_ ?_ ?_ ?_ ?_ ?_ ?_
  · rw [a1, e1]; omega
  · rw [a2, e2]; omega
  · intro must
    cases must
    · rw [a3, e3]; omega
    · rw [a4, e4, braces_length, braces_length]; omega
  · intro he
    have : cs2 = [] := by simpa [Node.empty] using he
    rw [hE this]
    rfl
  · rw [a4, e3, braces_length]; omega
  · intro hk
    exact absurd rfl hk
  · intro _
    rw [a3, e1]; omega
  · intro hk
    cases hk
  · rw [a1, e1]; omega

/-! ## The rendered children of a child list -/

theorem ropesList_get? (g : Rat → String) (cs : List (Option Node)) (i : Nat) :
    (Node.ropesList g cs).get? i = (cs.get? i).map (rendered g) := by
  rw [ropesList_eq_map, List.get?_map]

theorem ropesList_head? (g : Rat → String) (cs : List (Option Node)) :
    (Node.ropesList g cs).head? = cs.head?.map (rendered g) := by
  rw [ropesList_eq_map, List.head?_map]

theorem ropesList_getLast? (g : Rat → String) (cs : List (Option Node)) :
    (Node.ropesList g cs).getLast? = cs.getLast?.map (rendered g) := by
  rw [ropesList_eq_map, List.getLast?_map]

theorem ropesList_eq_nil (g : Rat → String) (cs : List (Option Node)) :
    Node.ropesList g cs = [] ↔ cs = [] := by
  rw [ropesList_eq_map, List.map_eq_nil_iff]

/-- An expression that compares true or false renders to a text that is not
empty. -/
theorem compare_render_pos (g : Rat → String) (hg : ∀ v, g v ≠ "") (c : Node) (val : Bool)
    (h : c.compare val = true) : 1 ≤ (c.ropes g).render.length := by
  cases c with
  | mk k l cs =>
    rw [ropes_mk]
    simp only [ropesKind]
    cases k <;> try (simp [Node.compare] at h; done)
    case NumericLiteral v =>
      simp only [renderKind]
      have := hg v
      rcases Nat.eq_zero_or_pos (g v).length with h0 | h0
      · exact absurd ((length_eq_zero_iff _).mp h0) this
      · exact h0
    case BooleanLiteral v =>
      simp only [renderKind]
      cases v <;> decide
    case Parenthetical =>
      simp only [renderKind]
      have h1 : "(".length = 1 := rfl
      rw [String.length_append, String.length_append, h1]
      omega

theorem compareSlot_render_pos (g : Rat → String) (hg : ∀ v, g v ≠ "")
    (slot : Option (Option Node)) (val : Bool) (h : compareSlot slot val = true) :
    1 ≤ (childRender (slot.map (rendered g))).length := by
  unfold compareSlot at h
  split at h
  · rename_i e
    simp only [Bool.and_eq_true] at h
    exact compare_render_pos g hg e val h.2
  · cases h

end fbjs

open fbjs
namespace fbjs

/-! ## Lengths that the rules of the walker change -/

theorem is_identifier_length (id : String) (h : is_identifier id = true) : 1 ≤ id.length := by
  unfold is_identifier at h
  cases hd : id.data with
  | nil => rw [hd] at h; cases h
  | cons c rest =>
    show 1 ≤ id.data.length
    rw [hd]
    exact Nat.succ_le_succ (Nat.zero_le _)

theorem escapedChar_length_pos (c : Char) : 1 ≤ (escapedChar c).length := by
  unfold escapedChar
  split
  · decide
  · split
    · decide
    · split
      · decide
      · split
        · decide
        · split
          · decide
          · split
            · decide
            · split
              · decide
              · split
                · rw [String.length_append]
                  have h : "\\x".length = 2 := rfl
                  omega
                · exact Nat.le_refl _

theorem join_escaped_length : ∀ l : List Char,
    l.length ≤ (String.join (l.map escapedChar)).length
  | [] => Nat.zero_le _
  | c :: rest => by
    rw [List.map_cons, join_cons_eq, String.length_append, List.length_cons]
    have h1 := escapedChar_length_pos c
    have h2 := join_escaped_length rest
    omega

theorem quotes_length (s : String) : ("\"" ++ s ++ "\"").length = s.length + 2 := by
  have h1 : "\"".length = 1 := rfl
  rw [String.length_append, String.length_append, h1]
  omega

/-- The identifier that the rules for member expressions and for property
keys write is at least two characters shorter than the string literal. -/
theorem unquoted_length (value : String) (quoted : Bool)
    (h : is_identifier (unquoted_value value quoted) = true) :
    (unquoted_value value quoted).length + 2 ≤ (NodeStringLiteral.render value quoted).length := by
  have hpos := is_identifier_length _ h
  cases quoted
  · have hu : unquoted_value value false = value := rfl
    rw [hu]
    unfold NodeStringLiteral.render
    simp only [Bool.false_eq_true, if_false]
    split
    · rw [quotes_length]
    · rw [quotes_length]
      have := join_escaped_length value.data
      show value.data.length + 2 ≤ _
      omega
  · have hu : (unquoted_value value true).length =
        ((value.data.drop 1).take (value.data.length - 2)).length := rfl
    rw [hu] at hpos ⊢
    have hr : NodeStringLiteral.render value true = value := rfl
    rw [hr]
    rw [List.length_take, List.length_drop] at hpos ⊢
    show _ ≤ value.data.length
    omega

theorem block_true_pos (g : Rat → String) (n : Node) :
    1 ≤ ((n.ropes g).renderBlock true).length := by
  cases n with
  | mk k l cs =>
    rw [ropes_mk]
    simp only [ropesKind]
    by_cases h1 : k = .StatementList
    · subst h1
      simp only [renderBlockKind, Bool.not_true, Bool.false_and, Bool.false_eq_true, if_false]
      rw [braces_length]
      omega
    · by_cases h2 : k = .EmptyExpression
      · subst h2
        simp only [renderBlockKind]
        decide
      · rw [renderBlock_generic_length k _ _ _ true h1 h2]
        simp only [if_true]
        omega

theorem if_length (a : String) : ("if(" ++ a).length = a.length + 3 := by
  have h1 : "if(".length = 3 := rfl
  rw [String.length_append, h1]
  omega

theorem nodeIf_else_length (cs : List RenderedChild) (e : Node) (ropes : Ropes)
    (h : cs.get? 2 = some (some (e, ropes))) :
    (NodeIf.render cs).length =
      (childRender cs.head?).length + (childRenderBlock (cs.get? 1) true).length +
        (elseRope (some (e, ropes))).length + 8 := by
  have h1 : ")".length = 1 := rfl
  have h2 : "else".length = 4 := rfl
  rw [NodeIf_render_else cs e ropes h, if_length, String.length_append, String.length_append,
    String.length_append, String.length_append, h1, h2]
  omega

theorem nodeIf_none_length (cs : List RenderedChild)
    (h : cs.get? 2 = none ∨ cs.get? 2 = some none) :
    (NodeIf.render cs).length =
      (childRender cs.head?).length +
        (childRenderBlock (cs.get? 1) (childEmpty (cs.get? 1))).length + 4 := by
  have h1 : ")".length = 1 := rfl
  rw [NodeIf_render_none cs h, if_length, String.length_append, String.length_append, h1]
  omega

theorem get?_else_cases (cs : List RenderedChild) :
    (∃ e ropes, cs.get? 2 = some (some (e, ropes))) ∨ cs.get? 2 = none ∨ cs.get? 2 = some none := by
  cases h : cs.get? 2 with
  | none => exact Or.inr (Or.inl rfl)
  | some c =>
    cases c with
    | none => exact Or.inr (Or.inr rfl)
    | some x => exact Or.inl ⟨x.1, x.2, rfl⟩

theorem nodeIf_ge_cond (cs : List RenderedChild) :
    (childRender cs.head?).length + 4 ≤ (NodeIf.render cs).length := by
  rcases get?_else_cases cs with ⟨e, ropes, h⟩ | h
  · rw [nodeIf_else_length cs e ropes h]
    omega
  · rw [nodeIf_none_length cs h]
    omega

theorem nodeIf_ge_then (cs : List RenderedChild) (m : Node) (rm : Ropes)
    (hm : cs.get? 1 = some (some (m, rm))) :
    ∃ mm, (childRender cs.head?).length + (rm.renderBlock mm).length + 4 ≤
      (NodeIf.render cs).length := by
  rcases get?_else_cases cs with ⟨e, ropes, h⟩ | h
  · refine ⟨true, ?_⟩
    rw [nodeIf_else_length cs e ropes h, hm]
    simp only [childRenderBlock]
    omega
  · refine ⟨childEmpty (cs.get? 1), ?_⟩
    rw [nodeIf_none_length cs h, hm]
    simp only [childRenderBlock]
    omega

/-- What follows `else` is not shorter than the block rope of the else
block. -/
theorem elseRope_ge (g : Rat → String) (e : Node) :
    ((e.ropes g).renderBlock false).length ≤ (elseRope (some (e, e.ropes g))).length := by
  rw [elseRope_length]
  by_cases hk : e.kind = .If
  · rw [if_pos hk]
    cases e with
    | mk k l cs =>
      rw [Node.kind_mk] at hk
      subst hk
      obtain ⟨e1, _, e3, _⟩ := ropes_if g l cs
      rw [e1, e3]
      omega
  · rw [if_neg hk]
    split <;> omega

end fbjs

open fbjs
namespace fbjs

open ReductionWalker

/-! ## The rules of the walker do not lengthen the rendering -/

/-- The visited node `Fits` when its children do and a statement list has no
null child. -/
theorem fits_visited (g : Rat → String) (k : NodeKind) (l : Nat) (cs : List (Option Node))
    (hshape : operandsPresent k cs = true)
    (hkids : ∀ c, some c ∈ cs → Fits g c ∧ NormalForm c) : Fits g (.mk k l cs) := by
  by_cases h1 : k = .StatementList
  · subst h1
    apply fits_statementList
    intro c hc
    have hall : cs.all Option.isSome = true := hshape
    rw [List.all_eq_true] at hall
    have hsome := hall c hc
    cases c with
    | none => cases hsome
    | some n => exact ⟨n, rfl, (hkids n hc).1⟩
  · exact fits_generic g k l cs h1

theorem actionLE_of_done_or_remove (g : Rat → String) (v : Node) (a : Action) (hf : Fits g v)
    (h : a = .done v ∨ a = .remove v) : ActionLE g v a := by
  rcases h with h | h <;> rw [h] <;> exact ⟨nodeLE_refl g _, hf⟩

theorem childRender_rendered (g : Rat → String) (n : Node) :
    childRender (some (rendered g (some n))) = (n.ropes g).render := rfl

/-- The rule for `a, b` with a constant `a`. -/
theorem comma_le (g : Rat → String) (hg : ∀ v, g v ≠ "") (p : Option NodeKind) (l : Nat)
    (a : Option Node) (b : Node) (hb : Fits g b ∧ NormalForm b)
    (hf : Fits g (.mk (.Operator .COMMA) l [a, some b])) :
    ActionLE g (.mk (.Operator .COMMA) l [a, some b])
      (visit p (.mk (.Operator .COMMA) l [a, some b])) := by
  have hv : visit p (.mk (.Operator .COMMA) l [a, some b]) =
      if (compareSlot (some a) false || compareSlot (some a) true) = true then
        .replaceAndVisit (some b)
      else .done (.mk (.Operator .COMMA) l [a, some b]) := rfl
  rw [hv]
  by_cases hc : (compareSlot (some a) false || compareSlot (some a) true) = true
  · rw [if_pos hc]
    refine ⟨b, rfl, hb.2, ?_, hb.1⟩
    have hpos : 1 ≤ (childRender (some (rendered g a))).length := by
      rw [Bool.or_eq_true] at hc
      rcases hc with hc | hc
      · exact compareSlot_render_pos g hg (some a) false hc
      · exact compareSlot_render_pos g hg (some a) true hc
    refine nodeLE_expression g b _ l _ rfl (by intro h; cases h) (by intro h; cases h)
      (by intro h; cases h) ?_
    rw [ropes_mk]
    simp only [ropesKind, renderKind, ropesList_head?, ropesList_getLast?, List.head?_cons,
      List.getLast?_cons_cons, List.getLast?_singleton, Option.map_some', childRender_rendered,
      node_operator_t.text, String.length_append]
    have h1 : ",".length = 1 := rfl
    omega
  · rw [if_neg hc]
    exact ⟨nodeLE_refl g _, hf⟩

/-- The rule for `c ? a : b` with a constant `c`. -/
theorem conditional_le (g : Rat → String) (p : Option NodeKind) (l : Nat)
    (cs : List (Option Node))
    (hshape : operandsPresent .ConditionalExpression cs = true)
    (hkids : ∀ c, some c ∈ cs → Fits g c ∧ NormalForm c)
    (hf : Fits g (.mk .ConditionalExpression l cs)) :
    ActionLE g (.mk .ConditionalExpression l cs) (visit p (.mk .ConditionalExpression l cs)) := by
  have hv : visit p (.mk .ConditionalExpression l cs) =
      visitNodeConditionalExpression (.mk .ConditionalExpression l cs) := rfl
  have hs : (cs.get? 1 != some none) = true ∧ (cs.get? 2 != some none) = true := by
    have : (cs.get? 1 != some none && cs.get? 2 != some none) = true := hshape
    rw [Bool.and_eq_true] at this
    exact this
  have hlen : ∀ (i : Nat) (a : Node), (i = 1 ∨ i = 2) → cs.get? i = some (some a) →
      (a.ropes g).render.length + 2 ≤
        ((Node.mk .ConditionalExpression l cs).ropes g).render.length := by
    intro i a hi ha
    rw [ropes_mk]
    simp only [ropesKind, renderKind, ropesList_get?, String.length_append]
    have h1 : "?".length = 1 := rfl
    have h2 : ":".length = 1 := rfl
    rcases hi with hi | hi
    · subst hi
      rw [ha]
      simp only [Option.map_some', childRender_rendered]
      omega
    · subst hi
      rw [ha]
      simp only [Option.map_some', childRender_rendered]
      omega
  have htake : ∀ (i : Nat), (i = 1 ∨ i = 2) →
      ActionLE g (.mk .ConditionalExpression l cs)
        (match cs.get? i with
          | some tmp => .replaceAndVisit tmp
          | none => .done (.mk .ConditionalExpression l cs)) := by
    intro i hi
    cases hget : cs.get? i with
    | none => exact ⟨nodeLE_refl g _, hf⟩
    | some tmp =>
      cases tmp with
      | none =>
        exfalso
        rcases hi with hi | hi
        · subst hi; rw [hget] at hs; simp at hs
        · subst hi; rw [hget] at hs; simp at hs
      | some a =>
        have hk := hkids a (List.get?_mem hget)
        refine ⟨a, rfl, hk.2, ?_, hk.1⟩
        refine nodeLE_expression g a _ l _ rfl (by intro h; cases h) (by intro h; cases h)
          ?_ (hlen i a hi hget)
        intro hnil
        rw [hnil] at hget
        cases hget
  rw [hv]
  unfold visitNodeConditionalExpression
  simp only [Node.childNodes_mk]
  split
  · exact htake 1 (Or.inl rfl)
  · split
    · exact htake 2 (Or.inr rfl)
    · exact ⟨nodeLE_refl g _, hf⟩

/-- The rule for a call of `bagofholding`. -/
theorem functionCall_le (g : Rat → String) (p : Option NodeKind) (l : Nat)
    (cs : List (Option Node)) (hf : Fits g (.mk .FunctionCall l cs)) :
    ActionLE g (.mk .FunctionCall l cs) (visit p (.mk .FunctionCall l cs)) := by
  have hv : visit p (.mk .FunctionCall l cs) =
      visitNodeFunctionCall (.mk .FunctionCall l cs) := rfl
  rw [hv]
  unfold visitNodeFunctionCall
  simp only [Node.childNodes_mk]
  split
  · rename_i name l2 cs2 hhead
    split
    · rename_i hname
      subst hname
      refine ⟨_, rfl, normalForm_booleanLiteral false 0, ?_, fits_generic g _ _ _ (by intro h; cases h)⟩
      refine nodeLE_expression g _ _ l _ rfl (by intro h; cases h) (by intro h; cases h) ?_ ?_
      · intro hnil
        rw [hnil] at hhead
        cases hhead
      · rw [ropes_mk, ropes_mk]
        simp only [ropesKind, renderKind, ropesList_head?, hhead, Option.map_some',
          childRender_rendered, String.length_append, Bool.false_eq_true, if_false]
        rw [ropes_mk]
        simp only [ropesKind, renderKind]
        have h1 : "false".length = 5 := rfl
        have h2 : "bagofholding".length = 12 := rfl
        omega
    · exact ⟨nodeLE_refl g _, hf⟩
  · exact ⟨nodeLE_refl g _, hf⟩

theorem identifier_le_literal (g : Rat → String) (value : String) (quoted : Bool) (l l2 : Nat)
    (kcs : List (Option Node)) (h : is_identifier (unquoted_value value quoted) = true) :
    NodeLE g (some (.mk (.Identifier (unquoted_value value quoted)) l []))
      (some (.mk (.StringLiteral value quoted) l2 kcs)) := by
  refine nodeLE_expression g _ _ l2 kcs rfl (by intro h; cases h) (by intro h; cases h)
    (fun _ => rfl) ?_
  rw [ropes_mk, ropes_mk]
  simp only [ropesKind, renderKind]
  exact unquoted_length value quoted h

/-- The rule for a property key that is a string literal. -/
theorem property_le (g : Rat → String) (p : Option NodeKind) (l : Nat)
    (k0 v : Option Node) (hf : Fits g (.mk .ObjectLiteralProperty l [k0, v])) :
    ActionLE g (.mk .ObjectLiteralProperty l [k0, v])
      (visit p (.mk .ObjectLiteralProperty l [k0, v])) := by
  have hv : visit p (.mk .ObjectLiteralProperty l [k0, v]) =
      visitNodeObjectLiteralProperty (.mk .ObjectLiteralProperty l [k0, v]) := rfl
  rw [hv]
  unfold visitNodeObjectLiteralProperty
  simp only [Node.childNodes_mk]
  split
  · rename_i value quoted l2 kcs vs rest heq
    simp only [List.cons.injEq] at heq
    obtain ⟨hk0, hv2, hrest⟩ := heq
    subst hk0
    subst hv2
    split
    · exact ⟨nodeLE_refl g _, hf⟩
    · rename_i hid
      simp only [Bool.not_eq_true, Bool.not_eq_false'] at hid
      have hid2 : is_identifier (unquoted_value value quoted) = true := by
        cases hh : is_identifier (unquoted_value value quoted)
        · rw [hh] at hid; simp at hid
        · rfl
      refine ⟨_, rfl, ?_, fits_generic g _ _ _ (by intro h; cases h)⟩
      rw [Node.lineno_mk]
      exact node_le g .ObjectLiteralProperty l l
        (List.Forall₂.cons (identifier_le_literal g value quoted l2 l2 kcs hid2)
          (List.Forall₂.cons (nodeLE_refl g _) List.Forall₂.nil))
  · exact ⟨nodeLE_refl g _, hf⟩

/-- The rule for `object["name"]`. -/
theorem dynamicMember_le (g : Rat → String) (p : Option NodeKind) (l : Nat)
    (cs : List (Option Node)) (hf : Fits g (.mk .DynamicMemberExpression l cs)) :
    ActionLE g (.mk .DynamicMemberExpression l cs)
      (visit p (.mk .DynamicMemberExpression l cs)) := by
  have hv : visit p (.mk .DynamicMemberExpression l cs) =
      visitNodeDynamicMemberExpression (.mk .DynamicMemberExpression l cs) := rfl
  rw [hv]
  unfold visitNodeDynamicMemberExpression
  simp only [Node.childNodes_mk]
  split
  · rename_i value quoted l2 kcs object hlast hhead
    split
    · exact ⟨nodeLE_refl g _, hf⟩
    · rename_i hid
      have hid2 : is_identifier (unquoted_value value quoted) = true := by
        cases hh : is_identifier (unquoted_value value quoted)
        · rw [hh] at hid; simp at hid
        · rfl
      refine ⟨_, rfl, ?_, fits_generic g _ _ _ (by intro h; cases h)⟩
      refine nodeLE_expression g _ _ l _ rfl (by intro h; cases h) (by intro h; cases h) ?_ ?_
      · intro hnil
        rw [hnil] at hhead
        cases hhead
      · have hlen := unquoted_length value quoted hid2
        rw [ropes_mk, ropes_mk]
        simp only [ropesKind, renderKind, ropesList_head?, ropesList_getLast?, hhead, hlast,
          List.head?_cons, List.getLast?_cons_cons, List.getLast?_singleton, Option.map_some',
          childRender_rendered, String.length_append]
        rw [ropes_mk, ropes_mk]
        simp only [ropesKind, renderKind]
        have h1 : ".".length = 1 := rfl
        have h2 : "[".length = 1 := rfl
        have h3 : "]".length = 1 := rfl
        omega
  · exact ⟨nodeLE_refl g _, hf⟩

theorem compareSlot_some_some {a : Option Node} {val : Bool}
    (h : compareSlot (some a) val = true) : ∃ n, a = some n := by
  cases a with
  | none => cases h
  | some n => exact ⟨n, rfl⟩

theorem operator_length (g : Rat → String) (op : node_operator_t) (l : Nat) (a b : Option Node) :
    ((Node.mk (.Operator op) l [a, b]).ropes g).render.length =
      (childRender (some (rendered g a))).length + op.text.length +
        (childRender (some (rendered g b))).length := by
  rw [ropes_mk]
  simp only [ropesKind, renderKind, ropesList_head?, ropesList_getLast?, List.head?_cons,
    List.getLast?_cons_cons, List.getLast?_singleton, Option.map_some', String.length_append]

/-- The rules for `a && b` that take `b` over. -/
theorem and_le (g : Rat → String) (p : Option NodeKind) (l : Nat)
    (a : Option Node) (b : Node) (hb : Fits g b ∧ NormalForm b)
    (hkeep : keepsOperator (.Operator .AND) [a, some b] = true)
    (hf : Fits g (.mk (.Operator .AND) l [a, some b])) :
    ActionLE g (.mk (.Operator .AND) l [a, some b])
      (visit p (.mk (.Operator .AND) l [a, some b])) := by
  have hv : visit p (.mk (.Operator .AND) l [a, some b]) =
      if compareSlot (some a) false = true then
        .replaceAndVisit (some (.mk (.BooleanLiteral false) 0 []))
      else if compareSlot (some a) true = true then
        if compareSlot (some (some b)) false = true then
          .replaceAndVisit (some (.mk (.BooleanLiteral false) 0 []))
        else .replaceAndVisit (some b)
      else .done (.mk (.Operator .AND) l [a, some b]) := rfl
  have hk : (!compareSlot (some a) false &&
      !(compareSlot (some a) true && compareSlot (some (some b)) false)) = true := hkeep
  rw [hv]
  cases h1 : compareSlot (some a) false
  · cases h2 : compareSlot (some a) true
    · simp only [Bool.false_eq_true, if_false]
      exact ⟨nodeLE_refl g _, hf⟩
    · cases h3 : compareSlot (some (some b)) false
      · simp only [Bool.false_eq_true, if_false, if_true]
        refine ⟨b, rfl, hb.2, ?_, hb.1⟩
        refine nodeLE_expression g b _ l _ rfl (by intro h; cases h) (by intro h; cases h)
          (by intro h; cases h) ?_
        rw [operator_length, childRender_rendered]
        have h4 : node_operator_t.AND.text.length = 2 := rfl
        omega
      · rw [h1, h2, h3] at hk
        cases hk
  · rw [h1] at hk
    cases hk

/-- The rules for `a || b` that take `a` or `b` over. -/
theorem or_le (g : Rat → String) (p : Option NodeKind) (l : Nat)
    (a : Option Node) (b : Node) (ha : ∀ n, a = some n → Fits g n ∧ NormalForm n)
    (hb : Fits g b ∧ NormalForm b)
    (hkeep : keepsOperator (.Operator .OR) [a, some b] = true)
    (hf : Fits g (.mk (.Operator .OR) l [a, some b])) :
    ActionLE g (.mk (.Operator .OR) l [a, some b])
      (visit p (.mk (.Operator .OR) l [a, some b])) := by
  have hv : visit p (.mk (.Operator .OR) l [a, some b]) =
      if compareSlot (some a) true = true then .replaceAndVisit a
      else if compareSlot (some a) false = true then
        if compareSlot (some (some b)) true = true then .replaceAndVisit (some b)
        else if compareSlot (some (some b)) false = true then
          .replaceAndVisit (some (.mk (.BooleanLiteral false) 0 []))
        else .done (.mk (.Operator .OR) l [a, some b])
      else .done (.mk (.Operator .OR) l [a, some b]) := rfl
  have hk : (!(compareSlot (some a) false && compareSlot (some (some b)) false)) = true := hkeep
  have h4 : node_operator_t.OR.text.length = 2 := rfl
  rw [hv]
  cases h1 : compareSlot (some a) true
  · cases h2 : compareSlot (some a) false
    · simp only [Bool.false_eq_true, if_false]
      exact ⟨nodeLE_refl g _, hf⟩
    · cases h3 : compareSlot (some (some b)) true
      · cases h5 : compareSlot (some (some b)) false
        · simp only [Bool.false_eq_true, if_false, if_true]
          exact ⟨nodeLE_refl g _, hf⟩
        · rw [h2, h5] at hk
          cases hk
      · simp only [Bool.false_eq_true, if_false, if_true]
        refine ⟨b, rfl, hb.2, ?_, hb.1⟩
        refine nodeLE_expression g b _ l _ rfl (by intro h; cases h) (by intro h; cases h)
          (by intro h; cases h) ?_
        rw [operator_length, childRender_rendered]
        omega
  · simp only [if_true]
    obtain ⟨n, hn⟩ := compareSlot_some_some h1
    subst hn
    refine ⟨n, rfl, (ha n rfl).2, ?_, (ha n rfl).1⟩
    refine nodeLE_expression g n _ l _ rfl (by intro h; cases h) (by intro h; cases h)
      (by intro h; cases h) ?_
    rw [operator_length, childRender_rendered]
    omega

/-- No rule for `!e` where `e` is no constant. -/
theorem not_le (g : Rat → String) (p : Option NodeKind) (l : Nat) (cs : List (Option Node))
    (hkeep : keepsOperator (.Unary .NOT_UNARY) cs = true)
    (hf : Fits g (.mk (.Unary .NOT_UNARY) l cs)) :
    ActionLE g (.mk (.Unary .NOT_UNARY) l cs) (visit p (.mk (.Unary .NOT_UNARY) l cs)) := by
  have hk : (!compareSlot cs.head? true && !compareSlot cs.head? false) = true := hkeep
  rw [Bool.and_eq_true, Bool.not_eq_true', Bool.not_eq_true'] at hk
  rw [visit_unary]
  unfold visitNodeUnary
  simp only [Node.childNodes_mk, if_true, hk.1, hk.2, Bool.false_eq_true, if_false]
  exact ⟨nodeLE_refl g _, hf⟩

end fbjs

open fbjs
namespace fbjs

open ReductionWalker

/-! ## The rules for `if` -/

theorem get?_ne_nil {α : Type} {cs : List α} {i : Nat} {a : α} (h : cs.get? i = some a) :
    cs ≠ [] := by
  intro hnil
  rw [hnil] at h
  cases h

/-- `if (true) block`: the block in the place of the statement. -/
theorem if_then_le (g : Rat → String) (l : Nat) (cs : List (Option Node)) (m : Node)
    (hm : cs.get? 1 = some (some m)) (hf : Fits g m) :
    NodeLE g (some m) (some (.mk .If l cs)) := by
  obtain ⟨mm, hlen⟩ := nodeIf_ge_then (Node.ropesList g cs) m (m.ropes g)
    (by rw [ropesList_get?, hm]; rfl)
  refine nodeLE_if g m l cs ((m.ropes g).renderBlock mm).length
    (fun hnil => absurd hnil (get?_ne_nil hm)) (hf mm) (fun must => fits_block hf must mm) ?_
  omega

/-- `if (false) ... else block`: the else block in the place of the
statement. -/
theorem if_else_le (g : Rat → String) (l : Nat) (cs : List (Option Node)) (e : Node)
    (he : cs.get? 2 = some (some e)) (hf : Fits g e) :
    NodeLE g (some e) (some (.mk .If l cs)) := by
  have hlen := nodeIf_else_length (Node.ropesList g cs) e (e.ropes g)
    (by rw [ropesList_get?, he]; rfl)
  have hge := elseRope_ge g e
  have hS := hf false
  refine nodeLE_if g e l cs (elseRope (some (e, e.ropes g))).length
    (fun hnil => absurd hnil (get?_ne_nil he)) (by omega) ?_ (by omega)
  intro must
  have := fits_block hf must false
  omega

/-- An `if` without blocks: the condition in the place of the statement. -/
theorem if_condition_le (g : Rat → String) (l : Nat) (x : Node) (rest : List (Option Node)) :
    NodeLE g (some x) (some (.mk .If l (some x :: rest))) := by
  have hlen := nodeIf_ge_cond (Node.ropesList g (some x :: rest))
  rw [ropesList_head?] at hlen
  simp only [List.head?_cons, Option.map_some', childRender_rendered] at hlen
  have hS := statement_le_render g x
  refine nodeLE_if g x l _ ((x.ropes g).render.length + 1)
    (fun hnil => by cases hnil) hS ?_ (by omega)
  intro must
  have := block_le_statement g x must
  omega

theorem negated_length (g : Rat → String) (x : Node) (l1 l2 : Nat) :
    ((Node.mk (.Unary .NOT_UNARY) l1 [some (.mk .Parenthetical l2 [some x])]).ropes g).render.length
      = (x.ropes g).render.length + 3 := by
  rw [ropes_mk]
  simp only [ropesKind, renderKind, ropesList_head?, List.head?_cons, Option.map_some',
    childRender_rendered, node_unary_t.text, Bool.false_and, Bool.false_eq_true, if_false,
    String.length_append]
  rw [ropes_mk]
  simp only [ropesKind, renderKind, ropesList_head?, List.head?_cons, Option.map_some',
    childRender_rendered, String.length_append]
  have h1 : "!".length = 1 := rfl
  have h2 : "(".length = 1 := rfl
  have h3 : ")".length = 1 := rfl
  have h4 : "".length = 0 := rfl
  omega

theorem childEmpty_rendered (g : Rat → String) (n : Node) :
    childEmpty (some (rendered g (some n))) = n.childNodes.isEmpty := rfl

theorem childRenderBlock_rendered (g : Rat → String) (n : Node) (must : Bool) :
    childRenderBlock (some (rendered g (some n))) must = (n.ropes g).renderBlock must := rfl

/-- An `if` with an empty then-block and an else block: the negated condition
with the else block. -/
theorem if_negated_le (g : Rat → String) (l l1 l2 : Nat) (x ifBlock e : Node)
    (rest : List (Option Node)) (he : e.childNodes.isEmpty = false) :
    NodeLE g
      (some (.mk .If l
        (some (.mk (.Unary .NOT_UNARY) l1 [some (.mk .Parenthetical l2 [some x])]) ::
          some e :: none :: rest)))
      (some (.mk .If l (some x :: some ifBlock :: some e :: rest))) := by
  refine nodeLE_if_if g l l _ _ (fun hnil => by cases hnil) ?_
  rw [nodeIf_none_length _ (Or.inr (by rw [ropesList_get?]; rfl)),
    nodeIf_else_length _ e (e.ropes g) (by rw [ropesList_get?]; rfl)]
  simp only [ropesList_head?, ropesList_get?, List.head?_cons, List.get?_cons_succ,
    List.get?_cons_zero, Option.map_some', childRender_rendered, childEmpty_rendered,
    childRenderBlock_rendered, he, negated_length]
  have h1 := block_true_pos g ifBlock
  have h2 := elseRope_ge g e
  omega

/-- An `if` with an empty else block: the else block is dropped. -/
theorem if_drop_else_le (g : Rat → String) (l : Nat) (x ifBlock e : Node)
    (rest : List (Option Node)) (hi : ifBlock.childNodes.isEmpty = false)
    (hf : Fits g ifBlock) :
    NodeLE g (some (.mk .If l (some x :: some ifBlock :: none :: rest)))
      (some (.mk .If l (some x :: some ifBlock :: some e :: rest))) := by
  refine nodeLE_if_if g l l _ _ (fun hnil => by cases hnil) ?_
  rw [nodeIf_none_length _ (Or.inr (by rw [ropesList_get?]; rfl)),
    nodeIf_else_length _ e (e.ropes g) (by rw [ropesList_get?]; rfl)]
  simp only [ropesList_head?, ropesList_get?, List.head?_cons, List.get?_cons_succ,
    List.get?_cons_zero, Option.map_some', childRender_rendered, childEmpty_rendered,
    childRenderBlock_rendered, hi]
  have h1 := fits_block hf false true
  omega

/-- The second block of the rule for `if`. -/
theorem ifEmptyBlocks_le (g : Rat → String) (l : Nat) (cs : List (Option Node))
    (hkids : ∀ c, some c ∈ cs → Fits g c ∧ NormalForm c) (hf : Fits g (.mk .If l cs)) :
    ActionLE g (.mk .If l cs) (visitNodeIfEmptyBlocks (.mk .If l cs)) := by
  unfold visitNodeIfEmptyBlocks
  simp only [Node.childNodes_mk]
  split
  · rename_i x ifBlock elseSlot rest
    have hfi : Fits g ifBlock := (hkids ifBlock (by simp)).1
    simp only [Node.setChildNodes_mk]
    cases hi : ifBlock.childNodes.isEmpty
    · -- the then-block is kept
      simp only [Bool.false_eq_true, if_false]
      cases elseSlot with
      | none => exact ⟨nodeLE_refl g _, hf⟩
      | some e =>
        simp only []
        cases he : e.childNodes.isEmpty
        · simp only [Bool.false_eq_true, if_false]
          exact ⟨nodeLE_refl g _, hf⟩
        · simp only [if_true]
          exact ⟨if_drop_else_le g l x ifBlock e rest hi hfi,
            fits_generic g _ _ _ (by intro h; cases h)⟩
    · simp only [if_true]
      have hx : Fits g x := (hkids x (by simp)).1
      cases elseSlot with
      | none => exact ⟨x, rfl, if_condition_le g l x _, hx⟩
      | some e =>
        simp only []
        cases he : e.childNodes.isEmpty
        · simp only [Bool.false_eq_true, if_false]
          exact ⟨if_negated_le g l _ _ x ifBlock e rest he,
            fits_generic g _ _ _ (by intro h; cases h)⟩
        · simp only [if_true]
          exact ⟨x, rfl, if_condition_le g l x _, hx⟩
  · exact ⟨nodeLE_refl g _, hf⟩

/-- The rule for `if`. -/
theorem if_le (g : Rat → String) (p : Option NodeKind) (l : Nat) (cs : List (Option Node))
    (hshape : operandsPresent .If cs = true)
    (hkids : ∀ c, some c ∈ cs → Fits g c ∧ NormalForm c) (hf : Fits g (.mk .If l cs)) :
    ActionLE g (.mk .If l cs) (visit p (.mk .If l cs)) := by
  rw [visit_if]
  unfold visitNodeIf
  simp only [Node.childNodes_mk]
  have hs : (cs.get? 1 != some none) = true := hshape
  split
  · cases h1 : cs.get? 1 with
    | none => exact ⟨nodeLE_refl g _, hf⟩
    | some ifBlock =>
      cases ifBlock with
      | none => rw [h1] at hs; simp at hs
      | some m =>
        exact ⟨m, rfl, if_then_le g l cs m h1 (hkids m (List.get?_mem h1)).1,
          (hkids m (List.get?_mem h1)).1⟩
  · split
    · cases h2 : cs.get? 2 with
      | none => exact ⟨nodeLE_refl g _, hf⟩
      | some elseSlot =>
        cases elseSlot with
        | none => exact ⟨nodeLE_refl g _, hf⟩
        | some e =>
          exact ⟨e, rfl, if_else_le g l cs e h2 (hkids e (List.get?_mem h2)).1,
            (hkids e (List.get?_mem h2)).1⟩
    · exact ifEmptyBlocks_le g l cs hkids hf

end fbjs

open fbjs
namespace fbjs

open ReductionWalker

/-! ## The visit of a node does not lengthen the rendering -/

/-- Every rule of `ReductionWalker::visit` but those that write a new literal
for `!`, `&&` or `||`, on a node whose children are in normal form: what the
rule leaves in the place of the node is not longer. -/
theorem visit_le (g : Rat → String) (hg : ∀ v, g v ≠ "") (p : Option NodeKind) (k : NodeKind)
    (l : Nat) (cs : List (Option Node))
    (hfold : keepsOperator k cs = true) (hshape : operandsPresent k cs = true)
    (hkids : ∀ c, some c ∈ cs → Fits g c ∧ NormalForm c) :
    ActionLE g (.mk k l cs) (visit p (.mk k l cs)) := by
  have hf := fits_visited g k l cs hshape hkids
  cases k
  case Operator op =>
    cases op
    case COMMA =>
      rcases cs with _ | ⟨a, _ | ⟨b, _ | ⟨c, rest⟩⟩⟩
      · simp [operandsPresent] at hshape
      · simp [operandsPresent] at hshape
      · cases b with
        | none => simp [operandsPresent] at hshape
        | some b => exact comma_le g hg p l a b (hkids b (by simp)) hf
      · simp [operandsPresent] at hshape
    case AND =>
      rcases cs with _ | ⟨a, _ | ⟨b, _ | ⟨c, rest⟩⟩⟩
      · simp [operandsPresent] at hshape
      · simp [operandsPresent] at hshape
      · cases b with
        | none => simp [operandsPresent] at hshape
        | some b => exact and_le g p l a b (hkids b (by simp)) hfold hf
      · simp [operandsPresent] at hshape
    case OR =>
      rcases cs with _ | ⟨a, _ | ⟨b, _ | ⟨c, rest⟩⟩⟩
      · simp [operandsPresent] at hshape
      · simp [operandsPresent] at hshape
      · cases b with
        | none => simp [operandsPresent] at hshape
        | some b =>
          exact or_le g p l a b (fun n hn => hkids n (by rw [hn]; simp)) (hkids b (by simp))
            hfold hf
      · simp [operandsPresent] at hshape
    all_goals exact actionLE_of_done_or_remove g _ _ hf (Or.inl rfl)
  case Unary op =>
    cases op
    case NOT_UNARY => exact not_le g p l cs hfold hf
    all_goals exact actionLE_of_done_or_remove g _ _ hf (Or.inl rfl)
  case ConditionalExpression => exact conditional_le g p l cs hshape hkids hf
  case FunctionCall => exact functionCall_le g p l cs hf
  case If => exact if_le g p l cs hshape hkids hf
  case ObjectLiteralProperty =>
    rcases cs with _ | ⟨a, _ | ⟨b, _ | ⟨c, rest⟩⟩⟩
    · simp [operandsPresent] at hshape
    · simp [operandsPresent] at hshape
    · exact property_le g p l a b hf
    · simp [operandsPresent] at hshape
  case DynamicMemberExpression => exact dynamicMember_le g p l cs hf
  all_goals
    first
    | exact actionLE_of_done_or_remove g _ _ hf (Or.inl rfl)
    | exact actionLE_of_done_or_remove g _ _ hf (visitNodeExpression_done_or_remove p _)

/-! ## The conditions on the tree -/

theorem all_mk (q : NodeKind → List (Option Node) → Bool) (k : NodeKind) (l : Nat)
    (cs : List (Option Node)) :
    (Node.mk k l cs).all q = (q k cs && Node.allList q cs) := by
  rw [Node.all]

theorem allList_mem (q : NodeKind → List (Option Node) → Bool) :
    ∀ (cs : List (Option Node)), Node.allList q cs = true →
      ∀ c, some c ∈ cs → c.all q = true := by
  intro cs
  induction cs with
  | nil => intro _ c hc; cases hc
  | cons d rest ih =>
    intro h c hc
    cases d with
    | none =>
      rw [Node.allList] at h
      rcases List.mem_cons.mp hc with hc | hc
      · cases hc
      · exact ih h c hc
    | some n =>
      rw [Node.allList, Bool.and_eq_true] at h
      rcases List.mem_cons.mp hc with hc | hc
      · cases hc; exact h.1
      · exact ih h.2 c hc

theorem allList_of_mem (q : NodeKind → List (Option Node) → Bool) :
    ∀ (cs : List (Option Node)), (∀ c, some c ∈ cs → c.all q = true) →
      Node.allList q cs = true := by
  intro cs
  induction cs with
  | nil => intro _; rw [Node.allList]
  | cons d rest ih =>
    intro h
    cases d with
    | none =>
      rw [Node.allList]
      exact ih (fun c hc => h c (List.mem_cons_of_mem _ hc))
    | some n =>
      rw [Node.allList, Bool.and_eq_true]
      exact ⟨h n (List.mem_cons_self _ _), ih (fun c hc => h c (List.mem_cons_of_mem _ hc))⟩

theorem all_plainNode : ∀ (n : Node), n.all noLiteralFold = true →
    n.all operandsPresent = true → n.all plainNode = true := by
  intro n
  induction n using Node.induction_on with
  | h k l cs ih =>
    intro h1 h2
    rw [all_mk, Bool.and_eq_true] at h1 h2 ⊢
    refine ⟨?_, allList_of_mem _ cs (fun c hc =>
      ih c hc (allList_mem _ cs h1.2 c hc) (allList_mem _ cs h2.2 c hc))⟩
    unfold plainNode
    rw [h1.1, h2.1]
    rfl

theorem forall₂_get?_null {out cs : List (Option Node)}
    (h : List.Forall₂ (fun o c => o = none ↔ c = none) out cs) :
    ∀ i, (out.get? i != some none) = (cs.get? i != some none) := by
  induction h with
  | nil => intro i; rfl
  | @cons o c out2 cs2 hoc _ ih =>
    intro i
    cases i with
    | zero =>
      simp only [List.get?_cons_zero]
      cases o <;> cases c
      · rfl
      · exact absurd (hoc.mp rfl) (by simp)
      · exact absurd (hoc.mpr rfl) (by simp)
      · rfl
    | succ j =>
      simp only [List.get?_cons_succ]
      exact ih j

theorem forall₂_all_isSome {out cs : List (Option Node)}
    (h : List.Forall₂ (fun o c => o = none ↔ c = none) out cs) :
    out.all Option.isSome = cs.all Option.isSome := by
  induction h with
  | nil => rfl
  | @cons o c out2 cs2 hoc _ ih =>
    simp only [List.all_cons, ih]
    cases o <;> cases c
    · rfl
    · exact absurd (hoc.mp rfl) (by simp)
    · exact absurd (hoc.mpr rfl) (by simp)
    · rfl

/-- The condition `operandsPresent` looks at the length of the child list and
at the children that are null only. -/
theorem operandsPresent_congr (k : NodeKind) {out cs : List (Option Node)}
    (h : List.Forall₂ (fun o c => o = none ↔ c = none) out cs) :
    operandsPresent k out = operandsPresent k cs := by
  have hlen := h.length_eq
  have hget := forall₂_get?_null h
  have hall := forall₂_all_isSome h
  cases k
  case Operator op =>
    cases op
    case COMMA =>
      simp only [operandsPresent]
      rw [hlen, hget 1]
    case AND =>
      simp only [operandsPresent]
      rw [hlen, hget 1]
    case OR =>
      simp only [operandsPresent]
      rw [hlen, hget 1]
    all_goals rfl
  case ConditionalExpression =>
    simp only [operandsPresent]
    rw [hget 1, hget 2]
  case If =>
    simp only [operandsPresent]
    rw [hget 1]
  case ObjectLiteralProperty =>
    simp only [operandsPresent]
    rw [hlen]
  case StatementList =>
    simp only [operandsPresent]
    exact hall
  all_goals rfl

/-! ## The traversal does not lengthen the rendering -/

theorem visitChildren_forall₂ {h : Option Node → Option NodeWalker}
    (R : Option Node → Option Node → Prop) :
    ∀ {cs out : List (Option Node)},
      (∀ c ∈ cs, ∀ w, h c = some w → R w._node c) →
      visitChildren false h cs = some out → List.Forall₂ R out cs := by
  intro cs
  induction cs with
  | nil => intro out _ h1; rw [visitChildren_nil] at h1; cases h1; exact List.Forall₂.nil
  | cons c cs ih =>
    intro out hall h1
    rw [visitChildren_cons] at h1
    cases hc : h c with
    | none => rw [hc] at h1; cases h1
    | some w =>
      rw [hc] at h1
      cases hr : visitChildren false h cs with
      | none => rw [hr] at h1; cases h1
      | some rest2 =>
        rw [hr] at h1
        simp only [Bool.false_eq_true, if_false] at h1
        cases h1
        exact List.Forall₂.cons (hall c (List.mem_cons_self c cs) w hc)
          (ih (fun d hd => hall d (List.mem_cons_of_mem c hd)) hr)

theorem forall₂_mem_left {α β : Type} {R : α → β → Prop} {as : List α} {bs : List β}
    (h : List.Forall₂ R as bs) : ∀ a ∈ as, ∃ b ∈ bs, R a b := by
  induction h with
  | nil => intro a ha; cases ha
  | cons hab _ ih =>
    intro a ha
    rcases List.mem_cons.mp ha with ha | ha
    · subst ha
      exact ⟨_, List.mem_cons_self _ _, hab⟩
    · obtain ⟨b, hb, hr⟩ := ih a ha
      exact ⟨b, List.mem_cons_of_mem _ hb, hr⟩

/-- The parent of a node decides between `done` and `remove` only. -/
theorem visit_parent (p p2 : Option NodeKind) (v : Node) :
    visit p v = visit p2 v ∨
      ((visit p v = .done v ∨ visit p v = .remove v) ∧
        (visit p2 v = .done v ∨ visit p2 v = .remove v)) := by
  cases v with
  | mk k l cs =>
    cases k
    all_goals
      first
      | exact Or.inl rfl
      | exact Or.inr ⟨visitNodeExpression_done_or_remove p _,
          visitNodeExpression_done_or_remove p2 _⟩

/-- The node a walker holds at the end does not depend on the parent. -/
theorem accept_parent :
    ∀ (f : Nat) (p p2 : Option NodeKind) (self w : NodeWalker),
      accept f p self = some w → ∃ w2, accept f p2 self = some w2 ∧ w2._node = w._node := by
  intro f
  induction f with
  | zero => intro p p2 self w h; rw [accept_zero] at h; cases h
  | succ f ih =>
    intro p p2 self w h
    cases hn : self._node with
    | none =>
      rw [accept_succ_none f p self hn] at h
      cases h
      exact ⟨self, accept_succ_none f p2 self hn, rfl⟩
    | some node =>
      rw [accept_succ_some f p self node hn] at h
      rw [accept_succ_some f p2 self node hn]
      cases hvc : visitChildren self._remove
          (fun ii => accept f (some node.kind) (NodeWalker.cloneFor ii)) node.childNodes with
      | none => rw [hvc] at h; cases h
      | some out =>
        rw [hvc] at h
        simp only [] at h ⊢
        rcases visit_parent p p2 (node.setChildNodes out) with heq | ⟨h1, h2⟩
        · cases hvis : visit p (node.setChildNodes out) with
          | done m =>
            rw [finish_done hvis] at h
            rw [finish_done (heq ▸ hvis)]
            cases h
            exact ⟨_, rfl, rfl⟩
          | remove m =>
            rw [finish_remove hvis] at h
            rw [finish_remove (heq ▸ hvis)]
            cases h
            exact ⟨_, rfl, rfl⟩
          | replace m =>
            rw [finish_replace hvis] at h
            rw [finish_replace (heq ▸ hvis)]
            cases h
            exact ⟨_, rfl, rfl⟩
          | replaceAndVisit m =>
            rw [finish_replaceAndVisit hvis] at h
            rw [finish_replaceAndVisit (heq ▸ hvis)]
            exact ih p p2 _ w h
          | visitChildren m =>
            rw [finish_visitChildren hvis] at h
            rw [finish_visitChildren (heq ▸ hvis)]
            exact ⟨w, h, rfl⟩
        · rcases h1 with h1 | h1 <;> rcases h2 with h2 | h2
          · rw [finish_done h1] at h
            rw [finish_done h2]
            cases h
            exact ⟨_, rfl, rfl⟩
          · rw [finish_done h1] at h
            rw [finish_remove h2]
            cases h
            exact ⟨_, rfl, rfl⟩
          · rw [finish_remove h1] at h
            rw [finish_done h2]
            cases h
            exact ⟨_, rfl, rfl⟩
          · rw [finish_remove h1] at h
            rw [finish_remove h2]
            cases h
            exact ⟨_, rfl, rfl⟩

/-- What the walker of a parent finds in the place of a child is what `walk`
returns for the child. -/
theorem accept_reducedChild {f : Nat} {p : Option NodeKind} {c : Option Node} {w : NodeWalker}
    (h : accept f p (NodeWalker.cloneFor c) = some w) : reducedChild c = w._node := by
  obtain ⟨w1, hw1, hwalk⟩ := walk_eq c
  have h1 := accept_mono (Nat.le_max_left f (slotWeight c + 1)) h
  have h2 := accept_mono (Nat.le_max_right f (slotWeight c + 1)) hw1
  obtain ⟨w2, hw2, hnode⟩ := accept_parent _ p none _ w h1
  have hw : accept (max f (slotWeight c + 1)) none (NodeWalker.cloneFor c) = some w1 := h2
  rw [hw] at hw2
  cases hw2
  unfold reducedChild
  rw [hwalk, ← hnode]
  rfl

theorem forall₂_eq_map {α β : Type} (f : β → α) {as : List α} {bs : List β}
    (h : List.Forall₂ (fun a b => a = f b) as bs) : as = bs.map f := by
  induction h with
  | nil => rfl
  | cons hab _ ih => rw [List.map_cons, ← hab, ← ih]

theorem NodeLE.null_iff {g : Rat → String} {a b : Option Node} (h : NodeLE g a b) :
    a = none ↔ b = none := by
  have hn := ChildLE.null h
  unfold rendered at hn
  simpa only [Option.map_eq_none'] using hn

/-- The traversal of a tree in which no `!`, `&&` or `||` is folded to a
literal and the operands are present: what the walker holds at the end is not
longer than the tree it was given, in the sense of `NodeLE`, and `Fits`. -/
theorem accept_le (g : Rat → String) (hg : ∀ v, g v ≠ "") :
    ∀ (f : Nat) (p : Option NodeKind) (self w : NodeWalker), self._remove = false →
      accept f p self = some w →
      (∀ n, self._node = some n → n.all plainNode = true) →
      NodeLE g w._node self._node ∧ (∀ r, w._node = some r → Fits g r) := by
  intro f
  induction f with
  | zero => intro p self w _ h; rw [accept_zero] at h; cases h
  | succ f ih =>
    intro p self w hr h hplain
    cases hn : self._node with
    | none =>
      rw [accept_succ_none f p self hn] at h
      cases h
      rw [hn]
      exact ⟨nodeLE_refl g _, fun r hr2 => by cases hr2⟩
    | some node =>
      rw [accept_succ_some f p self node hn, hr] at h
      have hnode := hplain node hn
      cases node with
      | mk k l cs =>
        rw [all_mk, Bool.and_eq_true] at hnode
        obtain ⟨hk, hcs⟩ := hnode
        have hk2 : noLiteralFold k cs = true ∧ operandsPresent k cs = true := by
          unfold plainNode at hk
          rw [Bool.and_eq_true] at hk
          exact hk
        simp only [Node.childNodes_mk, Node.kind_mk, Node.setChildNodes_mk] at h
        cases hvc : visitChildren false
            (fun ii => accept f (some k) (NodeWalker.cloneFor ii)) cs with
        | none => rw [hvc] at h; cases h
        | some out =>
          rw [hvc] at h
          simp only [] at h
          have hred : List.Forall₂ (fun o c => o = reducedChild c) out cs := by
            refine visitChildren_forall₂ _ ?_ hvc
            intro c _ w2 hw2
            exact (accept_reducedChild hw2).symm
          have hkeep : keepsOperator k out = true := by
            rw [forall₂_eq_map reducedChild hred]
            exact hk2.1
          have hrel : List.Forall₂
              (fun o c => NodeLE g o c ∧ ∀ r, o = some r → Fits g r ∧ NormalForm r) out cs := by
            refine visitChildren_forall₂ _ ?_ hvc
            intro c hc w2 hw2
            have h1 := ih (some k) (NodeWalker.cloneFor c) w2 rfl hw2 (by
              intro n hcn
              have hcn2 : c = some n := hcn
              subst hcn2
              exact allList_mem _ cs hcs n hc)
            refine ⟨h1.1, fun r hr2 => ⟨h1.2 r hr2, ?_⟩⟩
            exact accept_normalForm f (some k) (NodeWalker.cloneFor c) w2 rfl hw2 r hr2
          have hkids : ∀ c, some c ∈ out → Fits g c ∧ NormalForm c := by
            intro c hc
            obtain ⟨b, _, hb⟩ := forall₂_mem_left hrel (some c) hc
            exact hb.2 c rfl
          have hVle : NodeLE g (some (.mk k l out)) (some (.mk k l cs)) :=
            node_le g k l l (hrel.imp (fun _ _ hh => hh.1))
          have hshape : operandsPresent k out = true := by
            rw [operandsPresent_congr k (hrel.imp (fun _ _ hh => hh.1.null_iff))]
            exact hk2.2
          have hact := visit_le g hg p k l out hkeep hshape hkids
          have hc : ∀ c, some c ∈ (Node.mk k l out).childNodes → NormalForm c := by
            intro c hcm
            exact (hkids c hcm).2
          cases hvis : visit p (.mk k l out) with
          | done m =>
            rw [hvis] at hact
            rw [finish_done hvis] at h
            cases h
            exact ⟨nodeLE_trans hact.1 hVle, fun r hr2 => by cases hr2; exact hact.2⟩
          | remove m =>
            rw [hvis] at hact
            rw [finish_remove hvis] at h
            cases h
            exact ⟨nodeLE_trans hact.1 hVle, fun r hr2 => by cases hr2; exact hact.2⟩
          | replace m =>
            rw [hvis] at hact
            obtain ⟨r0, hm, hle, hfit⟩ := hact
            subst hm
            rw [finish_replace hvis] at h
            cases h
            refine ⟨nodeLE_trans (nodeLE_trans (nodeLE_setLineno g r0 _) hle) hVle, ?_⟩
            intro r hr2
            simp only [NodeWalker.replace, Option.some.injEq] at hr2
            subst hr2
            exact fits_setLineno hfit _
          | replaceAndVisit m =>
            rw [hvis] at hact
            obtain ⟨r0, hm, hnf, hle, hfit⟩ := hact
            subst hm
            rw [finish_replaceAndVisit hvis] at h
            have hw : w._node = some (r0.setLineno l) :=
              NormalForm.accept_eq f p (r0.setLineno l) w (normalForm_setLineno hnf l) h
            rw [hw]
            refine ⟨nodeLE_trans (nodeLE_trans (nodeLE_setLineno g r0 _) hle) hVle, ?_⟩
            intro r hr2
            cases hr2
            exact fits_setLineno hfit _
          | visitChildren m =>
            rw [hvis] at hact
            rw [finish_visitChildren hvis, hr] at h
            have hm := normalForm_of_visitChildren hvis hc
            cases hvc2 : visitChildren false
                (fun ii => accept f (some m.kind) (NodeWalker.cloneFor ii)) m.childNodes with
            | none => rw [hvc2] at h; cases h
            | some out2 =>
              rw [hvc2] at h
              simp only [Option.map_some'] at h
              cases h
              have hout2 : out2 = m.childNodes := by
                refine visitChildren_id ?_ hvc2
                intro c hcm w2 hw2
                cases c with
                | none => exact accept_cloneFor_none hw2
                | some x => exact NormalForm.accept_eq f (some m.kind) x w2 (hm.child hcm) hw2
              simp only [hout2, Node.setChildNodes_childNodes]
              exact ⟨nodeLE_trans hact.1 hVle, fun r hr2 => by cases hr2; exact hact.2⟩

end fbjs

open fbjs
namespace fbjs

open ReductionWalker

/-! ## The length of the rendering of the reduced tree -/

/-- C13, amended: the reduction never makes the compact rendering longer,
except where it folds a `!`, `&&` or `||` to a new literal `true` or `false`.
For every tree `T` in which no `!`, `&&` or `||` node is folded to a literal
(`noLiteralFold`: the operands, as the walker leaves them, are not the
constants of the folding rules) and in which the children that the rules take
over are present (`operandsPresent`), `walk` returns a tree `R`, and the
rendering `R.render(RENDER_NONE)` has at most as many characters as that of
`T`; the number formatting `g_fmt` is any that never writes the empty text. -/
theorem reduce_not_longer (g_fmt : Rat → String) (hg : ∀ v, g_fmt v ≠ "") (T : Node)
    (hfold : T.all noLiteralFold = true) (hshape : T.all operandsPresent = true) :
    ∃ R, walk (some T) = some (some R) ∧
      (R.render g_fmt).length ≤ (T.render g_fmt).length := by
  obtain ⟨w, hw, hwalk⟩ := walk_eq (some T)
  have hle := (accept_le g_fmt hg _ none _ w rfl hw (by
    intro n hn
    cases hn
    exact all_plainNode T hfold hshape)).1
  cases hR : w._node with
  | none =>
    rw [hR] at hle
    have := hle.null_iff.mp rfl
    cases this
  | some R =>
    rw [hR] at hle hwalk
    exact ⟨R, hwalk, (ChildLE.render hle).1⟩

/-- The theorem `reduce_not_longer` on the program
`if((false,true))\x7bx=a["b"];\x7delse y();z=!w&&(true||v);`, with a number
formatting that writes `0` for every number. -/
theorem reduce_not_longer_witness :
    (∀ v : Rat, (fun _ => "0") v ≠ "") ∧
    Example.commaIf.all noLiteralFold = true ∧
    Example.commaIf.all operandsPresent = true ∧
    ∃ R, walk (some Example.commaIf) = some (some R) ∧
      (R.render (fun _ => "0")).length ≤ (Example.commaIf.render (fun _ => "0")).length :=
  ⟨fun _ => (by decide : ("0" : String) ≠ ""), by rfl, by decide,
    reduce_not_longer (fun _ => "0") (fun _ => (by decide : ("0" : String) ≠ ""))
      Example.commaIf (by rfl) (by decide)⟩

/-- The program `if((false,true))\x7bx=a["b"];\x7delse y();z=!w&&(true||v);`
is reduced to `x=a.b;z=!w&&(true);`: the comma operator, the `if`, the member
access and the `||` are rewritten, the `!` and the `&&` stay. -/
theorem comma_if_reduced (g_fmt : Rat → String) :
    ∃ R, walk (some Example.commaIf) = some (some R) ∧
      Example.commaIf.render g_fmt =
        "if((false,true))\x7bx=a[\"b\"];\x7delse y();z=!w&&(true||v);" ∧
      R.render g_fmt = "x=a.b;z=!w&&(true);" :=
  ⟨_, by rfl, by rfl, by rfl⟩

/-- The condition `operandsPresent` is needed: a comma operator with three
children, `0`, `abcdef` and `d`, renders as `0,d;`; the rule takes its second
child, and the result `abcdef;` is longer. -/
theorem misplaced_operand_renders_longer (g_fmt : Rat → String) (h : (g_fmt 0).length ≤ 2) :
    ∃ R, walk (some Example.commaOfThree) = some (some R) ∧
      (Example.commaOfThree.render g_fmt).length < (R.render g_fmt).length := by
  refine ⟨_, by rfl, ?_⟩
  have h1 : Example.commaOfThree.render g_fmt = g_fmt 0 ++ ",d;" := by
    show g_fmt 0 ++ "," ++ "d" ++ ";" = g_fmt 0 ++ ",d;"
    simp only [String.append_assoc]
    rfl
  rw [h1, String.length_append]
  have h2 : ",d;".length = 3 := rfl
  have h3 : (Node.render g_fmt (Example.program [Example.identifier "abcdef"])).length = 7 := rfl
  refine Nat.lt_of_lt_of_le ?_ (Nat.le_of_eq h3.symm)
  omega

/-- The condition `operandsPresent` is needed for statement lists too: an
`if (1)` whose block is a list with a null first and a null last child renders
as `if(1)`; the rule takes the block, and the result `abcdefgh();` is
longer. -/
theorem null_statement_renders_longer (g_fmt : Rat → String) (h : (g_fmt 1).length ≤ 6) :
    ∃ R, walk (some Example.ifNullStatements) = some (some R) ∧
      (Example.ifNullStatements.render g_fmt).length < (R.render g_fmt).length := by
  refine ⟨_, by rfl, ?_⟩
  have h1 : Example.ifNullStatements.render g_fmt = "if(" ++ g_fmt 1 ++ ")" := by
    show "if(" ++ g_fmt 1 ++ ")" ++ "" = "if(" ++ g_fmt 1 ++ ")"
    exact String.append_empty _
  rw [h1, String.length_append, String.length_append]
  have h2 : "if(".length = 3 := rfl
  have h3 : ")".length = 1 := rfl
  have h4 : (Node.render g_fmt (Example.program
      [.mk .StatementList 1 [none, some (Example.call "abcdefgh"), none]])).length = 11 := rfl
  refine Nat.lt_of_lt_of_le ?_ (Nat.le_of_eq h4.symm)
  omega

end fbjs
